import Mathlib

/-!
# Transmission: storage layer, torrent geometry and peer messages

A shallow embedding of `libtransmission/inout.c` (piece/file mapping, reads,
writes, hash checks), of the block geometry, the setters and the file
priorities of `libtransmission/torrent.c`, of the message parser of
`libtransmission/peerparse.h`, of the peer exchange of
`libtransmission/peerext.h` and of the session of `libtransmission/peer-msgs.c`.

Integer model (LP64): `int` is 32 bits, `size_t` and `uint64_t` are 64 bits.
Unsigned arithmetic is written on `Nat` with an explicit `% 2^64`; values kept
in an `int` field are narrowed with `toInt32`.
-/

namespace Transmission

/-! ## Data model -/

/-- One file of the torrent (`tr_file_t`); `length` and `offset` are `uint64_t`,
`priority` is a `tr_priority_t`, `dnd` the do-not-download flag, `firstPiece`
and `lastPiece` are `int`s. -/
structure tr_file_t where
  name : String
  length : Nat
  priority : Int := 0
  dnd : Bool := false
  firstPiece : Int := 0
  lastPiece : Int := 0
  offset : Nat := 0
deriving Repr, DecidableEq

/-- One piece of the torrent (`tr_piece_t`); `hash` is the expected SHA-1,
`dnd` the do-not-download flag and `priority` a `tr_priority_t`. -/
structure tr_piece_t where
  hash : List Nat
  dnd : Bool := false
  priority : Int := 0
deriving Repr, DecidableEq

/-- The metainfo (`tr_info_t`): `fileCount` is the length of `files`, `hash`
the info hash, `name` the name of the torrent and `flags` its flag bits. -/
structure tr_info_t where
  files : List tr_file_t
  pieces : List tr_piece_t
  pieceSize : Nat
  pieceCount : Nat
  totalSize : Nat
  hash : List Nat := []
  name : String := ""
  flags : Nat := 0
deriving Repr, DecidableEq

/-- Modulus of `uint64_t` and of `size_t`. -/
def U64 : Nat := 2 ^ 64

/-- Sum of the lengths of the files before index `i`. -/
def bytesBefore (files : List tr_file_t) (i : Nat) : Nat :=
  ((files.take i).map tr_file_t.length).sum

/-- Sum of the lengths of all files. -/
def filesLength (files : List tr_file_t) : Nat :=
  (files.map tr_file_t.length).sum

/-! ## `findFileLocation` -/

/-- The scan `for (i=0; files[i].length <= piecePos; ++i) piecePos -= files[i].length`.
The first argument is the part of the file array from index `i` on; running off
its end is the read past the array, reported as `none`. -/
def findFileLoop : List tr_file_t → Nat → Nat → Option (Nat × Nat)
  | [], _, _ => none
  | f :: rest, i, piecePos =>
      if f.length ≤ piecePos then findFileLoop rest (i + 1) (piecePos - f.length)
      else some (i, piecePos)

/-- The function `findFileLocation`: `(fileIndex, fileOffset)` of the byte at
`(pieceIndex, pieceOffset)`. -/
def findFileLocation (info : tr_info_t) (pieceIndex pieceOffset : Nat) : Option (Nat × Nat) :=
  findFileLoop info.files 0 ((pieceIndex * info.pieceSize + pieceOffset) % U64)

/-- Lexicographic order on `(fileIndex, fileOffset)` pairs. -/
def lexLt (a b : Nat × Nat) : Prop :=
  a.1 < b.1 ∨ (a.1 = b.1 ∧ a.2 < b.2)


/-! ## The disk underneath `inout.c` -/

/-- The two directions of `readOrWriteBytes` (`enum { TR_IO_READ, TR_IO_WRITE }`). -/
inductive IoMode where
  | TR_IO_READ
  | TR_IO_WRITE
deriving DecidableEq, Repr

/-- The calls into the operating system that `inout.c` makes on a file. -/
inductive Syscall where
  | fdOpen
  | fstat
  | ftruncate
  | lseek
  | read
  | write
deriving DecidableEq, Repr

/-- The two sub-operations `readOrWritePiece` performs on one file. -/
inductive SubOp where
  | ensureMinimumFileSize
  | readOrWriteBytes
deriving DecidableEq, Repr

/-- One sub-operation as it happened: which one, on which file index, what it returned. -/
structure SubOpCall where
  op : SubOp
  fileIndex : Nat
  ret : Int
deriving DecidableEq, Repr

/-- The destination directory. A file is known by its name; `size` is its
length in bytes (0 for a file that does not exist yet: every open in `inout.c`
creates the file) and `content name x` is its byte at offset `x`. `fault` is
what the environment answers to a system call on a file: for `fdOpen` the value
`tr_fdFileOpen` returns (a descriptor, or a negative error code); for the other
calls 0 when the call succeeds and otherwise the error code that
`tr_ioErrorFromErrno` yields for it. `trace` lists the sub-operations performed
so far; it is a record only and no function reads it. -/
structure Disk where
  size : String → Nat
  content : String → Nat → Nat
  fault : Syscall → String → Int
  trace : List SubOpCall

/-- Modelled from the spec: `TR_OK` of `transmission.h`, which is not among the
sources; the success code, zero (the callers test `!ret`). -/
def TR_OK : Int := 0

/-- Modelled from the spec: `TR_ERROR_IO_OTHER` of `transmission.h`, which is
not among the sources; the code of the error `IoOther`, different from `TR_OK`. -/
def TR_ERROR_IO_OTHER : Int := -2147483632

/-- Modelled from the spec: `tr_fdFileOpen` of `fdlimit.c`, which is not among
the sources; it opens (and creates when missing) the named file of the
destination and returns a descriptor, or a negative error code. -/
def tr_fdFileOpen (d : Disk) (name : String) : Int :=
  d.fault Syscall.fdOpen name

/-- Appends a sub-operation to the record. -/
def Disk.log (d : Disk) (c : SubOpCall) : Disk :=
  { d with trace := d.trace ++ [c] }

/-- What `ftruncate (fd, n)` does to a file shorter than `n`: the file gets
length `n` and the new bytes read as zero. -/
def Disk.grow (d : Disk) (name : String) (n : Nat) : Disk :=
  { d with
    size := fun nm => if nm = name then n else d.size nm
    content := fun nm x => if nm = name ∧ d.size name ≤ x then 0 else d.content nm x }

/-- What `lseek (fd, off, SEEK_SET)` and a complete `write (fd, buf, buflen)` do:
bytes `off .. off + buflen - 1` become the buffer, a gap between the old end
and `off` reads as zero, and the file is at least `off + buflen` long. -/
def Disk.pwrite (d : Disk) (name : String) (off : Nat) (buf : List Nat) (buflen : Nat) : Disk :=
  { d with
    size := fun nm => if nm = name then max (d.size name) (off + buflen) else d.size nm
    content := fun nm x =>
      if nm = name then
        if off ≤ x ∧ x < off + buflen then buf.getD (x - off) 0
        else if d.size name ≤ x then 0
        else d.content nm x
      else d.content nm x }

/-- The bytes `off .. off + n - 1` of a file. -/
def Disk.pread (d : Disk) (name : String) (off n : Nat) : List Nat :=
  (List.range n).map (fun k => d.content name (off + k))

/-- The record `t` ends with a sub-operation that returned `ret`; every earlier
one returned 0 and was on a file of no larger index. -/
def FailsLast (t : List SubOpCall) (ret : Int) : Prop :=
  ∃ pre last, t = pre ++ [last] ∧ last.ret = ret ∧
    ∀ c ∈ pre, c.ret = 0 ∧ c.fileIndex ≤ last.fileIndex

/-! ## `inout.c` -/

/-- The function `readOrWriteBytes` on `file = &info->files[fileIndex]`.
Returns the code, the disk, and (in read mode, on success) the bytes read.
A `read` that meets the end of the file returns fewer than `buflen` bytes,
which the source reports through `tr_ioErrorFromErrno`. -/
def readOrWriteBytes (ioMode : IoMode) (file : tr_file_t) (fileOffset : Nat)
    (buf : List Nat) (buflen : Nat) (d : Disk) : Int × Disk × List Nat :=
  if file.length = 0 then (0, d, [])
  else if tr_fdFileOpen d file.name < 0 then (tr_fdFileOpen d file.name, d, [])
  else if d.fault Syscall.lseek file.name ≠ 0 then (TR_ERROR_IO_OTHER, d, [])
  else
    match ioMode with
    | IoMode.TR_IO_READ =>
      if d.fault Syscall.read file.name ≠ 0 then (d.fault Syscall.read file.name, d, [])
      else if d.size file.name < fileOffset + buflen then (TR_ERROR_IO_OTHER, d, [])
      else (TR_OK, d, d.pread file.name fileOffset buflen)
    | IoMode.TR_IO_WRITE =>
      if d.fault Syscall.write file.name ≠ 0 then (d.fault Syscall.write file.name, d, [])
      else (TR_OK, d.pwrite file.name fileOffset buf buflen, [])

/-- The function `ensureMinimumFileSize` on `file = &tor->info.files[fileIndex]`. -/
def ensureMinimumFileSize (file : tr_file_t) (minSize : Nat) (d : Disk) : Int × Disk :=
  if tr_fdFileOpen d file.name < 0 then (tr_fdFileOpen d file.name, d)
  else if d.fault Syscall.fstat file.name ≠ 0 then (d.fault Syscall.fstat file.name, d)
  else if minSize ≤ d.size file.name then (TR_OK, d)
  else if d.fault Syscall.ftruncate file.name = 0 then (TR_OK, d.grow file.name minSize)
  else (d.fault Syscall.ftruncate file.name, d)

/-- The body of the loop of `readOrWritePiece` on one file: in write mode
`ensureMinimumFileSize (tor, fileIndex, fileOffset + bytesThisPass)`, then, if
that returned 0, `readOrWriteBytes`. Each call made is added to the record. -/
def readOrWritePass (ioMode : IoMode) (file : tr_file_t) (fileIndex fileOffset : Nat)
    (buf : List Nat) (bytesThisPass : Nat) (ret : Int) (d : Disk) : Int × Disk × List Nat :=
  let e : Int × Disk :=
    if ioMode = IoMode.TR_IO_WRITE then
      let r := ensureMinimumFileSize file ((fileOffset + bytesThisPass) % U64) d
      (r.1, r.2.log ⟨SubOp.ensureMinimumFileSize, fileIndex, r.1⟩)
    else (ret, d)
  if e.1 = 0 then
    let r := readOrWriteBytes ioMode file fileOffset buf bytesThisPass e.2
    (r.1, r.2.1.log ⟨SubOp.readOrWriteBytes, fileIndex, r.1⟩, r.2.2)
  else (e.1, e.2, [])

/-- The loop `while (buflen && !ret)` of `readOrWritePiece`. The first argument
is the file array from `fileIndex` on (its head is `&info->files[fileIndex]`);
when it is exhausted the loop would read past the array, reported as `none`.
`buf` is the part of the caller's buffer from the current position on, and
`out` collects the bytes read so far. -/
def readOrWriteLoop (ioMode : IoMode) :
    List tr_file_t → Nat → Nat → List Nat → Nat → Int → Disk → List Nat →
      Option (Int × Disk × List Nat)
  | [], _, _, _, buflen, ret, d, out =>
    if buflen ≠ 0 ∧ ret = 0 then none else some (ret, d, out)
  | file :: rest, fileIndex, fileOffset, buf, buflen, ret, d, out =>
    if buflen ≠ 0 ∧ ret = 0 then
      let bytesThisPass := min buflen ((file.length + U64 - fileOffset) % U64)
      let w := readOrWritePass ioMode file fileIndex fileOffset buf bytesThisPass ret d
      readOrWriteLoop ioMode rest (fileIndex + 1) 0 (buf.drop bytesThisPass)
        (buflen - bytesThisPass) w.1 w.2.1 (out ++ w.2.2)
    else some (ret, d, out)

/-- The function `readOrWritePiece`. -/
def readOrWritePiece (info : tr_info_t) (ioMode : IoMode) (pieceIndex pieceOffset : Nat)
    (buf : List Nat) (buflen : Nat) (d : Disk) : Option (Int × Disk × List Nat) :=
  match findFileLocation info pieceIndex pieceOffset with
  | none => none
  | some (fileIndex, fileOffset) =>
    readOrWriteLoop ioMode (info.files.drop fileIndex) fileIndex fileOffset buf buflen 0 d []

/-- The function `tr_ioRead`: code, disk, and the `len` bytes read. -/
def tr_ioRead (info : tr_info_t) (pieceIndex begin len : Nat) (d : Disk) :
    Option (Int × Disk × List Nat) :=
  readOrWritePiece info IoMode.TR_IO_READ pieceIndex begin [] len d

/-- The function `tr_ioWrite`: code and disk. -/
def tr_ioWrite (info : tr_info_t) (pieceIndex begin len : Nat) (buf : List Nat) (d : Disk) :
    Option (Int × Disk) :=
  (readOrWritePiece info IoMode.TR_IO_WRITE pieceIndex begin buf len d).map
    (fun r => (r.1, r.2.1))

/-- The byte at position `pos` of the data of the files `fs` laid end to end, as
it is on the disk. -/
def streamByte (d : Disk) : List tr_file_t → Nat → Nat
  | [], _ => 0
  | f :: rest, pos =>
    if pos < f.length then d.content f.name pos else streamByte d rest (pos - f.length)

/-! ## Scenario S2 -/

/-- The torrent of scenario S2: files `a` (10 bytes) and `b` (22 bytes), pieces of 16 bytes. -/
def s2Info : tr_info_t :=
  { files := [{ name := "a", length := 10 }, { name := "b", length := 22 }]
    pieces := [{ hash := List.replicate 20 0 }, { hash := List.replicate 20 0 }]
    pieceSize := 16
    pieceCount := 2
    totalSize := 32 }

/-- An empty destination on which every system call succeeds. -/
def emptyDisk : Disk :=
  { size := fun _ => 0
    content := fun _ _ => 0
    fault := fun _ _ => 0
    trace := [] }

/-- A block of 16 distinct bytes. -/
def s2Block : List Nat := [1, 2, 3, 4, 5, 6, 7, 8, 9, 10, 11, 12, 13, 14, 15, 16]

/-! ## Hash checks and Completion -/

/-- Conversion of an `int` to `uint64_t` or `size_t`. -/
def toU64 (x : Int) : Nat := (x % (2 ^ 64 : Int)).toNat

/-- Narrowing of a `uint64_t` value to an `int`: the low 32 bits, read as a
two's complement number. -/
def toInt32 (x : Nat) : Int :=
  if x % 2 ^ 32 < 2 ^ 31 then ((x % 2 ^ 32 : Nat) : Int) else ((x % 2 ^ 32 : Nat) : Int) - 2 ^ 32

/-- Modelled from the spec: a rate controller of `ratecontrol.c`, which is not
among the sources: the limit set by `tr_rcSetLimit` and the bytes reported to
`tr_rcTransferred`. -/
structure tr_ratecontrol where
  limit : Int := 0
  transferred : Nat := 0
deriving Repr, DecidableEq

/-- Modelled from the spec: the run states `run_status_t` of `internal.h`,
which is not among the sources; the five states `torrent.c` names. -/
inductive run_status_t where
  | TR_RUN_CHECKING
  | TR_RUN_RUNNING
  | TR_RUN_STOPPING
  | TR_RUN_STOPPING_NET_WAIT
  | TR_RUN_STOPPED
deriving Repr, DecidableEq

/-- The fields of `tr_torrent` that the functions below use. The six fields
after `info` are `int`s set by `torrentRealInit`; the others start from the
values `torrentRealInit` gives them (`hasChangedState` is -1, the rest is
zero, and `runStatus` is Running, or Stopped for a paused torrent). `tracker`
tells whether the torrent has a tracker. -/
structure tr_torrent where
  info : tr_info_t
  blockSize : Int
  blockCount : Int
  lastBlockSize : Int
  lastPieceSize : Int
  blockCountInPiece : Int
  blockCountInLastPiece : Int
  destination : Option String := none
  hasChangedState : Int := -1
  cpStatus : Int := 0
  fastResumeDirty : Bool := false
  pexDisabled : Int := 0
  publicPort : Int := 0
  uploadLimitMode : Int := 0
  downloadLimitMode : Int := 0
  upload : tr_ratecontrol := {}
  download : tr_ratecontrol := {}
  downloadedCur : Nat := 0
  tracker : Bool := false
  runStatus : run_status_t := run_status_t.TR_RUN_RUNNING
deriving Repr, DecidableEq

/-- Modelled from the spec: `tr_pieceSize` of `internal.h`, which is not among
the sources; "last piece length = T - P * (pieceCount - 1)", kept by
`torrentRealInit` in `lastPieceSize`, and `pieceSize` for every other piece. -/
def tr_pieceSize (tor : tr_torrent) (pieceIndex : Int) : Int :=
  if pieceIndex = (tor.info.pieceCount : Int) - 1 then tor.lastPieceSize
  else tor.info.pieceSize

/-- Length of a SHA-1 digest. -/
def SHA_DIGEST_LENGTH : Nat := 20

/-- The C function `memcmp`, as far as its callers use it: zero exactly when the
first `n` bytes agree. -/
def memcmp (a b : List Nat) (n : Nat) : Int :=
  if a.take n = b.take n then 0 else 1

/-- The function `tr_ioRecalculateHash`: the code, the disk, and the digest
written to `setme` (left empty when the read fails). `SHA1` is the digest
function of the crypto library. -/
def tr_ioRecalculateHash (SHA1 : List Nat → List Nat) (tor : tr_torrent) (pieceIndex : Nat)
    (d : Disk) : Option (Int × Disk × List Nat) :=
  match readOrWritePiece tor.info IoMode.TR_IO_READ pieceIndex 0 []
      (toU64 (tr_pieceSize tor pieceIndex)) d with
  | none => none
  | some (ret, d', buf) => if ret = 0 then some (ret, d', SHA1 buf) else some (ret, d', [])

/-- The function `checkPiece`:
`tr_ioRecalculateHash (...) || memcmp (hash, pieces[pieceIndex].hash, SHA_DIGEST_LENGTH)`. -/
def checkPiece (SHA1 : List Nat → List Nat) (tor : tr_torrent) (pieceIndex : Nat) (d : Disk) :
    Option (Int × Disk) :=
  match tr_ioRecalculateHash SHA1 tor pieceIndex d with
  | none => none
  | some (ret, d', hash) =>
    if ret ≠ 0 then some (1, d')
    else
      match tor.info.pieces[pieceIndex]? with
      | none => none
      | some piece =>
        some (if memcmp hash piece.hash SHA_DIGEST_LENGTH ≠ 0 then 1 else 0, d')

/-- Modelled from the spec: Completion of `completion.c`, which is not among the
sources, at the level of pieces: the set of pieces reported complete. -/
structure Completion where
  complete : Nat → Bool

/-- Modelled from the spec: `tr_cpPieceAdd` marks the piece complete. -/
def tr_cpPieceAdd (cp : Completion) (piece : Nat) : Completion :=
  { complete := fun q => if q = piece then true else cp.complete q }

/-- Modelled from the spec: `tr_cpPieceRem` marks the piece not complete. -/
def tr_cpPieceRem (cp : Completion) (piece : Nat) : Completion :=
  { complete := fun q => if q = piece then false else cp.complete q }

/-- The state the piece-marking operations act on: the destination and the
torrent's Completion. -/
structure TorState where
  disk : Disk
  completion : Completion

/-- The function `tr_ioHash` (the blame given to peers is outside this state). -/
def tr_ioHash (SHA1 : List Nat → List Nat) (tor : tr_torrent) (pieceIndex : Nat)
    (s : TorState) : Option (Int × TorState) :=
  match checkPiece SHA1 tor pieceIndex s.disk with
  | none => none
  | some (c, d') =>
    if c = 0 then some (0, { disk := d', completion := tr_cpPieceAdd s.completion pieceIndex })
    else some (0, { disk := d', completion := tr_cpPieceRem s.completion pieceIndex })

/-- The loop of `checkFiles` over the pieces `i, i + 1, ...`, with `k` pieces to
go. `stopping i` tells whether `TR_STATUS_STOPPING` is seen when piece `i` is
reached, `unchecked` is the bitfield `uncheckedPieces` (a piece is looked at
once, so removing its bit afterwards does not change the loop). -/
def checkFilesLoop (SHA1 : List Nat → List Nat) (tor : tr_torrent) (stopping : Nat → Bool)
    (unchecked : Nat → Bool) : Nat → Nat → TorState → Option TorState
  | 0, _, s => some s
  | k + 1, i, s =>
    if stopping i then some s
    else if !unchecked i then checkFilesLoop SHA1 tor stopping unchecked k (i + 1) s
    else
      match checkPiece SHA1 tor i s.disk with
      | none => none
      | some (c, d') =>
        checkFilesLoop SHA1 tor stopping unchecked k (i + 1)
          { disk := d'
            completion :=
              if c = 0 then tr_cpPieceAdd s.completion i else tr_cpPieceRem s.completion i }

/-- The function `checkFiles`. `fastResumeLoad` and the bitfield functions are
not among the sources: `loaded` is the Completion that `fastResumeLoad` leaves
and `unchecked` the bitfield `uncheckedPieces` when the loop starts. -/
def checkFiles (SHA1 : List Nat → List Nat) (tor : tr_torrent) (loaded : Completion)
    (unchecked : Nat → Bool) (stopping : Nat → Bool) (s : TorState) : Option TorState :=
  checkFilesLoop SHA1 tor stopping unchecked tor.info.pieceCount 0
    { disk := s.disk, completion := loaded }

/-- The function `tr_torrentSetHasPiece`. -/
def tr_torrentSetHasPiece (pieceIndex : Nat) (has : Int) (s : TorState) : TorState :=
  if has ≠ 0 then { s with completion := tr_cpPieceAdd s.completion pieceIndex }
  else { s with completion := tr_cpPieceRem s.completion pieceIndex }

/-- Verifying piece `p` on disk `d` returns true: `checkPiece` returns 0. -/
def Verifies (SHA1 : List Nat → List Nat) (tor : tr_torrent) (d : Disk) (p : Nat) : Prop :=
  ∃ d', checkPiece SHA1 tor p d = some (0, d')

/-- A torrent state with no complete piece. -/
def freshState (d : Disk) : TorState :=
  { disk := d, completion := { complete := fun _ => false } }

/-- The states reachable from a torrent with no complete piece through
`tr_ioHash`, `checkFiles` (with a fast-resume load that leaves Completion as it
was) and `tr_torrentSetHasPiece`. -/
inductive Reachable (SHA1 : List Nat → List Nat) (tor : tr_torrent) : TorState → Prop where
  | init (d : Disk) : Reachable SHA1 tor (freshState d)
  | ioHash (s s' : TorState) (p : Nat) (r : Int) :
      Reachable SHA1 tor s → tr_ioHash SHA1 tor p s = some (r, s') → Reachable SHA1 tor s'
  | checkFiles (s s' : TorState) (unchecked stopping : Nat → Bool) :
      Reachable SHA1 tor s →
      checkFiles SHA1 tor s.completion unchecked stopping s = some s' → Reachable SHA1 tor s'
  | setHasPiece (s : TorState) (p : Nat) (has : Int) :
      Reachable SHA1 tor s → Reachable SHA1 tor (tr_torrentSetHasPiece p has s)

/-- The states reachable when pieces are marked only on evidence: through
`tr_ioHash`, through `checkFiles` after a fast-resume load whose complete
pieces verify on the disk, and through `tr_torrentSetHasPiece` called with
`has` non-zero only for a piece that verifies. -/
inductive ReachableChecked (SHA1 : List Nat → List Nat) (tor : tr_torrent) :
    TorState → Prop where
  | init (d : Disk) : ReachableChecked SHA1 tor (freshState d)
  | ioHash (s s' : TorState) (p : Nat) (r : Int) :
      ReachableChecked SHA1 tor s → tr_ioHash SHA1 tor p s = some (r, s') →
      ReachableChecked SHA1 tor s'
  | checkFiles (s s' : TorState) (loaded : Completion) (unchecked stopping : Nat → Bool) :
      ReachableChecked SHA1 tor s →
      (∀ p, loaded.complete p = true → Verifies SHA1 tor s.disk p) →
      checkFiles SHA1 tor loaded unchecked stopping s = some s' →
      ReachableChecked SHA1 tor s'
  | setHasPiece (s : TorState) (p : Nat) (has : Int) :
      ReachableChecked SHA1 tor s → (has ≠ 0 → Verifies SHA1 tor s.disk p) →
      ReachableChecked SHA1 tor (tr_torrentSetHasPiece p has s)

/-- Two disks with the same files and the same answers to system calls; their
records may differ. -/
def SameFiles (d1 d2 : Disk) : Prop :=
  d1.size = d2.size ∧ d1.content = d2.content ∧ d1.fault = d2.fault

/-- Every piece that Completion reports complete verifies on the disk. -/
def CompleteVerifies (SHA1 : List Nat → List Nat) (tor : tr_torrent) (s : TorState) : Prop :=
  ∀ p, s.completion.complete p = true → Verifies SHA1 tor s.disk p

/-! ## Block geometry (`torrent.c`) -/

/-- Whether a value fits an `int`. -/
def fitsInt (x : Int) : Bool :=
  decide (-(2 ^ 31 : Int) ≤ x) && decide (x < (2 ^ 31 : Int))

/-- The loop `while (tor->blockSize > (1024*16)) tor->blockSize /= 2` of
`torrentRealInit`, on a non-negative block size. -/
def blockSizeLoop (blockSize : Nat) : Nat :=
  if h : 1024 * 16 < blockSize then blockSizeLoop (blockSize / 2) else blockSize
termination_by blockSize
decreasing_by omega

/-- The block geometry computed by `torrentRealInit`. `pieceSize` and the block
size are non-negative, so their conversions to `uint64_t` in the mixed
expressions are the identity; a value stored in an `int` field is narrowed by
`toInt32`. No result (`none`) stands for the division by a zero piece size and
for an overflow of the `int` sum `lastPieceSize + blockSize - 1`. -/
def torrentRealInit (info : tr_info_t) : Option tr_torrent :=
  if info.pieceSize = 0 then none
  else
    let blockSize : Nat := blockSizeLoop info.pieceSize
    let lastPieceSize0 : Int := toInt32 (info.totalSize % info.pieceSize)
    let lastPieceSize : Int := if lastPieceSize0 = 0 then (info.pieceSize : Int) else lastPieceSize0
    let lastBlockSize0 : Int := toInt32 (info.totalSize % blockSize)
    let lastBlockSize : Int := if lastBlockSize0 = 0 then (blockSize : Int) else lastBlockSize0
    let blockCount : Int :=
      toInt32 ((((info.totalSize + blockSize) % U64 + U64 - 1) % U64) / blockSize)
    let blockCountInPiece : Int := Int.tdiv (info.pieceSize : Int) (blockSize : Int)
    if fitsInt (lastPieceSize + blockSize - 1) then
      some
        { info := info
          blockSize := (blockSize : Int)
          blockCount := blockCount
          lastBlockSize := lastBlockSize
          lastPieceSize := lastPieceSize
          blockCountInPiece := blockCountInPiece
          blockCountInLastPiece := Int.tdiv (lastPieceSize + blockSize - 1) (blockSize : Int) }
    else none

/-- The four assertions under "check our work" in `torrentRealInit`; `t` is a `uint64_t`. -/
def checkOurWork (tor : tr_torrent) : Bool :=
  decide (Int.tmod (tor.info.pieceSize : Int) tor.blockSize = 0) &&
  decide (((toU64 ((tor.info.pieceCount : Int) - 1) * tor.info.pieceSize) % U64
      + toU64 tor.lastPieceSize) % U64 = tor.info.totalSize) &&
  decide (((toU64 (tor.blockCount - 1) * toU64 tor.blockSize) % U64
      + toU64 tor.lastBlockSize) % U64 = tor.info.totalSize) &&
  decide (((toU64 ((tor.info.pieceCount : Int) - 1) * toU64 tor.blockCountInPiece) % U64
      + toU64 tor.blockCountInLastPiece) % U64 = toU64 tor.blockCount)

/-- The function `_tr_block`:
`index * (inf->pieceSize / tor->blockSize) + begin / tor->blockSize` in `int`
arithmetic. No result (`none`) stands for a division by zero and for a product
or sum that does not fit an `int`. -/
def _tr_block (tor : tr_torrent) (index begin : Int) : Option Int :=
  if tor.blockSize = 0 then none
  else if ¬ fitsInt (index * Int.tdiv (tor.info.pieceSize : Int) tor.blockSize) then none
  else if ¬ fitsInt (index * Int.tdiv (tor.info.pieceSize : Int) tor.blockSize
      + Int.tdiv begin tor.blockSize) then none
  else some (index * Int.tdiv (tor.info.pieceSize : Int) tor.blockSize
      + Int.tdiv begin tor.blockSize)

/-- A torrent of 2^45 bytes in one file, with pieces of 2^30 bytes. -/
def bigInfo : tr_info_t :=
  { files := [{ name := "big", length := 2 ^ 45 }]
    pieces := List.replicate (2 ^ 15) { hash := List.replicate 20 0 }
    pieceSize := 2 ^ 30
    pieceCount := 2 ^ 15
    totalSize := 2 ^ 45 }

/-- A torrent of 2^46 bytes in one file, with pieces of 2^30 bytes. -/
def hugeInfo : tr_info_t :=
  { files := [{ name := "huge", length := 2 ^ 46 }]
    pieces := List.replicate (2 ^ 16) { hash := List.replicate 20 0 }
    pieceSize := 2 ^ 30
    pieceCount := 2 ^ 16
    totalSize := 2 ^ 46 }

/-- A digest function for the examples: twenty bytes, each the sum of the input modulo 256. -/
def toySHA1 (buf : List Nat) : List Nat :=
  List.replicate 20 (buf.sum % 256)

/-- The torrent of scenario S2 after `torrentRealInit`. -/
def s2Tor : tr_torrent :=
  { info := s2Info
    blockSize := 16
    blockCount := 2
    lastBlockSize := 16
    lastPieceSize := 16
    blockCountInPiece := 1
    blockCountInLastPiece := 1 }

/-- A destination holding files `a` (10 bytes) and `b` (22 bytes), all bytes zero,
on which every system call succeeds. -/
def zeroDisk : Disk :=
  { size := fun nm => if nm = "a" then 10 else if nm = "b" then 22 else 0
    content := fun _ _ => 0
    fault := fun _ _ => 0
    trace := [] }

/-- An empty destination on which writing to file `b` fails with code -1 and
every other system call succeeds. -/
def faultyDisk : Disk :=
  { emptyDisk with
    fault := fun c nm => if c = Syscall.write ∧ nm = "b" then -1 else 0 }

/-! ## The peer parser (`peerparse.h`) -/

/-- Modelled from the spec: `TR_ERROR` of `transmission.h`, which is not among
the sources; the generic failure code, different from `TR_OK`. -/
def TR_ERROR : Int := -2130706432

/-- Modelled from the spec: `TR_ERROR_ASSERT` of `transmission.h`, which is not
among the sources; the code of a protocol violation, different from `TR_OK`. -/
def TR_ERROR_ASSERT : Int := -2113929216

/-- Modelled from the spec: `TR_NET_BLOCK` of `net.h`, which is not among the
sources; the flag `0x80000000` of the "buffer short" condition, as an `int`. -/
def TR_NET_BLOCK : Int := -2147483648

/-- Modelled from the spec: `TR_NET_CLOSE` of `net.h`, which is not among the
sources; the flag `0x40000000` of a closed connection. -/
def TR_NET_CLOSE : Int := 1073741824

/-- Conversion of an `int` to `unsigned int`. -/
def toU32 (x : Int) : Nat := (x % (2 ^ 32 : Int)).toNat

/-- The test `flag & ret` of `parseBuf` on two `int`s: the bits common to the
two 32-bit patterns. -/
def andInt (flag ret : Int) : Nat := toU32 flag &&& toU32 ret

/-- Modelled from the spec: the macro `TR_NTOHL` of `internal.h`, which is not
among the sources; the big-endian u32 at the start of `p`, `none` when fewer
than four bytes are there. -/
def TR_NTOHL (p : List Nat) : Option Nat :=
  match p with
  | b0 :: b1 :: b2 :: b3 :: _ => some (b0 * 2 ^ 24 + b1 * 2 ^ 16 + b2 * 2 ^ 8 + b3)
  | _ => none

/-- Modelled from the spec: the connection states of `peer.c`, which is not
among the sources, numbered in the order in which `parseBuf` compares them. -/
def PEER_STATUS_HANDSHAKE : Int := 4

/-- Modelled from the spec: the state of a peer that must still send its
Azureus handshake; see `PEER_STATUS_HANDSHAKE`. -/
def PEER_STATUS_AZ_GIVER : Int := 8

/-- Modelled from the spec: the state `Connected`; see `PEER_STATUS_HANDSHAKE`. -/
def PEER_STATUS_CONNECTED : Int := 32

/-- Modelled from the spec: the message ids of section 4.5, named as in
`parseMessage`; the header that defines them is not among the sources. -/
def PEER_MSG_CHOKE : Int := 0

/-- Modelled from the spec: message id 1. -/
def PEER_MSG_UNCHOKE : Int := 1

/-- Modelled from the spec: message id 2. -/
def PEER_MSG_INTERESTED : Int := 2

/-- Modelled from the spec: message id 3. -/
def PEER_MSG_UNINTERESTED : Int := 3

/-- Modelled from the spec: message id 4. -/
def PEER_MSG_HAVE : Int := 4

/-- Modelled from the spec: message id 5. -/
def PEER_MSG_BITFIELD : Int := 5

/-- Modelled from the spec: message id 6. -/
def PEER_MSG_REQUEST : Int := 6

/-- Modelled from the spec: message id 7. -/
def PEER_MSG_PIECE : Int := 7

/-- Modelled from the spec: message id 8. -/
def PEER_MSG_CANCEL : Int := 8

/-- Modelled from the spec: message id 9. -/
def PEER_MSG_PORT : Int := 9

/-- Modelled from the spec: message id 20. -/
def PEER_MSG_EXTENDED : Int := 20

/-- The id `EXTENDED_HANDSHAKE_ID` of `peerext.h`. -/
def EXTENDED_HANDSHAKE_ID : Int := 0

/-- One request (`tr_request_t`): the three `int`s of a REQUEST or CANCEL. -/
structure tr_request_t where
  index : Int
  begin : Int
  length : Int
deriving Repr, DecidableEq

/-- Modelled from the spec: `tr_bitfield_t` of `utils.h`, which is not among the
sources; `bits` are the bytes, `len` of the C structure is their number. -/
structure tr_bitfield_t where
  bits : List Nat
deriving Repr, DecidableEq

/-- Modelled from the spec: `tr_bitfieldNew`, a bitfield of `n` bits, all clear. -/
def tr_bitfieldNew (n : Nat) : tr_bitfield_t :=
  ⟨List.replicate ((n + 7) / 8) 0⟩

/-- Bit `nth` of a byte string, "MSB-first within each byte". -/
def bitAt (bits : List Nat) (nth : Nat) : Bool :=
  decide (bits.getD (nth / 8) 0 / 2 ^ (7 - nth % 8) % 2 = 1)

/-- Modelled from the spec: `tr_bitfieldHas`, the test of bit `nth`; a bit
outside the bitfield is not set. -/
def tr_bitfieldHas (bf : tr_bitfield_t) (nth : Nat) : Bool :=
  bitAt bf.bits nth

/-- Modelled from the spec: `tr_bitfieldAdd`, which sets bit `nth`. -/
def tr_bitfieldAdd (bf : tr_bitfield_t) (nth : Nat) : tr_bitfield_t :=
  if tr_bitfieldHas bf nth then bf
  else ⟨bf.bits.modify (fun b => b + 2 ^ (7 - nth % 8)) (nth / 8)⟩

/-- Modelled from the spec: an entry of a peer tree (`peertree.h`, which is not
among the sources): the address and the port of a peer, the six bytes of a
compact peer. -/
structure tr_peertree_entry_t where
  addr : List Nat
  port : Nat
deriving Repr, DecidableEq

/-- The fields of `tr_peer_t` that the parser reads or writes. The request
arrays are lists of their live entries (`inRequestCount`, `outRequestCount` are
the lengths); `buf` holds the received bytes, of which the first `pos` are
valid; `outMessages` stands for what the send functions queue. `private_` is the
field `private`, `sentPeers` the tree of the peers last sent to this peer, as a
list. The float `progress` is left out. -/
structure tr_peer_t where
  status : Int
  banned : Int
  azproto : Int
  extStatus : Int
  pexStatus : Int
  date : Nat
  id : List Nat
  buf : List Nat
  pos : Int
  amChoking : Int
  amInterested : Int
  peerChoking : Int
  peerInterested : Int
  bitfield : Option tr_bitfield_t
  pieceCount : Int
  blamefield : Option tr_bitfield_t
  inRequests : List tr_request_t
  outRequests : List tr_request_t
  outMessages : List Nat
  private_ : Int := 0
  addr : List Nat := []
  port : Nat := 0
  advertisedPort : Int := 0
  sentPeers : List tr_peertree_entry_t := []
deriving Repr, DecidableEq

/-- The torrent as the parser sees it (`tr_torrent_t`): the geometry of
`tr_torrent`, the info hash `info.hash`, the local peer id `id`, the other
peers of the torrent (`peers` without the peer being parsed), the blocks
Completion holds as requested. -/
structure tr_torrent_t extends tr_torrent where
  hash : List Nat
  id : List Nat
  peers : List tr_peer_t
  requested : List Int
deriving Repr, DecidableEq

/-- Modelled from the spec: `tr_cpDownloaderRem` of `completion.c`, which is not
among the sources; the block leaves Completion's requested set. -/
def tr_cpDownloaderRem (tor : tr_torrent_t) (block : Int) : tr_torrent_t :=
  { tor with requested := tor.requested.filter (fun b => b ≠ block) }

/-- The byte swap `htons` of a 16-bit value on a little-endian host. -/
def htons (x : Nat) : Nat := x % 256 * 256 + x / 256 % 256

/-- Modelled from the spec: a bencoded value (`benc_val_t` of `bencode.h`, which
is not among the sources): an integer, a byte string, a list or a dictionary. -/
inductive benc_val_t where
  | int (i : Int)
  | str (s : List Nat)
  | list (l : List benc_val_t)
  | dict (d : List (String × benc_val_t))

/-- Modelled from the spec: `tr_bencDictFind` of `bencode.c`; the value under
`key`, `none` for a null pointer. -/
def tr_bencDictFind (val : benc_val_t) (key : String) : Option benc_val_t :=
  match val with
  | benc_val_t.dict d => d.lookup key
  | _ => none

/-- What the parser uses and the sources do not hold: the Azureus message ids
and the extension states (constants of `peeraz.h` and `peer.c`), the request
limit, the Azureus flag of the reserved bytes, the clock, the comparison of two
peers, the interest update and the send functions of `peer.c`, the Azureus
header and handshake parsers and the handler of the Azureus peer exchange, the
bencode decoder `tr_bencLoad` (`none` when it fails) and `tr_torrentAddCompact`
of `torrent.c`, which adds the peers of a compact list to the torrent. The part
of `parsePiece` after its checks is a parameter too; it is `storeBlock` below,
which has the disk and Completion in its state. -/
structure PeerEnv where
  AZ_MSG_BT_KEEP_ALIVE : Int
  AZ_MSG_AZ_HANDSHAKE : Int
  AZ_MSG_AZ_PEER_EXCHANGE : Int
  AZ_MSG_INVALID : Int
  EXTENDED_NOT_SUPPORTED : Int
  EXTENDED_SUPPORTED : Int
  EXTENDED_HANDSHAKE : Int
  MAX_REQUEST_COUNT : Int
  PEER_SUPPORTS_AZUREUS_PROTOCOL : List Nat → Bool
  tr_date : Nat
  peerCmp : tr_peer_t → tr_peer_t → Int
  updateInterest : tr_torrent_t → tr_peer_t → tr_peer_t
  sendChoke : tr_peer_t → Int → tr_peer_t
  sendExtended : tr_torrent_t → tr_peer_t → Int → Int × tr_peer_t
  sendBitfield : tr_torrent_t → tr_peer_t → tr_peer_t
  parseAZMessageHeader : tr_peer_t → List Nat → Int → Int × Int × Int
  parseAZHandshake : tr_peer_t → List Nat → Int → Int × tr_peer_t
  storeBlock : tr_torrent_t → tr_peer_t → Int → Int → List Nat → Int →
    Option (Int × tr_torrent_t × tr_peer_t)
  tr_bencLoad : List Nat → Option benc_val_t
  tr_torrentAddCompact : tr_torrent_t → List Nat → Int → tr_torrent_t
  parseAZPex : tr_torrent_t → tr_peer_t → List Nat → Int → Int × tr_torrent_t × tr_peer_t

/-- Modelled from the spec: the macro `PEER_SUPPORTS_EXTENDED_MESSAGES`, which
is not among the sources; the flag `0x10` of byte 5 of the reserved bytes. -/
def PEER_SUPPORTS_EXTENDED_MESSAGES (bits : List Nat) : Bool :=
  decide (bits.getD 5 0 / 16 % 2 = 1)

/-- The bytes of a string constant. -/
def bytesOf (s : String) : List Nat := s.toList.map Char.toNat

/-- The loop of `parseChoke` over the requests we have outstanding: every block
leaves Completion's requested set. `tr_block` is `_tr_block`. -/
def dropRequests (tor : tr_torrent_t) : List tr_request_t → Option tr_torrent_t
  | [] => some tor
  | r :: rs =>
    match _tr_block tor.totr_torrent r.index r.begin with
    | none => none
    | some block => dropRequests (tr_cpDownloaderRem tor block) rs

/-- The function `parseChoke`. -/
def parseChoke (tor : tr_torrent_t) (peer : tr_peer_t) (len choking : Int) :
    Option (Int × tr_torrent_t × tr_peer_t) :=
  if len ≠ 0 then some (TR_ERROR_ASSERT, tor, peer)
  else
    let peer := { peer with peerChoking := choking }
    if choking ≠ 0 then
      match dropRequests tor peer.inRequests with
      | none => none
      | some tor => some (TR_OK, tor, { peer with inRequests := [] })
    else some (TR_OK, tor, peer)

/-- The function `parseInterested`. -/
def parseInterested (peer : tr_peer_t) (len interested : Int) : Int × tr_peer_t :=
  if len ≠ 0 then (TR_ERROR_ASSERT, peer)
  else (TR_OK, { peer with peerInterested := interested })

/-- The function `parseHave`; `piece` is a `uint32_t`. The swarm speed counter
is not modelled. -/
def parseHave (env : PeerEnv) (tor : tr_torrent_t) (peer : tr_peer_t) (p : List Nat)
    (len : Int) : Option (Int × tr_peer_t) :=
  if len ≠ 4 then some (TR_ERROR_ASSERT, peer)
  else
    match TR_NTOHL p with
    | none => none
    | some v =>
      let piece := v % 2 ^ 32
      if toU32 tor.info.pieceCount ≤ piece then some (TR_ERROR_ASSERT, peer)
      else
        let bf := peer.bitfield.getD (tr_bitfieldNew tor.info.pieceCount)
        let peer := { peer with bitfield := some bf }
        let peer :=
          if ¬ tr_bitfieldHas bf piece then { peer with pieceCount := peer.pieceCount + 1 }
          else peer
        let peer := { peer with bitfield := some (tr_bitfieldAdd bf piece) }
        some (TR_OK, env.updateInterest tor peer)

/-- The counting loop of `parseBitfield`: the number of `i < pieceCount` with
bit `i` set. -/
def countHave (bf : tr_bitfield_t) (pieceCount : Nat) : Nat :=
  (List.range pieceCount).countP (tr_bitfieldHas bf)

/-- The function `parseBitfield`. `p` holds the bytes from the start of the body
on; `inf->pieceCount & 0x7` is `pieceCount % 8`, and the left shift of the
`uint8_t` keeps the low eight bits. -/
def parseBitfield (env : PeerEnv) (tor : tr_torrent_t) (peer : tr_peer_t) (p : List Nat)
    (len : Int) : Option (Int × tr_peer_t) :=
  if ¬ fitsInt ((tor.info.pieceCount : Int) + 7) then none
  else
    let bitfieldSize : Int := Int.tdiv ((tor.info.pieceCount : Int) + 7) 8
    if len ≠ bitfieldSize then some (TR_ERROR_ASSERT, peer)
    else
      let spare : Option Bool :=
        if tor.info.pieceCount % 8 ≠ 0 then
          match (p[(bitfieldSize - 1).toNat]? : Option Nat) with
          | none => none
          | some lastByte =>
            some (decide ((lastByte <<< (tor.info.pieceCount % 8)) % 256 ≠ 0))
        else some false
      match spare with
      | none => none
      | some true => some (TR_ERROR_ASSERT, peer)
      | some false =>
        let bf := peer.bitfield.getD (tr_bitfieldNew tor.info.pieceCount)
        if p.length < bitfieldSize.toNat ∨ bf.bits.length < bitfieldSize.toNat then none
        else
          let bf : tr_bitfield_t :=
            ⟨p.take bitfieldSize.toNat ++ bf.bits.drop bitfieldSize.toNat⟩
          let peer :=
            { peer with bitfield := some bf, pieceCount := countHave bf tor.info.pieceCount }
          some (TR_OK, env.updateInterest tor peer)

/-- The three `int`s at the start of a REQUEST or CANCEL body. -/
def readRequest (p : List Nat) : Option tr_request_t :=
  match TR_NTOHL p, TR_NTOHL (p.drop 4), TR_NTOHL (p.drop 8) with
  | some index, some begin, some length =>
    some { index := toInt32 index, begin := toInt32 begin, length := toInt32 length }
  | _, _, _ => none

/-- The function `parseRequest`. -/
def parseRequest (env : PeerEnv) (tor : tr_torrent_t) (peer : tr_peer_t) (p : List Nat)
    (len : Int) : Option (Int × tr_peer_t) :=
  if len ≠ 12 then some (TR_ERROR_ASSERT, peer)
  else if peer.amChoking ≠ 0 then some (TR_OK, env.sendChoke peer 1)
  else
    match readRequest p with
    | none => none
    | some r =>
      if (tor.info.pieceCount : Int) ≤ r.index then some (TR_ERROR_ASSERT, peer)
      else if ¬ fitsInt (r.begin + r.length) then none
      else if tr_pieceSize tor.totr_torrent r.index < r.begin + r.length then
        some (TR_ERROR_ASSERT, peer)
      else if r.length > 16384 then some (TR_ERROR, peer)
      else if (peer.outRequests.length : Int) ≥ env.MAX_REQUEST_COUNT then some (TR_ERROR, peer)
      else some (TR_OK, { peer with outRequests := peer.outRequests ++ [r] })

/-- The checks of `parsePiece` (lines 293 to 311); what follows them, from the
computation of the block on, is `env.storeBlock`. -/
def parsePiece (env : PeerEnv) (tor : tr_torrent_t) (peer : tr_peer_t) (p : List Nat)
    (len : Int) : Option (Int × tr_torrent_t × tr_peer_t) :=
  if 8 > len then some (TR_ERROR_ASSERT, tor, peer)
  else
    match TR_NTOHL p, TR_NTOHL (p.drop 4) with
    | some i, some b =>
      let index := toInt32 i
      let begin := toInt32 b
      if (tor.info.pieceCount : Int) ≤ index then some (TR_ERROR_ASSERT, tor, peer)
      else if ¬ fitsInt (begin + len) then none
      else if tr_pieceSize tor.totr_torrent index < begin + len - 8 then
        some (TR_ERROR_ASSERT, tor, peer)
      else env.storeBlock tor peer index begin p len
    | _, _ => none

/-- The loop of `parseCancel` over the queued requests of the peer: the first
entry equal to the cancelled request is taken out and the loop stops. -/
def cancelLoop (index begin length : Int) : List tr_request_t → List tr_request_t
  | [] => []
  | r :: rs =>
    if r.index = index ∧ r.begin = begin ∧ r.length = length then rs
    else r :: cancelLoop index begin length rs

/-- The function `parseCancel`. -/
def parseCancel (tor : tr_torrent_t) (peer : tr_peer_t) (p : List Nat) (len : Int) :
    Option (Int × tr_peer_t) :=
  if len ≠ 12 then some (TR_ERROR_ASSERT, peer)
  else
    match readRequest p with
    | none => none
    | some c =>
      if (tor.info.pieceCount : Int) ≤ c.index then some (TR_ERROR_ASSERT, peer)
      else if ¬ fitsInt (c.begin + c.length) then none
      else if tr_pieceSize tor.totr_torrent c.index < c.begin + c.length then
        some (TR_ERROR_ASSERT, peer)
      else
        some (TR_OK,
          { peer with outRequests := cancelLoop c.index c.begin c.length peer.outRequests })

/-- The function `parsePort`. -/
def parsePort (p : List Nat) (len : Int) : Option Int :=
  if len ≠ 2 then some TR_ERROR_ASSERT
  else if p.length < 2 then none
  else some TR_OK

/-- The function `parseMessageHeader`; `msgid` and `msglen` are the values the
two out-parameters hold on entry, the result is the return value followed by
the values they hold on return. -/
def parseMessageHeader (env : PeerEnv) (buf : List Nat) (buflen : Int) (msgid msglen : Int) :
    Option (Int × Int × Int) :=
  if 4 > buflen then some (TR_NET_BLOCK, msgid, msglen)
  else
    match TR_NTOHL buf with
    | none => none
    | some v =>
      let msglen := toInt32 v
      if ¬ fitsInt (4 + msglen) then none
      else if 4 + msglen > buflen then some (TR_NET_BLOCK, msgid, msglen)
      else if 0 = msglen then some (4, env.AZ_MSG_BT_KEEP_ALIVE, msglen)
      else
        match (buf[4]? : Option Nat) with
        | none => none
        | some b => if ¬ fitsInt (msglen - 1) then none else some (5, (b : Int), msglen - 1)
/-- The function `parseExtendedHandshake` of `peerext.h`; the payload is the
first `len` bytes at `buf`. -/
def parseExtendedHandshake (env : PeerEnv) (peer : tr_peer_t) (buf : List Nat) (len : Int) :
    Int × tr_peer_t :=
  match env.tr_bencLoad (buf.take len.toNat) with
  | none => (TR_ERROR, peer)
  | some val =>
    match val with
    | benc_val_t.dict _ =>
      let peer :=
        match tr_bencDictFind val "m" with
        | some (benc_val_t.dict m) =>
          match tr_bencDictFind (benc_val_t.dict m) "ut_pex" with
          | some (benc_val_t.int i) =>
            if peer.private_ = 0 ∧ 0 < i ∧ 255 ≥ i then { peer with pexStatus := i }
            else { peer with pexStatus := 0 }
          | _ => peer
        | _ => peer
      let peer :=
        match tr_bencDictFind val "p" with
        | some (benc_val_t.int i) =>
          if 0 < i ∧ 65535 ≥ i then { peer with port := htons i.toNat } else peer
        | _ => peer
      (TR_OK, peer)
    | _ => (TR_ERROR, peer)

/-- The function `parseUTPex` of `peerext.h`. -/
def parseUTPex (env : PeerEnv) (tor : tr_torrent_t) (peer : tr_peer_t) (buf : List Nat)
    (len : Int) : Int × tr_torrent_t × tr_peer_t :=
  if peer.private_ ≠ 0 then (TR_OK, tor, peer)
  else
    match env.tr_bencLoad (buf.take len.toNat) with
    | none => (TR_ERROR, tor, peer)
    | some val =>
      match val with
      | benc_val_t.dict _ =>
        match tr_bencDictFind val "added" with
        | some (benc_val_t.str s) =>
          if s.length % 6 = 0 then
            (TR_OK, env.tr_torrentAddCompact tor s ((s.length : Int) / 6), peer)
          else (TR_OK, tor, peer)
        | _ => (TR_OK, tor, peer)
      | _ => (TR_ERROR, tor, peer)

/-- The function `parseMessage`: the `switch` on the message id, in the order
of its cases. -/
def parseMessage (env : PeerEnv) (tor : tr_torrent_t) (peer : tr_peer_t) (id : Int)
    (p : List Nat) (len : Int) : Option (Int × tr_torrent_t × tr_peer_t) :=
  if id = PEER_MSG_CHOKE then parseChoke tor peer len 1
  else if id = PEER_MSG_UNCHOKE then parseChoke tor peer len 0
  else if id = PEER_MSG_INTERESTED then
    some ((parseInterested peer len 1).1, tor, (parseInterested peer len 1).2)
  else if id = PEER_MSG_UNINTERESTED then
    some ((parseInterested peer len 0).1, tor, (parseInterested peer len 0).2)
  else if id = PEER_MSG_HAVE then (parseHave env tor peer p len).map (fun r => (r.1, tor, r.2))
  else if id = PEER_MSG_BITFIELD then
    (parseBitfield env tor peer p len).map (fun r => (r.1, tor, r.2))
  else if id = PEER_MSG_REQUEST then
    (parseRequest env tor peer p len).map (fun r => (r.1, tor, r.2))
  else if id = PEER_MSG_PIECE then parsePiece env tor peer p len
  else if id = PEER_MSG_CANCEL then (parseCancel tor peer p len).map (fun r => (r.1, tor, r.2))
  else if id = PEER_MSG_PORT then (parsePort p len).map (fun r => (r, tor, peer))
  else if id = PEER_MSG_EXTENDED then
    if env.EXTENDED_NOT_SUPPORTED = peer.extStatus then some (TR_ERROR, tor, peer)
    else if 0 < len then
      match p with
      | [] => none
      | extid :: p =>
        if EXTENDED_HANDSHAKE_ID = (extid : Int) then
          some ((parseExtendedHandshake env peer p (len - 1)).1, tor,
            (parseExtendedHandshake env peer p (len - 1)).2)
        else if 0 < peer.pexStatus ∧ (extid : Int) = peer.pexStatus then
          some (parseUTPex env tor peer p (len - 1))
        else some (1, tor, peer)
    else some (1, tor, peer)
  else if id = env.AZ_MSG_AZ_PEER_EXCHANGE then
    if peer.azproto ≠ 0 ∧ peer.pexStatus ≠ 0 then some (env.parseAZPex tor peer p len)
    else some (TR_ERROR, tor, peer)
  else if id = env.AZ_MSG_INVALID then some (0, tor, peer)
  else some (TR_ERROR, tor, peer)

/-- The function `parseBufHeader`; it reads `peer->buf`. The reply it sends on
the socket for a wrong prefix is not modelled. -/
def parseBufHeader (peer : tr_peer_t) : Int :=
  if 4 > peer.pos then TR_OK
  else if peer.buf.head? ≠ some 19 ∨ memcmp (peer.buf.drop 1) (bytesOf "Bit") 3 ≠ 0 then TR_ERROR
  else if peer.pos < 68 then TR_OK
  else if memcmp (peer.buf.drop 4) (bytesOf "Torrent protocol") 16 ≠ 0 then TR_ERROR
  else TR_OK

/-- The statement `memmove( peer->buf, p, peer->pos )` with which `parseBuf`
leaves its loop: the unparsed bytes move to the front of the buffer. -/
def parseBufExit (tor : tr_torrent_t) (peer : tr_peer_t) (p : List Nat) :
    Option (Int × tr_torrent_t × tr_peer_t) :=
  some (TR_OK, tor,
    { peer with buf := p.take peer.pos.toNat ++ peer.buf.drop peer.pos.toNat })

/-- The block at the label `justconnected` of `parseBuf`: the return value
(`TR_OK` to go on with the loop) and the peer. -/
def justconnected (env : PeerEnv) (tor : tr_torrent_t) (peer : tr_peer_t) : Int × tr_peer_t :=
  if PEER_STATUS_CONNECTED = peer.status then
    if env.EXTENDED_SUPPORTED = peer.extStatus then
      if (env.sendExtended tor peer EXTENDED_HANDSHAKE_ID).1 ≠ 0 then
        (TR_ERROR, (env.sendExtended tor peer EXTENDED_HANDSHAKE_ID).2)
      else
        (TR_OK, env.sendBitfield tor
          { (env.sendExtended tor peer EXTENDED_HANDSHAKE_ID).2 with
            extStatus := env.EXTENDED_HANDSHAKE })
    else (TR_OK, env.sendBitfield tor peer)
  else (TR_OK, peer)

/-- The assignments of `parseBuf` for an accepted handshake (lines 627 to 641):
the new status, the extension flags of the reserved bytes `p[20..27]`, the
remote peer id `p[48..67]`, and the 68 bytes taken from `pos`. -/
def acceptHandshake (env : PeerEnv) (peer : tr_peer_t) (p : List Nat) : tr_peer_t :=
  let peer := { peer with status := PEER_STATUS_CONNECTED }
  let peer :=
    if PEER_SUPPORTS_EXTENDED_MESSAGES (p.drop 20) then
      { peer with extStatus := env.EXTENDED_SUPPORTED }
    else if env.PEER_SUPPORTS_AZUREUS_PROTOCOL (p.drop 20) then
      { peer with azproto := 1, status := PEER_STATUS_AZ_GIVER, date := env.tr_date }
    else peer
  { peer with id := (p.drop 48).take 20, pos := peer.pos - 68 }

/-- The loop `while( peer->pos >= 4 )` of `parseBuf`, one pass for each unit of
`fuel`; `p` holds the bytes from the read pointer on. The locals `msgid` and
`len` are written by a header parser before every use. -/
def parseBufLoop (env : PeerEnv) :
    Nat → tr_torrent_t → tr_peer_t → List Nat → Option (Int × tr_torrent_t × tr_peer_t)
  | 0, _, _, _ => none
  | fuel + 1, tor, peer, p =>
    if ¬ (peer.pos ≥ 4) then parseBufExit tor peer p
    else if PEER_STATUS_HANDSHAKE = peer.status then
      if parseBufHeader peer ≠ 0 then some (parseBufHeader peer, tor, peer)
      else if peer.pos < 68 then parseBufExit tor peer p
      else if memcmp (p.drop 28) tor.hash 20 ≠ 0 then some (TR_ERROR, tor, peer)
      else if memcmp (p.drop 48) tor.id 20 = 0 then some (TR_ERROR, tor, peer)
      else
        let peer := acceptHandshake env peer p
        if tor.peers.any (fun other => decide (env.peerCmp peer other = 0)) then
          some (TR_ERROR, tor, peer)
        else if (justconnected env tor peer).1 ≠ 0 then
          some ((justconnected env tor peer).1, tor, (justconnected env tor peer).2)
        else parseBufLoop env fuel tor (justconnected env tor peer).2 (p.drop 68)
    else if peer.status < PEER_STATUS_CONNECTED then
      match env.parseAZMessageHeader peer p peer.pos with
      | (ret, msgid, len) =>
        if andInt TR_NET_BLOCK ret ≠ 0 then parseBufExit tor peer p
        else if andInt TR_NET_CLOSE ret ≠ 0 then some (TR_ERROR, tor, peer)
        else if ret < 0 ∨ len < 0 then none
        else
          let peer := { peer with pos := peer.pos - ret }
          if env.AZ_MSG_AZ_HANDSHAKE ≠ msgid then some (TR_ERROR, tor, peer)
          else if (env.parseAZHandshake peer (p.drop ret.toNat) len).1 ≠ 0 then
            some (TR_ERROR, tor, (env.parseAZHandshake peer (p.drop ret.toNat) len).2)
          else
            let peer :=
              { (env.parseAZHandshake peer (p.drop ret.toNat) len).2 with
                pos := (env.parseAZHandshake peer (p.drop ret.toNat) len).2.pos - len
                status := PEER_STATUS_CONNECTED }
            if (justconnected env tor peer).1 ≠ 0 then
              some ((justconnected env tor peer).1, tor, (justconnected env tor peer).2)
            else
              parseBufLoop env fuel tor (justconnected env tor peer).2
                (p.drop (ret.toNat + len.toNat))
    else
      let header :=
        if peer.azproto ≠ 0 then some (env.parseAZMessageHeader peer p peer.pos)
        else parseMessageHeader env p peer.pos 0 0
      match header with
      | none => none
      | some (ret, msgid, len) =>
        if andInt TR_NET_BLOCK ret ≠ 0 then parseBufExit tor peer p
        else if andInt TR_NET_CLOSE ret ≠ 0 then some (TR_ERROR, tor, peer)
        else if ¬ fitsInt (8 + tor.blockSize) then none
        else if len > 8 + tor.blockSize then some (TR_ERROR, tor, peer)
        else if ret < 0 ∨ len < 0 then none
        else
          let peer := { peer with pos := peer.pos - ret }
          if len = 0 then parseBufLoop env fuel tor peer (p.drop ret.toNat)
          else
            match parseMessage env tor peer msgid (p.drop ret.toNat) len with
            | none => none
            | some (r, tor, peer) =>
              if r ≠ 0 then some (r, tor, peer)
              else
                parseBufLoop env fuel tor { peer with pos := peer.pos - len }
                  (p.drop (ret.toNat + len.toNat))

/-- The function `parseBuf`. Every pass of the loop that goes on has taken at
least four bytes from the buffer, unless an Azureus parser of `env` reports an
empty message; `pos + 1` passes are allowed. -/
def parseBuf (env : PeerEnv) (tor : tr_torrent_t) (peer : tr_peer_t) :
    Option (Int × tr_torrent_t × tr_peer_t) :=
  if peer.banned ≠ 0 then some (TR_OK, tor, { peer with pos := 0 })
  else parseBufLoop env (peer.pos.toNat + 1) tor peer peer.buf

/-- An environment for the examples: a peer exchange nobody speaks, send
functions that queue nothing, an interest update that changes nothing, two
peers being the same when their ids are, and Azureus parsers that wait for more
bytes. -/
def mainlineEnv : PeerEnv :=
  { AZ_MSG_BT_KEEP_ALIVE := 12
    AZ_MSG_AZ_HANDSHAKE := 10
    AZ_MSG_AZ_PEER_EXCHANGE := 11
    AZ_MSG_INVALID := -1
    EXTENDED_NOT_SUPPORTED := 0
    EXTENDED_SUPPORTED := 1
    EXTENDED_HANDSHAKE := 2
    MAX_REQUEST_COUNT := 32
    PEER_SUPPORTS_AZUREUS_PROTOCOL := fun _ => false
    tr_date := 0
    peerCmp := fun a b => if a.id = b.id then 0 else 1
    updateInterest := fun _ peer => peer
    sendChoke := fun peer _ => peer
    sendExtended := fun _ peer _ => (0, peer)
    sendBitfield := fun _ peer => peer
    parseAZMessageHeader := fun _ _ _ => (TR_NET_BLOCK, 0, 0)
    parseAZHandshake := fun peer _ _ => (0, peer)
    storeBlock := fun tor peer _ _ _ _ => some (TR_OK, tor, peer)
    tr_bencLoad := fun _ => none
    tr_torrentAddCompact := fun tor _ _ => tor
    parseAZPex := fun tor peer _ _ => (0, tor, peer) }

/-- The torrent of scenario S2 as the parser sees it: info hash of twenty bytes
`1`, local peer id of twenty bytes `2`, no other peer, nothing requested. -/
def s2Swarm : tr_torrent_t :=
  { totr_torrent := s2Tor
    hash := List.replicate 20 1
    id := List.replicate 20 2
    peers := []
    requested := [] }

/-- A connected peer speaking the mainline protocol, with an empty buffer, no
bitfield and no request in either direction. -/
def s2Peer : tr_peer_t :=
  { status := PEER_STATUS_CONNECTED
    banned := 0
    azproto := 0
    extStatus := 0
    pexStatus := 0
    date := 0
    id := List.replicate 20 3
    buf := []
    pos := 0
    amChoking := 1
    amInterested := 0
    peerChoking := 0
    peerInterested := 0
    bitfield := none
    pieceCount := 0
    blamefield := none
    inRequests := []
    outRequests := []
    outMessages := [] }

/-- The number of set bits of a byte string, over all of its bit positions. -/
def setBits (body : List Nat) : Nat :=
  (List.range (8 * body.length)).countP (bitAt body)

/-- The torrent of scenario S2 with block 0 requested from a peer. -/
def chokeSwarm : tr_torrent_t :=
  { s2Swarm with requested := [0] }

/-- A connected, not banned peer speaking the mainline protocol that does not
choke us, from which block 0 (piece 0, offset 0) is requested, and whose buffer
holds the CHOKE frame `00 00 00 01 00`. -/
def chokePeer : tr_peer_t :=
  { s2Peer with
    buf := [0, 0, 0, 1, 0]
    pos := 5
    inRequests := [⟨0, 0, 16⟩] }

/-- The message id `BT_CHOKE`. -/
def BT_CHOKE : Nat := 0

/-- The message id `BT_UNCHOKE`. -/
def BT_UNCHOKE : Nat := 1

/-- The message id `BT_INTERESTED`. -/
def BT_INTERESTED : Nat := 2

/-- The message id `BT_NOT_INTERESTED`. -/
def BT_NOT_INTERESTED : Nat := 3

/-- The message id `BT_HAVE`. -/
def BT_HAVE : Nat := 4

/-- The message id `BT_BITFIELD`. -/
def BT_BITFIELD : Nat := 5

/-- The message id `BT_REQUEST`. -/
def BT_REQUEST : Nat := 6

/-- The message id `BT_PIECE`. -/
def BT_PIECE : Nat := 7

/-- The message id `BT_CANCEL`. -/
def BT_CANCEL : Nat := 8

/-- The message id `BT_PORT`. -/
def BT_PORT : Nat := 9

/-- The message id `BT_LTEP`. -/
def BT_LTEP : Nat := 20

/-- The extended message id `LTEP_HANDSHAKE`. -/
def LTEP_HANDSHAKE : Nat := 0

/-- The protocol state `AWAITING_BT_LENGTH`. -/
def AWAITING_BT_LENGTH : Int := 0

/-- The protocol state `AWAITING_BT_MESSAGE`. -/
def AWAITING_BT_MESSAGE : Int := 1

/-- The protocol state `READING_BT_PIECE`. -/
def READING_BT_PIECE : Int := 2

/-- Modelled from the spec: `ReadState` of `peer-io.h`, which is not among the
sources; what a read handler tells the transport. -/
inductive ReadState where
  | READ_MORE
  | READ_AGAIN
  | READ_DONE
deriving Repr, DecidableEq

/-- The structure `peer_request`: three `uint32_t`. -/
structure peer_request where
  pieceIndex : Nat
  offsetInPiece : Nat
  length : Nat
deriving Repr, DecidableEq

/-- Modelled from the spec: the fields of `tr_peer` (`peer-mgr-private.h`, not
among the sources) that `peer-msgs.c` uses: the two choke flags and the two
interest flags, the peer exchange switch, the bitfields `have`, `banned` and
`blame` (`none` for a null pointer) and the client name. The float `progress`
is left out. -/
structure tr_peer where
  clientIsChoked : Bool
  peerIsChoked : Bool
  clientIsInterested : Bool
  peerIsInterested : Bool
  pexEnabled : Bool
  have_ : Option tr_bitfield_t
  banned : Option tr_bitfield_t
  blame : Option tr_bitfield_t
  client : List Nat
deriving Repr, DecidableEq

/-- The structure `tr_peermsgs`. The three buffers are byte lists, the list
`peerAskedFor` holds its requests in order, `pexPeers` stands for the compact
peer lists handed to the peer manager. The torrent and its Completion are
passed to the functions that read them. -/
structure tr_peermsgs where
  info : tr_peer
  outMessages : List Nat
  outBlock : List Nat
  inBlock : List Nat
  peerAskedFor : List peer_request
  notListening : Bool
  blockToUs : peer_request
  state : Int
  incomingMessageLength : Nat
  gotKeepAliveTime : Nat
  ut_pex : Nat
  listeningPort : Nat
  pexPeers : List (List Nat)
deriving Repr, DecidableEq

/-- What the extended handshake dictionary gives: the id under `m`/`ut_pex`,
the client name under `v` and the port under `p`, each when present with the
right type. -/
structure LtepHandshake where
  ut_pex : Option Int
  v : Option (List Nat)
  p : Option Int
deriving Repr, DecidableEq

/-- What the session uses and the sources do not hold: the clock, the bencode
decoder of `bencode.c` on the two dictionaries the session reads, the extended
handshake (`none` when the payload is not a dictionary) and the peer exchange
message (`none` when it is not a dictionary, else the string under `added`
when there is one), and `tr_rcCanTransfer` of `ratecontrol.c`. -/
structure SessionEnv where
  tr_date : Nat
  loadHandshake : List Nat → Option LtepHandshake
  loadPex : List Nat → Option (Option (List Nat))
  tr_rcCanTransfer : tr_ratecontrol → Bool

/-- Modelled from the spec: `tr_peerIoWriteUint32` of `peer-io.c`, which is not
among the sources; the four bytes of a u32 in network byte order. -/
def tr_peerIoWriteUint32 (v : Nat) : List Nat :=
  [v / 2 ^ 24 % 256, v / 2 ^ 16 % 256, v / 2 ^ 8 % 256, v % 256]

/-- Modelled from the spec: `tr_peerIoReadBytes` of `peer-io.c`; `n` bytes
leave the input buffer, `none` when it holds fewer. -/
def tr_peerIoReadBytes (inbuf : List Nat) (n : Nat) : Option (List Nat × List Nat) :=
  if inbuf.length < n then none else some (inbuf.take n, inbuf.drop n)

/-- Modelled from the spec: `tr_peerIoReadUint32` of `peer-io.c`; a u32 in
network byte order leaves the input buffer. -/
def tr_peerIoReadUint32 (inbuf : List Nat) : Option (Nat × List Nat) :=
  match TR_NTOHL inbuf with
  | none => none
  | some v => some (v % 2 ^ 32, inbuf.drop 4)

/-- Modelled from the spec: `tr_peerIoReadUint16` of `peer-io.c`. -/
def tr_peerIoReadUint16 (inbuf : List Nat) : Option (Nat × List Nat) :=
  match inbuf with
  | b0 :: b1 :: rest => some ((b0 * 256 + b1) % 2 ^ 16, rest)
  | _ => none

/-- Modelled from the spec: `tr_bitfieldHas` on a pointer that may be null; no
bit of a null bitfield is set. -/
def bitfieldHas (bf : Option tr_bitfield_t) (nth : Nat) : Bool :=
  match bf with
  | none => false
  | some b => tr_bitfieldHas b nth

/-- Modelled from the spec: `tr_cpPieceBitfield` of `completion.c`; the pieces
Completion reports complete, as a bitfield of `pieceCount` bits. -/
def tr_cpPieceBitfield (cp : Completion) (pieceCount : Nat) : tr_bitfield_t :=
  ⟨(List.range ((pieceCount + 7) / 8)).map (fun k =>
    ((List.range 8).map (fun j =>
      if 8 * k + j < pieceCount ∧ cp.complete (8 * k + j) = true then 2 ^ (7 - j) else 0)).sum)⟩

/-- The function `isPieceInteresting`; `none` when `piece` is outside the
array `pieces`. -/
def isPieceInteresting (tor : tr_torrent) (cp : Completion) (peer : tr_peermsgs)
    (piece : Nat) : Option Bool :=
  match tor.info.pieces[piece]? with
  | none => none
  | some pc =>
    if pc.dnd then some false
    else if cp.complete piece then some false
    else if ¬ bitfieldHas peer.info.have_ piece then some false
    else if bitfieldHas peer.info.banned piece then some false
    else some true

/-- The loop of `isInteresting` over the pieces still to look at. -/
def isInterestingLoop (tor : tr_torrent) (cp : Completion) (peer : tr_peermsgs) :
    List Nat → Option Bool
  | [] => some false
  | i :: rest =>
    match isPieceInteresting tor cp peer i with
    | none => none
    | some true => some true
    | some false => isInterestingLoop tor cp peer rest

/-- The function `isInteresting`. -/
def isInteresting (tor : tr_torrent) (cp : Completion) (peer : tr_peermsgs) : Option Bool :=
  if peer.info.have_ = none then some false
  else isInterestingLoop tor cp peer (List.range tor.info.pieceCount)

/-- The function `sendInterest`. -/
def sendInterest (peer : tr_peermsgs) (weAreInterested : Bool) : tr_peermsgs :=
  { peer with
    outMessages := peer.outMessages ++ tr_peerIoWriteUint32 1
      ++ [if weAreInterested then BT_INTERESTED else BT_NOT_INTERESTED] }

/-- The function `updateInterest` of `peer-msgs.c`. -/
def updateInterest (tor : tr_torrent) (cp : Completion) (peer : tr_peermsgs) :
    Option tr_peermsgs :=
  match isInteresting tor cp peer with
  | none => none
  | some i => if i ≠ peer.info.clientIsInterested then some (sendInterest peer i) else some peer

/-- The function `tr_peerMsgsSetChoke`. -/
def tr_peerMsgsSetChoke (peer : tr_peermsgs) (choke : Int) : tr_peermsgs :=
  if peer.info.peerIsChoked ≠ decide (choke ≠ 0) then
    { peer with
      info := { peer.info with peerIsChoked := decide (choke ≠ 0) }
      peerAskedFor := []
      outMessages := peer.outMessages ++ tr_peerIoWriteUint32 1
        ++ [if choke ≠ 0 then BT_CHOKE else BT_UNCHOKE] }
  else peer
/-- The function `parseLtepHandshake`; `evbuffer_remove` takes `len` bytes from
the input buffer, and the result is `none` when `len` is negative or more than
the buffer holds. -/
def parseLtepHandshake (env : SessionEnv) (peer : tr_peermsgs) (len : Int)
    (inbuf : List Nat) : Option (tr_peermsgs × List Nat) :=
  if len < 0 then none
  else
    match tr_peerIoReadBytes inbuf len.toNat with
    | none => none
    | some (tmp, inbuf) =>
      match env.loadHandshake tmp with
      | none => some (peer, inbuf)
      | some val =>
        let peer :=
          match val.ut_pex with
          | some i => { peer with ut_pex := (i % 2 ^ 16).toNat }
          | none => peer
        let peer :=
          match val.v with
          | some s =>
            { peer with
              info := { peer.info with client := s.map (fun c => if c = 181 then 117 else c) } }
          | none => peer
        let peer :=
          match val.p with
          | some i => { peer with listeningPort := htons (i % 2 ^ 16).toNat }
          | none => peer
        some (peer, inbuf)

/-- The function `parseUtPex`; a list of compact peers whose length is a
multiple of 6 goes to the peer manager. -/
def parseUtPex (env : SessionEnv) (peer : tr_peermsgs) (msglen : Int) (inbuf : List Nat) :
    Option (tr_peermsgs × List Nat) :=
  if ¬ peer.info.pexEnabled then some (peer, inbuf)
  else if msglen < 0 then none
  else
    match tr_peerIoReadBytes inbuf msglen.toNat with
    | none => none
    | some (tmp, inbuf) =>
      match env.loadPex tmp with
      | none => some (peer, inbuf)
      | some none => some (peer, inbuf)
      | some (some added) =>
        if added.length % 6 = 0 then
          some ({ peer with pexPeers := peer.pexPeers ++ [added] }, inbuf)
        else some (peer, inbuf)

/-- The function `parseLtep`; `msglen` is an `int`, and `evbuffer_drain` takes
its count as a `size_t`. -/
def parseLtep (env : SessionEnv) (peer : tr_peermsgs) (msglen : Int) (inbuf : List Nat) :
    Option (tr_peermsgs × List Nat) :=
  match inbuf with
  | [] => none
  | ltep_msgid :: inbuf =>
    if ¬ fitsInt (msglen - 1) then none
    else if ltep_msgid = LTEP_HANDSHAKE then parseLtepHandshake env peer (msglen - 1) inbuf
    else if ltep_msgid = peer.ut_pex then parseUtPex env peer (msglen - 1) inbuf
    else some (peer, inbuf.drop (toU64 (msglen - 1)))

/-- The three `uint32_t` of a REQUEST or CANCEL, read from the input buffer. -/
def readPeerRequest (inbuf : List Nat) : Option (peer_request × List Nat) :=
  match tr_peerIoReadUint32 inbuf with
  | none => none
  | some (pieceIndex, inbuf) =>
    match tr_peerIoReadUint32 inbuf with
    | none => none
    | some (offsetInPiece, inbuf) =>
      match tr_peerIoReadUint32 inbuf with
      | none => none
      | some (length, inbuf) => some (⟨pieceIndex, offsetInPiece, length⟩, inbuf)

/-- The `switch` of `readBtMessage` on the message id; `msglen` is the length
left after the id, a `size_t`. The asserts are not part of the release build.
A read past the bytes of the input buffer or a write outside the bits of the
bitfield `have` gives `none`. For BT_CANCEL, `tr_list_find` with
`peer_request_compare_func` finds the first request equal in the three fields
and `tr_list_remove_data` takes it out. -/
def readBtMessageSwitch (env : SessionEnv) (tor : tr_torrent) (cp : Completion)
    (peer : tr_peermsgs) (id : Nat) (msglen : Nat) (inbuf : List Nat) :
    Option (tr_peermsgs × List Nat) :=
  if id = BT_CHOKE then
    some ({ peer with info := { peer.info with clientIsChoked := true }, peerAskedFor := [] },
      inbuf)
  else if id = BT_UNCHOKE then
    some ({ peer with info := { peer.info with clientIsChoked := false } }, inbuf)
  else if id = BT_INTERESTED then
    some ({ peer with info := { peer.info with peerIsInterested := true } }, inbuf)
  else if id = BT_NOT_INTERESTED then
    some ({ peer with info := { peer.info with peerIsInterested := false } }, inbuf)
  else if id = BT_HAVE then
    match tr_peerIoReadUint32 inbuf, peer.info.have_ with
    | some (ui32, inbuf), some bf =>
      if bf.bits.length ≤ ui32 / 8 then none
      else
        (updateInterest tor cp
          { peer with info := { peer.info with have_ := some (tr_bitfieldAdd bf ui32) } }).map
          (fun peer => (peer, inbuf))
    | _, _ => none
  else if id = BT_BITFIELD then
    match peer.info.have_ with
    | none => none
    | some bf =>
      if bf.bits.length < msglen then none
      else
        match tr_peerIoReadBytes inbuf msglen with
        | none => none
        | some (bytes, inbuf) =>
          (updateInterest tor cp
            { peer with
              info := { peer.info with have_ := some ⟨bytes ++ bf.bits.drop msglen⟩ } }).map
            (fun peer => (peer, inbuf))
  else if id = BT_REQUEST then
    match readPeerRequest inbuf with
    | none => none
    | some (req, inbuf) =>
      if ¬ peer.info.peerIsChoked then
        some ({ peer with peerAskedFor := peer.peerAskedFor ++ [req] }, inbuf)
      else some (peer, inbuf)
  else if id = BT_CANCEL then
    match readPeerRequest inbuf with
    | none => none
    | some (req, inbuf) => some ({ peer with peerAskedFor := peer.peerAskedFor.erase req }, inbuf)
  else if id = BT_PIECE then
    match tr_peerIoReadUint32 inbuf with
    | none => none
    | some (pieceIndex, inbuf) =>
      match tr_peerIoReadUint32 inbuf with
      | none => none
      | some (offsetInPiece, inbuf) =>
        some ({ peer with
                state := READING_BT_PIECE
                blockToUs := ⟨pieceIndex, offsetInPiece, (msglen + U64 - 8) % U64 % 2 ^ 32⟩
                inBlock := [] }, inbuf)
  else if id = BT_PORT then
    match tr_peerIoReadUint16 inbuf with
    | none => none
    | some (port, inbuf) => some ({ peer with listeningPort := port }, inbuf)
  else if id = BT_LTEP then parseLtep env peer (toInt32 msglen) inbuf
  else some (peer, inbuf.drop msglen)

/-- The function `readBtMessage`: the return value, the session and the input
buffer. After the `switch` the message length is set to `-1` and the state to
`AWAITING_BT_LENGTH`, whatever the message was. -/
def readBtMessage (env : SessionEnv) (tor : tr_torrent) (cp : Completion) (peer : tr_peermsgs)
    (inbuf : List Nat) : Option (ReadState × tr_peermsgs × List Nat) :=
  if inbuf.length < peer.incomingMessageLength then some (ReadState.READ_MORE, peer, inbuf)
  else
    match inbuf with
    | [] => none
    | id :: inbuf =>
      match readBtMessageSwitch env tor cp peer id
          ((peer.incomingMessageLength + U64 - 1) % U64) inbuf with
      | none => none
      | some (peer, inbuf) =>
        some (ReadState.READ_AGAIN,
          { peer with incomingMessageLength := 2 ^ 32 - 1, state := AWAITING_BT_LENGTH }, inbuf)

/-- The function `sendBitfield` of `peer-msgs.c`. -/
def sendBitfield (tor : tr_torrent) (cp : Completion) (peer : tr_peermsgs) : tr_peermsgs :=
  { peer with
    outMessages := peer.outMessages
      ++ tr_peerIoWriteUint32 (1 + (tr_cpPieceBitfield cp tor.info.pieceCount).bits.length)
      ++ [BT_BITFIELD] ++ (tr_cpPieceBitfield cp tor.info.pieceCount).bits }

/-- The function `tr_peerMsgsNew`: a zeroed session around `info`, with both
sides choked and not interested, an empty bitfield `have`, and our bitfield
queued for sending. -/
def tr_peerMsgsNew (tor : tr_torrent) (cp : Completion) (info : tr_peer) : tr_peermsgs :=
  sendBitfield tor cp
    { info :=
        { info with
          clientIsChoked := true
          peerIsChoked := true
          clientIsInterested := false
          peerIsInterested := false
          have_ := some (tr_bitfieldNew tor.info.pieceCount) }
      outMessages := []
      outBlock := []
      inBlock := []
      peerAskedFor := []
      notListening := false
      blockToUs := ⟨0, 0, 0⟩
      state := AWAITING_BT_LENGTH
      incomingMessageLength := 0
      gotKeepAliveTime := 0
      ut_pex := 0
      listeningPort := 0
      pexPeers := [] }

/-- The session states reached from `tr_peerMsgsNew` by calls of
`tr_peerMsgsSetChoke` and of `readBtMessage`, on any torrent, Completion and
input. -/
inductive SessionReachable (env : SessionEnv) : tr_peermsgs → Prop where
  | new (tor : tr_torrent) (cp : Completion) (info : tr_peer) :
    SessionReachable env (tr_peerMsgsNew tor cp info)
  | setChoke (peer : tr_peermsgs) (choke : Int) :
    SessionReachable env peer → SessionReachable env (tr_peerMsgsSetChoke peer choke)
  | read (tor : tr_torrent) (cp : Completion) (peer : tr_peermsgs) (inbuf : List Nat)
    (ret : ReadState) (peer' : tr_peermsgs) (inbuf' : List Nat) :
    SessionReachable env peer →
    readBtMessage env tor cp peer inbuf = some (ret, peer', inbuf') →
    SessionReachable env peer'

/-- An environment for the examples: no payload decodes to a dictionary, and
the rate controllers let every transfer through. -/
def plainSession : SessionEnv :=
  { tr_date := 0
    loadHandshake := fun _ => none
    loadPex := fun _ => none
    tr_rcCanTransfer := fun _ => true }

/-- Completion with no piece complete. -/
def noneComplete : Completion :=
  { complete := fun _ => false }

/-- A peer record before `tr_peerMsgsNew`. -/
def freshPeer : tr_peer :=
  { clientIsChoked := false
    peerIsChoked := false
    clientIsInterested := false
    peerIsInterested := false
    pexEnabled := false
    have_ := none
    banned := none
    blame := none
    client := [] }
/-- A session on the torrent of scenario S2, nothing complete, whose peer has
piece 0 and to which nothing is queued for sending. -/
def interestedSession : tr_peermsgs :=
  { tr_peerMsgsNew s2Tor noneComplete freshPeer with
    info := { (tr_peerMsgsNew s2Tor noneComplete freshPeer).info with have_ := some ⟨[128]⟩ }
    outMessages := [] }

/-- A new session on the torrent of scenario S2 after we unchoked the peer. -/
def unchokedSession : tr_peermsgs :=
  tr_peerMsgsSetChoke (tr_peerMsgsNew s2Tor noneComplete freshPeer) 0

/-- The unchoked session after the peer's REQUEST for (0, 0, 16). -/
def requestedSession : tr_peermsgs :=
  { unchokedSession with
    peerAskedFor := [⟨0, 0, 16⟩]
    incomingMessageLength := 2 ^ 32 - 1 }

/-! ## Completion status, setters and file pieces (`torrent.c`) -/

/-- Modelled from the spec: the completion statuses `cp_status_t` of
`transmission.h`, which is not among the sources, in the order Incomplete,
Done, Complete. -/
def TR_CP_INCOMPLETE : Int := 0

/-- Modelled from the spec: the status Done; see `TR_CP_INCOMPLETE`. -/
def TR_CP_DONE : Int := 1

/-- Modelled from the spec: the status Complete; see `TR_CP_INCOMPLETE`. -/
def TR_CP_COMPLETE : Int := 2

/-- Modelled from the spec: the priorities `tr_priority_t` of `transmission.h`,
Low below Normal below High. -/
def TR_PRI_LOW : Int := -1

/-- Modelled from the spec: the priority Normal; see `TR_PRI_LOW`. -/
def TR_PRI_NORMAL : Int := 0

/-- Modelled from the spec: the priority High; see `TR_PRI_LOW`. -/
def TR_PRI_HIGH : Int := 1

/-- Modelled from the spec: the direction `TR_UP` of `transmission.h`. -/
def TR_UP : Int := 0

/-- Modelled from the spec: the flag `TR_FLAG_PRIVATE` of `transmission.h`. -/
def TR_FLAG_PRIVATE : Nat := 2

/-- Modelled from the spec: the code `TR_EDUPLICATE` of `transmission.h`, the
error Duplicate, different from `TR_OK`. -/
def TR_EDUPLICATE : Int := 3

/-- Modelled from the spec: the code `TR_EOTHER` of `transmission.h`. -/
def TR_EOTHER : Int := 666

/-- The function `tr_didStateChangeTo`: the return value and the torrent. -/
def tr_didStateChangeTo (tor : tr_torrent) (status : Int) : Int × tr_torrent :=
  if tor.hasChangedState = status then (1, { tor with hasChangedState := -1 })
  else (0, tor)

/-- The function `tr_getIncomplete`. -/
def tr_getIncomplete (tor : tr_torrent) : Int × tr_torrent :=
  tr_didStateChangeTo tor TR_CP_INCOMPLETE

/-- The function `tr_getDone`. -/
def tr_getDone (tor : tr_torrent) : Int × tr_torrent :=
  tr_didStateChangeTo tor TR_CP_DONE

/-- The function `tr_getComplete`. -/
def tr_getComplete (tor : tr_torrent) : Int × tr_torrent :=
  tr_didStateChangeTo tor TR_CP_COMPLETE

/-- The function `recheckCpState`; `cpStatus` is what `tr_cpGetStatus` returns
for the torrent's Completion. The call of the tracker and the sync of the
files are outside the state; `fastResumeSave` clears `fastResumeDirty`. -/
def recheckCpState (cpStatus : Int) (tor : tr_torrent) : tr_torrent :=
  if cpStatus ≠ tor.cpStatus then
    { tor with cpStatus := cpStatus, hasChangedState := cpStatus, fastResumeDirty := false }
  else tor

/-- The function `tr_torrentSetSpeedMode`. -/
def tr_torrentSetSpeedMode (tor : tr_torrent) (up_or_down : Int) (mode : Int) : tr_torrent :=
  if up_or_down = TR_UP then { tor with uploadLimitMode := mode }
  else { tor with downloadLimitMode := mode }

/-- Modelled from the spec: `tr_rcSetLimit` of `ratecontrol.c`. -/
def tr_rcSetLimit (rc : tr_ratecontrol) (limit : Int) : tr_ratecontrol :=
  { rc with limit := limit }

/-- The function `tr_torrentSetSpeedLimit`. -/
def tr_torrentSetSpeedLimit (tor : tr_torrent) (up_or_down : Int) (single_KiB_sec : Int) :
    tr_torrent :=
  if up_or_down = TR_UP then { tor with upload := tr_rcSetLimit tor.upload single_KiB_sec }
  else { tor with download := tr_rcSetLimit tor.download single_KiB_sec }

/-- The function `tr_torrentChangeMyPort`; the tracker is told outside the
state. -/
def tr_torrentChangeMyPort (tor : tr_torrent) (port : Int) : tr_torrent :=
  { tor with publicPort := port }

/-- The function `tr_torrentDisablePex`; the peer manager is told outside the
state. -/
def tr_torrentDisablePex (tor : tr_torrent) (disable : Int) : tr_torrent :=
  if TR_FLAG_PRIVATE &&& tor.info.flags = 0 then
    if tor.pexDisabled ≠ disable then { tor with pexDisabled := disable } else tor
  else tor

/-- The loop of `calculatePiecePriority` over the files, `priority` being the
value reached so far. -/
def calculatePiecePriorityLoop (piece : Int) : List tr_file_t → Int → Int
  | [], priority => priority
  | file :: rest, priority =>
    let priority :=
      if file.firstPiece ≤ piece ∧ file.lastPiece ≥ piece ∧ file.priority > priority then
        file.priority
      else priority
    let priority :=
      if file.priority ≥ TR_PRI_NORMAL then
        if file.firstPiece = piece ∨ file.lastPiece = piece then TR_PRI_HIGH else priority
      else priority
    calculatePiecePriorityLoop piece rest priority

/-- The function `calculatePiecePriority`. -/
def calculatePiecePriority (tor : tr_torrent) (piece : Int) : Int :=
  calculatePiecePriorityLoop piece tor.info.files TR_PRI_NORMAL

/-- The function `getBytePiece`: a `uint64_t` quotient returned as an `int`;
`none` for a division by zero. -/
def getBytePiece (info : tr_info_t) (byteOffset : Nat) : Option Int :=
  if info.pieceSize = 0 then none else some (toInt32 (byteOffset / info.pieceSize))

/-- The first loop of `tr_torrentInitFilePieces` with `initFilePieces` in it:
every file gets its offset and the pieces of its first and last byte. -/
def initFilesLoop (info : tr_info_t) : List tr_file_t → Nat → Option (List tr_file_t)
  | [], _ => some []
  | file :: rest, offset =>
    match getBytePiece info offset,
      getBytePiece info ((offset + (if file.length ≠ 0 then file.length - 1 else 0)) % U64) with
    | some firstPiece, some lastPiece =>
      (initFilesLoop info rest ((offset + file.length) % U64)).map
        (fun files =>
          { file with offset := offset, firstPiece := firstPiece, lastPiece := lastPiece }
            :: files)
    | _, _ => none

/-- A loop `for( i = first; ...; ++i ) pieces[i] = f( i, pieces[i] )` with `n`
passes to go; `none` when a piece is outside the array. -/
def setPiecesLoop (f : Int → tr_piece_t → tr_piece_t) :
    Nat → Int → List tr_piece_t → Option (List tr_piece_t)
  | 0, _, pieces => some pieces
  | n + 1, i, pieces =>
    if i < 0 ∨ (pieces.length : Int) ≤ i then none
    else setPiecesLoop f n (i + 1) (pieces.modify (f i) i.toNat)

/-- The function `tr_torrentInitFilePieces`. -/
def tr_torrentInitFilePieces (tor : tr_torrent) : Option tr_torrent :=
  match initFilesLoop tor.info tor.info.files 0 with
  | none => none
  | some files =>
    let tor := { tor with info := { tor.info with files := files } }
    match setPiecesLoop (fun i p => { p with priority := calculatePiecePriority tor i })
        tor.info.pieceCount 0 tor.info.pieces with
    | none => none
    | some pieces => some { tor with info := { tor.info with pieces := pieces } }

/-- The function `tr_torrentSetFilePriority`; `none` when the file or one of
its pieces is outside its array. -/
def tr_torrentSetFilePriority (tor : tr_torrent) (fileIndex : Int) (priority : Int) :
    Option tr_torrent :=
  if fileIndex < 0 then none
  else
    match tor.info.files[fileIndex.toNat]? with
    | none => none
    | some file =>
      let tor :=
        { tor with
          info := { tor.info with
            files := tor.info.files.modify (fun f => { f with priority := priority })
              fileIndex.toNat } }
      match setPiecesLoop (fun i p => { p with priority := calculatePiecePriority tor i })
          (file.lastPiece + 1 - file.firstPiece).toNat file.firstPiece tor.info.pieces with
      | none => none
      | some pieces =>
        some { tor with info := { tor.info with pieces := pieces }, fastResumeDirty := true }

/-- The two loops of `tr_torrentSetFileDL` over the neighbours of the file,
nearest first: the flag stays set only as long as every neighbour that shares
the piece is marked do-not-download. -/
def neighbourDND (sharesPiece : tr_file_t → Bool) : List tr_file_t → Bool → Bool
  | [], flag => flag
  | file :: rest, flag =>
    if ¬ flag then flag
    else if ¬ sharesPiece file then flag
    else neighbourDND sharesPiece rest file.dnd

/-- One assignment `pieces[i].dnd = dnd`; `none` when the piece is outside the
array. -/
def setPieceDND (pieces : List tr_piece_t) (i : Int) (dnd : Bool) : Option (List tr_piece_t) :=
  if i < 0 ∨ (pieces.length : Int) ≤ i then none
  else some (pieces.modify (fun p => { p with dnd := dnd }) i.toNat)

/-- The function `tr_torrentSetFileDL`; `tr_cpInvalidateDND` is outside the
state. `none` when the file or one of its pieces is outside its array. -/
def tr_torrentSetFileDL (tor : tr_torrent) (fileIndex : Int) (doDownload : Int) :
    Option tr_torrent :=
  if fileIndex < 0 then none
  else
    match tor.info.files[fileIndex.toNat]? with
    | none => none
    | some file =>
      let dnd : Bool := decide (doDownload = 0)
      let files := tor.info.files.modify (fun f => { f with dnd := dnd }) fileIndex.toNat
      let firstPiece := file.firstPiece
      let lastPiece := file.lastPiece
      let firstPieceDND :=
        neighbourDND (fun f => decide (f.lastPiece = firstPiece))
          (files.take fileIndex.toNat).reverse dnd
      let lastPieceDND :=
        neighbourDND (fun f => decide (f.firstPiece = lastPiece))
          (files.drop (fileIndex.toNat + 1)) dnd
      let pieces : Option (List tr_piece_t) :=
        if firstPiece = lastPiece then
          setPieceDND tor.info.pieces firstPiece (firstPieceDND && lastPieceDND)
        else
          match setPieceDND tor.info.pieces firstPiece firstPieceDND with
          | none => none
          | some pieces =>
            match setPieceDND pieces lastPiece lastPieceDND with
            | none => none
            | some pieces =>
              setPiecesLoop (fun _ p => { p with dnd := dnd })
                (lastPiece - firstPiece - 1).toNat (firstPiece + 1) pieces
      match pieces with
      | none => none
      | some pieces =>
        some { tor with
               info := { tor.info with files := files, pieces := pieces }
               fastResumeDirty := true }

/-- The fields of `tr_handle` that the functions below use: the list of
torrents with its count, and the global download and upload limits. -/
structure tr_handle where
  torrentList : List tr_torrent
  torrentCount : Int
  useDownloadLimit : Int := 0
  download : tr_ratecontrol := {}
  useUploadLimit : Int := 0
  upload : tr_ratecontrol := {}
deriving Repr, DecidableEq

/-- The function `pathIsInUse`; `strcmp` on a torrent without destination (a
null pointer) has no result. -/
def pathIsInUse (destination name : String) : List tr_torrent → Option Bool
  | [] => some false
  | tor :: rest =>
    match tor.destination with
    | none => none
    | some d =>
      if destination = d ∧ name = tor.info.name then some true
      else pathIsInUse destination name rest

/-- The function `hashExists`. -/
def hashExists (hash : List Nat) : List tr_torrent → Bool
  | [] => false
  | tor :: rest =>
    if memcmp hash tor.info.hash SHA_DIGEST_LENGTH = 0 then true else hashExists hash rest

/-- The function `infoCanAdd`; `destination` is `none` for a null pointer. -/
def infoCanAdd (h : tr_handle) (destination : Option String) (info : tr_info_t) : Option Int :=
  if hashExists info.hash h.torrentList then some TR_EDUPLICATE
  else
    match destination with
    | none => some TR_OK
    | some d =>
      match pathIsInUse d info.name h.torrentList with
      | none => none
      | some true => some TR_EDUPLICATE
      | some false => some TR_OK

/-- What `tr_torrentInit` uses and the sources do not hold: the metainfo parser
of `metainfo.c`, which gives a return code and the metainfo of the file at a
path, and whether the allocation of the torrent succeeds. -/
structure InitEnv where
  tr_metainfoParseFile : String → Int × tr_info_t
  allocates : Bool

/-- The function `tr_torrentParse` with `setme_info` null: the return code. -/
def tr_torrentParse (env : InitEnv) (h : tr_handle) (path : String)
    (destination : Option String) : Option Int :=
  if (env.tr_metainfoParseFile path).1 = TR_OK then
    infoCanAdd h destination (env.tr_metainfoParseFile path).2
  else some (env.tr_metainfoParseFile path).1

/-- The function `tr_torrentInit`: the torrent returned (`none` for a null
pointer), the value of `*error` (`error` on entry) and the handle. For a
torrent that can be added, `torrentRealInit` is the block geometry above,
followed by `tr_torrentInitFilePieces` and the insertion at the head of the
handle's list; the tracker, the thread and the fast-resume file are outside
the state. -/
def tr_torrentInit (env : InitEnv) (h : tr_handle) (path : String)
    (destination : Option String) (flags : Nat) (error : Int) :
    Option (Option tr_torrent × Int × tr_handle) :=
  match tr_torrentParse env h path destination with
  | none => none
  | some val =>
    if val ≠ 0 then some (none, val, h)
    else if ¬ env.allocates then some (none, TR_EOTHER, h)
    else
      let info := (env.tr_metainfoParseFile path).2
      match torrentRealInit { info with flags := info.flags ||| flags } with
      | none => none
      | some tor =>
        match tr_torrentInitFilePieces { tor with destination := destination } with
        | none => none
        | some tor =>
          some (some tor, error,
            { h with torrentList := tor :: h.torrentList, torrentCount := h.torrentCount + 1 })
/-- What `initFilePieces` makes of a file that starts at `offset`: the offset
and the pieces of the first and of the last byte (of the first byte twice, for
an empty file), as `int`s. -/
def fileWithPieces (info : tr_info_t) (file : tr_file_t) (offset : Nat) : tr_file_t :=
  { file with
    offset := offset
    firstPiece := toInt32 (offset / info.pieceSize)
    lastPiece :=
      toInt32 ((offset + (if file.length ≠ 0 then file.length - 1 else 0)) / info.pieceSize) }

/-- A torrent of one piece of 16 bytes and one file of low priority that is
not marked do-not-download. -/
def lowTor : tr_torrent :=
  { s2Tor with
    info :=
      { files := [{ name := "a", length := 16, priority := TR_PRI_LOW }]
        pieces := [{ hash := List.replicate 20 0 }]
        pieceSize := 16
        pieceCount := 1
        totalSize := 16 } }

/-- The torrent of scenario S2 in a download directory, with an info hash and
a name. -/
def listedTor : tr_torrent :=
  { s2Tor with
    destination := some "/downloads"
    info := { s2Info with hash := List.replicate 20 7, name := "s2" } }

/-- A handle that holds the torrent `listedTor`. -/
def oneHandle : tr_handle :=
  { torrentList := [listedTor], torrentCount := 1 }

/-- A metainfo parser that reads the metainfo of `listedTor` from every path,
with an allocator that succeeds. -/
def s2InitEnv : InitEnv :=
  { tr_metainfoParseFile := fun _ => (TR_OK, listedTor.info)
    allocates := true }
/-- A new session on the torrent of scenario S2 that has read the length
prefix 10 of a PIECE frame and waits for the message. -/
def pieceSession : tr_peermsgs :=
  { tr_peerMsgsNew s2Tor noneComplete freshPeer with
    incomingMessageLength := 10
    state := AWAITING_BT_MESSAGE }

/-- A new session on the torrent of scenario S2, peer exchange not enabled,
whose peer has announced the id 1 for `ut_pex`, and that has read the length
prefix 5 of a frame and waits for the message. -/
def pexSession : tr_peermsgs :=
  { tr_peerMsgsNew s2Tor noneComplete freshPeer with
    ut_pex := 1
    incomingMessageLength := 5
    state := AWAITING_BT_MESSAGE }

/-- Modelled from the spec: the speed limit modes `tr_speedlimit_t` of
`transmission.h`, in the order Global, Single, Unlimited. -/
def TR_SPEEDLIMIT_GLOBAL : Int := 0

/-- Modelled from the spec: the mode Single; see `TR_SPEEDLIMIT_GLOBAL`. -/
def TR_SPEEDLIMIT_SINGLE : Int := 1

/-- Modelled from the spec: Completion at the level of blocks (`completion.c`
is not among the sources): the set `have` of the blocks we hold. -/
structure BlockCompletion where
  complete : Int → Bool

/-- Modelled from the spec: `tr_cpBlockIsComplete`. -/
def tr_cpBlockIsComplete (cp : BlockCompletion) (block : Int) : Bool :=
  cp.complete block

/-- Modelled from the spec: `tr_cpBlockAdd`. -/
def tr_cpBlockAdd (cp : BlockCompletion) (block : Int) : BlockCompletion :=
  { complete := fun b => if b = block then true else cp.complete b }

/-- Modelled from the spec: `tr_torBlockCountBytes` of `internal.h`, the size
of a block: `lastBlockSize` for the last block, `blockSize` for the others. -/
def tr_torBlockCountBytes (tor : tr_torrent) (block : Int) : Int :=
  if block = tor.blockCount - 1 then tor.lastBlockSize else tor.blockSize

/-- Modelled from the spec: `tr_rcTransferred` of `ratecontrol.c`. -/
def tr_rcTransferred (rc : tr_ratecontrol) (size : Nat) : tr_ratecontrol :=
  { rc with transferred := rc.transferred + size }

/-- What the functions of `peer-msgs.c` that store a block read and write
outside the session: the handle, the torrent, the disk, and Completion at the
level of blocks. -/
structure SessionWorld where
  handle : tr_handle
  tor : tr_torrent
  disk : Disk
  blocks : BlockCompletion

/-- The function `canDownload`. -/
def canDownload (env : SessionEnv) (w : SessionWorld) : Bool :=
  if w.tor.downloadLimitMode = TR_SPEEDLIMIT_GLOBAL then
    decide (w.handle.useDownloadLimit = 0) || env.tr_rcCanTransfer w.handle.download
  else if w.tor.downloadLimitMode = TR_SPEEDLIMIT_SINGLE then
    env.tr_rcCanTransfer w.tor.download
  else true

/-- The function `gotBlock`; `inbuf` is the block accumulated in `inBlock`.
`none` stands for what `_tr_block` leaves undefined, for a negative piece index
or offset handed to `tr_ioWrite`, and for a piece outside the bitfield
`blame`. -/
def gotBlock (w : SessionWorld) (peer : tr_peermsgs) (pieceIndex offset : Int)
    (inbuf : List Nat) : Option (SessionWorld × tr_peermsgs) :=
  match _tr_block w.tor pieceIndex offset with
  | none => none
  | some block =>
    if tr_cpBlockIsComplete w.blocks block then some (w, peer)
    else if toInt32 inbuf.length ≠ tr_torBlockCountBytes w.tor block then some (w, peer)
    else if pieceIndex < 0 ∨ offset < 0 then none
    else
      match tr_ioWrite w.tor.info pieceIndex.toNat offset.toNat inbuf.length inbuf w.disk with
      | none => none
      | some (ret, disk) =>
        if ret ≠ 0 then some ({ w with disk := disk }, peer)
        else
          let blame := peer.info.blame.getD (tr_bitfieldNew w.tor.info.pieceCount)
          if blame.bits.length ≤ pieceIndex.toNat / 8 then none
          else
            some
              ({ w with
                 disk := disk
                 blocks := tr_cpBlockAdd w.blocks block
                 tor :=
                   { w.tor with
                     downloadedCur := (w.tor.downloadedCur + inbuf.length) % U64
                     download := tr_rcTransferred w.tor.download inbuf.length }
                 handle :=
                   { w.handle with
                     download := tr_rcTransferred w.handle.download inbuf.length } },
               { peer with
                 info :=
                   { peer.info with blame := some (tr_bitfieldAdd blame pieceIndex.toNat) } })

/-- The function `readBtPiece`: the return value, the world, the session and
the input buffer. -/
def readBtPiece (env : SessionEnv) (w : SessionWorld) (peer : tr_peermsgs) (inbuf : List Nat) :
    Option (ReadState × SessionWorld × tr_peermsgs × List Nat) :=
  if ¬ canDownload env w then
    some (ReadState.READ_DONE, w, { peer with notListening := true }, inbuf)
  else
    let len := min inbuf.length peer.blockToUs.length
    let peer :=
      { peer with
        inBlock := peer.inBlock ++ inbuf.take len
        blockToUs := { peer.blockToUs with length := peer.blockToUs.length - len } }
    if peer.blockToUs.length = 0 then
      match gotBlock w peer (toInt32 peer.blockToUs.pieceIndex)
          (toInt32 peer.blockToUs.offsetInPiece) peer.inBlock with
      | none => none
      | some (w, peer) =>
        some (ReadState.READ_AGAIN, w,
          { peer with outBlock := [], state := AWAITING_BT_LENGTH }, inbuf.drop len)
    else some (ReadState.READ_AGAIN, w, peer, inbuf.drop len)

/-- The world of scenario S2: the torrent in a handle of its own, an empty
destination, no block complete, no speed limit in force. -/
def s2World : SessionWorld :=
  { handle := { torrentList := [s2Tor], torrentCount := 1 }
    tor := s2Tor
    disk := emptyDisk
    blocks := { complete := fun _ => false } }

/-- A session on the torrent of scenario S2 that reads the PIECE body of the
block (piece 0, offset 0), of which 16 bytes are still to come. -/
def readingSession : tr_peermsgs :=
  { tr_peerMsgsNew s2Tor noneComplete freshPeer with
    state := READING_BT_PIECE
    blockToUs := ⟨0, 0, 16⟩ }

/-! ## Peer exchange (`peerext.h`) -/

/-- The id `EXTENDED_PEX_ID` of `peerext.h`. -/
def EXTENDED_PEX_ID : Int := 1

/-- What the functions of `peerext.h` that build messages use and the sources
do not hold: the version string made by `asprintf` (`none` when it fails),
whether `tr_bencDictAppendNofree` fails for the keys it is given, the encoder
`tr_bencSaveMalloc` (`none` when it fails), whether `peertreeAdd` fails to
allocate an entry, and whether `malloc` fails for a size. -/
structure PexEnv where
  versionString : Option (List Nat)
  dictAppendFails : List String → Bool
  tr_bencSaveMalloc : benc_val_t → Option (List Nat)
  peertreeAddFails : tr_peertree_entry_t → Bool
  mallocFails : Nat → Bool

/-- The dictionary that `makeExtendedHandshake` builds, `none` when it gives up
before the encoding. -/
def extendedHandshakeDict (env : PexEnv) (tor : tr_torrent_t) (peer : tr_peer_t) :
    Option benc_val_t :=
  match env.versionString with
  | none => none
  | some vers =>
    if env.dictAppendFails ["v", "m"] then none
    else if peer.private_ = 0 ∧ env.dictAppendFails ["ut_pex"] = true then none
    else if 0 < tor.publicPort ∧ env.dictAppendFails ["p"] = true then none
    else
      some (benc_val_t.dict
        ([("v", benc_val_t.str vers),
          ("m", benc_val_t.dict
            (if peer.private_ = 0 then [("ut_pex", benc_val_t.int EXTENDED_PEX_ID)] else []))]
          ++ (if 0 < tor.publicPort then [("p", benc_val_t.int tor.publicPort)] else [])))

/-- The function `makeExtendedHandshake`: the encoded message (`none` for a
null pointer) and the peer. -/
def makeExtendedHandshake (env : PexEnv) (tor : tr_torrent_t) (peer : tr_peer_t) :
    Option (List Nat) × tr_peer_t :=
  match extendedHandshakeDict env tor peer with
  | none => (none, peer)
  | some val =>
    match env.tr_bencSaveMalloc val with
    | none => (none, peer)
    | some buf => (some buf, { peer with advertisedPort := tor.publicPort })

/-- Modelled from the spec: `peertreeGet` of `peertree.h`, which is not among
the sources; a peer tree is the list of its entries, without repetition. -/
def peertreeGet (tree : List tr_peertree_entry_t) (addr : List Nat) (port : Nat) :
    Option tr_peertree_entry_t :=
  if (⟨addr, port⟩ : tr_peertree_entry_t) ∈ tree then some ⟨addr, port⟩ else none

/-- Modelled from the spec: `peertreeMove`, which takes an entry out of `src`
and puts it into `dest`; the result is `dest` and `src`. -/
def peertreeMove (dest src : List tr_peertree_entry_t) (found : tr_peertree_entry_t) :
    List tr_peertree_entry_t × List tr_peertree_entry_t :=
  (dest ++ [found], src.erase found)

/-- Modelled from the spec: `peertreeAdd`; `none` when the entry cannot be
allocated, and a tree holds an entry once. -/
def peertreeAdd (env : PexEnv) (tree : List tr_peertree_entry_t) (addr : List Nat) (port : Nat) :
    Option (List tr_peertree_entry_t) :=
  if env.peertreeAddFails ⟨addr, port⟩ then none
  else if (⟨addr, port⟩ : tr_peertree_entry_t) ∈ tree then some tree
  else some (tree ++ [⟨addr, port⟩])

/-- Modelled from the spec: `peertreeMerge`, which moves every entry of `src`
into `dest`. -/
def peertreeMerge (dest src : List tr_peertree_entry_t) : List tr_peertree_entry_t :=
  dest ++ src

/-- The loop of `makeCommonPex` over the peers of the torrent: whether it ran
to its end (it stops when an entry cannot be allocated), and the trees `sent`,
`added` and `common`. -/
def commonPexLoop (env : PexEnv) (peer : tr_peer_t) :
    List tr_peer_t → List tr_peertree_entry_t → List tr_peertree_entry_t →
      List tr_peertree_entry_t →
      Bool × List tr_peertree_entry_t × List tr_peertree_entry_t × List tr_peertree_entry_t
  | [], sent, added, common => (true, sent, added, common)
  | pp :: rest, sent, added, common =>
    if pp.port = 0 ∨ peer.addr = pp.addr then commonPexLoop env peer rest sent added common
    else
      match peertreeGet sent pp.addr pp.port with
      | some found =>
        commonPexLoop env peer rest (peertreeMove common sent found).2 added
          (peertreeMove common sent found).1
      | none =>
        match peertreeAdd env added pp.addr pp.port with
        | none => (false, sent, added, common)
        | some added => commonPexLoop env peer rest sent added common

/-- The function `makeCommonPex`: the dictionary that is encoded with its
encoding (`none` for a null pointer), and the peer with its tree `sentPeers`.
`peerfunc` turns a tree into the value of a key, `none` when it fails. -/
def makeCommonPex (env : PexEnv) (tor : tr_torrent_t) (peer : tr_peer_t)
    (peerfunc : List tr_peertree_entry_t → Option benc_val_t) (extrakey : String)
    (extraval : benc_val_t) : Option (benc_val_t × List Nat) × tr_peer_t :=
  match commonPexLoop env peer tor.peers peer.sentPeers [] [] with
  | (false, sent, _, common) => (none, { peer with sentPeers := peertreeMerge sent common })
  | (true, sent, added, common) =>
    if (added.isEmpty && sent.isEmpty)
        || env.dictAppendFails [extrakey, "added", "dropped"] then
      (none, { peer with sentPeers := peertreeMerge sent common })
    else
      match peerfunc added, peerfunc sent with
      | some addval, some delval =>
        match env.tr_bencSaveMalloc
            (benc_val_t.dict [(extrakey, extraval), ("added", addval), ("dropped", delval)]) with
        | none => (none, { peer with sentPeers := peertreeMerge sent common })
        | some buf =>
          (some (benc_val_t.dict [(extrakey, extraval), ("added", addval), ("dropped", delval)],
            buf), { peer with sentPeers := peertreeMerge common added })
      | _, _ => (none, { peer with sentPeers := peertreeMerge sent common })

/-- The six bytes of an entry: the address, and the port as it lies in
memory. -/
def entryBytes (e : tr_peertree_entry_t) : List Nat :=
  e.addr ++ [e.port % 256, e.port / 256 % 256]

/-- The function `peertreeToBencUT`: the string of the entries of the tree, six
bytes each, the last entry first; `none` when `malloc` fails. -/
def peertreeToBencUT (env : PexEnv) (tree : List tr_peertree_entry_t) : Option benc_val_t :=
  if tree.length = 0 then some (benc_val_t.str [])
  else if env.mallocFails (6 * tree.length) then none
  else some (benc_val_t.str ((tree.reverse.map entryBytes).flatten))

/-- The function `makeUTPex`. -/
def makeUTPex (env : PexEnv) (tor : tr_torrent_t) (peer : tr_peer_t) :
    Option (benc_val_t × List Nat) × tr_peer_t :=
  makeCommonPex env tor peer (peertreeToBencUT env) "added.f" (benc_val_t.str [])

/-- The peers of the torrent that a peer exchange message for `peer` names:
those with a port that is not 0 and an address that is not the address of
`peer`, as entries. -/
def eligiblePeers (peer : tr_peer_t) (peers : List tr_peer_t) : List tr_peertree_entry_t :=
  (peers.filter (fun pp => ¬ (pp.port = 0 ∨ peer.addr = pp.addr))).map
    (fun pp => ⟨pp.addr, pp.port⟩)

/-- An environment for the examples: no allocation fails, the version string
is empty and every dictionary is encoded as the empty string. -/
def plainPex : PexEnv :=
  { versionString := some []
    dictAppendFails := fun _ => false
    tr_bencSaveMalloc := fun _ => some []
    peertreeAddFails := fun _ => false
    mallocFails := fun _ => false }

/-! ## Storing a block (`peerparse.h`) -/

/-- What lines 313 to 377 of `parsePiece` and the blame loop of `tr_ioHash` use
and the sources do not hold: the digest function, the macro `tr_blockSize` of
`internal.h`, `tr_cpPieceHasAllBlocks` of `completion.c`, `sendCancel` and
`sendHave` of `peerutils.h` (`sendCancel` acts on the array `tor->peers`),
`tr_peerBlame` of `peer.c`, and `updateInterest`. -/
structure StoreEnv where
  SHA1 : List Nat → List Nat
  tr_blockSize : tr_torrent → Int → Int
  tr_cpPieceHasAllBlocks : BlockCompletion → Int → Bool
  sendCancel : List tr_peer_t → Int → List tr_peer_t
  sendHave : tr_peer_t → Int → tr_peer_t
  tr_peerBlame : tr_peer_t → Int → Int → tr_peer_t
  updateInterest : tr_torrent_t → tr_peer_t → tr_peer_t

/-- What `parsePiece` reads and writes outside the torrent and its peers: the
destination, Completion at the level of pieces and Completion at the level of
blocks. What `tr_cpPieceAdd` and `tr_cpPieceRem` do to the blocks is left
out: `parsePiece` reads no block after them. -/
structure StoreWorld where
  disk : Disk
  completion : Completion
  blocks : BlockCompletion

/-- The function `updateRequests`: the first request for the block and the
requests before it leave the list, and their blocks leave Completion's
requested set. -/
def updateRequests (tor : tr_torrent_t) (peer : tr_peer_t) (index begin : Int) :
    Option (tr_torrent_t × tr_peer_t) :=
  let i := peer.inRequests.findIdx (fun r => decide (index = r.index ∧ begin = r.begin))
  if i < peer.inRequests.length then
    match dropRequests tor (peer.inRequests.take (i + 1)) with
    | none => none
    | some tor => some (tor, { peer with inRequests := peer.inRequests.drop (i + 1) })
  else some (tor, peer)

/-- Lines 313 to 342 of `parsePiece`, from the computation of the block to
`tr_cpBlockAdd`: the code when the function returns here (`none` when it goes
on), the state, the torrent, the peer and the block. No result stands for a
block number that does not fit an `int` and for a negative piece index at the
blame bitfield. -/
def writeBlock (env : StoreEnv) (w : StoreWorld) (tor : tr_torrent_t) (peer : tr_peer_t)
    (index begin : Int) (p : List Nat) (len : Int) :
    Option (Option Int × StoreWorld × tr_torrent_t × tr_peer_t × Int) :=
  match _tr_block tor.totr_torrent index begin with
  | none => none
  | some block =>
    match updateRequests tor peer index begin with
    | none => none
    | some (tor, peer) =>
      let tor := { tor with downloadedCur := (tor.downloadedCur + toU64 len) % U64 }
      if len - 8 ≠ env.tr_blockSize tor.totr_torrent block then
        some (some TR_ERROR_ASSERT, w, tor, peer, block)
      else if tr_cpBlockIsComplete w.blocks block then some (some TR_OK, w, tor, peer, block)
      else if index < 0 then none
      else
        let peer :=
          { peer with
            blamefield := some (tr_bitfieldAdd
              (peer.blamefield.getD (tr_bitfieldNew tor.info.pieceCount)) index.toNat) }
        match tr_ioWrite tor.info index.toNat (toU64 begin) (toU64 (len - 8)) (p.drop 8)
            w.disk with
        | none => none
        | some (ret, d) =>
          if ret ≠ 0 then some (some ret, { w with disk := d }, tor, peer, block)
          else
            some (none, { w with disk := d, blocks := tr_cpBlockAdd w.blocks block }, tor, peer,
              block)

/-- The function `tr_ioHash` with its loop over the peers: the code, the state
and the peers after `tr_peerBlame`. -/
def tr_ioHashBlame (env : StoreEnv) (tor : tr_torrent) (pieceIndex : Nat) (s : TorState)
    (peers : List tr_peer_t) : Option (Int × TorState × List tr_peer_t) :=
  match checkPiece env.SHA1 tor pieceIndex s.disk with
  | none => none
  | some (c, d') =>
    let success : Int := if c = 0 then 1 else 0
    some (0,
      (if success ≠ 0 then
        { disk := d', completion := tr_cpPieceAdd s.completion pieceIndex }
      else { disk := d', completion := tr_cpPieceRem s.completion pieceIndex }),
      peers.map (fun o => env.tr_peerBlame o pieceIndex success))

/-- The loop of `parsePiece` over `tor->peers` after a good hash, with the
peers already visited and the peers to visit: a peer below
`PEER_STATUS_CONNECTED` is passed over, another one gets `sendHave` and then
`updateInterest`, which sees the torrent with the other peers. -/
def haveLoop (env : StoreEnv) (tor : tr_torrent_t) (index : Int) :
    List tr_peer_t → List tr_peer_t → List tr_peer_t
  | done, [] => done
  | done, o :: rest =>
    if o.status < PEER_STATUS_CONNECTED then haveLoop env tor index (done ++ [o]) rest
    else
      haveLoop env tor index
        (done ++ [env.updateInterest { tor with peers := done ++ rest } (env.sendHave o index)])
        rest

/-- Lines 350 to 377 of `parsePiece`, which run when the piece has all its
blocks: `tr_ioHash`, the test of `tr_cpPieceIsComplete` and the loop over the
peers `arr` of the torrent. -/
def checkCompletedPiece (env : StoreEnv) (tor : tr_torrent_t) (index : Int) (w : StoreWorld)
    (arr : List tr_peer_t) : Option (Int × StoreWorld × List tr_peer_t) :=
  if index < 0 then none
  else
    match tr_ioHashBlame env tor.totr_torrent index.toNat ⟨w.disk, w.completion⟩ arr with
    | none => none
    | some (ret, s, arr) =>
      if ret ≠ 0 then some (ret, { w with disk := s.disk, completion := s.completion }, arr)
      else if ¬ s.completion.complete index.toNat then
        some (TR_OK, { w with disk := s.disk, completion := s.completion }, arr)
      else
        some (TR_OK, { w with disk := s.disk, completion := s.completion },
          haveLoop env tor index [] arr)

/-- Lines 313 to 377 of `parsePiece`, what follows its checks. The array
`tor->peers` is `tor.peers` with the peer of the message at position `self`;
no result stands also for a position outside the array. -/
def storeBlock (env : StoreEnv) (w : StoreWorld) (self : Nat) (tor : tr_torrent_t)
    (peer : tr_peer_t) (index begin : Int) (p : List Nat) (len : Int) :
    Option (Int × StoreWorld × tr_torrent_t × tr_peer_t) :=
  match writeBlock env w tor peer index begin p len with
  | none => none
  | some (some ret, w, tor, peer, _) => some (ret, w, tor, peer)
  | some (none, w, tor, peer, block) =>
    if self > tor.peers.length then none
    else
      let arr := env.sendCancel (tor.peers.take self ++ peer :: tor.peers.drop self) block
      if ¬ env.tr_cpPieceHasAllBlocks w.blocks index then
        some (TR_OK, w, { tor with peers := arr.eraseIdx self }, arr.getD self peer)
      else
        match checkCompletedPiece env tor index w arr with
        | none => none
        | some (ret, w, arr) =>
          some (ret, w, { tor with peers := arr.eraseIdx self }, arr.getD self peer)

/-- An environment for the examples: the digest `toySHA1`, blocks of
`tr_torBlockCountBytes`, one block to a piece, no cancel message, no blame,
`sendHave` queues the nine bytes of a HAVE message and `updateInterest` leaves
the peer as it is. -/
def s2Store : StoreEnv :=
  { SHA1 := toySHA1
    tr_blockSize := tr_torBlockCountBytes
    tr_cpPieceHasAllBlocks := fun cp index => cp.complete index
    sendCancel := fun peers _ => peers
    sendHave := fun o index =>
      { o with
        outMessages := o.outMessages ++ [0, 0, 0, 5, 4, toU32 index / 16777216 % 256,
          toU32 index / 65536 % 256, toU32 index / 256 % 256, toU32 index % 256] }
    tr_peerBlame := fun o _ _ => o
    updateInterest := fun _ o => o }

/-- An empty destination with no piece and no block complete. -/
def s2Empty : StoreWorld :=
  { disk := emptyDisk
    completion := { complete := fun _ => false }
    blocks := { complete := fun _ => false } }

/-- The torrent of scenario S2 with one other peer, still at its handshake. -/
def s2Crowd : tr_torrent_t :=
  { s2Swarm with peers := [{ s2Peer with status := PEER_STATUS_HANDSHAKE }] }

/-- The payload of a PIECE message for piece 0 at offset 0: sixteen bytes 0. -/
def s2Zeros : List Nat := [0, 0, 0, 0, 0, 0, 0, 0] ++ List.replicate 16 0

/-- The state after the sixteen bytes of `s2Zeros` are written to `s2Empty`. -/
def s2Written : StoreWorld :=
  { s2Empty with
    disk := ((tr_ioWrite s2Info 0 0 16 (List.replicate 16 0) emptyDisk).getD (0, emptyDisk)).2
    blocks := tr_cpBlockAdd s2Empty.blocks 0 }

/-- The disk after piece 0 is read back from `s2Written` for its hash. -/
def s2Checked : Disk :=
  ((checkPiece toySHA1 s2Tor 0 s2Written.disk).getD (0, emptyDisk)).2

/-- A new session on the torrent of scenario S2 (two pieces, a bitfield `have`
of one byte) that has read the length prefix 2 of a frame and waits for the
message. -/
def bitfieldSession : tr_peermsgs :=
  { tr_peerMsgsNew s2Tor noneComplete freshPeer with
    incomingMessageLength := 2
    state := AWAITING_BT_MESSAGE }

/-- A new session on the torrent of scenario S2 that has read the length
prefix 5 of a frame and waits for the message. -/
def haveSession : tr_peermsgs :=
  { tr_peerMsgsNew s2Tor noneComplete freshPeer with
    incomingMessageLength := 5
    state := AWAITING_BT_MESSAGE }

/-- The session `requestedSession`, in which the peer has one request queued
with us, after it has read the length prefix 1 of a frame. -/
def chokeFrameSession : tr_peermsgs :=
  { requestedSession with
    incomingMessageLength := 1
    state := AWAITING_BT_MESSAGE }

/-! ## Uploads, the run state and file progress -/

/-- The function `canUpload` of `peer-msgs.c`. -/
def canUpload (env : SessionEnv) (w : SessionWorld) : Bool :=
  if w.tor.uploadLimitMode = TR_SPEEDLIMIT_GLOBAL then
    decide (w.handle.useUploadLimit = 0) || env.tr_rcCanTransfer w.handle.upload
  else if w.tor.uploadLimitMode = TR_SPEEDLIMIT_SINGLE then
    env.tr_rcCanTransfer w.tor.upload
  else true

/-- The function `pulse`: the world, the session and the bytes handed to
`tr_peerIoWrite` or `tr_peerIoWriteBuf` in this call. The request at the head
of `peerAskedFor` is `peerAskedFor->data`; its three `uint32_t` fields go to
the `int` parameters of `tr_ioRead`, and a value that is negative there gives
`none`. The return code of `tr_ioRead` is not looked at; bytes of `tmp` that
it does not fill are taken to be 0. -/
def pulse (env : SessionEnv) (w : SessionWorld) (peer : tr_peermsgs) :
    Option (SessionWorld × tr_peermsgs × List Nat) :=
  let peer := if peer.notListening then { peer with notListening := false } else peer
  if peer.outBlock.length ≠ 0 then
    if canUpload env w then
      some (w, { peer with outBlock := peer.outBlock.drop (min peer.outBlock.length 2048) },
        peer.outBlock.take (min peer.outBlock.length 2048))
    else some (w, peer, [])
  else if peer.outMessages.length ≠ 0 then
    some (w, { peer with outMessages := [] }, peer.outMessages)
  else
    match peer.peerAskedFor with
    | [] => some (w, peer, [])
    | req :: _ =>
      if toInt32 req.pieceIndex < 0 ∨ toInt32 req.offsetInPiece < 0 ∨ toInt32 req.length < 0 then
        none
      else
        match tr_ioRead w.tor.info req.pieceIndex req.offsetInPiece req.length w.disk with
        | none => none
        | some (_, disk, bytes) =>
          some ({ w with disk := disk },
            { peer with
              outBlock := peer.outBlock
                ++ tr_peerIoWriteUint32 ((1 + 4 * 2 + req.length) % 2 ^ 32)
                ++ [BT_PIECE]
                ++ tr_peerIoWriteUint32 req.pieceIndex
                ++ tr_peerIoWriteUint32 req.offsetInPiece
                ++ (bytes ++ List.replicate req.length 0).take req.length }, [])

/-- The function `setRunState`. -/
def setRunState (tor : tr_torrent) (run : run_status_t) : tr_torrent :=
  { tor with runStatus := run }

/-- The function `tr_torrentStop`. -/
def tr_torrentStop (tor : tr_torrent) : tr_torrent :=
  if tor.runStatus ≠ run_status_t.TR_RUN_STOPPING ∧ tor.runStatus ≠ run_status_t.TR_RUN_STOPPED then
    setRunState tor run_status_t.TR_RUN_STOPPING
  else tor

/-- A torrent of one piece of 16 bytes: the file `a` of 16 bytes and, after
it, the empty file `z`. -/
def emptyTailTor : tr_torrent :=
  { s2Tor with
    info :=
      { files := [{ name := "a", length := 16 }, { name := "z", length := 0 }]
        pieces := [{ hash := List.replicate 20 0 }]
        pieceSize := 16
        pieceCount := 1
        totalSize := 16 }
    blockCount := 1 }

/-- The world of scenario S2 on the destination `zeroDisk`, whose files hold
32 bytes 0. -/
def zeroWorld : SessionWorld :=
  { s2World with disk := zeroDisk }

/-- The session `requestedSession`, in which the peer has the request
(0, 0, 16) queued with us, with nothing left to send. -/
def servingSession : tr_peermsgs :=
  { requestedSession with outMessages := [], outBlock := [] }

/-- The loop `for( i = firstBlock + 1; i < lastBlock; ++i )` of
`fileBytesCompleted`, with `n` passes to go: `i` and `haveBytes` are
`uint64_t`, the block number goes to `tr_cpBlockIsComplete` as an `int`. -/
def fileBytesLoop (cp : BlockCompletion) (blockSize : Nat) : Nat → Nat → Nat → Nat
  | 0, _, haveBytes => haveBytes
  | n + 1, i, haveBytes =>
    fileBytesLoop cp blockSize n ((i + 1) % U64)
      (if tr_cpBlockIsComplete cp (toInt32 i) then (haveBytes + blockSize) % U64 else haveBytes)

/-- The function `fileBytesCompleted`, in `uint64_t` arithmetic; the `int`
`blockSize` is converted to `uint64_t`. `none` for a file outside the array and
for a division by zero. -/
def fileBytesCompleted (tor : tr_torrent) (cp : BlockCompletion) (fileIndex : Int) :
    Option Nat :=
  if fileIndex < 0 then none
  else
    match tor.info.files[fileIndex.toNat]? with
    | none => none
    | some file =>
      if toU64 tor.blockSize = 0 then none
      else
        let firstBlock := file.offset / toU64 tor.blockSize
        let firstBlockOffset := file.offset % toU64 tor.blockSize
        let lastOffset := if file.length ≠ 0 then file.length - 1 else 0
        let lastBlock := (file.offset + lastOffset) % U64 / toU64 tor.blockSize
        let lastBlockOffset := (file.offset + lastOffset) % U64 % toU64 tor.blockSize
        if firstBlock = lastBlock then
          if tr_cpBlockIsComplete cp (toInt32 firstBlock) then
            some ((lastBlockOffset + 1 + U64 - firstBlockOffset) % U64)
          else some 0
        else
          let haveBytes :=
            if tr_cpBlockIsComplete cp (toInt32 firstBlock) then
              (toU64 tor.blockSize + U64 - firstBlockOffset) % U64
            else 0
          let haveBytes :=
            fileBytesLoop cp (toU64 tor.blockSize) (lastBlock - (firstBlock + 1)) (firstBlock + 1)
              haveBytes
          if tr_cpBlockIsComplete cp (toInt32 lastBlock) then
            some ((haveBytes + lastBlockOffset + 1) % U64)
          else some haveBytes

/-- In the words of the claim: of the `n` bytes from offset `o` on, the number
that lie in a block Completion reports complete, for blocks of `B` bytes. -/
def bytesInCompleteBlocks (cp : BlockCompletion) (B o n : Nat) : Nat :=
  (List.range n).countP (fun j => tr_cpBlockIsComplete cp (((o + j) / B : Nat) : Int))

/-- The torrent of scenario S2 with an empty file `z` between `a` and `b`, the
offsets of the files being set; its blocks have 16 bytes. -/
def emptyFileTor : tr_torrent :=
  { s2Tor with
    info :=
      { s2Info with
        files := [{ name := "a", length := 10 }, { name := "z", length := 0, offset := 10 },
          { name := "b", length := 22, offset := 10 }] } }

/-- Completion with block 0 complete and no other. -/
def firstBlockComplete : BlockCompletion :=
  { complete := fun b => decide (b = 0) }

/-- In the words of the claim: the file has at least one byte in piece `p`,
for pieces of `pieceSize` bytes. -/
def hasByteInPiece (pieceSize : Nat) (f : tr_file_t) (p : Nat) : Bool :=
  (List.range f.length).any (fun j => decide ((f.offset + j) / pieceSize = p))

/-- In the words of the claim: piece `p` is a piece of the array, and its flag
`dnd` is set if and only if every file that has at least one byte in the piece
is marked do-not-download. -/
def dndConsistent (info : tr_info_t) (p : Nat) : Prop :=
  ∃ pc, info.pieces[p]? = some pc ∧
    (pc.dnd = true ↔
      ∀ f ∈ info.files, hasByteInPiece info.pieceSize f p = true → f.dnd = true)

/-- The torrents that calls of `tr_torrentSetFileDL` lead to from `tor`. -/
inductive DLReachable (tor : tr_torrent) : tr_torrent → Prop where
  | start : DLReachable tor tor
  | call (t t' : tr_torrent) (fileIndex doDownload : Int) :
      DLReachable tor t → tr_torrentSetFileDL t fileIndex doDownload = some t' →
      DLReachable tor t'

/-- The files are laid out as `tr_torrentInitFilePieces` leaves them when no
quantity wraps and no file is empty: a file starts where the files before it
end, its first and last piece are the pieces of its first and last byte, and
these are pieces of the array. -/
def FilesLaidOut (info : tr_info_t) : Prop :=
  ∀ (k : Nat) (f : tr_file_t), info.files[k]? = some f →
    0 < f.length ∧ f.offset = bytesBefore info.files k ∧
    f.firstPiece = ((f.offset / info.pieceSize : Nat) : Int) ∧
    f.lastPiece = (((f.offset + f.length - 1) / info.pieceSize : Nat) : Int) ∧
    (f.offset + f.length - 1) / info.pieceSize < info.pieces.length

/-- The torrent `emptyFileTor`, whose empty file `z` lies between `a` and `b`,
after `tr_torrentInitFilePieces`. -/
def emptyFileReady : tr_torrent :=
  (tr_torrentInitFilePieces emptyFileTor).getD emptyFileTor

/-- The torrent of scenario S2 after `tr_torrentInitFilePieces`. -/
def s2Ready : tr_torrent :=
  (tr_torrentInitFilePieces s2Tor).getD s2Tor

/-- A second metainfo: the files of scenario S2 under another info hash and
another name. -/
def otherInfo : tr_info_t :=
  { s2Info with hash := List.replicate 20 8, name := "other" }

/-- A metainfo parser that reads the metainfo of `listedTor` from the path
`s2.torrent` and `otherInfo` from every other path, with an allocator that
succeeds. -/
def twoFileEnv : InitEnv :=
  { tr_metainfoParseFile := fun path =>
      if path = "s2.torrent" then (TR_OK, listedTor.info) else (TR_OK, otherInfo)
    allocates := true }

/-- A handle without torrents. -/
def noHandle : tr_handle :=
  { torrentList := [], torrentCount := 0 }

/-! ## Lemmas on file offsets -/

theorem bytesBefore_zero (files : List tr_file_t) : bytesBefore files 0 = 0 := by
  simp [bytesBefore]

theorem bytesBefore_cons_succ (f : tr_file_t) (rest : List tr_file_t) (i : Nat) :
    bytesBefore (f :: rest) (i + 1) = f.length + bytesBefore rest i := by
  simp [bytesBefore]

theorem bytesBefore_succ (files : List tr_file_t) (i : Nat) (h : i < files.length) :
    bytesBefore files (i + 1) = bytesBefore files i + (files.get ⟨i, h⟩).length := by
  induction files generalizing i with
  | nil => simp at h
  | cons f rest ih =>
    cases i with
    | zero => simp [bytesBefore]
    | succ j =>
      have hj : j < rest.length := by simpa using h
      rw [bytesBefore_cons_succ, bytesBefore_cons_succ, ih j hj]
      simp [Nat.add_assoc]

theorem bytesBefore_mono (files : List tr_file_t) {i j : Nat} (hij : i ≤ j) :
    bytesBefore files i ≤ bytesBefore files j := by
  induction files generalizing i j with
  | nil => simp [bytesBefore]
  | cons f rest ih =>
    cases i with
    | zero => simp [bytesBefore]
    | succ i' =>
      cases j with
      | zero => omega
      | succ j' =>
        rw [bytesBefore_cons_succ, bytesBefore_cons_succ]
        have := ih (i := i') (j := j') (by omega)
        omega

theorem bytesBefore_le_filesLength (files : List tr_file_t) (i : Nat) :
    bytesBefore files i ≤ filesLength files := by
  induction files generalizing i with
  | nil => simp [bytesBefore, filesLength]
  | cons f rest ih =>
    cases i with
    | zero => simp [bytesBefore]
    | succ j =>
      rw [bytesBefore_cons_succ]
      have := ih j
      simp [filesLength] at this ⊢
      exact this

theorem bytesBefore_succ_le_filesLength (files : List tr_file_t) (i : Nat)
    (h : i < files.length) :
    bytesBefore files i + (files.get ⟨i, h⟩).length ≤ filesLength files := by
  rw [← bytesBefore_succ files i h]
  exact bytesBefore_le_filesLength files (i + 1)

/-- A position is described by at most one `(file, offset)` pair. -/
theorem location_unique (files : List tr_file_t) (i j a b : Nat)
    (hi : i < files.length) (hj : j < files.length)
    (ha : a < (files.get ⟨i, hi⟩).length) (hb : b < (files.get ⟨j, hj⟩).length)
    (h : bytesBefore files i + a = bytesBefore files j + b) : i = j ∧ a = b := by
  have key : i = j := by
    rcases Nat.lt_trichotomy i j with hlt | heq | hgt
    · have h1 := bytesBefore_mono files (i := i + 1) (j := j) hlt
      rw [bytesBefore_succ files i hi] at h1
      omega
    · exact heq
    · have h1 := bytesBefore_mono files (i := j + 1) (j := i) hgt
      rw [bytesBefore_succ files j hj] at h1
      omega
  subst key
  exact ⟨rfl, by omega⟩

/-- The scan started at index `i` on the files from `i` on finds the file
holding `pos` whenever `pos` is smaller than their total length. -/
theorem findFileLoop_spec (files : List tr_file_t) (i pos : Nat)
    (h : pos < filesLength files) :
    ∃ j off, findFileLoop files i pos = some (i + j, off) ∧
      ∃ hj : j < files.length, off < (files.get ⟨j, hj⟩).length ∧
        bytesBefore files j + off = pos := by
  induction files generalizing i pos with
  | nil => simp [filesLength] at h
  | cons f rest ih =>
    by_cases hle : f.length ≤ pos
    · have h' : pos - f.length < filesLength rest := by
        simp [filesLength] at h ⊢
        omega
      obtain ⟨j, off, hres, hj, hoff, hsum⟩ := ih (i + 1) (pos - f.length) h'
      refine ⟨j + 1, off, ?_, by simpa using hj, ?_, ?_⟩
      · simp [findFileLoop, hle, hres]
        omega
      · simpa using hoff
      · rw [bytesBefore_cons_succ]
        omega
    · refine ⟨0, pos, ?_, by simp, ?_, ?_⟩
      · simp [findFileLoop, hle]
      · simp
        omega
      · simp [bytesBefore]

/-- Specification of `findFileLocation` in terms of byte positions. -/
theorem findFileLocation_pos (info : tr_info_t) (p o : Nat)
    (hsum : filesLength info.files = info.totalSize)
    (hT : info.totalSize < U64)
    (hpos : p * info.pieceSize + o < info.totalSize) :
    ∃ i off, findFileLocation info p o = some (i, off) ∧
      ∃ hi : i < info.files.length, off < (info.files.get ⟨i, hi⟩).length ∧
        bytesBefore info.files i + off = p * info.pieceSize + o := by
  have hmod : (p * info.pieceSize + o) % U64 = p * info.pieceSize + o :=
    Nat.mod_eq_of_lt (by omega)
  obtain ⟨j, off, hres, hj, hoff, hb⟩ :=
    findFileLoop_spec info.files 0 (p * info.pieceSize + o) (by omega)
  refine ⟨j, off, ?_, hj, hoff, hb⟩
  simp [findFileLocation, hmod, hres]

theorem sub_mod_U64 (len fo : Nat) (h1 : fo ≤ len) (h2 : len < U64) :
    (len + U64 - fo) % U64 = len - fo := by
  have : len + U64 - fo = (len - fo) + U64 := by omega
  rw [this, Nat.add_mod_right]
  exact Nat.mod_eq_of_lt (by omega)

/-- What `ensureMinimumFileSize` may change: nothing but the length of its file,
which does not shrink, and the bytes past its old end. -/
theorem ensureMinimumFileSize_spec (f : tr_file_t) (k : Nat) (d : Disk) :
    (ensureMinimumFileSize f k d).2.fault = d.fault ∧
    (ensureMinimumFileSize f k d).2.trace = d.trace ∧
    (∀ nm, nm ≠ f.name → (ensureMinimumFileSize f k d).2.size nm = d.size nm ∧
      ∀ x, (ensureMinimumFileSize f k d).2.content nm x = d.content nm x) ∧
    d.size f.name ≤ (ensureMinimumFileSize f k d).2.size f.name ∧
    (∀ x, x < d.size f.name →
      (ensureMinimumFileSize f k d).2.content f.name x = d.content f.name x) ∧
    ((ensureMinimumFileSize f k d).1 = 0 →
      (ensureMinimumFileSize f k d).2.size f.name = max (d.size f.name) k) := by
  unfold ensureMinimumFileSize
  split_ifs with h1 h2 h3 h4
  · simp
    intro h; omega
  · simp
    intro h; exact absurd h h2
  · simp [TR_OK]
    omega
  · simp [TR_OK, Disk.grow]
    refine ⟨?_, ?_, ?_, ?_⟩
    · intro nm hnm
      simp [hnm]
    · omega
    · intro x hx
      omega
    · omega
  · simp
    intro h; exact absurd h h4

/-- What `readOrWriteBytes` may change in write mode. -/
theorem readOrWriteBytes_write_spec (f : tr_file_t) (fo : Nat) (buf : List Nat) (m : Nat)
    (d : Disk) :
    (readOrWriteBytes IoMode.TR_IO_WRITE f fo buf m d).2.1.fault = d.fault ∧
    (readOrWriteBytes IoMode.TR_IO_WRITE f fo buf m d).2.1.trace = d.trace ∧
    (readOrWriteBytes IoMode.TR_IO_WRITE f fo buf m d).2.2 = [] ∧
    (∀ nm, nm ≠ f.name →
      (readOrWriteBytes IoMode.TR_IO_WRITE f fo buf m d).2.1.size nm = d.size nm ∧
      ∀ x, (readOrWriteBytes IoMode.TR_IO_WRITE f fo buf m d).2.1.content nm x
        = d.content nm x) ∧
    d.size f.name ≤ (readOrWriteBytes IoMode.TR_IO_WRITE f fo buf m d).2.1.size f.name ∧
    (∀ x, x < d.size f.name → ¬ (fo ≤ x ∧ x < fo + m) →
      (readOrWriteBytes IoMode.TR_IO_WRITE f fo buf m d).2.1.content f.name x
        = d.content f.name x) ∧
    ((readOrWriteBytes IoMode.TR_IO_WRITE f fo buf m d).1 = 0 → f.length ≠ 0 →
      (readOrWriteBytes IoMode.TR_IO_WRITE f fo buf m d).2.1.size f.name
        = max (d.size f.name) (fo + m) ∧
      ∀ x, fo ≤ x → x < fo + m →
        (readOrWriteBytes IoMode.TR_IO_WRITE f fo buf m d).2.1.content f.name x
          = buf.getD (x - fo) 0) ∧
    (f.length = 0 → readOrWriteBytes IoMode.TR_IO_WRITE f fo buf m d = (0, d, [])) := by
  simp only [readOrWriteBytes]
  split_ifs with h0 h1 h2 h3
  · simp [h0]
  · simp [h0]
    intro h; omega
  · simp [h0, TR_ERROR_IO_OTHER]
  · simp [h0]
    intro h; exact absurd h h3
  · simp [h0, TR_OK, Disk.pwrite]
    refine ⟨?_, ?_, ?_⟩
    · intro nm hnm
      simp [hnm]
    · intro x hx hnot
      have : ¬ (fo ≤ x ∧ x < fo + m) := by omega
      simp [this]
      omega
    · intro x h1 h2
      simp [h1, h2]




/-- One pass of the write loop on file `f`: what it may change and what it records. -/
theorem writePass_spec (f : tr_file_t) (idx fo : Nat) (buf : List Nat) (m : Nat) (d : Disk)
    (hm : fo + m ≤ f.length) (hU : f.length < U64) :
    (readOrWritePass IoMode.TR_IO_WRITE f idx fo buf m 0 d).2.1.fault = d.fault ∧
    (readOrWritePass IoMode.TR_IO_WRITE f idx fo buf m 0 d).2.2 = [] ∧
    (∀ nm, nm ≠ f.name →
      (readOrWritePass IoMode.TR_IO_WRITE f idx fo buf m 0 d).2.1.size nm = d.size nm ∧
      ∀ x, (readOrWritePass IoMode.TR_IO_WRITE f idx fo buf m 0 d).2.1.content nm x
        = d.content nm x) ∧
    d.size f.name ≤ (readOrWritePass IoMode.TR_IO_WRITE f idx fo buf m 0 d).2.1.size f.name ∧
    (∀ x, x < d.size f.name → ¬ (fo ≤ x ∧ x < fo + m) →
      (readOrWritePass IoMode.TR_IO_WRITE f idx fo buf m 0 d).2.1.content f.name x
        = d.content f.name x) ∧
    ((readOrWritePass IoMode.TR_IO_WRITE f idx fo buf m 0 d).1 = 0 →
      (readOrWritePass IoMode.TR_IO_WRITE f idx fo buf m 0 d).2.1.size f.name
        = max (d.size f.name) (fo + m) ∧
      ∀ x, fo ≤ x → x < fo + m →
        (readOrWritePass IoMode.TR_IO_WRITE f idx fo buf m 0 d).2.1.content f.name x
          = buf.getD (x - fo) 0) ∧
    (∃ t, (readOrWritePass IoMode.TR_IO_WRITE f idx fo buf m 0 d).2.1.trace = d.trace ++ t ∧
      (∀ c ∈ t, c.fileIndex = idx) ∧
      ((readOrWritePass IoMode.TR_IO_WRITE f idx fo buf m 0 d).1 = 0 → ∀ c ∈ t, c.ret = 0) ∧
      ((readOrWritePass IoMode.TR_IO_WRITE f idx fo buf m 0 d).1 ≠ 0 →
        FailsLast t (readOrWritePass IoMode.TR_IO_WRITE f idx fo buf m 0 d).1)) := by
  have hmod : (fo + m) % U64 = fo + m := Nat.mod_eq_of_lt (by omega)
  obtain ⟨e1, e2, e3, e4, e5, e6⟩ := ensureMinimumFileSize_spec f (fo + m) d
  simp only [readOrWritePass, hmod, if_true]
  by_cases he : (ensureMinimumFileSize f (fo + m) d).1 = 0
  · obtain ⟨w1, w2, w3, w4, w5, w6, w7, w8⟩ := readOrWriteBytes_write_spec f fo buf m
      ((ensureMinimumFileSize f (fo + m) d).2.log ⟨SubOp.ensureMinimumFileSize, idx, 0⟩)
    simp only [he, if_true]
    simp only [Disk.log] at w1 w2 w3 w4 w5 w6 w7 w8 ⊢
    refine ⟨by rw [w1, e1], w3, ?_, ?_, ?_, ?_, ?_⟩
    · intro nm hnm
      obtain ⟨a1, a2⟩ := w4 nm hnm
      obtain ⟨b1, b2⟩ := e3 nm hnm
      exact ⟨by rw [a1, b1], fun x => by rw [a2, b2]⟩
    · exact Nat.le_trans e4 w5
    · intro x hx hnot
      rw [w6 x (by omega) hnot, e5 x hx]
    · intro hr
      by_cases h0 : f.length = 0
      · have hm0 : m = 0 := by omega
        have hfo0 : fo = 0 := by omega
        have := w8 h0
        rw [this]
        simp only
        refine ⟨?_, ?_⟩
        · rw [e6 he]
        · intro x h1 h2
          omega
      · obtain ⟨s1, s2⟩ := w7 hr h0
        refine ⟨?_, s2⟩
        rw [s1, e6 he]
        omega
    · refine ⟨[⟨SubOp.ensureMinimumFileSize, idx, 0⟩,
        ⟨SubOp.readOrWriteBytes, idx, (readOrWriteBytes IoMode.TR_IO_WRITE f fo buf m
          { size := (ensureMinimumFileSize f (fo + m) d).2.size,
            content := (ensureMinimumFileSize f (fo + m) d).2.content,
            fault := (ensureMinimumFileSize f (fo + m) d).2.fault,
            trace := (ensureMinimumFileSize f (fo + m) d).2.trace ++
              [⟨SubOp.ensureMinimumFileSize, idx, 0⟩] }).1⟩], ?_, ?_, ?_, ?_⟩
      · rw [w2, e2]
        simp
      · intro c hc
        simp at hc
        rcases hc with hc | hc <;> simp [hc]
      · intro hr c hc
        simp at hc
        rcases hc with hc | hc
        · simp [hc]
        · rw [hc]; exact hr
      · intro hr
        exact ⟨[⟨SubOp.ensureMinimumFileSize, idx, 0⟩], _, rfl, rfl, by simp⟩
  · simp only [he, if_false]
    simp only [Disk.log]
    refine ⟨e1, trivial, e3, e4, ?_, ?_, ?_⟩
    · intro x hx _
      exact e5 x hx
    · intro h; exact absurd h (by simp)
    · refine ⟨[⟨SubOp.ensureMinimumFileSize, idx, (ensureMinimumFileSize f (fo + m) d).1⟩],
        by rw [e2], ?_, ?_, ?_⟩
      · intro c hc
        simp at hc
        simp [hc]
      · intro h; exact absurd h (by simp)
      · intro _
        exact ⟨[], _, rfl, rfl, by simp⟩


theorem filesLength_cons (f : tr_file_t) (rest : List tr_file_t) :
    filesLength (f :: rest) = f.length + filesLength rest := by
  simp [filesLength]

theorem readOrWriteLoop_stop (ioMode : IoMode) (fs : List tr_file_t) (idx fo : Nat)
    (buf : List Nat) (n : Nat) (ret : Int) (d : Disk) (out : List Nat)
    (h : n = 0 ∨ ret ≠ 0) :
    readOrWriteLoop ioMode fs idx fo buf n ret d out = some (ret, d, out) := by
  cases fs with
  | nil =>
    rcases h with h | h <;> simp [readOrWriteLoop, h]
  | cons f rest =>
    rcases h with h | h <;> simp [readOrWriteLoop, h]

theorem readOrWriteLoop_cons (ioMode : IoMode) (f : tr_file_t) (rest : List tr_file_t)
    (idx fo : Nat) (buf : List Nat) (n : Nat) (d : Disk) (out : List Nat)
    (hn : n ≠ 0) (hfo : fo ≤ f.length) (hU : f.length < U64) :
    readOrWriteLoop ioMode (f :: rest) idx fo buf n 0 d out =
      readOrWriteLoop ioMode rest (idx + 1) 0 (buf.drop (min n (f.length - fo)))
        (n - min n (f.length - fo))
        (readOrWritePass ioMode f idx fo buf (min n (f.length - fo)) 0 d).1
        (readOrWritePass ioMode f idx fo buf (min n (f.length - fo)) 0 d).2.1
        (out ++ (readOrWritePass ioMode f idx fo buf (min n (f.length - fo)) 0 d).2.2) := by
  simp [readOrWriteLoop, hn, sub_mod_U64 f.length fo hfo hU]

/-- With no failing system call a pass of the write loop returns 0. -/
theorem writePass_ok (f : tr_file_t) (idx fo : Nat) (buf : List Nat) (m : Nat) (d : Disk)
    (hok : ∀ c nm, d.fault c nm = 0) :
    (readOrWritePass IoMode.TR_IO_WRITE f idx fo buf m 0 d).1 = 0 := by
  have he : (ensureMinimumFileSize f ((fo + m) % U64) d).1 = 0 := by
    simp [ensureMinimumFileSize, tr_fdFileOpen, hok, TR_OK]
    split_ifs <;> rfl
  have hf : (ensureMinimumFileSize f ((fo + m) % U64) d).2.fault = d.fault :=
    (ensureMinimumFileSize_spec f _ d).1
  simp only [readOrWritePass, if_true, he]
  simp only [readOrWriteBytes, tr_fdFileOpen, Disk.log, hf, hok]
  split_ifs <;> simp_all [TR_OK]

/-- The write loop on the files `fs`, entered at offset `fo` of the first one
with `n` bytes to write: it returns, and the facts below describe the disk and
the record it leaves, whatever system calls fail. -/
theorem writeLoop_spec (fs : List tr_file_t) :
    ∀ (idx fo : Nat) (buf : List Nat) (n : Nat) (d : Disk) (out : List Nat),
      (∀ f, fs.head? = some f → fo ≤ f.length) → fo + n ≤ filesLength fs →
      filesLength fs < U64 → (fs.map tr_file_t.name).Nodup →
      ∃ ret d' new,
        readOrWriteLoop IoMode.TR_IO_WRITE fs idx fo buf n 0 d out = some (ret, d', out) ∧
        d'.fault = d.fault ∧
        d'.trace = d.trace ++ new ∧
        (∀ nm, nm ∉ fs.map tr_file_t.name →
          d'.size nm = d.size nm ∧ ∀ x, d'.content nm x = d.content nm x) ∧
        (∀ nm, d.size nm ≤ d'.size nm) ∧
        (∀ j g x, fs[j]? = some g → x < d.size g.name →
          ¬ (x < g.length ∧ fo ≤ bytesBefore fs j + x ∧ bytesBefore fs j + x < fo + n) →
          d'.content g.name x = d.content g.name x) ∧
        (∀ c ∈ new, idx ≤ c.fileIndex) ∧
        (ret = 0 → ∀ c ∈ new, c.ret = 0) ∧
        (ret ≠ 0 → FailsLast new ret) ∧
        (∀ j g x, fs[j]? = some g → x < g.length → fo ≤ bytesBefore fs j + x →
          bytesBefore fs j + x < fo + n →
          (∀ c ∈ new, c.ret ≠ 0 → idx + j < c.fileIndex) →
          d'.content g.name x = buf.getD (bytesBefore fs j + x - fo) 0 ∧
            x < d'.size g.name) ∧
        (ret = 0 → ∀ j g, fs[j]? = some g →
          d'.size g.name = max (d.size g.name)
            (if n = 0 then 0 else min g.length (fo + n - bytesBefore fs j))) ∧
        ((∀ c nm, d.fault c nm = 0) → ret = 0) := by
  induction fs with
  | nil =>
    intro idx fo buf n d out _ hfit _ _
    have hn : n = 0 := by simp [filesLength] at hfit; omega
    refine ⟨0, d, [], readOrWriteLoop_stop _ _ _ _ _ _ _ _ _ (Or.inl hn), rfl, by simp,
      fun nm _ => ⟨rfl, fun _ => rfl⟩, fun _ => Nat.le_refl _, ?_, by simp, by simp,
      by simp, ?_, ?_, fun _ => rfl⟩
    · intro j g x hg; simp at hg
    · intro j g x hg; simp at hg
    · intro _ j g hg; simp at hg
  | cons f rest ih =>
    intro idx fo buf n d out hfo hfit hU hnd
    have hfo' : fo ≤ f.length := hfo f (by simp)
    rw [filesLength_cons] at hfit hU
    have hflen : f.length < U64 := by omega
    have hnd' : (rest.map tr_file_t.name).Nodup := by
      simp only [List.map_cons, List.nodup_cons] at hnd; exact hnd.2
    have hfnot : f.name ∉ rest.map tr_file_t.name := by
      simp only [List.map_cons, List.nodup_cons] at hnd; exact hnd.1
    have hrest_ne : ∀ (j : Nat) (g : tr_file_t), rest[j]? = some g → g.name ≠ f.name := by
      intro j g hg hname
      apply hfnot
      rw [← hname]
      exact List.mem_map_of_mem _ (List.getElem?_mem hg)
    by_cases hn : n = 0
    · refine ⟨0, d, [], readOrWriteLoop_stop _ _ _ _ _ _ _ _ _ (Or.inl hn), rfl, by simp,
        fun nm _ => ⟨rfl, fun _ => rfl⟩, fun _ => Nat.le_refl _, ?_, by simp, by simp,
        by simp, ?_, ?_, fun _ => rfl⟩
      · intro j g x _ _ _; rfl
      · intro j g x _ _ h1 h2; omega
      · intro _ j g _; simp [hn]
    · obtain ⟨n1, hn1⟩ : ∃ n1, n1 = min n (f.length - fo) := ⟨_, rfl⟩
      have hn1le : fo + n1 ≤ f.length := by omega
      obtain ⟨p1, p2, p3, p4, p5, p6, t1, p7, p8, p9, p10⟩ :=
        writePass_spec f idx fo buf n1 d hn1le hflen
      have hstep := readOrWriteLoop_cons IoMode.TR_IO_WRITE f rest idx fo buf n d out hn hfo' hflen
      rw [← hn1, p2, List.append_nil] at hstep
      obtain ⟨r, hr⟩ : ∃ r, r = readOrWritePass IoMode.TR_IO_WRITE f idx fo buf n1 0 d := ⟨_, rfl⟩
      rw [← hr] at p1 p3 p4 p5 p6 p7 p9 p10 hstep
      by_cases hr0 : r.1 = 0
      · -- the pass succeeded: the loop goes on with the next file
        have hfit' : 0 + (n - n1) ≤ filesLength rest := by omega
        obtain ⟨ret, d', new, i1, i2, i3, i4, i5, i6, i7, i8, i9, i10, i11, i12⟩ :=
          ih (idx + 1) 0 (buf.drop n1) (n - n1) r.2.1 out (fun g _ => Nat.zero_le _) hfit'
            (by omega) hnd'
        rw [hr0] at hstep
        obtain ⟨q1, q2⟩ := p6 hr0
        have ht1ok := p9 hr0
        refine ⟨ret, d', t1 ++ new, by rw [hstep, i1], by rw [i2, p1],
          by rw [i3, p7, List.append_assoc], ?_, ?_, ?_, ?_, ?_, ?_, ?_, ?_,
          fun hok => i12 (by rw [p1]; exact hok)⟩
        · intro nm hnm
          simp only [List.map_cons, List.mem_cons, not_or] at hnm
          obtain ⟨a1, a2⟩ := i4 nm hnm.2
          obtain ⟨b1, b2⟩ := p3 nm hnm.1
          exact ⟨by rw [a1, b1], fun x => by rw [a2, b2]⟩
        · intro nm
          refine Nat.le_trans ?_ (i5 nm)
          by_cases hnm : nm = f.name
          · rw [hnm]; exact p4
          · rw [(p3 nm hnm).1]
        · intro j g x hg hx hnot
          rcases j with _ | j
          · simp only [List.getElem?_cons_zero, Option.some.injEq] at hg
            subst hg
            rw [(i4 f.name hfnot).2 x]
            apply p5 x hx
            intro hcon
            apply hnot
            simp only [bytesBefore_zero]
            omega
          · simp only [List.getElem?_cons_succ] at hg
            have hne := hrest_ne j g hg
            obtain ⟨b1, b2⟩ := p3 g.name hne
            rw [← b2 x]
            apply i6 j g x hg (by rw [b1]; exact hx)
            intro hcon
            apply hnot
            rw [bytesBefore_cons_succ]
            omega
        · intro c hc
          rcases List.mem_append.1 hc with hc | hc
          · rw [p8 c hc]
          · have := i7 c hc; omega
        · intro hret c hc
          rcases List.mem_append.1 hc with hc | hc
          · exact ht1ok c hc
          · exact i8 hret c hc
        · intro hret
          obtain ⟨pre, last, e1, e2, e3⟩ := i9 hret
          refine ⟨t1 ++ pre, last, by rw [e1, List.append_assoc], e2, ?_⟩
          intro c hc
          rcases List.mem_append.1 hc with hc | hc
          · refine ⟨ht1ok c hc, ?_⟩
            have := i7 last (by rw [e1]; simp)
            rw [p8 c hc]; omega
          · exact e3 c hc
        · intro j g x hg hx h1 h2 hok
          rcases j with _ | j
          · simp only [List.getElem?_cons_zero, Option.some.injEq] at hg
            subst hg
            simp only [bytesBefore_zero, Nat.zero_add] at h1 h2 ⊢
            obtain ⟨a1, a2⟩ := i4 f.name hfnot
            rw [a2 x, a1, q1]
            exact ⟨q2 x h1 (by omega), by omega⟩
          · simp only [List.getElem?_cons_succ] at hg
            rw [bytesBefore_cons_succ] at h1 h2 ⊢
            have hlt : n1 < n := by omega
            have hn1eq : n1 = f.length - fo := by omega
            obtain ⟨c1, c2⟩ := i10 j g x hg hx (Nat.zero_le _) (by omega)
              (fun c hc hne => by
                have := hok c (List.mem_append.2 (Or.inr hc)) hne
                omega)
            refine ⟨?_, c2⟩
            rw [c1, List.getD_eq_getElem?_getD, List.getD_eq_getElem?_getD, List.getElem?_drop]
            congr 2
            omega
        · intro hret j g hg
          rcases j with _ | j
          · simp only [List.getElem?_cons_zero, Option.some.injEq] at hg
            subst hg
            simp only [bytesBefore_zero, hn, if_false]
            rw [(i4 f.name hfnot).1, q1]
            congr 1
            omega
          · simp only [List.getElem?_cons_succ] at hg
            rw [bytesBefore_cons_succ]
            rw [i11 hret j g hg, (p3 g.name (hrest_ne j g hg)).1]
            congr 1
            simp only [hn, if_false]
            split_ifs with h0
            · omega
            · omega
      · -- the pass failed: the loop stops
        have hstop := readOrWriteLoop_stop IoMode.TR_IO_WRITE rest (idx + 1) 0 (buf.drop n1)
          (n - n1) r.1 r.2.1 out (Or.inr hr0)
        obtain ⟨pre, last, e1, e2, e3⟩ := p10 hr0
        have hlast : last.fileIndex = idx := p8 last (by rw [e1]; simp)
        refine ⟨r.1, r.2.1, t1, by rw [hstep, hstop], p1, p7, ?_, ?_, ?_, ?_, ?_, ?_, ?_, ?_,
          fun hok => by rw [hr]; exact writePass_ok f idx fo buf n1 d hok⟩
        · intro nm hnm
          simp only [List.map_cons, List.mem_cons, not_or] at hnm
          exact p3 nm hnm.1
        · intro nm
          by_cases hnm : nm = f.name
          · rw [hnm]; exact p4
          · rw [(p3 nm hnm).1]
        · intro j g x hg hx hnot
          rcases j with _ | j
          · simp only [List.getElem?_cons_zero, Option.some.injEq] at hg
            subst hg
            apply p5 x hx
            intro hcon
            apply hnot
            simp only [bytesBefore_zero]
            omega
          · simp only [List.getElem?_cons_succ] at hg
            exact (p3 g.name (hrest_ne j g hg)).2 x
        · intro c hc
          rw [p8 c hc]
        · intro h; exact absurd h hr0
        · intro _
          refine ⟨pre, last, e1, e2, ?_⟩
          intro c hc
          exact e3 c hc
        · intro j g x hg hx h1 h2 hok
          exfalso
          have := hok last (by rw [e1]; simp) (by rw [e2]; exact hr0)
          omega
        · intro h; exact absurd h hr0

theorem bytesBefore_add_filesLength_drop (files : List tr_file_t) (i : Nat) :
    bytesBefore files i + filesLength (files.drop i) = filesLength files := by
  unfold bytesBefore filesLength
  rw [← List.sum_append, ← List.map_append, List.take_append_drop]

theorem bytesBefore_drop (files : List tr_file_t) (i j : Nat) :
    bytesBefore files i + bytesBefore (files.drop i) j = bytesBefore files (i + j) := by
  unfold bytesBefore
  rw [← List.sum_append, ← List.map_append, List.take_add]

theorem name_not_mem_drop (files : List tr_file_t) (i j : Nat) (g : tr_file_t)
    (hnd : (files.map tr_file_t.name).Nodup) (hg : files[j]? = some g) (hj : j < i) :
    g.name ∉ (files.drop i).map tr_file_t.name := by
  intro hmem
  rw [← List.take_append_drop i files, List.map_append] at hnd
  have hdisj := (List.nodup_append.1 hnd).2.2
  apply hdisj (a := g.name) ?_ hmem
  apply List.mem_map_of_mem
  apply List.getElem?_mem (n := j)
  rw [List.getElem?_take]
  simp [hj, hg]

/-- A write through `readOrWritePiece`, whatever system calls fail: it returns,
and the facts below describe the disk and the record it leaves. Positions are
counted from the start of the torrent: `pos = p * pieceSize + o`. -/
theorem writePiece_spec (info : tr_info_t) (p o len : Nat) (buf : List Nat) (d : Disk)
    (hsum : filesLength info.files = info.totalSize) (hT : info.totalSize < U64)
    (hpos : p * info.pieceSize + o < info.totalSize)
    (hfit : p * info.pieceSize + o + len ≤ info.totalSize)
    (hnd : (info.files.map tr_file_t.name).Nodup) :
    ∃ ret d' new,
      readOrWritePiece info IoMode.TR_IO_WRITE p o buf len d = some (ret, d', []) ∧
      d'.fault = d.fault ∧ d'.trace = d.trace ++ new ∧
      (∀ nm, d.size nm ≤ d'.size nm) ∧
      (∀ nm x, x < d.size nm →
        (∀ (i : Nat) (g : tr_file_t), info.files[i]? = some g → g.name = nm →
          ¬ (x < g.length ∧ p * info.pieceSize + o ≤ bytesBefore info.files i + x ∧
            bytesBefore info.files i + x < p * info.pieceSize + o + len)) →
        d'.content nm x = d.content nm x) ∧
      (ret = 0 → ∀ c ∈ new, c.ret = 0) ∧
      (ret ≠ 0 → FailsLast new ret) ∧
      (∀ (i : Nat) (g : tr_file_t) (x : Nat), info.files[i]? = some g → x < g.length →
        p * info.pieceSize + o ≤ bytesBefore info.files i + x →
        bytesBefore info.files i + x < p * info.pieceSize + o + len →
        (∀ c ∈ new, c.ret ≠ 0 → i < c.fileIndex) →
        d'.content g.name x = buf.getD (bytesBefore info.files i + x - (p * info.pieceSize + o)) 0 ∧
          x < d'.size g.name) ∧
      (ret = 0 → ∀ (i : Nat) (g : tr_file_t), info.files[i]? = some g →
        d'.size g.name = max (d.size g.name)
          (if len = 0 ∨ bytesBefore info.files i + g.length ≤ p * info.pieceSize + o then 0
            else min g.length (p * info.pieceSize + o + len - bytesBefore info.files i))) ∧
      ((∀ c nm, d.fault c nm = 0) → ret = 0) := by
  obtain ⟨i0, fo, hloc, hi0, hfo, hB⟩ := findFileLocation_pos info p o hsum hT hpos
  obtain ⟨pos, hposdef⟩ : ∃ pos, pos = p * info.pieceSize + o := ⟨_, rfl⟩
  rw [← hposdef] at hB hpos hfit ⊢
  have hsplit := bytesBefore_add_filesLength_drop info.files i0
  have hhead : ∀ f, (info.files.drop i0).head? = some f → fo ≤ f.length := by
    intro f hf
    rw [List.head?_drop, List.getElem?_eq_getElem hi0] at hf
    simp only [Option.some.injEq] at hf
    rw [← hf]
    exact Nat.le_of_lt hfo
  have hnd' : ((info.files.drop i0).map tr_file_t.name).Nodup := by
    rw [List.map_drop]
    exact List.Nodup.sublist (List.drop_sublist _ _) hnd
  obtain ⟨ret, d', new, l1, l2, l3, l4, l5, l6, l7, l8, l9, l10, l11, l12⟩ :=
    writeLoop_spec (info.files.drop i0) i0 fo buf len d [] hhead (by omega) (by omega) hnd'
  have hsucc : bytesBefore info.files i0 + (info.files.get ⟨i0, hi0⟩).length
      = bytesBefore info.files (i0 + 1) := (bytesBefore_succ info.files i0 hi0).symm
  -- a file before the first one touched ends at or before `pos`
  have hbefore : ∀ (i : Nat) (g : tr_file_t), info.files[i]? = some g → i < i0 →
      bytesBefore info.files i + g.length ≤ pos := by
    intro i g hg hlt
    have hi : i < info.files.length := by omega
    have hgg : info.files.get ⟨i, hi⟩ = g := by
      rw [List.getElem?_eq_getElem hi] at hg
      simpa using hg
    have h1 := bytesBefore_succ info.files i hi
    have h2 := bytesBefore_mono info.files (i := i + 1) (j := i0) hlt
    rw [hgg] at h1
    omega
  refine ⟨ret, d', new, ?_, l2, l3, l5, ?_, l8, l9, ?_, ?_, l12⟩
  · simp only [readOrWritePiece, hloc]
    exact l1
  · intro nm x hx hnot
    by_cases hmem : nm ∈ (info.files.drop i0).map tr_file_t.name
    · obtain ⟨g, hg, hgn⟩ := List.mem_map.1 hmem
      obtain ⟨j, hj⟩ := List.getElem?_of_mem hg
      subst hgn
      apply l6 j g x hj hx
      intro hcon
      have hj' := hj
      rw [List.getElem?_drop] at hj'
      apply hnot (i0 + j) g hj' rfl
      have := bytesBefore_drop info.files i0 j
      omega
    · exact (l4 nm hmem).2 x
  · intro i g x hg hx h1 h2 hok
    have hige : i0 ≤ i := by
      by_contra hcon
      have := hbefore i g hg (by omega)
      omega
    obtain ⟨j, hj⟩ : ∃ j, i = i0 + j := ⟨i - i0, by omega⟩
    subst hj
    have hb := bytesBefore_drop info.files i0 j
    have hg' : (info.files.drop i0)[j]? = some g := by rw [List.getElem?_drop]; exact hg
    obtain ⟨c1, c2⟩ := l10 j g x hg' hx (by omega) (by omega) hok
    refine ⟨?_, c2⟩
    rw [c1]
    congr 1
    omega
  · intro hret i g hg
    by_cases hlt : i < i0
    · have h1 := hbefore i g hg hlt
      have h2 := name_not_mem_drop info.files i0 i g hnd hg hlt
      rw [(l4 g.name h2).1]
      simp [h1]
    · obtain ⟨j, hj⟩ : ∃ j, i = i0 + j := ⟨i - i0, by omega⟩
      subst hj
      have hb := bytesBefore_drop info.files i0 j
      have hg' : (info.files.drop i0)[j]? = some g := by rw [List.getElem?_drop]; exact hg
      rw [l11 hret j g hg']
      congr 1
      have hmono := bytesBefore_mono info.files (i := i0 + 1) (j := i0 + j)
      by_cases hlen : len = 0
      · simp [hlen]
      · have hge : ¬ (bytesBefore info.files (i0 + j) + g.length ≤ pos) := by
          rcases j with _ | j
          · have hg0 : info.files[i0]? = some g := by simpa using hg
            have hgg : info.files.get ⟨i0, hi0⟩ = g := by
              rw [List.getElem?_eq_getElem hi0] at hg0
              simpa using hg0
            rw [hgg] at hfo
            simp only [Nat.add_zero] at hb ⊢
            omega
          · have := hmono (by omega)
            omega
        simp only [hlen, hge, or_self, if_false]
        congr 1
        omega

/-- What `readOrWriteBytes` does in read mode: the disk is left as it is. -/
theorem readOrWriteBytes_read_spec (f : tr_file_t) (fo : Nat) (buf : List Nat) (m : Nat)
    (d : Disk) (hm : fo + m ≤ f.length) :
    (readOrWriteBytes IoMode.TR_IO_READ f fo buf m d).2.1 = d ∧
    ((readOrWriteBytes IoMode.TR_IO_READ f fo buf m d).1 = 0 →
      (readOrWriteBytes IoMode.TR_IO_READ f fo buf m d).2.2
        = (List.range m).map (fun k => d.content f.name (fo + k))) ∧
    ((readOrWriteBytes IoMode.TR_IO_READ f fo buf m d).1 ≠ 0 →
      (readOrWriteBytes IoMode.TR_IO_READ f fo buf m d).2.2 = []) := by
  simp only [readOrWriteBytes]
  split_ifs with h0 h1 h2 h3 h4
  · have : m = 0 := by omega
    simp [this]
  · simp
    intro h; omega
  · simp [TR_ERROR_IO_OTHER]
  · simp
    intro h; exact absurd h h3
  · simp [TR_ERROR_IO_OTHER]
  · simp [TR_OK, Disk.pread]

/-- One pass of the read loop. -/
theorem readPass_spec (f : tr_file_t) (idx fo : Nat) (buf : List Nat) (m : Nat) (d : Disk)
    (hm : fo + m ≤ f.length) :
    (readOrWritePass IoMode.TR_IO_READ f idx fo buf m 0 d).2.1
      = d.log ⟨SubOp.readOrWriteBytes, idx,
          (readOrWritePass IoMode.TR_IO_READ f idx fo buf m 0 d).1⟩ ∧
    ((readOrWritePass IoMode.TR_IO_READ f idx fo buf m 0 d).1 = 0 →
      (readOrWritePass IoMode.TR_IO_READ f idx fo buf m 0 d).2.2
        = (List.range m).map (fun k => d.content f.name (fo + k))) ∧
    ((readOrWritePass IoMode.TR_IO_READ f idx fo buf m 0 d).1 ≠ 0 →
      (readOrWritePass IoMode.TR_IO_READ f idx fo buf m 0 d).2.2 = []) := by
  obtain ⟨r1, r2, r3⟩ := readOrWriteBytes_read_spec f fo buf m d hm
  simp only [readOrWritePass]
  simp only [IoMode.noConfusion, if_false, if_true, reduceCtorEq]
  exact ⟨by rw [r1], r2, r3⟩

theorem streamByte_congr (d1 d2 : Disk) (h : d1.content = d2.content)
    (fs : List tr_file_t) (q : Nat) : streamByte d1 fs q = streamByte d2 fs q := by
  induction fs generalizing q with
  | nil => rfl
  | cons g gs ih => simp only [streamByte, ih, h]

theorem streamByte_split (d : Disk) (f : tr_file_t) (rest : List tr_file_t) (fo n n1 : Nat)
    (hfo : fo ≤ f.length) (hn1 : n1 = min n (f.length - fo)) :
    (List.range n).map (fun k => streamByte d (f :: rest) (fo + k)) =
      (List.range n1).map (fun k => d.content f.name (fo + k)) ++
        (List.range (n - n1)).map (fun k => streamByte d rest (0 + k)) := by
  have hn : n = n1 + (n - n1) := by omega
  conv_lhs => rw [hn, List.range_add, List.map_append, List.map_map]
  congr 1
  · apply List.map_congr_left
    intro k hk
    have hk' : k < n1 := List.mem_range.1 hk
    have : fo + k < f.length := by omega
    simp [streamByte, this]
  · apply List.map_congr_left
    intro k hk
    have hk' : k < n - n1 := List.mem_range.1 hk
    have h1 : n1 = f.length - fo := by omega
    have : ¬ (fo + (n1 + k) < f.length) := by omega
    simp only [Function.comp, streamByte, this, if_false]
    congr 1
    omega

/-- The read loop on the files `fs`: it returns, leaves the disk as it is apart
from the record, and on success hands back the bytes of the files, laid
one after the other, from `fo` on. -/
theorem readLoop_spec (fs : List tr_file_t) :
    ∀ (idx fo : Nat) (buf : List Nat) (n : Nat) (d : Disk) (out : List Nat),
      (∀ f, fs.head? = some f → fo ≤ f.length) → fo + n ≤ filesLength fs →
      filesLength fs < U64 →
      ∃ ret new out',
        readOrWriteLoop IoMode.TR_IO_READ fs idx fo buf n 0 d out
          = some (ret, { d with trace := d.trace ++ new }, out') ∧
        (∀ c ∈ new, idx ≤ c.fileIndex) ∧
        (ret = 0 → ∀ c ∈ new, c.ret = 0) ∧
        (ret ≠ 0 → FailsLast new ret) ∧
        (ret = 0 → out' = out ++ (List.range n).map (fun k => streamByte d fs (fo + k))) := by
  induction fs with
  | nil =>
    intro idx fo buf n d out _ hfit _
    have hn : n = 0 := by simp [filesLength] at hfit; omega
    refine ⟨0, [], out, ?_, by simp, by simp, by simp, ?_⟩
    · rw [readOrWriteLoop_stop _ _ _ _ _ _ _ _ _ (Or.inl hn)]
      simp
    · intro _; simp [hn]
  | cons f rest ih =>
    intro idx fo buf n d out hfo hfit hU
    have hfo' : fo ≤ f.length := hfo f (by simp)
    rw [filesLength_cons] at hfit hU
    have hflen : f.length < U64 := by omega
    by_cases hn : n = 0
    · refine ⟨0, [], out, ?_, by simp, by simp, by simp, ?_⟩
      · rw [readOrWriteLoop_stop _ _ _ _ _ _ _ _ _ (Or.inl hn)]
        simp
      · intro _; simp [hn]
    · obtain ⟨n1, hn1⟩ : ∃ n1, n1 = min n (f.length - fo) := ⟨_, rfl⟩
      have hn1le : fo + n1 ≤ f.length := by omega
      obtain ⟨p1, p2, p3⟩ := readPass_spec f idx fo buf n1 d hn1le
      have hstep := readOrWriteLoop_cons IoMode.TR_IO_READ f rest idx fo buf n d out hn hfo' hflen
      rw [← hn1] at hstep
      obtain ⟨r, hr⟩ : ∃ r, r = readOrWritePass IoMode.TR_IO_READ f idx fo buf n1 0 d := ⟨_, rfl⟩
      rw [← hr] at p1 p2 p3 hstep
      by_cases hr0 : r.1 = 0
      · obtain ⟨ret, new, out', i1, i2, i3, i4, i5⟩ :=
          ih (idx + 1) 0 (buf.drop n1) (n - n1) r.2.1 (out ++ r.2.2) (fun g _ => Nat.zero_le _)
            (by omega) (by omega)
        rw [hr0] at hstep
        refine ⟨ret, ⟨SubOp.readOrWriteBytes, idx, 0⟩ :: new, out', ?_, ?_, ?_, ?_, ?_⟩
        · rw [hstep, i1, p1, hr0]
          simp [Disk.log]
        · intro c hc
          rcases List.mem_cons.1 hc with hc | hc
          · rw [hc]
          · have := i2 c hc; omega
        · intro hret c hc
          rcases List.mem_cons.1 hc with hc | hc
          · rw [hc]
          · exact i3 hret c hc
        · intro hret
          obtain ⟨pre, last, e1, e2, e3⟩ := i4 hret
          refine ⟨⟨SubOp.readOrWriteBytes, idx, 0⟩ :: pre, last, by rw [e1]; rfl, e2, ?_⟩
          intro c hc
          rcases List.mem_cons.1 hc with hc | hc
          · have := i2 last (by rw [e1]; simp)
            rw [hc]
            exact ⟨rfl, by simp only; omega⟩
          · exact e3 c hc
        · intro hret
          rw [i5 hret, p2 hr0, List.append_assoc, streamByte_split d f rest fo n n1 hfo' hn1]
          congr 2
          apply List.map_congr_left
          intro k _
          exact streamByte_congr r.2.1 d (by rw [p1]; rfl) rest _
      · have hstop := readOrWriteLoop_stop IoMode.TR_IO_READ rest (idx + 1) 0 (buf.drop n1)
          (n - n1) r.1 r.2.1 (out ++ r.2.2) (Or.inr hr0)
        refine ⟨r.1, [⟨SubOp.readOrWriteBytes, idx, r.1⟩], out, ?_, ?_, ?_, ?_, ?_⟩
        · rw [hstep, hstop, p1, p3 hr0]
          simp [Disk.log]
        · intro c hc
          simp at hc
          rw [hc]
        · intro h; exact absurd h hr0
        · intro _
          exact ⟨[], _, rfl, rfl, by simp⟩
        · intro h; exact absurd h hr0

theorem streamByte_drop (d : Disk) (files : List tr_file_t) (i q : Nat) :
    streamByte d (files.drop i) q = streamByte d files (bytesBefore files i + q) := by
  induction files generalizing i with
  | nil => simp [streamByte]
  | cons f rest ih =>
    cases i with
    | zero => simp [bytesBefore]
    | succ i =>
      have h : ¬ (f.length + bytesBefore rest i + q < f.length) := by omega
      rw [List.drop_succ_cons, ih i, bytesBefore_cons_succ]
      simp only [streamByte, h, if_false]
      congr 1
      omega

/-- The byte of the laid-out data at a position is the byte at the
`(file, offset)` that the scan of `findFileLocation` finds for it. -/
theorem streamByte_findFileLoop (d : Disk) (files : List tr_file_t) (i pos : Nat)
    (r : Nat × Nat) (h : findFileLoop files i pos = some r) :
    ∃ g, files[r.1 - i]? = some g ∧ i ≤ r.1 ∧ streamByte d files pos = d.content g.name r.2 := by
  induction files generalizing i pos with
  | nil => simp [findFileLoop] at h
  | cons f rest ih =>
    by_cases hle : f.length ≤ pos
    · simp only [findFileLoop, hle, if_true] at h
      obtain ⟨g, h1, h2, h3⟩ := ih (i + 1) (pos - f.length) h
      refine ⟨g, ?_, by omega, ?_⟩
      · have : r.1 - i = (r.1 - (i + 1)) + 1 := by omega
        rw [this, List.getElem?_cons_succ]
        exact h1
      · have : ¬ (pos < f.length) := by omega
        simp only [streamByte, this, if_false]
        exact h3
    · simp only [findFileLoop, hle, if_false, Option.some.injEq] at h
      subst h
      refine ⟨f, by simp, Nat.le_refl _, ?_⟩
      have : pos < f.length := by omega
      simp [streamByte, this]

/-- A read through `readOrWritePiece`: it returns, leaves the disk as it is apart
from the record, and on success hands back the bytes at positions
`pos .. pos + len - 1` of the torrent's data. -/
theorem readPiece_spec (info : tr_info_t) (p o len : Nat) (buf : List Nat) (d : Disk)
    (hsum : filesLength info.files = info.totalSize) (hT : info.totalSize < U64)
    (hpos : p * info.pieceSize + o < info.totalSize)
    (hfit : p * info.pieceSize + o + len ≤ info.totalSize) :
    ∃ ret new out,
      readOrWritePiece info IoMode.TR_IO_READ p o buf len d
        = some (ret, { d with trace := d.trace ++ new }, out) ∧
      (ret = 0 → ∀ c ∈ new, c.ret = 0) ∧
      (ret ≠ 0 → FailsLast new ret) ∧
      (ret = 0 → out = (List.range len).map
        (fun k => streamByte d info.files (p * info.pieceSize + o + k))) := by
  obtain ⟨i0, fo, hloc, hi0, hfo, hB⟩ := findFileLocation_pos info p o hsum hT hpos
  have hsplit := bytesBefore_add_filesLength_drop info.files i0
  have hhead : ∀ f, (info.files.drop i0).head? = some f → fo ≤ f.length := by
    intro f hf
    rw [List.head?_drop, List.getElem?_eq_getElem hi0] at hf
    simp only [Option.some.injEq] at hf
    rw [← hf]
    exact Nat.le_of_lt hfo
  obtain ⟨ret, new, out, l1, _, l3, l4, l5⟩ :=
    readLoop_spec (info.files.drop i0) i0 fo buf len d [] hhead (by omega) (by omega)
  refine ⟨ret, new, out, ?_, l3, l4, ?_⟩
  · simp only [readOrWritePiece, hloc]
    exact l1
  · intro hret
    rw [l5 hret, List.nil_append]
    apply List.map_congr_left
    intro k _
    rw [streamByte_drop, ← hB]
    congr 1
    omega

/-- In a record where only the last sub-operation may have failed, a failed
sub-operation is the last one, its code is the code returned, and no recorded
sub-operation is on a file of larger index. -/
theorem failed_call_is_last (new : List SubOpCall) (ret : Int)
    (h0 : ret = 0 → ∀ c ∈ new, c.ret = 0) (h1 : ret ≠ 0 → FailsLast new ret)
    (c : SubOpCall) (hc : c ∈ new) (hne : c.ret ≠ 0) :
    ret = c.ret ∧ new.getLast? = some c ∧ ∀ c' ∈ new, c'.fileIndex ≤ c.fileIndex := by
  have hret : ret ≠ 0 := fun h => hne (h0 h c hc)
  obtain ⟨pre, last, e1, e2, e3⟩ := h1 hret
  have hcl : c = last := by
    rw [e1] at hc
    rcases List.mem_append.1 hc with h | h
    · exact absurd (e3 c h).1 hne
    · simpa using h
  subst hcl
  refine ⟨e2.symm, by rw [e1]; simp, ?_⟩
  intro c' hc'
  rw [e1] at hc'
  rcases List.mem_append.1 hc' with h | h
  · exact (e3 c' h).2
  · have : c' = c := by simpa using h
    rw [this]

theorem toU64_natCast (n : Nat) (h : n < U64) : toU64 (n : Int) = n := by
  unfold toU64
  have h2 : ((n : Int) % (2 ^ 64 : Int)) = (n : Int) := by
    apply Int.emod_eq_of_lt (by omega)
    have : (U64 : Int) = 2 ^ 64 := by simp [U64]
    have h' : (n : Int) < (U64 : Int) := by exact_mod_cast h
    omega
  rw [h2]
  simp

theorem memcmp_eq_zero (a b : List Nat) (n : Nat) (ha : a.length = n) (hb : b.length = n) :
    memcmp a b n = 0 ↔ a = b := by
  unfold memcmp
  rw [List.take_of_length_le (by omega), List.take_of_length_le (by omega)]
  split_ifs with h
  · simp [h]
  · simp [h]

theorem SameFiles.refl (d : Disk) : SameFiles d d := ⟨rfl, rfl, rfl⟩

theorem SameFiles.symm {d1 d2 : Disk} (h : SameFiles d1 d2) : SameFiles d2 d1 :=
  ⟨h.1.symm, h.2.1.symm, h.2.2.symm⟩

theorem SameFiles.trans {d1 d2 d3 : Disk} (h : SameFiles d1 d2) (h' : SameFiles d2 d3) :
    SameFiles d1 d3 :=
  ⟨h.1.trans h'.1, h.2.1.trans h'.2.1, h.2.2.trans h'.2.2⟩

theorem readOrWriteBytes_read_disk (f : tr_file_t) (fo : Nat) (buf : List Nat) (m : Nat)
    (d : Disk) : (readOrWriteBytes IoMode.TR_IO_READ f fo buf m d).2.1 = d := by
  simp only [readOrWriteBytes]
  split_ifs <;> rfl

theorem readOrWriteBytes_read_congr (f : tr_file_t) (fo : Nat) (buf : List Nat) (m : Nat)
    (d1 d2 : Disk) (h : SameFiles d1 d2) :
    (readOrWriteBytes IoMode.TR_IO_READ f fo buf m d1).1
        = (readOrWriteBytes IoMode.TR_IO_READ f fo buf m d2).1 ∧
      (readOrWriteBytes IoMode.TR_IO_READ f fo buf m d1).2.2
        = (readOrWriteBytes IoMode.TR_IO_READ f fo buf m d2).2.2 := by
  obtain ⟨h1, h2, h3⟩ := h
  simp only [readOrWriteBytes, tr_fdFileOpen, Disk.pread, h1, h2, h3]
  split_ifs <;> exact ⟨rfl, rfl⟩

theorem readOrWritePass_read_congr (f : tr_file_t) (idx fo : Nat) (buf : List Nat) (m : Nat)
    (d1 d2 : Disk) (h : SameFiles d1 d2) :
    (readOrWritePass IoMode.TR_IO_READ f idx fo buf m 0 d1).1
        = (readOrWritePass IoMode.TR_IO_READ f idx fo buf m 0 d2).1 ∧
      (readOrWritePass IoMode.TR_IO_READ f idx fo buf m 0 d1).2.2
        = (readOrWritePass IoMode.TR_IO_READ f idx fo buf m 0 d2).2.2 ∧
      SameFiles (readOrWritePass IoMode.TR_IO_READ f idx fo buf m 0 d1).2.1 d1 ∧
      SameFiles (readOrWritePass IoMode.TR_IO_READ f idx fo buf m 0 d2).2.1 d2 := by
  obtain ⟨c1, c2⟩ := readOrWriteBytes_read_congr f fo buf m d1 d2 h
  simp only [readOrWritePass, reduceCtorEq, if_false, if_true]
  refine ⟨c1, c2, ?_, ?_⟩
  · rw [readOrWriteBytes_read_disk]
    exact ⟨rfl, rfl, rfl⟩
  · rw [readOrWriteBytes_read_disk]
    exact ⟨rfl, rfl, rfl⟩

/-- The read loop looks at the files and the answers to system calls only, and
changes nothing but the record. -/
theorem readOrWriteLoop_read_congr (fs : List tr_file_t) :
    ∀ (idx fo : Nat) (buf : List Nat) (n : Nat) (ret : Int) (d1 d2 : Disk) (out : List Nat),
      SameFiles d1 d2 →
      ((readOrWriteLoop IoMode.TR_IO_READ fs idx fo buf n ret d1 out).map
          (fun r => (r.1, r.2.2))
        = (readOrWriteLoop IoMode.TR_IO_READ fs idx fo buf n ret d2 out).map
          (fun r => (r.1, r.2.2))) ∧
      (∀ r, readOrWriteLoop IoMode.TR_IO_READ fs idx fo buf n ret d1 out = some r →
        SameFiles r.2.1 d1) := by
  induction fs with
  | nil =>
    intro idx fo buf n ret d1 d2 out _
    simp only [readOrWriteLoop]
    split_ifs with hc
    · simp
    · simp only [Option.map_some', Option.some.injEq, true_and]
      intro r hr
      rw [← hr]
      exact SameFiles.refl d1
  | cons f rest ih =>
    intro idx fo buf n ret d1 d2 out h
    simp only [readOrWriteLoop]
    split_ifs with hc
    · obtain ⟨_, hret⟩ := hc
      subst hret
      obtain ⟨c1, c2, c3, c4⟩ := readOrWritePass_read_congr f idx fo buf
        (min n ((f.length + U64 - fo) % U64)) d1 d2 h
      rw [← c1, ← c2]
      obtain ⟨i1, i2⟩ := ih (idx + 1) 0 (buf.drop (min n ((f.length + U64 - fo) % U64)))
        (n - min n ((f.length + U64 - fo) % U64))
        (readOrWritePass IoMode.TR_IO_READ f idx fo buf
          (min n ((f.length + U64 - fo) % U64)) 0 d1).1
        (readOrWritePass IoMode.TR_IO_READ f idx fo buf
          (min n ((f.length + U64 - fo) % U64)) 0 d1).2.1
        (readOrWritePass IoMode.TR_IO_READ f idx fo buf
          (min n ((f.length + U64 - fo) % U64)) 0 d2).2.1
        (out ++ (readOrWritePass IoMode.TR_IO_READ f idx fo buf
          (min n ((f.length + U64 - fo) % U64)) 0 d1).2.2)
        (c3.trans (h.trans c4.symm))
      exact ⟨i1, fun r hr => (i2 r hr).trans c3⟩
    · simp only [Option.map_some', Option.some.injEq, true_and]
      intro r hr
      rw [← hr]
      exact SameFiles.refl d1

/-- The function `checkPiece` looks at the files and the answers to system calls only,
and changes nothing but the record. -/
theorem checkPiece_congr (SHA1 : List Nat → List Nat) (tor : tr_torrent) (p : Nat)
    (d1 d2 : Disk) (h : SameFiles d1 d2) :
    (checkPiece SHA1 tor p d1).map Prod.fst = (checkPiece SHA1 tor p d2).map Prod.fst ∧
    (∀ r, checkPiece SHA1 tor p d1 = some r → SameFiles r.2 d1) := by
  simp only [checkPiece, tr_ioRecalculateHash, readOrWritePiece]
  cases hloc : findFileLocation tor.info p 0 with
  | none => simp
  | some loc =>
    obtain ⟨i, fo⟩ := loc
    simp only
    obtain ⟨c1, c2⟩ := readOrWriteLoop_read_congr (tor.info.files.drop i) i fo []
      (toU64 (tr_pieceSize tor p)) 0 d1 d2 [] h
    cases h1 : readOrWriteLoop IoMode.TR_IO_READ (tor.info.files.drop i) i fo []
        (toU64 (tr_pieceSize tor p)) 0 d1 [] with
    | none =>
      rw [h1] at c1
      cases h2 : readOrWriteLoop IoMode.TR_IO_READ (tor.info.files.drop i) i fo []
          (toU64 (tr_pieceSize tor p)) 0 d2 [] with
      | none => simp
      | some r2 => rw [h2] at c1; simp at c1
    | some r1 =>
      rw [h1] at c1
      have hs := c2 r1 h1
      cases h2 : readOrWriteLoop IoMode.TR_IO_READ (tor.info.files.drop i) i fo []
          (toU64 (tr_pieceSize tor p)) 0 d2 [] with
      | none => rw [h2] at c1; simp at c1
      | some r2 =>
        rw [h2] at c1
        simp only [Option.map_some', Option.some.injEq, Prod.mk.injEq] at c1
        obtain ⟨e1, e2⟩ := c1
        obtain ⟨a1, a2, a3⟩ := r1
        obtain ⟨b1, b2, b3⟩ := r2
        simp only at e1 e2 hs
        subst e1; subst e2
        by_cases hz : a1 = 0
        · simp only [hz, if_true, ne_eq, not_true_eq_false, if_false]
          cases hp : tor.info.pieces[p]? with
          | none => simp
          | some piece =>
            simp only [Option.map_some', true_and]
            intro r hr
            simp only [Option.some.injEq] at hr
            rw [← hr]
            exact hs
        · simp only [hz, if_false, ne_eq, not_false_eq_true, if_true, Option.map_some',
            true_and]
          intro r hr
          simp only [Option.some.injEq] at hr
          rw [← hr]
          exact hs

theorem Verifies.of_sameFiles {SHA1 : List Nat → List Nat} {tor : tr_torrent} {d1 d2 : Disk}
    {p : Nat} (h : SameFiles d1 d2) (hv : Verifies SHA1 tor d1 p) : Verifies SHA1 tor d2 p := by
  obtain ⟨d', hd⟩ := hv
  have hc := (checkPiece_congr SHA1 tor p d1 d2 h).1
  rw [hd] at hc
  cases h2 : checkPiece SHA1 tor p d2 with
  | none => rw [h2] at hc; simp at hc
  | some r =>
    rw [h2] at hc
    simp only [Option.map_some', Option.some.injEq] at hc
    obtain ⟨c, d2'⟩ := r
    simp only at hc
    subst hc
    exact ⟨d2', h2⟩

/-- Marking piece `p` by the outcome of `checkPiece` keeps every complete piece verified. -/
theorem completeVerifies_mark (SHA1 : List Nat → List Nat) (tor : tr_torrent) (s : TorState)
    (p : Nat) (c : Int) (d' : Disk) (hinv : CompleteVerifies SHA1 tor s)
    (hc : checkPiece SHA1 tor p s.disk = some (c, d')) :
    CompleteVerifies SHA1 tor
      { disk := d'
        completion := if c = 0 then tr_cpPieceAdd s.completion p else tr_cpPieceRem s.completion p } ∧
    SameFiles d' s.disk := by
  have hs : SameFiles d' s.disk := (checkPiece_congr SHA1 tor p s.disk s.disk
    (SameFiles.refl _)).2 (c, d') hc
  refine ⟨?_, hs⟩
  intro q hq
  simp only at hq ⊢
  apply Verifies.of_sameFiles hs.symm
  by_cases hqp : q = p
  · subst hqp
    by_cases hc0 : c = 0
    · subst hc0
      exact ⟨d', hc⟩
    · simp [hc0, tr_cpPieceRem] at hq
  · apply hinv q
    by_cases hc0 : c = 0
    · simpa [hc0, tr_cpPieceAdd, hqp] using hq
    · simpa [hc0, tr_cpPieceRem, hqp] using hq

theorem completeVerifies_checkFilesLoop (SHA1 : List Nat → List Nat) (tor : tr_torrent)
    (stopping unchecked : Nat → Bool) (k : Nat) :
    ∀ (i : Nat) (s s' : TorState), CompleteVerifies SHA1 tor s →
      checkFilesLoop SHA1 tor stopping unchecked k i s = some s' →
      CompleteVerifies SHA1 tor s' := by
  induction k with
  | zero =>
    intro i s s' hinv h
    simp only [checkFilesLoop, Option.some.injEq] at h
    rw [← h]; exact hinv
  | succ k ih =>
    intro i s s' hinv h
    simp only [checkFilesLoop] at h
    split_ifs at h with h1 h2
    · simp only [Option.some.injEq] at h
      rw [← h]; exact hinv
    · exact ih (i + 1) s s' hinv h
    · cases hc : checkPiece SHA1 tor i s.disk with
      | none => rw [hc] at h; simp at h
      | some r =>
        obtain ⟨c, d'⟩ := r
        rw [hc] at h
        simp only at h
        exact ih (i + 1) _ s' (completeVerifies_mark SHA1 tor s i c d' hinv hc).1 h

theorem toInt32_of_lt (x : Nat) (h : x < 2 ^ 31) : toInt32 x = (x : Int) := by
  unfold toInt32
  have h1 : x % 2 ^ 32 = x := Nat.mod_eq_of_lt (by omega)
  rw [h1, if_pos h]

theorem blockSizeLoop_le (b : Nat) (h : b ≤ 16384) : blockSizeLoop b = b := by
  rw [blockSizeLoop]
  simp
  omega

theorem blockSizeLoop_step (b : Nat) (h : 16384 < b) :
    blockSizeLoop b = blockSizeLoop (b / 2) := by
  rw [blockSizeLoop]
  simp [h]

/-- The block size loop on a power of two. -/
theorem blockSizeLoop_pow2 (k : Nat) : blockSizeLoop (2 ^ k) = min (2 ^ k) 16384 := by
  induction k with
  | zero => rw [blockSizeLoop_le _ (by norm_num)]; norm_num
  | succ k ih =>
    by_cases hk : k + 1 ≤ 14
    · have h1 : 2 ^ (k + 1) ≤ 2 ^ 14 := Nat.pow_le_pow_right (by norm_num) hk
      rw [blockSizeLoop_le _ (by omega)]
      omega
    · have h1 : 2 ^ 14 ≤ 2 ^ k := Nat.pow_le_pow_right (by norm_num) (by omega)
      have h2 : 2 ^ (k + 1) = 2 * 2 ^ k := by rw [pow_succ]; ring
      rw [blockSizeLoop_step _ (by omega), h2, Nat.mul_div_cancel_left _ (by norm_num), ih]
      omega

theorem min_pow2_dvd (k : Nat) : min (2 ^ k) 16384 ∣ 2 ^ k := by
  by_cases hk : k ≤ 14
  · have h1 : 2 ^ k ≤ 2 ^ 14 := Nat.pow_le_pow_right (by norm_num) hk
    rw [Nat.min_eq_left (by omega)]
  · have h1 : 2 ^ 14 ≤ 2 ^ k := Nat.pow_le_pow_right (by norm_num) (by omega)
    rw [Nat.min_eq_right (by omega)]
    exact (by norm_num : (16384 : Nat) = 2 ^ 14) ▸ Nat.pow_dvd_pow 2 (by omega)

/-- Rounded-up division and the size of the last part: for `n = ⌈T / P⌉` the
last part `T % P` (or `P` when that is zero) is `T - P * (n - 1)`. -/
theorem ceil_last (T P : Nat) (hP : 0 < P) (hT : 0 < T) :
    1 ≤ (T + P - 1) / P ∧ P * ((T + P - 1) / P - 1) < T ∧
      (if T % P = 0 then P else T % P) = T - P * ((T + P - 1) / P - 1) := by
  have hdm := Nat.div_add_mod T P
  have hr := Nat.mod_lt T hP
  obtain ⟨q, hq⟩ : ∃ q, q = T / P := ⟨_, rfl⟩
  obtain ⟨r, hrr⟩ : ∃ r, r = T % P := ⟨_, rfl⟩
  rw [← hq, ← hrr] at hdm
  rw [← hrr] at hr ⊢
  by_cases h0 : r = 0
  · subst h0
    have hq1 : 1 ≤ q := by
      rcases Nat.eq_zero_or_pos q with h | h
      · subst h; simp at hdm; omega
      · exact h
    have hn : (T + P - 1) / P = q := by
      have : T + P - 1 = P * q + (P - 1) := by omega
      rw [this, Nat.mul_add_div hP, Nat.div_eq_of_lt (by omega)]
      rfl
    rw [hn]
    have hmul : P * (q - 1) + P = P * q := by
      have : q = (q - 1) + 1 := by omega
      conv_rhs => rw [this, Nat.mul_add, Nat.mul_one]
    simp only [if_true]
    omega
  · have hn : (T + P - 1) / P = q + 1 := by
      have : T + P - 1 = P * (q + 1) + (r - 1) := by
        rw [Nat.mul_add, Nat.mul_one]; omega
      rw [this, Nat.mul_add_div hP, Nat.div_eq_of_lt (by omega)]
    rw [hn]
    simp only [h0, if_false, Nat.add_sub_cancel]
    omega

/-- The blocks of the torrent are the blocks of its full pieces plus the blocks
of its last piece, when the block size divides the piece size. -/
theorem block_count_split (T P B : Nat) (hB : 0 < B) (hP : 0 < P) (hT : 0 < T)
    (hdvd : B ∣ P) :
    ((T + P - 1) / P - 1) * (P / B) + (T - P * ((T + P - 1) / P - 1) + B - 1) / B
      = (T + B - 1) / B := by
  obtain ⟨h1, h2, _⟩ := ceil_last T P hP hT
  obtain ⟨m, hm⟩ := hdvd
  obtain ⟨n, hn⟩ : ∃ n, n = (T + P - 1) / P - 1 := ⟨_, rfl⟩
  rw [← hn] at h2 ⊢
  have hPB : P / B = m := by rw [hm, Nat.mul_div_cancel_left _ hB]
  rw [hPB]
  have hTB : T + B - 1 = B * (n * m) + (T - P * n + B - 1) := by
    have : B * (n * m) = P * n := by rw [hm]; ring
    omega
  rw [hTB, Nat.mul_add_div hB]

theorem min_pow2_bounds (k : Nat) : 0 < min (2 ^ k) 16384 ∧ min (2 ^ k) 16384 ≤ 16384 ∧
    min (2 ^ k) 16384 ≤ 2 ^ k := by
  have : 0 < 2 ^ k := Nat.pos_pow_of_pos k (by norm_num)
  omega

theorem natCast_ite_zero (x y : Nat) :
    (if (x : Int) = 0 then (y : Int) else (x : Int)) = ((if x = 0 then y else x : Nat) : Int) := by
  by_cases h : x = 0
  · simp [h]
  · have : (x : Int) ≠ 0 := by exact_mod_cast h
    simp [h, this]

/-- What `torrentRealInit` computes for a piece size `2 ^ k` that fits an `int`. -/
theorem torrentRealInit_pow2 (info : tr_info_t) (k : Nat) (hP : info.pieceSize = 2 ^ k)
    (hk : k ≤ 30) :
    torrentRealInit info = some
      { info := info
        blockSize := ((min (2 ^ k) 16384 : Nat) : Int)
        blockCount := toInt32 ((((info.totalSize + min (2 ^ k) 16384) % U64 + U64 - 1) % U64)
          / min (2 ^ k) 16384)
        lastBlockSize := ((if info.totalSize % min (2 ^ k) 16384 = 0 then min (2 ^ k) 16384
          else info.totalSize % min (2 ^ k) 16384 : Nat) : Int)
        lastPieceSize := ((if info.totalSize % 2 ^ k = 0 then 2 ^ k
          else info.totalSize % 2 ^ k : Nat) : Int)
        blockCountInPiece := ((2 ^ k / min (2 ^ k) 16384 : Nat) : Int)
        blockCountInLastPiece := (((if info.totalSize % 2 ^ k = 0 then 2 ^ k
          else info.totalSize % 2 ^ k) + min (2 ^ k) 16384 - 1) / min (2 ^ k) 16384 : Nat) } := by
  obtain ⟨hB0, hB1, hB2⟩ := min_pow2_bounds k
  have hPpos : 0 < 2 ^ k := Nat.pos_pow_of_pos k (by norm_num)
  have hPle : 2 ^ k ≤ 2 ^ 30 := Nat.pow_le_pow_right (by norm_num) hk
  obtain ⟨B, hBdef⟩ : ∃ B, B = min (2 ^ k) 16384 := ⟨_, rfl⟩
  obtain ⟨P, hPdef⟩ : ∃ P, P = 2 ^ k := ⟨_, rfl⟩
  rw [← hBdef] at hB0 hB1 hB2 ⊢
  rw [← hPdef] at hPpos hPle hB2 hP ⊢
  have hmodP : info.totalSize % P < P := Nat.mod_lt _ hPpos
  have hmodB : info.totalSize % B < B := Nat.mod_lt _ hB0
  obtain ⟨L, hL⟩ : ∃ L, L = (if info.totalSize % P = 0 then P else info.totalSize % P) :=
    ⟨_, rfl⟩
  have hLb : 0 < L ∧ L ≤ P := by
    rw [hL]; split_ifs <;> omega
  have hsum : ((L : Int) + (B : Int) - 1) = ((L + B - 1 : Nat) : Int) := by omega
  have hfit : fitsInt ((L : Int) + (B : Int) - 1) = true := by
    simp only [fitsInt, Bool.and_eq_true, decide_eq_true_eq]
    omega
  have hne : info.pieceSize ≠ 0 := by omega
  have hloop : blockSizeLoop info.pieceSize = B := by
    rw [hP, hPdef, blockSizeLoop_pow2, hBdef]
  simp only [torrentRealInit, hne, if_false, hloop]
  rw [hP, toInt32_of_lt _ (by omega), toInt32_of_lt (info.totalSize % B) (by omega),
    natCast_ite_zero, natCast_ite_zero, ← hL, hfit, if_pos rfl, hsum,
    ← Int.ofNat_tdiv, ← Int.ofNat_tdiv]

/-- The loop of `parseCancel` takes out the first entry equal to the cancelled
request and nothing else. -/
theorem cancelLoop_first (c : tr_request_t) (pre post : List tr_request_t)
    (hpre : ∀ x ∈ pre, x ≠ c) :
    cancelLoop c.index c.begin c.length (pre ++ c :: post) = pre ++ post := by
  induction pre with
  | nil => simp [cancelLoop]
  | cons x xs ih =>
    have hx : x ≠ c := hpre x (List.mem_cons_self _ _)
    have hne : ¬ (x.index = c.index ∧ x.begin = c.begin ∧ x.length = c.length) := by
      rintro ⟨h1, h2, h3⟩
      apply hx
      cases x; cases c; simp_all
    simp only [List.cons_append, cancelLoop, if_neg hne]
    exact congrArg _ (ih (fun y hy => hpre y (List.mem_cons_of_mem _ hy)))

/-- The loop of `parseCancel` leaves a queue without a matching entry as it is. -/
theorem cancelLoop_none (c : tr_request_t) (q : List tr_request_t) (hq : ∀ x ∈ q, x ≠ c) :
    cancelLoop c.index c.begin c.length q = q := by
  induction q with
  | nil => simp [cancelLoop]
  | cons x xs ih =>
    have hx : x ≠ c := hq x (List.mem_cons_self _ _)
    have hne : ¬ (x.index = c.index ∧ x.begin = c.begin ∧ x.length = c.length) := by
      rintro ⟨h1, h2, h3⟩
      apply hx
      cases x; cases c; simp_all
    simp only [cancelLoop, if_neg hne]
    rw [ih (fun y hy => hq y (List.mem_cons_of_mem _ hy))]

/-- A well-formed CANCEL passes the checks of `parseCancel`. -/
theorem parseCancel_wellFormed (tor : tr_torrent_t) (peer : tr_peer_t) (p : List Nat)
    (i b l : Nat) (hi : TR_NTOHL p = some i) (hb : TR_NTOHL (p.drop 4) = some b)
    (hl : TR_NTOHL (p.drop 8) = some l) (hcount : tor.info.pieceCount < 2 ^ 31)
    (hidx : i < tor.info.pieceCount)
    (hsize : (b : Int) + l ≤ tr_pieceSize tor.totr_torrent i)
    (hint : tr_pieceSize tor.totr_torrent i < 2 ^ 31) :
    parseCancel tor peer p 12 = some (TR_OK,
      { peer with outRequests := cancelLoop i b l peer.outRequests }) := by
  have hb31 : b < 2 ^ 31 := by omega
  have hl31 : l < 2 ^ 31 := by omega
  have hfit : fitsInt ((b : Int) + l) = true := by
    simp only [fitsInt, Bool.and_eq_true, decide_eq_true_eq]
    constructor <;> omega
  simp only [parseCancel, readRequest, hi, hb, hl, toInt32_of_lt i (by omega),
    toInt32_of_lt b hb31, toInt32_of_lt l hl31, hfit]
  rw [if_neg (by simp), if_neg (by omega), if_neg (by simp), if_neg (by omega)]

/-- The spare-bit test of `parseBitfield` on one byte: shifting the byte left
by `k` leaves nothing in the low eight bits exactly when the bits at the
MSB-first positions `k` to 7 are clear. -/
theorem spare_shift (b : Nat) (k : Nat) (hk : k < 8) :
    (b <<< k) % 256 = 0 ↔ ∀ j, j < 8 → k ≤ j → b / 2 ^ (7 - j) % 2 = 0 := by
  rw [Nat.shiftLeft_eq]
  constructor
  · intro h j hj hkj
    interval_cases k <;> interval_cases j <;> norm_num at h hkj ⊢ <;> omega
  · intro h
    have h0 := h 0 (by omega)
    have h1 := h 1 (by omega)
    have h2 := h 2 (by omega)
    have h3 := h 3 (by omega)
    have h4 := h 4 (by omega)
    have h5 := h 5 (by omega)
    have h6 := h 6 (by omega)
    have h7 := h 7 (by omega)
    interval_cases k <;> norm_num at h0 h1 h2 h3 h4 h5 h6 h7 ⊢ <;> omega
/-- The spare-bit test of `parseBitfield` on the last byte of a bitfield of `n`
bits, `n` not a multiple of 8: it finds nothing exactly when every bit from
position `n` on is clear. -/
theorem spare_iff (body : List Nat) (n : Nat) (hn : n % 8 ≠ 0) :
    (body.getD ((n + 7) / 8 - 1) 0 <<< (n % 8)) % 256 = 0 ↔
      ∀ i, n ≤ i → i < 8 * ((n + 7) / 8) → bitAt body i = false := by
  rw [spare_shift _ _ (Nat.mod_lt _ (by norm_num))]
  constructor
  · intro h i hi1 hi2
    have hq : i / 8 = (n + 7) / 8 - 1 := by omega
    have hj := h (i % 8) (by omega) (by omega)
    simp only [bitAt, hq, decide_eq_false_iff_not]
    omega
  · intro h j hj hk
    have hi := h (8 * ((n + 7) / 8 - 1) + j) (by omega) (by omega)
    have hq : (8 * ((n + 7) / 8 - 1) + j) / 8 = (n + 7) / 8 - 1 := by omega
    have hr : (8 * ((n + 7) / 8 - 1) + j) % 8 = j := by omega
    simp only [bitAt, hq, hr, decide_eq_false_iff_not] at hi
    omega

/-- Counting the set bits up to `m` or up to `n` is the same when no bit is set
in between. -/
theorem countP_range_extend (f : Nat → Bool) (n m : Nat) (hnm : n ≤ m)
    (h : ∀ i, n ≤ i → i < m → f i = false) :
    (List.range m).countP f = (List.range n).countP f := by
  induction m with
  | zero =>
    have : n = 0 := by omega
    rw [this]
  | succ m ih =>
    by_cases hm : n = m + 1
    · rw [hm]
    · have hfm : f m = false := h m (by omega) (by omega)
      rw [List.range_succ, List.countP_append, ih (by omega) (fun i h1 h2 => h i h1 (by omega))]
      simp [hfm]
/-- What `parseBitfield` does once the size and the spare bits are accepted. -/
theorem parseBitfield_store (peer : tr_peer_t) (p : List Nat) (n s : Nat) (hs : s ≤ p.length)
    (halloc : ∀ bf, peer.bitfield = some bf → bf.bits.length = s)
    (hnew : (tr_bitfieldNew n).bits.length = s)
    (hspare : ∀ i, n ≤ i → i < 8 * s → bitAt (p.take s) i = false) (hns : n ≤ 8 * s) :
    ¬ (p.length < s ∨ (peer.bitfield.getD (tr_bitfieldNew n)).bits.length < s) ∧
    (⟨p.take s ++ (peer.bitfield.getD (tr_bitfieldNew n)).bits.drop s⟩ : tr_bitfield_t)
      = ⟨p.take s⟩ ∧
    countHave ⟨p.take s⟩ n = setBits (p.take s) := by
  have hlen : (peer.bitfield.getD (tr_bitfieldNew n)).bits.length = s := by
    cases hbf : peer.bitfield with
    | none => simpa using hnew
    | some bf => simpa using halloc bf hbf
  refine ⟨by omega, ?_, ?_⟩
  · rw [List.drop_of_length_le (by omega), List.append_nil]
  · unfold countHave setBits
    rw [List.length_take, Nat.min_eq_left hs]
    exact (countP_range_extend _ n (8 * s) hns hspare).symm

/-- The function `isPieceInteresting` on a piece of the array. -/
theorem isPieceInteresting_spec (tor : tr_torrent) (cp : Completion) (peer : tr_peermsgs)
    (p : Nat) (hp : p < tor.info.pieces.length) :
    (isPieceInteresting tor cp peer p = some true ↔
      ((∃ pc, tor.info.pieces[p]? = some pc ∧ pc.dnd = false) ∧ cp.complete p = false ∧
        bitfieldHas peer.info.have_ p = true ∧ bitfieldHas peer.info.banned p = false)) ∧
    (isPieceInteresting tor cp peer p = some true ∨
      isPieceInteresting tor cp peer p = some false) := by
  have hget : tor.info.pieces[p]? = some (tor.info.pieces.get ⟨p, hp⟩) := by
    simp [List.getElem?_eq_getElem hp]
  unfold isPieceInteresting
  rw [hget]
  simp only [Option.some.injEq, exists_eq_left']
  cases h1 : (tor.info.pieces.get ⟨p, hp⟩).dnd <;> cases h2 : cp.complete p <;>
    cases h3 : bitfieldHas peer.info.have_ p <;> cases h4 : bitfieldHas peer.info.banned p <;>
    simp

/-- The loop of `isInteresting` over pieces of the array. -/
theorem isInterestingLoop_spec (tor : tr_torrent) (cp : Completion) (peer : tr_peermsgs)
    (l : List Nat) (hl : ∀ i ∈ l, i < tor.info.pieces.length) :
    (isInterestingLoop tor cp peer l = some true ↔
      ∃ p ∈ l, isPieceInteresting tor cp peer p = some true) ∧
    (isInterestingLoop tor cp peer l = some true ∨
      isInterestingLoop tor cp peer l = some false) := by
  induction l with
  | nil => simp [isInterestingLoop]
  | cons i rest ih =>
    obtain ⟨ih1, ih2⟩ := ih (fun j hj => hl j (List.mem_cons_of_mem _ hj))
    obtain ⟨_, hi⟩ := isPieceInteresting_spec tor cp peer i (hl i (List.mem_cons_self _ _))
    rcases hi with hi | hi
    · simp only [isInterestingLoop, hi, List.mem_cons, true_iff, true_or, and_true]
      exact ⟨i, Or.inl rfl, hi⟩
    · simp only [isInterestingLoop, hi, List.mem_cons]
      refine ⟨?_, ih2⟩
      rw [ih1]
      constructor
      · rintro ⟨p, hp, hw⟩
        exact ⟨p, Or.inr hp, hw⟩
      · rintro ⟨p, hp | hp, hw⟩
        · subst hp
          rw [hi] at hw
          exact absurd hw (by simp)
        · exact ⟨p, hp, hw⟩
/-- The interest update leaves the peer record and the queue of requests as
they are. -/
theorem updateInterest_keeps (tor : tr_torrent) (cp : Completion) (peer peer' : tr_peermsgs)
    (h : updateInterest tor cp peer = some peer') :
    peer'.info = peer.info ∧ peer'.peerAskedFor = peer.peerAskedFor := by
  unfold updateInterest at h
  cases hi : isInteresting tor cp peer with
  | none => rw [hi] at h; exact absurd h (by simp)
  | some i =>
    rw [hi] at h
    simp only at h
    split_ifs at h with hne
    · cases h; exact ⟨rfl, rfl⟩
    · cases h; exact ⟨rfl, rfl⟩

/-- The function `parseLtepHandshake` leaves the choke flag and the queue of
requests as they are. -/
theorem parseLtepHandshake_keeps (env : SessionEnv) (peer peer' : tr_peermsgs) (len : Int)
    (inbuf inbuf' : List Nat)
    (h : parseLtepHandshake env peer len inbuf = some (peer', inbuf')) :
    peer'.info.peerIsChoked = peer.info.peerIsChoked ∧
      peer'.peerAskedFor = peer.peerAskedFor := by
  unfold parseLtepHandshake at h
  split_ifs at h with h0
  cases hr : tr_peerIoReadBytes inbuf len.toNat with
  | none => rw [hr] at h; exact absurd h (by simp)
  | some r =>
    obtain ⟨tmp, rest⟩ := r
    rw [hr] at h
    simp only at h
    cases hl : env.loadHandshake tmp with
    | none =>
      rw [hl] at h
      cases h; exact ⟨rfl, rfl⟩
    | some val =>
      rw [hl] at h
      simp only [Option.some.injEq, Prod.mk.injEq] at h
      obtain ⟨h1, _⟩ := h
      subst h1
      cases val.ut_pex <;> cases val.v <;> cases val.p <;> exact ⟨rfl, rfl⟩

/-- The function `parseUtPex` leaves the choke flag and the queue of requests
as they are. -/
theorem parseUtPex_keeps (env : SessionEnv) (peer peer' : tr_peermsgs) (len : Int)
    (inbuf inbuf' : List Nat) (h : parseUtPex env peer len inbuf = some (peer', inbuf')) :
    peer'.info.peerIsChoked = peer.info.peerIsChoked ∧
      peer'.peerAskedFor = peer.peerAskedFor := by
  unfold parseUtPex at h
  split_ifs at h with h0 h1
  · cases hr : tr_peerIoReadBytes inbuf len.toNat with
    | none => rw [hr] at h; exact absurd h (by simp)
    | some r =>
      obtain ⟨tmp, rest⟩ := r
      rw [hr] at h
      simp only at h
      cases hl : env.loadPex tmp with
      | none => rw [hl] at h; cases h; exact ⟨rfl, rfl⟩
      | some a =>
        cases a with
        | none => rw [hl] at h; cases h; exact ⟨rfl, rfl⟩
        | some added =>
          rw [hl] at h
          simp only at h
          split_ifs at h
          · cases h; exact ⟨rfl, rfl⟩
          · cases h; exact ⟨rfl, rfl⟩
  · cases h; exact ⟨rfl, rfl⟩

/-- The function `parseLtep` leaves the choke flag and the queue of requests as
they are. -/
theorem parseLtep_keeps (env : SessionEnv) (peer peer' : tr_peermsgs) (len : Int)
    (inbuf inbuf' : List Nat) (h : parseLtep env peer len inbuf = some (peer', inbuf')) :
    peer'.info.peerIsChoked = peer.info.peerIsChoked ∧
      peer'.peerAskedFor = peer.peerAskedFor := by
  unfold parseLtep at h
  cases inbuf with
  | nil => exact absurd h (by simp)
  | cons b rest =>
    simp only at h
    split_ifs at h with h0 h1 h2
    · exact parseLtepHandshake_keeps env peer peer' _ _ _ h
    · exact parseUtPex_keeps env peer peer' _ _ _ h
    · cases h; exact ⟨rfl, rfl⟩
/-- The `switch` of `readBtMessage` keeps the queue of requests empty while we
choke the peer. -/
theorem readBtMessageSwitch_inv (env : SessionEnv) (tor : tr_torrent) (cp : Completion)
    (peer peer' : tr_peermsgs) (id msglen : Nat) (inbuf inbuf' : List Nat)
    (hinv : peer.info.peerIsChoked = true → peer.peerAskedFor = [])
    (h : readBtMessageSwitch env tor cp peer id msglen inbuf = some (peer', inbuf')) :
    peer'.info.peerIsChoked = true → peer'.peerAskedFor = [] := by
  unfold readBtMessageSwitch at h
  by_cases h0 : id = BT_CHOKE
  · rw [if_pos h0] at h
    cases h; intro _; rfl
  rw [if_neg h0] at h
  by_cases h1 : id = BT_UNCHOKE
  · rw [if_pos h1] at h
    cases h; exact hinv
  rw [if_neg h1] at h
  by_cases h2 : id = BT_INTERESTED
  · rw [if_pos h2] at h
    cases h; exact hinv
  rw [if_neg h2] at h
  by_cases h3 : id = BT_NOT_INTERESTED
  · rw [if_pos h3] at h
    cases h; exact hinv
  rw [if_neg h3] at h
  by_cases h4 : id = BT_HAVE
  · rw [if_pos h4] at h
    cases hr : tr_peerIoReadUint32 inbuf with
    | none => rw [hr] at h; exact absurd h (by simp)
    | some r =>
      obtain ⟨ui32, rest⟩ := r
      cases hb : peer.info.have_ with
      | none => rw [hr, hb] at h; exact absurd h (by simp)
      | some bf =>
        rw [hr, hb] at h
        simp only at h
        split_ifs at h
        cases hu : updateInterest tor cp
            { peer with info := { peer.info with have_ := some (tr_bitfieldAdd bf ui32) } } with
        | none => rw [hu] at h; exact absurd h (by simp)
        | some q =>
          rw [hu] at h
          simp only [Option.map_some', Option.some.injEq, Prod.mk.injEq] at h
          obtain ⟨hq, _⟩ := h
          subst hq
          obtain ⟨k1, k2⟩ := updateInterest_keeps tor cp _ _ hu
          rw [k1, k2]
          exact hinv
  rw [if_neg h4] at h
  by_cases h5 : id = BT_BITFIELD
  · rw [if_pos h5] at h
    cases hb : peer.info.have_ with
    | none => rw [hb] at h; exact absurd h (by simp)
    | some bf =>
      rw [hb] at h
      simp only at h
      split_ifs at h
      cases hr : tr_peerIoReadBytes inbuf msglen with
      | none => rw [hr] at h; exact absurd h (by simp)
      | some r =>
        obtain ⟨bytes, rest⟩ := r
        rw [hr] at h
        simp only at h
        cases hu : updateInterest tor cp
            { peer with
              info := { peer.info with have_ := some ⟨bytes ++ bf.bits.drop msglen⟩ } } with
        | none => rw [hu] at h; exact absurd h (by simp)
        | some q =>
          rw [hu] at h
          simp only [Option.map_some', Option.some.injEq, Prod.mk.injEq] at h
          obtain ⟨hq, _⟩ := h
          subst hq
          obtain ⟨k1, k2⟩ := updateInterest_keeps tor cp _ _ hu
          rw [k1, k2]
          exact hinv
  rw [if_neg h5] at h
  by_cases h6 : id = BT_REQUEST
  · rw [if_pos h6] at h
    cases hr : readPeerRequest inbuf with
    | none => rw [hr] at h; exact absurd h (by simp)
    | some r =>
      obtain ⟨req, rest⟩ := r
      rw [hr] at h
      simp only at h
      split_ifs at h with hc
      · cases h; exact hinv
      · cases h
        intro hch
        exact absurd hch hc
  rw [if_neg h6] at h
  by_cases h7 : id = BT_CANCEL
  · rw [if_pos h7] at h
    cases hr : readPeerRequest inbuf with
    | none => rw [hr] at h; exact absurd h (by simp)
    | some r =>
      obtain ⟨req, rest⟩ := r
      rw [hr] at h
      cases h
      intro hch
      show peer.peerAskedFor.erase req = []
      rw [hinv hch]
      rfl
  rw [if_neg h7] at h
  by_cases h8 : id = BT_PIECE
  · rw [if_pos h8] at h
    cases hr : tr_peerIoReadUint32 inbuf with
    | none => rw [hr] at h; exact absurd h (by simp)
    | some r =>
      obtain ⟨pieceIndex, rest⟩ := r
      rw [hr] at h
      simp only at h
      cases hr2 : tr_peerIoReadUint32 rest with
      | none => rw [hr2] at h; exact absurd h (by simp)
      | some r2 =>
        obtain ⟨offsetInPiece, rest2⟩ := r2
        rw [hr2] at h
        cases h; exact hinv
  rw [if_neg h8] at h
  by_cases h9 : id = BT_PORT
  · rw [if_pos h9] at h
    cases hr : tr_peerIoReadUint16 inbuf with
    | none => rw [hr] at h; exact absurd h (by simp)
    | some r =>
      obtain ⟨port, rest⟩ := r
      rw [hr] at h
      cases h; exact hinv
  rw [if_neg h9] at h
  by_cases h10 : id = BT_LTEP
  · rw [if_pos h10] at h
    obtain ⟨k1, k2⟩ := parseLtep_keeps env peer peer' _ _ _ h
    rw [k1, k2]
    exact hinv
  rw [if_neg h10] at h
  cases h; exact hinv

/-- The function `readBtMessage` keeps the queue of requests empty while we
choke the peer. -/
theorem readBtMessage_inv (env : SessionEnv) (tor : tr_torrent) (cp : Completion)
    (peer peer' : tr_peermsgs) (inbuf inbuf' : List Nat) (ret : ReadState)
    (hinv : peer.info.peerIsChoked = true → peer.peerAskedFor = [])
    (h : readBtMessage env tor cp peer inbuf = some (ret, peer', inbuf')) :
    peer'.info.peerIsChoked = true → peer'.peerAskedFor = [] := by
  unfold readBtMessage at h
  split_ifs at h with h0
  · cases h; exact hinv
  · cases inbuf with
    | nil => exact absurd h (by simp)
    | cons id rest =>
      simp only at h
      cases hs : readBtMessageSwitch env tor cp peer id
          ((peer.incomingMessageLength + U64 - 1) % U64) rest with
      | none => rw [hs] at h; exact absurd h (by simp)
      | some r =>
        obtain ⟨q, b⟩ := r
        rw [hs] at h
        cases h
        exact readBtMessageSwitch_inv env tor cp peer q _ _ _ _ hinv hs

/-- A piece loop that stays inside the array returns, with an array of the same
length. -/
theorem setPiecesLoop_some (f : Int → tr_piece_t → tr_piece_t) (n : Nat) :
    ∀ (i : Int) (pieces : List tr_piece_t), 0 ≤ i → i + n ≤ pieces.length →
      ∃ r, setPiecesLoop f n i pieces = some r ∧ r.length = pieces.length := by
  induction n with
  | zero => intro i pieces _ _; exact ⟨pieces, rfl, rfl⟩
  | succ n ih =>
    intro i pieces h0 h1
    have hlen : (pieces.modify (f i) i.toNat).length = pieces.length := List.length_modify _ _ _
    obtain ⟨r, hr, hrl⟩ := ih (i + 1) (pieces.modify (f i) i.toNat) (by omega)
      (by rw [hlen]; push_cast at h1 ⊢; omega)
    refine ⟨r, ?_, by rw [hrl, hlen]⟩
    simp only [setPiecesLoop]
    rw [if_neg (by push_cast at h1; omega)]
    exact hr

/-- A piece loop that stays inside the array has a result. -/
theorem setPiecesLoop_ne_none (f : Int → tr_piece_t → tr_piece_t) (n : Nat) (i : Int)
    (pieces : List tr_piece_t) (h0 : 0 ≤ i) (h1 : i + n ≤ pieces.length) :
    setPiecesLoop f n i pieces ≠ none := by
  obtain ⟨r, hr, _⟩ := setPiecesLoop_some f n i pieces h0 h1
  rw [hr]
  simp

/-- A piece loop keeps the length of the array. -/
theorem setPiecesLoop_length (f : Int → tr_piece_t → tr_piece_t) (n : Nat) :
    ∀ (i : Int) (pieces r : List tr_piece_t), setPiecesLoop f n i pieces = some r →
      r.length = pieces.length := by
  induction n with
  | zero =>
    intro i pieces r h
    simp only [setPiecesLoop, Option.some.injEq] at h
    rw [← h]
  | succ n ih =>
    intro i pieces r h
    simp only [setPiecesLoop] at h
    split_ifs at h
    rw [ih _ _ _ h, List.length_modify]

/-- An assignment to the flag of a piece of the array has a result. -/
theorem setPieceDND_ne_none (pieces : List tr_piece_t) (i : Int) (dnd : Bool) (h0 : 0 ≤ i)
    (h1 : i < pieces.length) : setPieceDND pieces i dnd ≠ none := by
  unfold setPieceDND
  rw [if_neg (by omega)]
  simp

/-- An assignment to the flag of a piece keeps the length of the array. -/
theorem setPieceDND_length (pieces r : List tr_piece_t) (i : Int) (dnd : Bool)
    (h : setPieceDND pieces i dnd = some r) : r.length = pieces.length := by
  unfold setPieceDND at h
  split_ifs at h
  simp only [Option.some.injEq] at h
  rw [← h, List.length_modify]
/-- The function `hashExists` finds a torrent with the same first twenty bytes
of info hash exactly when there is one. -/
theorem hashExists_iff (hash : List Nat) (l : List tr_torrent) :
    hashExists hash l = true ↔ ∃ t ∈ l, t.info.hash.take 20 = hash.take 20 := by
  induction l with
  | nil => simp [hashExists]
  | cons t rest ih =>
    simp only [hashExists, memcmp, SHA_DIGEST_LENGTH, List.mem_cons, exists_eq_or_imp]
    by_cases h : hash.take 20 = t.info.hash.take 20
    · simp [h]
    · have h' : ¬ t.info.hash.take 20 = hash.take 20 := fun e => h e.symm
      simp [h, h', ih]

/-- The function `pathIsInUse`, on a list of torrents that all have a
destination, returns, and finds a torrent with the destination and the name
exactly when there is one. -/
theorem pathIsInUse_spec (d n : String) (l : List tr_torrent)
    (hdest : ∀ t ∈ l, t.destination ≠ none) :
    ∃ b, pathIsInUse d n l = some b ∧
      (b = true ↔ ∃ t ∈ l, t.destination = some d ∧ t.info.name = n) := by
  induction l with
  | nil => exact ⟨false, rfl, by simp⟩
  | cons t rest ih =>
    obtain ⟨b, hb, hiff⟩ := ih (fun u hu => hdest u (List.mem_cons_of_mem _ hu))
    cases htd : t.destination with
    | none => exact absurd htd (hdest t (List.mem_cons_self _ _))
    | some td =>
      by_cases hm : d = td ∧ n = t.info.name
      · refine ⟨true, ?_, ?_⟩
        · simp only [pathIsInUse, htd, if_pos hm]
        · simp only [true_iff]
          exact ⟨t, List.mem_cons_self _ _, by rw [htd, hm.1], hm.2.symm⟩
      · refine ⟨b, ?_, ?_⟩
        · simp only [pathIsInUse, htd, if_neg hm]
          exact hb
        · rw [hiff]
          constructor
          · rintro ⟨u, hu, h1, h2⟩
            exact ⟨u, List.mem_cons_of_mem _ hu, h1, h2⟩
          · rintro ⟨u, hu, h1, h2⟩
            rcases List.mem_cons.mp hu with rfl | hu'
            · exfalso
              apply hm
              rw [htd] at h1
              exact ⟨(Option.some.inj h1).symm, h2.symm⟩
            · exact ⟨u, hu', h1, h2⟩
/-- The first loop of `tr_torrentInitFilePieces` returns when the offsets stay
below 2^64, and gives every file its offset and pieces. -/
theorem initFilesLoop_spec (info : tr_info_t) (hP : info.pieceSize ≠ 0) :
    ∀ (fs : List tr_file_t) (off : Nat), off + filesLength fs < U64 →
      ∃ r, initFilesLoop info fs off = some r ∧ r.length = fs.length ∧
        ∀ k f, fs[k]? = some f →
          r[k]? = some (fileWithPieces info f (off + bytesBefore fs k)) := by
  intro fs
  induction fs with
  | nil =>
    intro off _
    exact ⟨[], rfl, rfl, fun k f h => by simp at h⟩
  | cons f rest ih =>
    intro off hoff
    rw [filesLength_cons] at hoff
    obtain ⟨r, hr, hlen, hidx⟩ := ih (off + f.length) (by omega)
    have h1 : (off + (if f.length ≠ 0 then f.length - 1 else 0)) % U64
        = off + (if f.length ≠ 0 then f.length - 1 else 0) := by
      apply Nat.mod_eq_of_lt
      split_ifs <;> omega
    have h2 : (off + f.length) % U64 = off + f.length := Nat.mod_eq_of_lt (by omega)
    refine ⟨fileWithPieces info f off :: r, ?_, by simp [hlen], ?_⟩
    · simp only [initFilesLoop, getBytePiece, if_neg hP, h1, h2, hr, Option.map_some',
        fileWithPieces]
    · intro k g hk
      cases k with
      | zero =>
        simp only [List.getElem?_cons_zero, Option.some.injEq] at hk
        subst hk
        simp [bytesBefore_zero]
      | succ k =>
        simp only [List.getElem?_cons_succ] at hk
        simp only [List.getElem?_cons_succ, bytesBefore_cons_succ]
        rw [hidx k g hk]
        congr 2
        omega

/-- A piece loop applies its function to the pieces it runs over and leaves the
others as they are. -/
theorem setPiecesLoop_get (f : Int → tr_piece_t → tr_piece_t) (n : Nat) :
    ∀ (i : Nat) (pieces r : List tr_piece_t), setPiecesLoop f n (i : Int) pieces = some r →
      ∀ j, r[j]? = if i ≤ j ∧ j < i + n then (pieces[j]?).map (f (j : Int)) else pieces[j]? := by
  induction n with
  | zero =>
    intro i pieces r h j
    simp only [setPiecesLoop, Option.some.injEq] at h
    subst h
    rw [if_neg (by omega)]
  | succ n ih =>
    intro i pieces r h j
    simp only [setPiecesLoop] at h
    split_ifs at h with hb
    have hcast : ((i : Int) + 1) = ((i + 1 : Nat) : Int) := by push_cast; rfl
    rw [hcast, Int.toNat_ofNat] at h
    rw [ih (i + 1) _ r h j]
    by_cases hj : j = i
    · subst hj
      rw [if_neg (by omega), if_pos (by omega), List.getElem?_modify_eq]
      rfl
    · rw [List.getElem?_modify_ne _ _ (fun e => hj e.symm)]
      by_cases hr : i + 1 ≤ j ∧ j < i + 1 + n
      · rw [if_pos hr, if_pos (by omega)]
      · rw [if_neg hr, if_neg (by omega)]

/-- Once the priority is High it stays High over files of priority High at
most. -/
theorem calculatePiecePriorityLoop_high (piece : Int) (fs : List tr_file_t)
    (hprio : ∀ f ∈ fs, f.priority ≤ TR_PRI_HIGH) :
    calculatePiecePriorityLoop piece fs TR_PRI_HIGH = TR_PRI_HIGH := by
  induction fs with
  | nil => rfl
  | cons f rest ih =>
    have hf : f.priority ≤ TR_PRI_HIGH := hprio f (List.mem_cons_self _ _)
    have hX : ¬ (f.firstPiece ≤ piece ∧ f.lastPiece ≥ piece ∧ f.priority > TR_PRI_HIGH) :=
      fun h => absurd h.2.2 (not_lt.mpr hf)
    simp only [calculatePiecePriorityLoop, hX, if_false, ite_self]
    exact ih (fun g hg => hprio g (List.mem_cons_of_mem _ hg))

/-- A file of priority Normal or more whose first or last piece is `piece`
makes the priority of `piece` High. -/
theorem calculatePiecePriorityLoop_promotes (piece : Int) (fs : List tr_file_t)
    (hprio : ∀ f ∈ fs, f.priority ≤ TR_PRI_HIGH) (g : tr_file_t) (hg : g ∈ fs)
    (hgp : TR_PRI_NORMAL ≤ g.priority) (hgpiece : g.firstPiece = piece ∨ g.lastPiece = piece) :
    ∀ p, calculatePiecePriorityLoop piece fs p = TR_PRI_HIGH := by
  induction fs with
  | nil => exact absurd hg (List.not_mem_nil _)
  | cons f rest ih =>
    intro p
    simp only [calculatePiecePriorityLoop]
    rcases List.mem_cons.mp hg with rfl | hrest
    · rw [if_pos hgp, if_pos hgpiece]
      exact calculatePiecePriorityLoop_high piece rest
        (fun h hh => hprio h (List.mem_cons_of_mem _ hh))
    · exact ih (fun h hh => hprio h (List.mem_cons_of_mem _ hh)) hrest _

/-- The entries of `peertreeAdd`: those of the tree and the new one. -/
theorem peertreeAdd_mem (env : PexEnv) (tree tree' : List tr_peertree_entry_t) (addr : List Nat)
    (port : Nat) (h : peertreeAdd env tree addr port = some tree') (hn : tree.Nodup) :
    tree'.Nodup ∧ ∀ e, e ∈ tree' ↔ e ∈ tree ∨ e = ⟨addr, port⟩ := by
  unfold peertreeAdd at h
  split_ifs at h with h1 h2
  · cases h
    refine ⟨hn, fun e => ⟨Or.inl, ?_⟩⟩
    rintro (h | h)
    · exact h
    · exact h ▸ h2
  · cases h
    refine ⟨?_, fun e => ?_⟩
    · rw [List.nodup_append]
      refine ⟨hn, List.nodup_singleton _, ?_⟩
      intro a ha hb
      rw [List.mem_singleton] at hb
      exact h2 (hb ▸ ha)
    · simp [List.mem_append]

/-- The entries for a list of peers that begins with a peer left out. -/
theorem eligiblePeers_skip (peer pp : tr_peer_t) (rest : List tr_peer_t)
    (h : pp.port = 0 ∨ peer.addr = pp.addr) :
    eligiblePeers peer (pp :: rest) = eligiblePeers peer rest := by
  unfold eligiblePeers
  rw [List.filter_cons_of_neg (by simp only [decide_not, Bool.not_eq_true', decide_eq_false_iff_not, not_not]; exact h)]

/-- The entries for a list of peers that begins with a peer taken in. -/
theorem eligiblePeers_take (peer pp : tr_peer_t) (rest : List tr_peer_t)
    (h : ¬ (pp.port = 0 ∨ peer.addr = pp.addr)) :
    eligiblePeers peer (pp :: rest) = ⟨pp.addr, pp.port⟩ :: eligiblePeers peer rest := by
  unfold eligiblePeers
  rw [List.filter_cons_of_pos (by simpa using h), List.map_cons]

/-- Whatever the loop of `makeCommonPex` does, the entries of `sent` and
`common` together stay the same. -/
theorem commonPexLoop_keeps (env : PexEnv) (peer : tr_peer_t) :
    ∀ (ps : List tr_peer_t) (sent added common : List tr_peertree_entry_t) (e : tr_peertree_entry_t),
      (e ∈ (commonPexLoop env peer ps sent added common).2.1 ∨
        e ∈ (commonPexLoop env peer ps sent added common).2.2.2) ↔ (e ∈ sent ∨ e ∈ common)
  | [], sent, added, common, e => by simp [commonPexLoop]
  | pp :: rest, sent, added, common, e => by
    unfold commonPexLoop
    by_cases hel : pp.port = 0 ∨ peer.addr = pp.addr
    · rw [if_pos hel]
      exact commonPexLoop_keeps env peer rest sent added common e
    · rw [if_neg hel]
      unfold peertreeGet
      by_cases hx : (⟨pp.addr, pp.port⟩ : tr_peertree_entry_t) ∈ sent
      · rw [if_pos hx]
        simp only [peertreeMove]
        rw [commonPexLoop_keeps env peer rest _ added _ e]
        by_cases hex : e = ⟨pp.addr, pp.port⟩
        · subst hex
          simp [hx]
        · simp [List.mem_erase_of_ne hex, hex]
      · rw [if_neg hx]
        simp only
        cases hadd : peertreeAdd env added pp.addr pp.port with
        | none => simp
        | some added' =>
          simp only
          exact commonPexLoop_keeps env peer rest sent added' common e

/-- When the loop of `makeCommonPex` runs to its end over peers with distinct
entries, `sent` loses the entries of the peers, which go to `common`, and
`added` gains the entries of the peers that were not in `sent`. -/
theorem commonPexLoop_run (env : PexEnv) (peer : tr_peer_t) :
    ∀ (ps : List tr_peer_t) (sent added common : List tr_peertree_entry_t),
      sent.Nodup → added.Nodup → (eligiblePeers peer ps).Nodup →
      (commonPexLoop env peer ps sent added common).1 = true →
      (commonPexLoop env peer ps sent added common).2.1.Nodup ∧
      (commonPexLoop env peer ps sent added common).2.2.1.Nodup ∧
      (∀ e, e ∈ (commonPexLoop env peer ps sent added common).2.1 ↔
        (e ∈ sent ∧ e ∉ eligiblePeers peer ps)) ∧
      (∀ e, e ∈ (commonPexLoop env peer ps sent added common).2.2.1 ↔
        (e ∈ added ∨ (e ∈ eligiblePeers peer ps ∧ e ∉ sent))) ∧
      (∀ e, e ∈ (commonPexLoop env peer ps sent added common).2.2.2 ↔
        (e ∈ common ∨ (e ∈ sent ∧ e ∈ eligiblePeers peer ps)))
  | [], sent, added, common, hs, ha, _, _ => by
    simp [commonPexLoop, eligiblePeers, hs, ha]
  | pp :: rest, sent, added, common, hs, ha, hE, hrun => by
    unfold commonPexLoop at hrun ⊢
    by_cases hel : pp.port = 0 ∨ peer.addr = pp.addr
    · rw [if_pos hel] at hrun ⊢
      rw [eligiblePeers_skip peer pp rest hel] at hE ⊢
      exact commonPexLoop_run env peer rest sent added common hs ha hE hrun
    · rw [if_neg hel] at hrun ⊢
      rw [eligiblePeers_take peer pp rest hel] at hE ⊢
      obtain ⟨hxE, hE'⟩ := List.nodup_cons.mp hE
      unfold peertreeGet at hrun ⊢
      by_cases hx : (⟨pp.addr, pp.port⟩ : tr_peertree_entry_t) ∈ sent
      · rw [if_pos hx] at hrun ⊢
        simp only [peertreeMove] at hrun ⊢
        obtain ⟨h1, h2, h3, h4, h5⟩ :=
          commonPexLoop_run env peer rest (sent.erase ⟨pp.addr, pp.port⟩) added
            (common ++ [⟨pp.addr, pp.port⟩]) (hs.erase _) ha hE' hrun
        refine ⟨h1, h2, fun e => ?_, fun e => ?_, fun e => ?_⟩
        · rw [h3 e, hs.mem_erase_iff, List.mem_cons]
          tauto
        · rw [h4 e, hs.mem_erase_iff, List.mem_cons]
          by_cases hex : e = ⟨pp.addr, pp.port⟩
          · subst hex
            tauto
          · tauto
        · rw [h5 e, hs.mem_erase_iff, List.mem_cons, List.mem_append, List.mem_singleton]
          by_cases hex : e = ⟨pp.addr, pp.port⟩
          · subst hex
            tauto
          · tauto
      · rw [if_neg hx] at hrun ⊢
        simp only at hrun ⊢
        cases hadd : peertreeAdd env added pp.addr pp.port with
        | none => rw [hadd] at hrun; simp at hrun
        | some added' =>
          rw [hadd] at hrun
          simp only at hrun ⊢
          obtain ⟨ha', hmem⟩ := peertreeAdd_mem env added added' pp.addr pp.port hadd ha
          obtain ⟨h1, h2, h3, h4, h5⟩ :=
            commonPexLoop_run env peer rest sent added' common hs ha' hE' hrun
          refine ⟨h1, h2, fun e => ?_, fun e => ?_, fun e => ?_⟩
          · rw [h3 e, List.mem_cons]
            by_cases hex : e = ⟨pp.addr, pp.port⟩
            · subst hex
              tauto
            · tauto
          · rw [h4 e, hmem e, List.mem_cons]
            by_cases hex : e = ⟨pp.addr, pp.port⟩
            · subst hex
              tauto
            · tauto
          · rw [h5 e, List.mem_cons]
            by_cases hex : e = ⟨pp.addr, pp.port⟩
            · subst hex
              tauto
            · tauto

/-- The loop of `makeCommonPex` runs to its end when no entry fails to be
allocated. -/
theorem commonPexLoop_total (env : PexEnv) (peer : tr_peer_t)
    (hadd : ∀ e, env.peertreeAddFails e = false) :
    ∀ (ps : List tr_peer_t) (sent added common : List tr_peertree_entry_t),
      (commonPexLoop env peer ps sent added common).1 = true
  | [], _, _, _ => rfl
  | pp :: rest, sent, added, common => by
    unfold commonPexLoop
    split_ifs with h
    · exact commonPexLoop_total env peer hadd rest _ _ _
    · unfold peertreeGet peertreeAdd
      rw [hadd]
      simp only [Bool.false_eq_true, if_false]
      split_ifs <;> exact commonPexLoop_total env peer hadd rest _ _ _

/-- The value that `peertreeToBencUT` gives, when it gives one. -/
theorem peertreeToBencUT_some (env : PexEnv) (tree : List tr_peertree_entry_t) (v : benc_val_t)
    (h : peertreeToBencUT env tree = some v) :
    v = benc_val_t.str ((tree.reverse.map entryBytes).flatten) := by
  unfold peertreeToBencUT at h
  split_ifs at h with h1 h2
  · cases h
    rw [List.length_eq_zero.mp h1]
    rfl
  · cases h
    rfl

/-- When `writeBlock` goes on to the cancel messages, the piece index is not
negative. -/
theorem writeBlock_index (env : StoreEnv) (w : StoreWorld) (tor : tr_torrent_t)
    (peer : tr_peer_t) (index begin : Int) (p : List Nat) (len : Int) (w1 : StoreWorld)
    (tor1 : tr_torrent_t) (peer1 : tr_peer_t) (block : Int)
    (h : writeBlock env w tor peer index begin p len = some (none, w1, tor1, peer1, block)) :
    0 ≤ index := by
  by_contra hneg
  have hlt : index < 0 := not_le.mp hneg
  unfold writeBlock at h
  cases hb : _tr_block tor.totr_torrent index begin with
  | none => rw [hb] at h; cases h
  | some b =>
    rw [hb] at h
    simp only at h
    cases hu : updateRequests tor peer index begin with
    | none => rw [hu] at h; cases h
    | some tp =>
      rw [hu] at h
      simp only [if_pos hlt] at h
      split_ifs at h <;> simp at h

/-- The loop `haveLoop` keeps the peers already visited and turns every peer
to visit into itself, below `PEER_STATUS_CONNECTED`, or into the peer after
`sendHave` and `updateInterest`. -/
theorem haveLoop_spec (env : StoreEnv) (tor : tr_torrent_t) (index : Int) :
    ∀ (todo done : List tr_peer_t),
      ∃ out, haveLoop env tor index done todo = done ++ out ∧
        List.Forall₂
          (fun o o' => (o.status < PEER_STATUS_CONNECTED → o' = o) ∧
            (PEER_STATUS_CONNECTED ≤ o.status →
              ∃ t, o' = env.updateInterest t (env.sendHave o index)))
          todo out
  | [], done => ⟨[], by simp [haveLoop], List.Forall₂.nil⟩
  | o :: rest, done => by
    unfold haveLoop
    by_cases hs : o.status < PEER_STATUS_CONNECTED
    · rw [if_pos hs]
      obtain ⟨out, h1, h2⟩ := haveLoop_spec env tor index rest (done ++ [o])
      refine ⟨o :: out, by rw [h1, List.append_assoc, List.singleton_append], ?_⟩
      exact List.Forall₂.cons ⟨fun _ => rfl, fun h => absurd hs (not_lt.mpr h)⟩ h2
    · rw [if_neg hs]
      obtain ⟨out, h1, h2⟩ := haveLoop_spec env tor index rest
        (done ++ [env.updateInterest { tor with peers := done ++ rest } (env.sendHave o index)])
      refine ⟨_ :: out, by rw [h1, List.append_assoc, List.singleton_append], ?_⟩
      exact List.Forall₂.cons ⟨fun h => absurd h hs, fun _ => ⟨_, rfl⟩⟩ h2

/-- The quotient of the bytes of block `k`. -/
theorem div_of_block (B k x : Nat) (h1 : B * k ≤ x) (h2 : x < B * k + B) : x / B = k := by
  apply Nat.div_eq_of_lt_le
  · rw [Nat.mul_comm]
    exact h1
  · rw [Nat.succ_mul, Nat.mul_comm]
    exact h2

/-- The count over `a + b` bytes is the count over the first `a` bytes plus
the count over the `b` bytes after them. -/
theorem bytesInCompleteBlocks_add (cp : BlockCompletion) (B o a b : Nat) :
    bytesInCompleteBlocks cp B o (a + b)
      = bytesInCompleteBlocks cp B o a + bytesInCompleteBlocks cp B (o + a) b := by
  unfold bytesInCompleteBlocks
  rw [List.range_add, List.countP_append, List.countP_map]
  congr 1
  apply List.countP_congr
  intro j _
  simp [Function.comp, Nat.add_assoc]

/-- The count over bytes that all lie in block `k`. -/
theorem bytesInCompleteBlocks_block (cp : BlockCompletion) (B o n k : Nat)
    (h : ∀ j, j < n → (o + j) / B = k) :
    bytesInCompleteBlocks cp B o n = if tr_cpBlockIsComplete cp (k : Int) then n else 0 := by
  unfold bytesInCompleteBlocks
  by_cases hc : tr_cpBlockIsComplete cp (k : Int) = true
  · rw [if_pos hc]
    have : (List.range n).countP (fun j => tr_cpBlockIsComplete cp (((o + j) / B : Nat) : Int))
        = (List.range n).length := by
      rw [List.countP_eq_length]
      intro j hj
      rw [List.mem_range] at hj
      simp only [h j hj]
      exact hc
    rw [this, List.length_range]
  · rw [if_neg hc]
    rw [List.countP_eq_zero]
    intro j hj
    rw [List.mem_range] at hj
    simp only [h j hj]
    exact hc

/-- The loop of `fileBytesCompleted` adds the count over the `m` blocks from
block `i` on. -/
theorem fileBytesLoop_spec (cp : BlockCompletion) (B : Nat) :
    ∀ (m i h : Nat), i + m ≤ 2 ^ 31 → h + m * B < U64 →
      fileBytesLoop cp B m i h = h + bytesInCompleteBlocks cp B (B * i) (m * B)
  | 0, i, h, _, _ => by simp [fileBytesLoop, bytesInCompleteBlocks]
  | m + 1, i, h, hi, hh => by
    have hU : U64 = 2 ^ 64 := rfl
    have hmB : (m + 1) * B = B + m * B := by rw [Nat.succ_mul, Nat.add_comm]
    rw [hmB] at hh
    unfold fileBytesLoop
    rw [toInt32_of_lt i (by omega), Nat.mod_eq_of_lt (by omega : i + 1 < U64)]
    have hblock : bytesInCompleteBlocks cp B (B * i) B
        = if tr_cpBlockIsComplete cp (i : Int) then B else 0 :=
      bytesInCompleteBlocks_block cp B (B * i) B i
        (fun j hj => div_of_block B i _ (by omega) (by omega))
    have hnext : B * i + B = B * (i + 1) := by rw [Nat.mul_succ]
    rw [hmB, bytesInCompleteBlocks_add, hblock, hnext]
    by_cases hc : tr_cpBlockIsComplete cp (i : Int) = true
    · rw [if_pos hc, if_pos hc, Nat.mod_eq_of_lt (by omega : h + B < U64)]
      rw [fileBytesLoop_spec cp B m (i + 1) (h + B) (by omega) (by omega)]
      omega
    · rw [if_neg hc, if_neg hc]
      rw [fileBytesLoop_spec cp B m (i + 1) h (by omega) (by omega)]
      omega

/-- The count is at most the number of bytes. -/
theorem bytesInCompleteBlocks_le (cp : BlockCompletion) (B o n : Nat) :
    bytesInCompleteBlocks cp B o n ≤ n := by
  unfold bytesInCompleteBlocks
  have := List.countP_le_length (fun j => tr_cpBlockIsComplete cp (((o + j) / B : Nat) : Int))
    (l := List.range n)
  rw [List.length_range] at this
  exact this

/-- The function `fileBytesCompleted` on a file of at least one byte, in a
torrent whose sizes fit their types: the count of the bytes of the file in
complete blocks. -/
theorem fileBytesCompleted_spec (tor : tr_torrent) (cp : BlockCompletion) (fileIndex : Int)
    (file : tr_file_t) (hidx : 0 ≤ fileIndex)
    (hfile : tor.info.files[fileIndex.toNat]? = some file)
    (hbs : 0 < tor.blockSize) (hbs' : tor.blockSize < 2 ^ 31)
    (hlen : 0 < file.length) (hend : file.offset + file.length < U64)
    (hlast : (file.offset + file.length - 1) / tor.blockSize.toNat < 2 ^ 31) :
    fileBytesCompleted tor cp fileIndex
      = some (bytesInCompleteBlocks cp tor.blockSize.toNat file.offset file.length) := by
  have hU : U64 = 2 ^ 64 := rfl
  have hBint : tor.blockSize = ((tor.blockSize.toNat : Nat) : Int) :=
    (Int.toNat_of_nonneg (le_of_lt hbs)).symm
  have hB : 0 < tor.blockSize.toNat := by omega
  have hBlt : tor.blockSize.toNat < U64 := by omega
  have htoU : toU64 tor.blockSize = tor.blockSize.toNat := by
    conv_lhs => rw [hBint]
    exact toU64_natCast _ hBlt
  generalize tor.blockSize.toNat = B at hB hBlt htoU hlast
  unfold fileBytesCompleted
  rw [if_neg (by omega), hfile]
  simp only [htoU]
  rw [if_neg (by omega), if_pos (by omega : file.length ≠ 0)]
  have hx : (file.offset + (file.length - 1)) % U64 = file.offset + file.length - 1 := by
    rw [Nat.mod_eq_of_lt (by omega)]
    omega
  rw [hx]
  have hof := Nat.div_add_mod file.offset B
  have hol := Nat.div_add_mod (file.offset + file.length - 1) B
  have hfb := Nat.mod_lt file.offset hB
  have hlb := Nat.mod_lt (file.offset + file.length - 1) hB
  have hle : file.offset / B ≤ (file.offset + file.length - 1) / B :=
    Nat.div_le_div_right (by omega)
  have hf31 : file.offset / B < 2 ^ 31 := by omega
  rw [toInt32_of_lt _ hf31, toInt32_of_lt _ hlast]
  by_cases hfl : file.offset / B = (file.offset + file.length - 1) / B
  · rw [if_pos hfl]
    rw [← hfl] at hol
    have hval : (file.offset + file.length - 1) % B + 1 + U64 - file.offset % B
        = file.length + U64 := by omega
    rw [hval, Nat.add_mod_right, Nat.mod_eq_of_lt (by omega : file.length < U64)]
    rw [bytesInCompleteBlocks_block cp B file.offset file.length (file.offset / B)
      (fun j hj => div_of_block B _ _ (by omega) (by omega))]
    split_ifs <;> rfl
  · rw [if_neg hfl]
    have hlt : file.offset / B + 1 ≤ (file.offset + file.length - 1) / B := by omega
    have hmul : B * (file.offset / B + 1) ≤ B * ((file.offset + file.length - 1) / B) :=
      Nat.mul_le_mul_left B hlt
    rw [Nat.mul_succ] at hmul
    have hn2 : ((file.offset + file.length - 1) / B - (file.offset / B + 1)) * B
        = B * ((file.offset + file.length - 1) / B) - (B * (file.offset / B) + B) := by
      rw [Nat.sub_mul, Nat.mul_comm _ B, Nat.mul_comm _ B, Nat.mul_succ]
    have hsplit : file.length
        = (B - file.offset % B)
          + (((file.offset + file.length - 1) / B - (file.offset / B + 1)) * B
            + ((file.offset + file.length - 1) % B + 1)) := by
      rw [hn2]
      omega
    have h1 : bytesInCompleteBlocks cp B file.offset (B - file.offset % B)
        = if tr_cpBlockIsComplete cp ((file.offset / B : Nat) : Int) then B - file.offset % B
          else 0 :=
      bytesInCompleteBlocks_block cp B file.offset _ (file.offset / B)
        (fun j hj => div_of_block B _ _ (by omega) (by omega))
    have ho1 : file.offset + (B - file.offset % B) = B * (file.offset / B + 1) := by
      rw [Nat.mul_succ]
      omega
    have ho2 : B * (file.offset / B + 1)
        + ((file.offset + file.length - 1) / B - (file.offset / B + 1)) * B
        = B * ((file.offset + file.length - 1) / B) := by
      rw [hn2, Nat.mul_succ]
      omega
    have h3 : bytesInCompleteBlocks cp B (B * ((file.offset + file.length - 1) / B))
          ((file.offset + file.length - 1) % B + 1)
        = if tr_cpBlockIsComplete cp (((file.offset + file.length - 1) / B : Nat) : Int) then
            (file.offset + file.length - 1) % B + 1
          else 0 :=
      bytesInCompleteBlocks_block cp B _ _ ((file.offset + file.length - 1) / B)
        (fun j hj => div_of_block B _ _ (by omega) (by omega))
    have hcount : bytesInCompleteBlocks cp B file.offset file.length
        = bytesInCompleteBlocks cp B file.offset (B - file.offset % B)
          + (bytesInCompleteBlocks cp B (B * (file.offset / B + 1))
              (((file.offset + file.length - 1) / B - (file.offset / B + 1)) * B)
            + bytesInCompleteBlocks cp B (B * ((file.offset + file.length - 1) / B))
              ((file.offset + file.length - 1) % B + 1)) := by
      conv_lhs => rw [hsplit]
      rw [bytesInCompleteBlocks_add, bytesInCompleteBlocks_add, ho1, ho2]
    have hmid := bytesInCompleteBlocks_le cp B (B * (file.offset / B + 1))
      (((file.offset + file.length - 1) / B - (file.offset / B + 1)) * B)
    have hfirst : (B + U64 - file.offset % B) % U64 = B - file.offset % B := by
      have : B + U64 - file.offset % B = (B - file.offset % B) + U64 := by omega
      rw [this, Nat.add_mod_right, Nat.mod_eq_of_lt (by omega)]
    rw [hfirst, hcount, h1, h3]
    by_cases hc1 : tr_cpBlockIsComplete cp ((file.offset / B : Nat) : Int) = true
    · simp only [hc1, if_true]
      rw [fileBytesLoop_spec cp B _ (file.offset / B + 1) (B - file.offset % B) (by omega)
        (by omega)]
      by_cases hc3 : tr_cpBlockIsComplete cp
          (((file.offset + file.length - 1) / B : Nat) : Int) = true
      · simp only [hc3, if_true]
        rw [Nat.mod_eq_of_lt (by omega)]
        congr 1
        omega
      · simp only [hc3, Bool.false_eq_true, if_false]
        rfl
    · simp only [hc1, Bool.false_eq_true, if_false]
      rw [fileBytesLoop_spec cp B _ (file.offset / B + 1) 0 (by omega) (by omega)]
      by_cases hc3 : tr_cpBlockIsComplete cp
          (((file.offset + file.length - 1) / B : Nat) : Int) = true
      · simp only [hc3, if_true]
        rw [Nat.mod_eq_of_lt (by omega)]
        congr 1
        omega
      · simp only [hc3, Bool.false_eq_true, if_false]
        rfl

/-- A file has a byte in piece `p` when one of its offsets falls there. -/
theorem hasByteInPiece_iff (pieceSize : Nat) (f : tr_file_t) (p : Nat) :
    hasByteInPiece pieceSize f p = true ↔ ∃ j, j < f.length ∧ (f.offset + j) / pieceSize = p := by
  unfold hasByteInPiece
  rw [List.any_eq_true]
  constructor
  · rintro ⟨j, hj, h⟩
    exact ⟨j, List.mem_range.mp hj, of_decide_eq_true h⟩
  · rintro ⟨j, hj, h⟩
    exact ⟨j, List.mem_range.mpr hj, decide_eq_true h⟩

/-- An assignment to the flag of a piece changes that piece only. -/
theorem setPieceDND_get (pieces r : List tr_piece_t) (i : Nat) (dnd : Bool)
    (h : setPieceDND pieces (i : Int) dnd = some r) (j : Nat) :
    r[j]? = if j = i then (pieces[j]?).map (fun p => { p with dnd := dnd }) else pieces[j]? := by
  unfold setPieceDND at h
  split_ifs at h with h1
  simp only [Option.some.injEq, Int.toNat_ofNat] at h
  subst h
  by_cases hji : j = i
  · rw [if_pos hji, hji, List.getElem?_modify_eq]
    rfl
  · rw [if_neg hji, List.getElem?_modify_ne _ _ (fun h => hji h.symm)]

/-- The scan `neighbourDND`, when among the neighbours the ones that share the
piece come first. -/
theorem neighbourDND_pairwise (shares : tr_file_t → Bool) :
    ∀ (l : List tr_file_t) (flag : Bool),
      l.Pairwise (fun h g => shares g = true → shares h = true) →
      (neighbourDND shares l flag = true ↔
        (flag = true ∧ ∀ g ∈ l, shares g = true → g.dnd = true))
  | [], flag, _ => by simp [neighbourDND]
  | g0 :: rest, flag, hp => by
    obtain ⟨h0, hrest⟩ := List.pairwise_cons.mp hp
    have ih := neighbourDND_pairwise shares rest g0.dnd hrest
    unfold neighbourDND
    by_cases hf : flag = true
    · rw [if_neg (by simp [hf])]
      by_cases hs : shares g0 = true
      · rw [if_neg (by simp [hs]), ih]
        constructor
        · rintro ⟨h1, h2⟩
          refine ⟨hf, ?_⟩
          intro g hg hsg
          rcases List.mem_cons.mp hg with h | h
          · rw [h]; exact h1
          · exact h2 g h hsg
        · rintro ⟨_, h2⟩
          exact ⟨h2 g0 (List.mem_cons_self _ _) hs, fun g hg hsg =>
            h2 g (List.mem_cons_of_mem _ hg) hsg⟩
      · rw [if_pos (by simp [hs])]
        constructor
        · intro _
          refine ⟨hf, ?_⟩
          intro g hg hsg
          rcases List.mem_cons.mp hg with h | h
          · rw [h] at hsg; exact absurd hsg hs
          · exact absurd (h0 g h hsg) hs
        · intro _
          exact hf
    · rw [if_pos (by simp [hf])]
      constructor
      · intro h; exact absurd h hf
      · rintro ⟨h, _⟩; exact absurd h hf

/-- The flags that `tr_torrentSetFileDL` computes for the pieces of a file:
in a list of files whose pieces follow one another, the flag for a piece `p`
of the file is set exactly when every file whose pieces include `p` is marked
do-not-download. -/
theorem fileDL_flags (l1 l2 : List tr_file_t) (f : tr_file_t)
    (hord : (l1 ++ f :: l2).Pairwise (fun g h => g.lastPiece ≤ h.firstPiece))
    (hfl : ∀ g ∈ l1 ++ f :: l2, g.firstPiece ≤ g.lastPiece) (p : Int)
    (hFp : f.firstPiece ≤ p) (hpL : p ≤ f.lastPiece) :
    ((if f.firstPiece = f.lastPiece then
        (neighbourDND (fun g => decide (g.lastPiece = f.firstPiece)) l1.reverse f.dnd
          && neighbourDND (fun g => decide (g.firstPiece = f.lastPiece)) l2 f.dnd)
      else if p = f.firstPiece then
        neighbourDND (fun g => decide (g.lastPiece = f.firstPiece)) l1.reverse f.dnd
      else if p = f.lastPiece then
        neighbourDND (fun g => decide (g.firstPiece = f.lastPiece)) l2 f.dnd
      else f.dnd) = true) ↔
    ∀ g ∈ l1 ++ f :: l2, g.firstPiece ≤ p → p ≤ g.lastPiece → g.dnd = true := by
  obtain ⟨hp1, hp2, h12⟩ := List.pairwise_append.mp hord
  obtain ⟨hf2, hp2'⟩ := List.pairwise_cons.mp hp2
  have hfl1 : ∀ g ∈ l1, g.firstPiece ≤ g.lastPiece := fun g hg =>
    hfl g (List.mem_append_left _ hg)
  have hfl2 : ∀ g ∈ l2, g.firstPiece ≤ g.lastPiece := fun g hg =>
    hfl g (List.mem_append_right _ (List.mem_cons_of_mem _ hg))
  have hff : f.firstPiece ≤ f.lastPiece :=
    hfl f (List.mem_append_right _ (List.mem_cons_self _ _))
  have h1f : ∀ g ∈ l1, g.lastPiece ≤ f.firstPiece := fun g hg =>
    h12 g hg f (List.mem_cons_self _ _)
  have hA := neighbourDND_pairwise (fun g => decide (g.lastPiece = f.firstPiece)) l1.reverse
    f.dnd (by
      rw [List.pairwise_reverse]
      refine List.Pairwise.imp_of_mem ?_ hp1
      intro a b ha hb hab hs
      have hs' : a.lastPiece = f.firstPiece := of_decide_eq_true hs
      have h1 := hfl1 b hb
      have h2 := h1f b hb
      exact decide_eq_true (by omega))
  have hB := neighbourDND_pairwise (fun g => decide (g.firstPiece = f.lastPiece)) l2 f.dnd (by
      refine List.Pairwise.imp_of_mem ?_ hp2'
      intro a b ha hb hab hs
      have hs' : b.firstPiece = f.lastPiece := of_decide_eq_true hs
      have h1 := hfl2 a ha
      have h2 := hf2 a ha
      exact decide_eq_true (by omega))
  simp only [List.mem_reverse, decide_eq_true_eq] at hA hB
  have hall : (∀ g ∈ l1 ++ f :: l2, g.firstPiece ≤ p → p ≤ g.lastPiece → g.dnd = true) ↔
      ((∀ g ∈ l1, g.firstPiece ≤ p → p ≤ g.lastPiece → g.dnd = true) ∧ f.dnd = true ∧
        ∀ g ∈ l2, g.firstPiece ≤ p → p ≤ g.lastPiece → g.dnd = true) := by
    constructor
    · intro h
      exact ⟨fun g hg => h g (List.mem_append_left _ hg),
        h f (List.mem_append_right _ (List.mem_cons_self _ _)) hFp hpL,
        fun g hg => h g (List.mem_append_right _ (List.mem_cons_of_mem _ hg))⟩
    · rintro ⟨h1, h2, h3⟩ g hg
      rcases List.mem_append.mp hg with h | h
      · exact h1 g h
      · rcases List.mem_cons.mp h with h | h
        · intro _ _; rw [h]; exact h2
        · exact h3 g h
  rw [hall]
  by_cases hFL : f.firstPiece = f.lastPiece
  · rw [if_pos hFL, Bool.and_eq_true, hA, hB]
    have hpF : p = f.firstPiece := by omega
    constructor
    · rintro ⟨⟨hd, h1⟩, _, h2⟩
      refine ⟨fun g hg _ hgl => h1 g hg ?_, hd, fun g hg hgf _ => h2 g hg ?_⟩
      · have := h1f g hg
        omega
      · have := hf2 g hg
        omega
    · rintro ⟨h1, hd, h2⟩
      refine ⟨⟨hd, fun g hg hgl => h1 g hg ?_ ?_⟩, hd, fun g hg hgf => h2 g hg ?_ ?_⟩
      · have := hfl1 g hg
        omega
      · omega
      · omega
      · have := hfl2 g hg
        omega
  · rw [if_neg hFL]
    by_cases hpF : p = f.firstPiece
    · rw [if_pos hpF, hA]
      constructor
      · rintro ⟨hd, h1⟩
        refine ⟨fun g hg _ hgl => h1 g hg ?_, hd, fun g hg hgf _ => ?_⟩
        · have := h1f g hg
          omega
        · have := hf2 g hg
          omega
      · rintro ⟨h1, hd, _⟩
        refine ⟨hd, fun g hg hgl => h1 g hg ?_ ?_⟩
        · have := hfl1 g hg
          omega
        · omega
    · rw [if_neg hpF]
      by_cases hpL' : p = f.lastPiece
      · rw [if_pos hpL', hB]
        constructor
        · rintro ⟨hd, h2⟩
          refine ⟨fun g hg _ hgl => ?_, hd, fun g hg hgf _ => h2 g hg ?_⟩
          · have := h1f g hg
            omega
          · have := hf2 g hg
            omega
        · rintro ⟨_, hd, h2⟩
          refine ⟨hd, fun g hg hgf => h2 g hg ?_ ?_⟩
          · omega
          · have := hfl2 g hg
            omega
      · rw [if_neg hpL']
        constructor
        · intro hd
          refine ⟨fun g hg _ hgl => ?_, hd, fun g hg hgf _ => ?_⟩
          · have := h1f g hg
            omega
          · have := hf2 g hg
            omega
        · rintro ⟨_, hd, _⟩
          exact hd

/-- The function `tr_torrentSetFileDL` on a file whose pieces are pieces of the
torrent: it returns, the file gets its flag, and the pieces of the file get the
flags of the two scans; nothing else changes in the files and the pieces. -/
theorem setFileDL_pieces (tor : tr_torrent) (k : Nat) (doDownload : Int) (file : tr_file_t)
    (Fn Ln : Nat) (hfile : tor.info.files[k]? = some file) (hF : file.firstPiece = (Fn : Int))
    (hL : file.lastPiece = (Ln : Int)) (hFL : Fn ≤ Ln) (hLn : Ln < tor.info.pieces.length) :
    ∃ tor', tr_torrentSetFileDL tor (k : Int) doDownload = some tor' ∧
      tor'.info.files
        = tor.info.files.modify (fun f => { f with dnd := decide (doDownload = 0) }) k ∧
      tor'.info.pieceSize = tor.info.pieceSize ∧ tor'.info.pieceCount = tor.info.pieceCount ∧
      tor'.info.pieces.length = tor.info.pieces.length ∧
      ∀ p : Nat, tor'.info.pieces[p]? =
        if Fn ≤ p ∧ p ≤ Ln then
          (tor.info.pieces[p]?).map (fun pc =>
            { pc with
              dnd :=
                if file.firstPiece = file.lastPiece then
                  (neighbourDND (fun g => decide (g.lastPiece = file.firstPiece))
                      ((tor.info.files.modify (fun f => { f with dnd := decide (doDownload = 0) })
                        k).take k).reverse (decide (doDownload = 0))
                    && neighbourDND (fun g => decide (g.firstPiece = file.lastPiece))
                      ((tor.info.files.modify (fun f => { f with dnd := decide (doDownload = 0) })
                        k).drop (k + 1)) (decide (doDownload = 0)))
                else if (p : Int) = file.firstPiece then
                  neighbourDND (fun g => decide (g.lastPiece = file.firstPiece))
                    ((tor.info.files.modify (fun f => { f with dnd := decide (doDownload = 0) })
                      k).take k).reverse (decide (doDownload = 0))
                else if (p : Int) = file.lastPiece then
                  neighbourDND (fun g => decide (g.firstPiece = file.lastPiece))
                    ((tor.info.files.modify (fun f => { f with dnd := decide (doDownload = 0) })
                      k).drop (k + 1)) (decide (doDownload = 0))
                else decide (doDownload = 0) })
        else tor.info.pieces[p]? := by
  generalize hA : neighbourDND (fun g => decide (g.lastPiece = file.firstPiece))
    ((tor.info.files.modify (fun f => { f with dnd := decide (doDownload = 0) }) k).take
      k).reverse (decide (doDownload = 0)) = A
  generalize hB : neighbourDND (fun g => decide (g.firstPiece = file.lastPiece))
    ((tor.info.files.modify (fun f => { f with dnd := decide (doDownload = 0) }) k).drop
      (k + 1)) (decide (doDownload = 0)) = B
  unfold tr_torrentSetFileDL
  rw [if_neg (by omega), Int.toNat_ofNat, hfile]
  simp only [hA, hB]
  by_cases hEq : file.firstPiece = file.lastPiece
  · have hFLn : Fn = Ln := by omega
    subst hFLn
    simp only [if_pos hEq]
    have hset : setPieceDND tor.info.pieces file.firstPiece (A && B)
        = some (tor.info.pieces.modify (fun p => { p with dnd := (A && B) }) Fn) := by
      unfold setPieceDND
      rw [if_neg (by omega), hF, Int.toNat_ofNat]
    rw [hset]
    refine ⟨_, rfl, rfl, rfl, rfl, List.length_modify _ _ _, ?_⟩
    intro p
    by_cases hp : p = Fn
    · subst hp
      rw [if_pos ⟨le_refl _, le_refl _⟩]
      simp only
      rw [List.getElem?_modify_eq]
      rfl
    · rw [if_neg (by omega)]
      simp only
      rw [List.getElem?_modify_ne _ _ (fun h => hp h.symm)]
  · have hlt : Fn < Ln := by omega
    simp only [if_neg hEq]
    have hset1 : setPieceDND tor.info.pieces file.firstPiece A
        = some (tor.info.pieces.modify (fun p => { p with dnd := A }) Fn) := by
      unfold setPieceDND
      rw [if_neg (by omega), hF, Int.toNat_ofNat]
    have hset2 : setPieceDND (tor.info.pieces.modify (fun p => { p with dnd := A }) Fn)
          file.lastPiece B
        = some ((tor.info.pieces.modify (fun p => { p with dnd := A }) Fn).modify
            (fun p => { p with dnd := B }) Ln) := by
      unfold setPieceDND
      rw [if_neg (by rw [List.length_modify]; omega), hL, Int.toNat_ofNat]
    rw [hset1]
    simp only
    rw [hset2]
    simp only
    have hn : (file.lastPiece - file.firstPiece - 1).toNat = Ln - Fn - 1 := by omega
    have hi : file.firstPiece + 1 = ((Fn + 1 : Nat) : Int) := by omega
    rw [hn, hi]
    obtain ⟨r, hr, hrl⟩ := setPiecesLoop_some
      (fun _ p => { p with dnd := decide (doDownload = 0) }) (Ln - Fn - 1) ((Fn + 1 : Nat) : Int)
      ((tor.info.pieces.modify (fun p => { p with dnd := A }) Fn).modify
        (fun p => { p with dnd := B }) Ln) (by omega)
      (by rw [List.length_modify, List.length_modify]; omega)
    have hget := setPiecesLoop_get (fun _ p => { p with dnd := decide (doDownload = 0) })
      (Ln - Fn - 1) (Fn + 1) _ r hr
    rw [hr]
    refine ⟨_, rfl, rfl, rfl, rfl, ?_, ?_⟩
    · simp only
      rw [hrl, List.length_modify, List.length_modify]
    · intro p
      simp only
      rw [hget p]
      by_cases hpF : p = Fn
      · subst hpF
        rw [if_neg (by omega), List.getElem?_modify_ne _ _ (by omega),
          List.getElem?_modify_eq, if_pos ⟨le_refl _, by omega⟩,
          if_pos hF.symm]
        rfl
      · by_cases hpL : p = Ln
        · subst hpL
          rw [if_neg (by omega), List.getElem?_modify_eq,
            List.getElem?_modify_ne _ _ (fun h => hpF h.symm), if_pos ⟨by omega, le_refl _⟩,
            if_neg (by omega), if_pos hL.symm]
          rfl
        · by_cases hmid : Fn + 1 ≤ p ∧ p < Fn + 1 + (Ln - Fn - 1)
          · rw [if_pos hmid, List.getElem?_modify_ne _ _ (fun h => hpL h.symm),
              List.getElem?_modify_ne _ _ (fun h => hpF h.symm), if_pos ⟨by omega, by omega⟩,
              if_neg (by omega), if_neg (by omega)]
          · rw [if_neg hmid, List.getElem?_modify_ne _ _ (fun h => hpL h.symm),
              List.getElem?_modify_ne _ _ (fun h => hpF h.symm), if_neg (by omega)]

/-- After `tr_torrentInitFilePieces` on a torrent without empty file whose
sizes fit their types, the files are laid out. -/
theorem filesLaidOut_of_init (info : tr_info_t) (hP : info.pieceSize ≠ 0)
    (htotal : filesLength info.files < U64)
    (hcover : filesLength info.files ≤ info.pieceCount * info.pieceSize)
    (hcount : info.pieceCount < 2 ^ 31) (hpieces : info.pieceCount ≤ info.pieces.length)
    (hinit : initFilesLoop info info.files 0 = some info.files)
    (hne : ∀ f ∈ info.files, 0 < f.length) : FilesLaidOut info := by
  intro k f hk
  obtain ⟨r, hr, _, hidx⟩ := initFilesLoop_spec info hP info.files 0 (by omega)
  rw [hinit] at hr
  have hr' : info.files = r := Option.some.inj hr
  have h1 := hidx k f hk
  rw [← hr', hk, Nat.zero_add] at h1
  have hf : f = fileWithPieces info f (bytesBefore info.files k) := Option.some.inj h1
  have hlen : 0 < f.length := hne f (List.mem_iff_getElem?.mpr ⟨k, hk⟩)
  obtain ⟨hkl, hget⟩ := List.getElem?_eq_some.mp hk
  have hend := bytesBefore_succ_le_filesLength info.files k hkl
  have hget' : info.files.get ⟨k, hkl⟩ = f := hget
  rw [hget'] at hend
  have hpos : 0 < info.pieceSize := Nat.pos_of_ne_zero hP
  have hoff : f.offset = bytesBefore info.files k := by
    conv_lhs => rw [hf]
    rfl
  have hq : (bytesBefore info.files k + f.length - 1) / info.pieceSize < info.pieceCount :=
    (Nat.div_lt_iff_lt_mul hpos).mpr (by omega)
  have hq0 : bytesBefore info.files k / info.pieceSize
      ≤ (bytesBefore info.files k + f.length - 1) / info.pieceSize :=
    Nat.div_le_div_right (by omega)
  refine ⟨hlen, hoff, ?_, ?_, ?_⟩
  · conv_lhs => rw [hf]
    show toInt32 (bytesBefore info.files k / info.pieceSize) = _
    rw [hoff, toInt32_of_lt _ (by omega)]
  · conv_lhs => rw [hf]
    show toInt32 ((bytesBefore info.files k + (if f.length ≠ 0 then f.length - 1 else 0))
      / info.pieceSize) = _
    rw [if_pos (by omega), hoff]
    have : bytesBefore info.files k + (f.length - 1) = bytesBefore info.files k + f.length - 1 := by
      omega
    rw [this, toInt32_of_lt _ (by omega)]
  · rw [hoff]
    omega

/-- A change of the flag `dnd` of a file keeps the offsets of the files. -/
theorem bytesBefore_modify_dnd (files : List tr_file_t) (d : Bool) (k i : Nat) :
    bytesBefore (files.modify (fun f => { f with dnd := d }) k) i = bytesBefore files i := by
  unfold bytesBefore
  congr 1
  rw [List.map_take, List.map_take]
  congr 1
  apply List.ext_getElem?
  intro n
  rw [List.getElem?_map, List.getElem?_map, List.getElem?_modify]
  cases files[n]? with
  | none => rfl
  | some g =>
    simp only [Option.map_some', Functor.map]
    split_ifs <;> rfl

/-- In a layout the pieces of the files follow one another. -/
theorem filesLaidOut_ordered (info : tr_info_t) (h : FilesLaidOut info) :
    info.files.Pairwise (fun g h => g.lastPiece ≤ h.firstPiece) ∧
    ∀ g ∈ info.files, g.firstPiece ≤ g.lastPiece := by
  constructor
  · rw [List.pairwise_iff_getElem]
    intro i j hi hj hij
    obtain ⟨hl1, ho1, _, hL1, _⟩ := h i _ (List.getElem?_eq_getElem hi)
    obtain ⟨_, ho2, hF2, _, _⟩ := h j _ (List.getElem?_eq_getElem hj)
    have hsucc := bytesBefore_succ info.files i hi
    have hget : (info.files.get ⟨i, hi⟩).length = info.files[i].length := rfl
    rw [hget] at hsucc
    have hmono := bytesBefore_mono info.files (by omega : i + 1 ≤ j)
    rw [hL1, hF2]
    exact Int.ofNat_le.mpr (Nat.div_le_div_right (by omega))
  · intro g hg
    obtain ⟨k, hk⟩ := List.mem_iff_getElem?.mp hg
    obtain ⟨_, _, hF, hL, _⟩ := h k g hk
    rw [hF, hL]
    exact Int.ofNat_le.mpr (Nat.div_le_div_right (by omega))

/-- For a file of at least one byte, the pieces from the piece of its first
byte to the piece of its last byte are the pieces in which it has a byte. -/
theorem uses_iff_hasByte (ps : Nat) (hpos : 0 < ps) (g : tr_file_t) (p : Nat)
    (hlen : 0 < g.length) (hF : g.firstPiece = ((g.offset / ps : Nat) : Int))
    (hL : g.lastPiece = (((g.offset + g.length - 1) / ps : Nat) : Int)) :
    (g.firstPiece ≤ (p : Int) ∧ (p : Int) ≤ g.lastPiece) ↔ hasByteInPiece ps g p = true := by
  rw [hasByteInPiece_iff, hF, hL, Int.ofNat_le, Int.ofNat_le]
  constructor
  · rintro ⟨h1, h2⟩
    have h2' : p * ps ≤ g.offset + g.length - 1 := (Nat.le_div_iff_mul_le hpos).mp h2
    by_cases hc : p * ps ≤ g.offset
    · refine ⟨0, hlen, ?_⟩
      have : p ≤ g.offset / ps := (Nat.le_div_iff_mul_le hpos).mpr hc
      rw [Nat.add_zero]
      omega
    · refine ⟨p * ps - g.offset, by omega, ?_⟩
      have : g.offset + (p * ps - g.offset) = p * ps := by omega
      rw [this, Nat.mul_div_cancel _ hpos]
  · rintro ⟨j, hj, hjp⟩
    rw [← hjp]
    exact ⟨Nat.div_le_div_right (by omega), Nat.div_le_div_right (by omega)⟩

/-- A change of the flag `dnd` of a file keeps the layout. -/
theorem filesLaidOut_modify (info info' : tr_info_t) (d : Bool) (k : Nat)
    (h : FilesLaidOut info)
    (hfiles : info'.files = info.files.modify (fun f => { f with dnd := d }) k)
    (hps : info'.pieceSize = info.pieceSize)
    (hlen : info'.pieces.length = info.pieces.length) : FilesLaidOut info' := by
  intro i f' hi
  rw [hfiles, List.getElem?_modify] at hi
  rw [hfiles, bytesBefore_modify_dnd, hps, hlen]
  cases hg : info.files[i]? with
  | none => rw [hg] at hi; cases hi
  | some g =>
    rw [hg] at hi
    simp only [Functor.map, Option.map_some', Option.some.injEq] at hi
    have hfacts := h i g hg
    by_cases hki : k = i
    · rw [if_pos hki] at hi
      rw [← hi]
      exact hfacts
    · rw [if_neg hki] at hi
      rw [← hi]
      exact hfacts

/-- Every byte of the torrent lies in a file. -/
theorem file_of_byte : ∀ (fs : List tr_file_t) (x : Nat), x < filesLength fs →
    ∃ k f, fs[k]? = some f ∧ bytesBefore fs k ≤ x ∧ x < bytesBefore fs k + f.length
  | [], x, h => by simp [filesLength] at h
  | f :: rest, x, h => by
    rw [filesLength_cons] at h
    by_cases hx : x < f.length
    · refine ⟨0, f, List.getElem?_cons_zero, ?_, ?_⟩
      · rw [bytesBefore_zero]
        exact Nat.zero_le _
      · rw [bytesBefore_zero, Nat.zero_add]
        exact hx
    · obtain ⟨k, g, hk, h1, h2⟩ := file_of_byte rest (x - f.length) (by omega)
      refine ⟨k + 1, g, by simpa using hk, ?_, ?_⟩
      · rw [bytesBefore_cons_succ]
        omega
      · rw [bytesBefore_cons_succ]
        omega

/-- One call of `tr_torrentSetFileDL` on a laid-out torrent: it returns and
keeps the layout; the pieces of the file are consistent afterwards, and every
other piece that was consistent stays so. -/
theorem setFileDL_consistent (tor : tr_torrent) (hpos : 0 < tor.info.pieceSize)
    (hlaid : FilesLaidOut tor.info) (k : Nat) (file : tr_file_t) (doDownload : Int)
    (hfile : tor.info.files[k]? = some file) :
    ∃ tor', tr_torrentSetFileDL tor (k : Int) doDownload = some tor' ∧
      FilesLaidOut tor'.info ∧ tor'.info.pieceSize = tor.info.pieceSize ∧
      tor'.info.pieceCount = tor.info.pieceCount ∧
      tor'.info.pieces.length = tor.info.pieces.length ∧
      (∀ p : Nat, file.firstPiece ≤ (p : Int) → (p : Int) ≤ file.lastPiece →
        dndConsistent tor'.info p) ∧
      (∀ p : Nat, ¬ (file.firstPiece ≤ (p : Int) ∧ (p : Int) ≤ file.lastPiece) →
        dndConsistent tor.info p → dndConsistent tor'.info p) := by
  obtain ⟨hlen, hoff, hF, hL, hLn⟩ := hlaid k file hfile
  have hFL : file.offset / tor.info.pieceSize
      ≤ (file.offset + file.length - 1) / tor.info.pieceSize :=
    Nat.div_le_div_right (by omega)
  obtain ⟨tor', hcall, hfiles, hps, hpc, hplen, hget⟩ :=
    setFileDL_pieces tor k doDownload file _ _ hfile hF hL hFL hLn
  have hlaid' : FilesLaidOut tor'.info :=
    filesLaidOut_modify tor.info tor'.info _ k hlaid hfiles hps hplen
  obtain ⟨hord, hfl⟩ := filesLaidOut_ordered tor'.info hlaid'
  have hkl : k < tor.info.files.length := (List.getElem?_eq_some.mp hfile).1
  have hk' : tor'.info.files[k]? = some { file with dnd := decide (doDownload = 0) } := by
    rw [hfiles, List.getElem?_modify, hfile]
    simp
  obtain ⟨hkl', hgetk⟩ := List.getElem?_eq_some.mp hk'
  have hsplit : tor'.info.files
      = tor'.info.files.take k
        ++ { file with dnd := decide (doDownload = 0) } :: tor'.info.files.drop (k + 1) := by
    conv_lhs => rw [← List.take_append_drop k tor'.info.files, List.drop_eq_getElem_cons hkl', hgetk]
  have huse : ∀ g ∈ tor'.info.files, ∀ p : Nat,
      (g.firstPiece ≤ (p : Int) ∧ (p : Int) ≤ g.lastPiece)
        ↔ hasByteInPiece tor'.info.pieceSize g p = true := by
    intro g hg p
    obtain ⟨i, hi⟩ := List.mem_iff_getElem?.mp hg
    obtain ⟨h1, _, h3, h4, _⟩ := hlaid' i g hi
    exact uses_iff_hasByte _ (by rw [hps]; exact hpos) g p h1 h3 h4
  refine ⟨tor', hcall, hlaid', hps, hpc, hplen, ?_, ?_⟩
  · intro p hFp hpL
    have hp1 : file.offset / tor.info.pieceSize ≤ p := by omega
    have hp2 : p ≤ (file.offset + file.length - 1) / tor.info.pieceSize := by omega
    have hgp := hget p
    rw [if_pos ⟨hp1, hp2⟩, List.getElem?_eq_getElem (by omega : p < tor.info.pieces.length),
      Option.map_some'] at hgp
    refine ⟨_, hgp, ?_⟩
    have hflag := fileDL_flags (tor'.info.files.take k) (tor'.info.files.drop (k + 1))
      { file with dnd := decide (doDownload = 0) } (by rw [← hsplit]; exact hord)
      (by rw [← hsplit]; exact hfl) (p : Int) hFp hpL
    rw [← hsplit, hfiles] at hflag
    rw [hfiles]
    simp only at hflag ⊢
    rw [hflag]
    constructor
    · intro h g hg hb
      have hg' : g ∈ tor'.info.files := by rw [hfiles]; exact hg
      have hu := (huse g hg' p).mpr hb
      exact h g hg hu.1 hu.2
    · intro h g hg h1 h2
      have hg' : g ∈ tor'.info.files := by rw [hfiles]; exact hg
      exact h g hg ((huse g hg' p).mp ⟨h1, h2⟩)
  · intro p hout ⟨pc, hpc', hiff⟩
    have hgp := hget p
    rw [if_neg (by omega)] at hgp
    refine ⟨pc, by rw [hgp]; exact hpc', ?_⟩
    rw [hiff, hps]
    have hnob : ¬ hasByteInPiece tor.info.pieceSize file p = true := by
      intro hb
      exact hout ((uses_iff_hasByte _ hpos file p hlen hF hL).mpr hb)
    constructor
    · intro h g' hg' hb
      obtain ⟨i, hi⟩ := List.mem_iff_getElem?.mp hg'
      rw [hfiles, List.getElem?_modify] at hi
      cases hgi : tor.info.files[i]? with
      | none => rw [hgi] at hi; cases hi
      | some g =>
        rw [hgi] at hi
        simp only [Functor.map, Option.map_some', Option.some.injEq] at hi
        by_cases hki : k = i
        · rw [if_pos hki] at hi
          rw [← hki, hfile] at hgi
          have : g = file := (Option.some.inj hgi).symm
          rw [this] at hi
          rw [← hi] at hb
          exact absurd hb hnob
        · rw [if_neg hki] at hi
          rw [← hi] at hb ⊢
          exact h g (List.mem_iff_getElem?.mpr ⟨i, hgi⟩) hb
    · intro h g hg hb
      obtain ⟨i, hi⟩ := List.mem_iff_getElem?.mp hg
      by_cases hki : k = i
      · rw [← hki, hfile] at hi
        have : g = file := (Option.some.inj hi).symm
        rw [this] at hb
        exact absurd hb hnob
      · have hi' : tor'.info.files[i]? = some g := by
          rw [hfiles, List.getElem?_modify, hi]
          simp [hki]
        exact h g (List.mem_iff_getElem?.mpr ⟨i, hi'⟩) hb

/-- A call of `tr_torrentSetFileDL` that returns names a file of the torrent. -/
theorem setFileDL_some (t t' : tr_torrent) (fileIndex doDownload : Int)
    (h : tr_torrentSetFileDL t fileIndex doDownload = some t') :
    ∃ (k : Nat) (file : tr_file_t), fileIndex = (k : Int) ∧ t.info.files[k]? = some file := by
  unfold tr_torrentSetFileDL at h
  by_cases hneg : fileIndex < 0
  · rw [if_pos hneg] at h
    cases h
  · rw [if_neg hneg] at h
    cases hf : t.info.files[fileIndex.toNat]? with
    | none => rw [hf] at h; cases h
    | some file => exact ⟨fileIndex.toNat, file, by omega, hf⟩

/-- On a laid-out torrent whose pieces are all consistent, every sequence of
calls of `tr_torrentSetFileDL` keeps the layout and the consistency. -/
theorem dlReachable_consistent (tor : tr_torrent) (hpos : 0 < tor.info.pieceSize)
    (hlaid : FilesLaidOut tor.info)
    (hall : ∀ p, p < tor.info.pieces.length → dndConsistent tor.info p) :
    ∀ t, DLReachable tor t →
      FilesLaidOut t.info ∧ t.info.pieceSize = tor.info.pieceSize ∧
      t.info.pieceCount = tor.info.pieceCount ∧
      t.info.pieces.length = tor.info.pieces.length ∧
      ∀ p, p < t.info.pieces.length → dndConsistent t.info p := by
  intro t ht
  induction ht with
  | start => exact ⟨hlaid, rfl, rfl, rfl, hall⟩
  | call t t' fileIndex doDownload _ hcall ih =>
    obtain ⟨hl, hps, hpc, hpl, hcons⟩ := ih
    obtain ⟨k, file, hk, hfile⟩ := setFileDL_some t t' fileIndex doDownload hcall
    obtain ⟨t'', hcall', hl', hps', hpc', hpl', hin, hout⟩ :=
      setFileDL_consistent t (by rw [hps]; exact hpos) hl k file doDownload hfile
    rw [hk, hcall'] at hcall
    have : t'' = t' := Option.some.inj hcall
    subst this
    refine ⟨hl', hps'.trans hps, hpc'.trans hpc, hpl'.trans hpl, ?_⟩
    intro p hp
    by_cases hr : file.firstPiece ≤ (p : Int) ∧ (p : Int) ≤ file.lastPiece
    · exact hin p hr.1 hr.2
    · exact hout p hr (hcons p (by rw [← hpl']; exact hp))

/-- On a laid-out torrent that covers its pieces and has no file and no piece
marked do-not-download, every piece is consistent. -/
theorem clean_consistent (info : tr_info_t) (hpos : 0 < info.pieceSize)
    (hlaid : FilesLaidOut info) (hfiles : ∀ f ∈ info.files, f.dnd = false)
    (hpieces : ∀ pc ∈ info.pieces, pc.dnd = false)
    (hfull : ∀ p, p < info.pieces.length → p * info.pieceSize < filesLength info.files) :
    ∀ p, p < info.pieces.length → dndConsistent info p := by
  intro p hp
  refine ⟨info.pieces[p], List.getElem?_eq_getElem hp, ?_⟩
  have hpc := hpieces info.pieces[p] (List.getElem_mem hp)
  rw [hpc]
  constructor
  · intro h
    cases h
  · intro h
    exfalso
    obtain ⟨k, f, hk, h1, h2⟩ := file_of_byte info.files (p * info.pieceSize) (hfull p hp)
    obtain ⟨_, hoff, _, _, _⟩ := hlaid k f hk
    have hmem : f ∈ info.files := List.mem_iff_getElem?.mpr ⟨k, hk⟩
    have hb : hasByteInPiece info.pieceSize f p = true := by
      rw [hasByteInPiece_iff]
      refine ⟨p * info.pieceSize - f.offset, by omega, ?_⟩
      have : f.offset + (p * info.pieceSize - f.offset) = p * info.pieceSize := by omega
      rw [this, Nat.mul_div_cancel _ hpos]
    have := h f hmem hb
    rw [hfiles f hmem] at this
    cases this

/-! ## Claims -/

/-- C1: for a file list whose lengths sum to `totalSize` and a position
`p * pieceSize + o < totalSize`, `findFileLocation` returns a file index inside
the list and an offset inside that file, with the lengths of the earlier files
plus the offset equal to the position; the file returned has non-zero length
and the scan does not run off the file list. -/
theorem C1_findFileLocation_correct (info : tr_info_t) (p o : Nat)
    (hsum : filesLength info.files = info.totalSize)
    (hT : info.totalSize < U64)
    (hpos : p * info.pieceSize + o < info.totalSize) :
    ∃ i off, findFileLocation info p o = some (i, off) ∧
      ∃ hi : i < info.files.length,
        off < (info.files.get ⟨i, hi⟩).length ∧
        0 < (info.files.get ⟨i, hi⟩).length ∧
        bytesBefore info.files i + off = p * info.pieceSize + o := by
  obtain ⟨i, off, hres, hi, hoff, hb⟩ := findFileLocation_pos info p o hsum hT hpos
  exact ⟨i, off, hres, hi, hoff, by omega, hb⟩


/-- C2: on the byte positions below `totalSize`, `findFileLocation` is strictly
monotone for the lexicographic order on `(fileIndex, fileOffset)`, injective,
and onto the pairs `(i, off)` with `off < files[i].length`. -/
theorem C2_findFileLocation_bijective_monotone (info : tr_info_t)
    (hsum : filesLength info.files = info.totalSize)
    (hT : info.totalSize < U64)
    (hps : 0 < info.pieceSize) :
    (∀ p o p' o', p * info.pieceSize + o < p' * info.pieceSize + o' →
        p' * info.pieceSize + o' < info.totalSize →
        ∃ a b, findFileLocation info p o = some a ∧ findFileLocation info p' o' = some b ∧
          lexLt a b) ∧
    (∀ p o p' o', p * info.pieceSize + o < info.totalSize →
        p' * info.pieceSize + o' < info.totalSize →
        findFileLocation info p o = findFileLocation info p' o' →
        p * info.pieceSize + o = p' * info.pieceSize + o') ∧
    (∀ p o, p * info.pieceSize + o < info.totalSize →
        ∃ i off, findFileLocation info p o = some (i, off) ∧
          ∃ hi : i < info.files.length, off < (info.files.get ⟨i, hi⟩).length) ∧
    (∀ i off (hi : i < info.files.length), off < (info.files.get ⟨i, hi⟩).length →
        ∃ p o, o < info.pieceSize ∧ p * info.pieceSize + o < info.totalSize ∧
          findFileLocation info p o = some (i, off)) := by
  refine ⟨?_, ?_, ?_, ?_⟩
  · intro p o p' o' hlt hlt'
    obtain ⟨i, a, hres, hi, ha, hb⟩ := findFileLocation_pos info p o hsum hT (by omega)
    obtain ⟨j, b, hres', hj, hb', hbb⟩ := findFileLocation_pos info p' o' hsum hT hlt'
    refine ⟨(i, a), (j, b), hres, hres', ?_⟩
    rcases Nat.lt_trichotomy i j with h | h | h
    · exact Or.inl h
    · subst h
      exact Or.inr ⟨rfl, by simp only; omega⟩
    · exfalso
      have h1 := bytesBefore_mono info.files (i := j + 1) (j := i) h
      rw [bytesBefore_succ info.files j hj] at h1
      omega
  · intro p o p' o' h1 h2 heq
    obtain ⟨i, a, hres, hi, ha, hb⟩ := findFileLocation_pos info p o hsum hT h1
    obtain ⟨j, b, hres', hj, hb', hbb⟩ := findFileLocation_pos info p' o' hsum hT h2
    rw [hres, hres'] at heq
    simp only [Option.some.injEq, Prod.mk.injEq] at heq
    obtain ⟨hij, hab⟩ := heq
    subst hij
    omega
  · intro p o h
    obtain ⟨i, a, hres, hi, ha, _⟩ := findFileLocation_pos info p o hsum hT h
    exact ⟨i, a, hres, hi, ha⟩
  · intro i off hi hoff
    have hle := bytesBefore_succ_le_filesLength info.files i hi
    have hlt : bytesBefore info.files i + off < info.totalSize := by omega
    obtain ⟨q, hq⟩ : ∃ q, q = (bytesBefore info.files i + off) / info.pieceSize := ⟨_, rfl⟩
    obtain ⟨r, hr⟩ : ∃ r, r = (bytesBefore info.files i + off) % info.pieceSize := ⟨_, rfl⟩
    have hdm := Nat.div_add_mod (bytesBefore info.files i + off) info.pieceSize
    rw [← hq, ← hr, Nat.mul_comm] at hdm
    have hrlt : r < info.pieceSize := by rw [hr]; exact Nat.mod_lt _ hps
    refine ⟨q, r, hrlt, by omega, ?_⟩
    obtain ⟨j, b, hres, hj, hb, hbb⟩ := findFileLocation_pos info q r hsum hT (by omega)
    rw [hdm] at hbb
    obtain ⟨hji, hba⟩ := location_unique info.files j i b off hj hi hb hoff hbb
    subst hji; subst hba
    exact hres

/-- C3: for a write of `len` bytes at `(p, o)` inside the torrent, on a disk
where every system call succeeds, `tr_ioWrite` returns `TR_OK`; byte `k` of the
buffer is then at the `(file, fileOffset)` that `findFileLocation` gives for
position `p * pieceSize + o + k`, and every byte that was on the disk and is at
none of these places is unchanged. With files `a` (10 bytes) and `b` (22 bytes)
and pieces of 16 bytes, the block (piece 0, offset 0, 16 bytes) lands as bytes
0-9 of `a` and bytes 0-5 of `b`. -/
theorem C3_tr_ioWrite_places_bytes (info : tr_info_t) (p o len : Nat) (buf : List Nat)
    (d : Disk)
    (hsum : filesLength info.files = info.totalSize) (hT : info.totalSize < U64)
    (hnd : (info.files.map tr_file_t.name).Nodup)
    (hpos : p * info.pieceSize + o < info.totalSize)
    (hfit : p * info.pieceSize + o + len ≤ info.totalSize)
    (hbuf : buf.length = len)
    (hok : ∀ c nm, d.fault c nm = 0) :
    (∃ d', tr_ioWrite info p o len buf d = some (0, d') ∧
      (∀ k, k < len → ∃ i x g, findFileLocation info p (o + k) = some (i, x) ∧
        info.files[i]? = some g ∧ x < d'.size g.name ∧
        buf[k]? = some (d'.content g.name x)) ∧
      (∀ nm x, x < d.size nm →
        (∀ k i x' g, k < len → findFileLocation info p (o + k) = some (i, x') →
          info.files[i]? = some g → ¬ (g.name = nm ∧ x' = x)) →
        d'.content nm x = d.content nm x) ∧
      (∀ nm, d.size nm ≤ d'.size nm)) ∧
    (tr_ioWrite s2Info 0 0 16 s2Block emptyDisk).map
        (fun r => (r.1, (List.range 10).map (r.2.content "a"),
          (List.range 6).map (r.2.content "b")))
      = some (0, [1, 2, 3, 4, 5, 6, 7, 8, 9, 10], [11, 12, 13, 14, 15, 16]) := by
  refine ⟨?_, by decide⟩
  obtain ⟨ret, d', new, w1, _, _, w4, w5, w6, _, w8, _, w10⟩ :=
    writePiece_spec info p o len buf d hsum hT hpos hfit hnd
  have hret : ret = 0 := w10 hok
  subst hret
  refine ⟨d', by simp [tr_ioWrite, w1], ?_, ?_, w4⟩
  · intro k hk
    obtain ⟨i, x, hloc, hi, hx, hB⟩ :=
      findFileLocation_pos info p (o + k) hsum hT (by omega)
    have hg : info.files[i]? = some (info.files.get ⟨i, hi⟩) := by
      rw [List.getElem?_eq_getElem hi]; rfl
    obtain ⟨c1, c2⟩ := w8 i _ x hg hx (by omega) (by omega)
      (fun c hc hne => absurd (w6 rfl c hc) hne)
    refine ⟨i, x, _, hloc, hg, c2, ?_⟩
    rw [c1]
    have hidx : bytesBefore info.files i + x - (p * info.pieceSize + o) = k := by omega
    rw [hidx, List.getD_eq_getElem?_getD, List.getElem?_eq_getElem (by omega)]
    rfl
  · intro nm x hx hnot
    apply w5 nm x hx
    intro i g hg hname hcon
    obtain ⟨h1, h2, h3⟩ := hcon
    obtain ⟨k, hk⟩ : ∃ k, k = bytesBefore info.files i + x - (p * info.pieceSize + o) := ⟨_, rfl⟩
    obtain ⟨i', x', hloc, hi', hx', hB⟩ :=
      findFileLocation_pos info p (o + k) hsum hT (by omega)
    have hi : i < info.files.length := by
      by_contra hcon
      rw [List.getElem?_eq_none (by omega)] at hg
      simp at hg
    have hgg : info.files.get ⟨i, hi⟩ = g := by
      rw [List.getElem?_eq_getElem hi] at hg
      simpa using hg
    obtain ⟨e1, e2⟩ := location_unique info.files i' i x' x hi' hi hx' (by rw [hgg]; exact h1)
      (by omega)
    subst e1; subst e2
    exact hnot k i' x' g (by omega) hloc hg ⟨hname, rfl⟩

/-- C3, at the torrent of scenario S2 on an empty disk. -/
theorem C3_witness :
    (∃ d', tr_ioWrite s2Info 0 0 16 s2Block emptyDisk = some (0, d') ∧
      (∀ k, k < 16 → ∃ i x g, findFileLocation s2Info 0 (0 + k) = some (i, x) ∧
        s2Info.files[i]? = some g ∧ x < d'.size g.name ∧
        s2Block[k]? = some (d'.content g.name x)) ∧
      (∀ nm x, x < emptyDisk.size nm →
        (∀ k i x' g, k < 16 → findFileLocation s2Info 0 (0 + k) = some (i, x') →
          s2Info.files[i]? = some g → ¬ (g.name = nm ∧ x' = x)) →
        d'.content nm x = emptyDisk.content nm x) ∧
      (∀ nm, emptyDisk.size nm ≤ d'.size nm)) :=
  (C3_tr_ioWrite_places_bytes s2Info 0 0 16 s2Block emptyDisk (by decide) (by decide)
    (by decide) (by decide) (by decide) (by decide) (fun _ _ => rfl)).1

/-- C4: when a sub-operation of a `readOrWritePiece` call returns a non-zero
code, it is the last sub-operation of the call, the call returns that code, no
sub-operation is performed on a file of larger index, and (in write mode) the
bytes the call wrote to files of smaller index are on the disk when it returns. -/
theorem C4_readOrWritePiece_stops_at_first_error (info : tr_info_t) (ioMode : IoMode)
    (p o len : Nat) (buf : List Nat) (d : Disk)
    (hsum : filesLength info.files = info.totalSize) (hT : info.totalSize < U64)
    (hnd : (info.files.map tr_file_t.name).Nodup)
    (hpos : p * info.pieceSize + o < info.totalSize)
    (hfit : p * info.pieceSize + o + len ≤ info.totalSize) :
    ∃ ret d' out new,
      readOrWritePiece info ioMode p o buf len d = some (ret, d', out) ∧
      d'.trace = d.trace ++ new ∧
      ∀ c ∈ new, c.ret ≠ 0 →
        ret = c.ret ∧ new.getLast? = some c ∧
        (∀ c' ∈ new, c'.fileIndex ≤ c.fileIndex) ∧
        (ioMode = IoMode.TR_IO_WRITE → ∀ k i x g, k < len →
          findFileLocation info p (o + k) = some (i, x) → info.files[i]? = some g →
          i < c.fileIndex →
          x < d'.size g.name ∧ d'.content g.name x = buf.getD k 0) := by
  cases ioMode with
  | TR_IO_READ =>
    obtain ⟨ret, new, out, r1, r2, r3, _⟩ := readPiece_spec info p o len buf d hsum hT hpos hfit
    refine ⟨ret, _, out, new, r1, rfl, ?_⟩
    intro c hc hne
    obtain ⟨a1, a2, a3⟩ := failed_call_is_last new ret r2 r3 c hc hne
    exact ⟨a1, a2, a3, fun h => by simp at h⟩
  | TR_IO_WRITE =>
    obtain ⟨ret, d', new, w1, _, w3, _, _, w6, w7, w8, _, _⟩ :=
      writePiece_spec info p o len buf d hsum hT hpos hfit hnd
    refine ⟨ret, d', [], new, w1, w3, ?_⟩
    intro c hc hne
    obtain ⟨a1, a2, a3⟩ := failed_call_is_last new ret w6 w7 c hc hne
    refine ⟨a1, a2, a3, ?_⟩
    intro _ k i x g hk hloc hg hlt
    obtain ⟨i', x', hloc', hi', hx', hB⟩ :=
      findFileLocation_pos info p (o + k) hsum hT (by omega)
    rw [hloc] at hloc'
    simp only [Option.some.injEq, Prod.mk.injEq] at hloc'
    obtain ⟨e1, e2⟩ := hloc'
    subst e1; subst e2
    have hgg : info.files.get ⟨i, hi'⟩ = g := by
      rw [List.getElem?_eq_getElem hi'] at hg
      simpa using hg
    rw [hgg] at hx'
    obtain ⟨c1, c2⟩ := w8 i g x hg hx' (by omega) (by omega) (fun c'' hc'' hne'' => by
      have := (failed_call_is_last new ret w6 w7 c'' hc'' hne'').2.1
      rw [a2] at this
      simp only [Option.some.injEq] at this
      rw [← this]
      exact hlt)
    refine ⟨c2, ?_⟩
    rw [c1]
    congr 1
    omega

/-- C4, at the torrent of scenario S2 on a disk where writing to `b` fails. -/
theorem C4_witness :
    ∃ ret d' out new,
      readOrWritePiece s2Info IoMode.TR_IO_WRITE 0 0 s2Block 16 faultyDisk
        = some (ret, d', out) ∧
      d'.trace = faultyDisk.trace ++ new ∧
      ∀ c ∈ new, c.ret ≠ 0 →
        ret = c.ret ∧ new.getLast? = some c ∧
        (∀ c' ∈ new, c'.fileIndex ≤ c.fileIndex) ∧
        (IoMode.TR_IO_WRITE = IoMode.TR_IO_WRITE → ∀ k i x g, k < 16 →
          findFileLocation s2Info 0 (0 + k) = some (i, x) → s2Info.files[i]? = some g →
          i < c.fileIndex →
          x < d'.size g.name ∧ d'.content g.name x = s2Block.getD k 0) :=
  C4_readOrWritePiece_stops_at_first_error s2Info IoMode.TR_IO_WRITE 0 0 16 s2Block faultyDisk
    (by decide) (by decide) (by decide) (by decide) (by decide)

/-- C5 as stated fails: after the block (piece 0, offset 0, 16 bytes) is written
to the empty destination of scenario S2, file `b` is 6 bytes long, not 22. -/
theorem C5_counterexample :
    ¬ ∃ r, tr_ioWrite s2Info 0 0 16 s2Block emptyDisk = some r ∧
      r.2.size "a" = 10 ∧ r.2.size "b" = 22 := by
  rintro ⟨r, h, _, hb⟩
  have h6 : (tr_ioWrite s2Info 0 0 16 s2Block emptyDisk).map (fun r => r.2.size "b")
      = some 6 := by decide
  rw [h] at h6
  simp only [Option.map_some', Option.some.injEq] at h6
  omega

/-- C5 (amended): a successful write leaves each file at the larger of its old
length and the end of the bytes written to it (`fileOffset + bytesThisPass` of
its pass), not at its final length; in scenario S2, after the block (piece 0,
offset 0, 16 bytes), `a` is 10 bytes long and `b` is 6 bytes long. -/
theorem C5_write_grows_to_written_extent (info : tr_info_t) (p o len : Nat) (buf : List Nat)
    (d : Disk)
    (hsum : filesLength info.files = info.totalSize) (hT : info.totalSize < U64)
    (hnd : (info.files.map tr_file_t.name).Nodup)
    (hpos : p * info.pieceSize + o < info.totalSize)
    (hfit : p * info.pieceSize + o + len ≤ info.totalSize)
    (hok : ∀ c nm, d.fault c nm = 0) :
    (∃ d', tr_ioWrite info p o len buf d = some (0, d') ∧
      ∀ (i : Nat) (g : tr_file_t), info.files[i]? = some g →
        d'.size g.name = max (d.size g.name)
          (if len = 0 ∨ bytesBefore info.files i + g.length ≤ p * info.pieceSize + o then 0
            else min g.length (p * info.pieceSize + o + len - bytesBefore info.files i))) ∧
    (tr_ioWrite s2Info 0 0 16 s2Block emptyDisk).map
        (fun r => (r.1, r.2.size "a", r.2.size "b")) = some (0, 10, 6) := by
  refine ⟨?_, by decide⟩
  obtain ⟨ret, d', new, w1, _, _, _, _, _, _, _, w9, w10⟩ :=
    writePiece_spec info p o len buf d hsum hT hpos hfit hnd
  have hret : ret = 0 := w10 hok
  subst hret
  exact ⟨d', by simp [tr_ioWrite, w1], w9 rfl⟩

/-- C5 (amended), at the torrent of scenario S2 on an empty disk. -/
theorem C5_witness :
    ∃ d', tr_ioWrite s2Info 0 0 16 s2Block emptyDisk = some (0, d') ∧
      ∀ (i : Nat) (g : tr_file_t), s2Info.files[i]? = some g →
        d'.size g.name = max (emptyDisk.size g.name)
          (if 16 = 0 ∨ bytesBefore s2Info.files i + g.length ≤ 0 * s2Info.pieceSize + 0 then 0
            else min g.length (0 * s2Info.pieceSize + 0 + 16 - bytesBefore s2Info.files i)) :=
  (C5_write_grows_to_written_extent s2Info 0 0 16 s2Block emptyDisk (by decide) (by decide)
    (by decide) (by decide) (by decide) (fun _ _ => rfl)).1

/-- C1, at the torrent of scenario S2. -/
theorem C1_witness :
    ∃ i off, findFileLocation s2Info 0 12 = some (i, off) ∧
      ∃ hi : i < s2Info.files.length,
        off < (s2Info.files.get ⟨i, hi⟩).length ∧
        0 < (s2Info.files.get ⟨i, hi⟩).length ∧
        bytesBefore s2Info.files i + off = 0 * s2Info.pieceSize + 12 :=
  C1_findFileLocation_correct s2Info 0 12 (by decide) (by decide) (by decide)

/-- C2, at the torrent of scenario S2. -/
theorem C2_witness :
    (∀ p o p' o', p * s2Info.pieceSize + o < p' * s2Info.pieceSize + o' →
        p' * s2Info.pieceSize + o' < s2Info.totalSize →
        ∃ a b, findFileLocation s2Info p o = some a ∧ findFileLocation s2Info p' o' = some b ∧
          lexLt a b) ∧
    (∀ p o p' o', p * s2Info.pieceSize + o < s2Info.totalSize →
        p' * s2Info.pieceSize + o' < s2Info.totalSize →
        findFileLocation s2Info p o = findFileLocation s2Info p' o' →
        p * s2Info.pieceSize + o = p' * s2Info.pieceSize + o') ∧
    (∀ p o, p * s2Info.pieceSize + o < s2Info.totalSize →
        ∃ i off, findFileLocation s2Info p o = some (i, off) ∧
          ∃ hi : i < s2Info.files.length, off < (s2Info.files.get ⟨i, hi⟩).length) ∧
    (∀ i off (hi : i < s2Info.files.length), off < (s2Info.files.get ⟨i, hi⟩).length →
        ∃ p o, o < s2Info.pieceSize ∧ p * s2Info.pieceSize + o < s2Info.totalSize ∧
          findFileLocation s2Info p o = some (i, off)) :=
  C2_findFileLocation_bijective_monotone s2Info (by decide) (by decide) (by decide)

/-- C6: `checkPiece (p)` returns 0 exactly when the read of the
`tr_pieceSize (p)` bytes of piece `p` from piece offset 0 returns 0 and the
SHA-1 of the bytes read equals `info.pieces[p].hash`; the bytes read are those
on the disk at the piece's positions, and a read error makes the check fail
(it returns 1). -/
theorem C6_checkPiece_iff (SHA1 : List Nat → List Nat) (tor : tr_torrent) (p n : Nat)
    (piece : tr_piece_t) (d : Disk)
    (hsum : filesLength tor.info.files = tor.info.totalSize)
    (hT : tor.info.totalSize < U64)
    (hn : tr_pieceSize tor p = (n : Int))
    (hpos : p * tor.info.pieceSize < tor.info.totalSize)
    (hfit : p * tor.info.pieceSize + n ≤ tor.info.totalSize)
    (hpiece : tor.info.pieces[p]? = some piece)
    (hsha : ∀ x, (SHA1 x).length = SHA_DIGEST_LENGTH)
    (hhash : piece.hash.length = SHA_DIGEST_LENGTH) :
    ∃ r d1 bytes c d',
      tr_ioRead tor.info p 0 (toU64 (tr_pieceSize tor p)) d = some (r, d1, bytes) ∧
      checkPiece SHA1 tor p d = some (c, d') ∧
      (c = 0 ↔ (r = 0 ∧ SHA1 bytes = piece.hash)) ∧
      (r ≠ 0 → c = 1) ∧
      (r = 0 → bytes = (List.range n).map
        (fun k => streamByte d tor.info.files (p * tor.info.pieceSize + k))) := by
  have hnn : toU64 (tr_pieceSize tor p) = n := by
    rw [hn]; exact toU64_natCast n (by omega)
  obtain ⟨r, new, out, h1, _, _, h4⟩ :=
    readPiece_spec tor.info p 0 n [] d hsum hT (by omega) (by omega)
  by_cases hr : r = 0
  · refine ⟨r, { d with trace := d.trace ++ new }, out,
      if memcmp (SHA1 out) piece.hash SHA_DIGEST_LENGTH ≠ 0 then 1 else 0,
      { d with trace := d.trace ++ new },
      by rw [hnn]; exact h1, ?_, ?_, fun h => absurd hr h, ?_⟩
    · simp [checkPiece, tr_ioRecalculateHash, hnn, h1, hr, hpiece]
    · have hm := memcmp_eq_zero (SHA1 out) piece.hash SHA_DIGEST_LENGTH (hsha out) hhash
      constructor
      · intro hc
        refine ⟨hr, hm.1 ?_⟩
        by_contra hne
        simp [hne] at hc
      · intro hc
        simp [hm.2 hc.2]
    · intro _
      have := h4 hr
      simpa using this
  · refine ⟨r, { d with trace := d.trace ++ new }, out, 1, { d with trace := d.trace ++ new },
      by rw [hnn]; exact h1, ?_, ?_, fun _ => rfl, fun h => absurd h hr⟩
    · simp [checkPiece, tr_ioRecalculateHash, hnn, h1, hr]
    · constructor
      · intro h; exact absurd h (by decide)
      · intro h; exact absurd h.1 hr

/-- C6, at piece 0 of the torrent of scenario S2 on an empty disk. -/
theorem C6_witness :
    ∃ r d1 bytes c d',
      tr_ioRead s2Tor.info 0 0 (toU64 (tr_pieceSize s2Tor 0)) emptyDisk = some (r, d1, bytes) ∧
      checkPiece toySHA1 s2Tor 0 emptyDisk = some (c, d') ∧
      (c = 0 ↔ (r = 0 ∧ toySHA1 bytes = ({ hash := List.replicate 20 0 } : tr_piece_t).hash)) ∧
      (r ≠ 0 → c = 1) ∧
      (r = 0 → bytes = (List.range 16).map
        (fun k => streamByte emptyDisk s2Tor.info.files (0 * s2Tor.info.pieceSize + k))) :=
  C6_checkPiece_iff toySHA1 s2Tor 0 16 { hash := List.replicate 20 0 } emptyDisk (by decide) (by decide)
    (by decide) (by decide) (by decide) (by decide)
    (fun x => by simp [toySHA1, SHA_DIGEST_LENGTH]) (by decide)

/-- C7 as stated fails: `tr_torrentSetHasPiece (0, 1)` on an empty destination
gives a reachable state in which piece 0 is complete and does not verify. -/
theorem C7_counterexample :
    ∃ s, Reachable toySHA1 s2Tor s ∧ s.completion.complete 0 = true ∧
      ¬ Verifies toySHA1 s2Tor s.disk 0 := by
  refine ⟨tr_torrentSetHasPiece 0 1 (freshState emptyDisk),
    Reachable.setHasPiece _ 0 1 (Reachable.init emptyDisk), by decide, ?_⟩
  rintro ⟨d', hd⟩
  have hcode : (checkPiece toySHA1 s2Tor 0 emptyDisk).map Prod.fst = some 1 := by decide
  have hdisk : (tr_torrentSetHasPiece 0 1 (freshState emptyDisk)).disk = emptyDisk := rfl
  rw [hdisk] at hd
  rw [hd] at hcode
  simp at hcode

/-- C7 (amended): in every state reachable through `tr_ioHash`, through
`checkFiles` after a fast-resume load whose complete pieces verify, and through
`tr_torrentSetHasPiece` called with `has` non-zero only for a piece that
verifies, every piece that Completion reports complete verifies on the disk. -/
theorem C7_complete_pieces_verify (SHA1 : List Nat → List Nat) (tor : tr_torrent)
    (s : TorState) (h : ReachableChecked SHA1 tor s) : CompleteVerifies SHA1 tor s := by
  induction h with
  | init d =>
    intro p hp
    simp [freshState] at hp
  | ioHash s s' p r _ hstep ih =>
    simp only [tr_ioHash] at hstep
    cases hc : checkPiece SHA1 tor p s.disk with
    | none => rw [hc] at hstep; simp at hstep
    | some cd =>
      obtain ⟨c, d'⟩ := cd
      rw [hc] at hstep
      have hm := (completeVerifies_mark SHA1 tor s p c d' ih hc).1
      by_cases hc0 : c = 0
      · simp only [hc0, if_true, Option.some.injEq, Prod.mk.injEq] at hstep hm
        rw [← hstep.2]; exact hm
      · simp only [hc0, if_false, Option.some.injEq, Prod.mk.injEq] at hstep hm
        rw [← hstep.2]; exact hm
  | checkFiles s s' loaded unchecked stopping _ hloaded hstep _ =>
    exact completeVerifies_checkFilesLoop SHA1 tor stopping unchecked tor.info.pieceCount 0
      { disk := s.disk, completion := loaded } s' hloaded hstep
  | setHasPiece s p has _ hhas ih =>
    intro q hq
    by_cases hh : has = 0
    · simp only [tr_torrentSetHasPiece, hh, ne_eq, not_true_eq_false, if_false] at hq ⊢
      apply ih q
      by_cases hqp : q = p
      · simp [tr_cpPieceRem, hqp] at hq
      · simpa [tr_cpPieceRem, hqp] using hq
    · simp only [tr_torrentSetHasPiece, hh, ne_eq, not_false_eq_true, if_true] at hq ⊢
      by_cases hqp : q = p
      · rw [hqp]; exact hhas hh
      · apply ih q
        simpa [tr_cpPieceAdd, hqp] using hq

/-- C7 (amended), at the state `tr_ioHash` leaves for piece 0 of scenario S2 on a
destination whose files are present and zero: piece 0 is complete and verifies. -/
theorem C7_witness :
    ∃ s', (tr_ioHash toySHA1 s2Tor 0 (freshState zeroDisk)).map Prod.snd = some s' ∧
      s'.completion.complete 0 = true ∧ CompleteVerifies toySHA1 s2Tor s' := by
  have hcomp : (tr_ioHash toySHA1 s2Tor 0 (freshState zeroDisk)).map
      (fun x => x.2.completion.complete 0) = some true := by decide
  cases h : tr_ioHash toySHA1 s2Tor 0 (freshState zeroDisk) with
  | none => rw [h] at hcomp; simp at hcomp
  | some rs =>
    obtain ⟨r, s'⟩ := rs
    rw [h] at hcomp
    refine ⟨s', rfl, by simpa using hcomp, ?_⟩
    exact C7_complete_pieces_verify toySHA1 s2Tor s'
      (ReachableChecked.ioHash (freshState zeroDisk) s' 0 r
        (ReachableChecked.init zeroDisk) h)

theorem pow2_lt_int (k : Nat) (h : 2 ^ k < 2 ^ 31) : k ≤ 30 := by
  have := (Nat.pow_lt_pow_iff_right (a := 2) (by norm_num)).1 h
  omega

theorem toU64_pred (n : Nat) (h1 : 1 ≤ n) (h2 : n < U64) : toU64 ((n : Int) - 1) = n - 1 := by
  have : ((n : Int) - 1) = ((n - 1 : Nat) : Int) := by omega
  rw [this, toU64_natCast _ (by omega)]

/-- C8: for a piece size `P` that is a power of two (and an `int`),
`torrentRealInit` sets `blockSize = min (P, 16384)`, and this block size
divides `P`. -/
theorem C8_blockSize_is_min (info : tr_info_t) (k : Nat) (hP : info.pieceSize = 2 ^ k)
    (hint : info.pieceSize < 2 ^ 31) :
    ∃ tor, torrentRealInit info = some tor ∧
      tor.blockSize = ((min info.pieceSize 16384 : Nat) : Int) ∧
      tor.blockSize ∣ (info.pieceSize : Int) := by
  have hk : k ≤ 30 := pow2_lt_int k (by rw [← hP]; exact hint)
  refine ⟨_, torrentRealInit_pow2 info k hP hk, by rw [hP], ?_⟩
  simp only
  rw [hP]
  exact Int.natCast_dvd_natCast.2 (min_pow2_dvd k)

/-- C8, at the torrent of scenario S2 (pieces of 16 bytes). -/
theorem C8_witness :
    ∃ tor, torrentRealInit s2Info = some tor ∧
      tor.blockSize = ((min s2Info.pieceSize 16384 : Nat) : Int) ∧
      tor.blockSize ∣ (s2Info.pieceSize : Int) :=
  C8_blockSize_is_min s2Info 4 (by decide) (by decide)


/-- What `torrentRealInit` computes for the torrent of 2^45 bytes with pieces of 2^30. -/
theorem torrentRealInit_bigInfo :
    torrentRealInit bigInfo = some
      { info := bigInfo
        blockSize := 16384
        blockCount := -2147483648
        lastBlockSize := 16384
        lastPieceSize := 1073741824
        blockCountInPiece := 65536
        blockCountInLastPiece := 65536 } := by
  rw [torrentRealInit_pow2 bigInfo 30 (by decide) (by decide)]
  simp only [Option.some.injEq, tr_torrent.mk.injEq, true_and]
  refine ⟨by decide, by decide, by decide, by decide, by decide, by decide⟩

/-- C9 as stated fails: for `T = 2^45`, `P = 2^30` and `pieceCount = 2^15`,
`torrentRealInit` leaves `blockCount = -2^31`, not `⌈T / B⌉ = 2^31`, and the
third and fourth assertions under "check our work" do not hold. -/
theorem C9_counterexample :
    0 < bigInfo.totalSize ∧ bigInfo.pieceSize = 2 ^ 30 ∧
    bigInfo.pieceCount = (bigInfo.totalSize + bigInfo.pieceSize - 1) / bigInfo.pieceSize ∧
    ∃ tor, torrentRealInit bigInfo = some tor ∧
      tor.blockCount ≠ (((bigInfo.totalSize + 16384 - 1) / 16384 : Nat) : Int) ∧
      checkOurWork tor = false := by
  refine ⟨by decide, by decide, by decide, _, torrentRealInit_bigInfo, by decide, by decide⟩


/-- C9 (amended): for `T > 0`, a power-of-two piece size `P`, `pieceCount = ⌈T / P⌉`
and a number of blocks `⌈T / B⌉` that fits an `int` (below 2^31),
`torrentRealInit` computes `lastPieceSize = T - P * (pieceCount - 1)`,
`blockCount = ⌈T / B⌉` and `lastBlockSize = T - B * (blockCount - 1)` for the
block size `B = min (P, 16384)`, with
`(pieceCount - 1) * blockCountInPiece + blockCountInLastPiece = blockCount`, and
every assertion under "check our work" holds. -/
theorem C9_geometry (info : tr_info_t) (k : Nat) (hP : info.pieceSize = 2 ^ k)
    (hint : info.pieceSize < 2 ^ 31) (hT : 0 < info.totalSize)
    (hcnt : info.pieceCount = (info.totalSize + info.pieceSize - 1) / info.pieceSize)
    (hblocks : (info.totalSize + min info.pieceSize 16384 - 1) / min info.pieceSize 16384
      < 2 ^ 31) :
    ∃ tor, torrentRealInit info = some tor ∧
      tor.blockSize = ((min info.pieceSize 16384 : Nat) : Int) ∧
      tor.lastPieceSize
        = ((info.totalSize - info.pieceSize * (info.pieceCount - 1) : Nat) : Int) ∧
      tor.blockCount
        = (((info.totalSize + min info.pieceSize 16384 - 1) / min info.pieceSize 16384 : Nat)
            : Int) ∧
      tor.lastBlockSize
        = ((info.totalSize - min info.pieceSize 16384 *
            ((info.totalSize + min info.pieceSize 16384 - 1) / min info.pieceSize 16384 - 1)
              : Nat) : Int) ∧
      ((info.pieceCount : Int) - 1) * tor.blockCountInPiece + tor.blockCountInLastPiece
        = tor.blockCount ∧
      checkOurWork tor = true := by
  have hk : k ≤ 30 := pow2_lt_int k (by rw [← hP]; exact hint)
  obtain ⟨hB0, hB1, hB2⟩ := min_pow2_bounds k
  have hdvd := min_pow2_dvd k
  have hPpos : 0 < 2 ^ k := Nat.pos_pow_of_pos k (by norm_num)
  have hinit := torrentRealInit_pow2 info k hP hk
  rw [hP] at hcnt hblocks ⊢
  generalize hBdef : min (2 ^ k) 16384 = B at *
  generalize hPdef : 2 ^ k = P at *
  generalize hTdef : info.totalSize = T at *
  obtain ⟨p1, p2, p3⟩ := ceil_last T P hPpos hT
  obtain ⟨b1, b2, b3⟩ := ceil_last T B hB0 hT
  have hsplit := block_count_split T P B hB0 hPpos hT hdvd
  obtain ⟨n, hn⟩ : ∃ n, n = (T + P - 1) / P := ⟨_, rfl⟩
  obtain ⟨bc, hbc⟩ : ∃ bc, bc = (T + B - 1) / B := ⟨_, rfl⟩
  rw [← hn] at p1 p2 p3 hsplit hcnt
  rw [← hbc] at b1 b2 b3 hsplit hblocks ⊢
  rw [hcnt]
  -- sizes
  have hTlt : T + B - 1 < 2 ^ 31 * B := (Nat.div_lt_iff_lt_mul hB0).1 (hbc ▸ hblocks)
  have hTU : T + B < U64 := by
    have : 2 ^ 31 * B ≤ 2 ^ 31 * 16384 := Nat.mul_le_mul_left _ hB1
    have hU : U64 = 18446744073709551616 := by norm_num [U64]
    omega
  have hU : U64 = 18446744073709551616 := by norm_num [U64]
  have hcount : ((T + B) % U64 + U64 - 1) % U64 / B = bc := by
    rw [Nat.mod_eq_of_lt hTU]
    have : (T + B + U64 - 1) % U64 = T + B - 1 := by
      have : T + B + U64 - 1 = (T + B - 1) + U64 := by omega
      rw [this, Nat.add_mod_right, Nat.mod_eq_of_lt (by omega)]
    rw [this, hbc]
  rw [hcount, toInt32_of_lt bc hblocks, p3, b3] at hinit
  have hmulP : P * (n - 1) = (n - 1) * P := Nat.mul_comm _ _
  have hmulB : B * (bc - 1) = (bc - 1) * B := Nat.mul_comm _ _
  refine ⟨_, hinit, rfl, rfl, rfl, rfl, ?_, ?_⟩
  · simp only
    have : ((n : Int) - 1) = ((n - 1 : Nat) : Int) := by omega
    rw [this, ← hsplit]
    push_cast
    ring
  · have hn1 : (n - 1) * P < U64 := by omega
    have hPB : P / B * B = P := Nat.div_mul_cancel hdvd
    have hPBle : P / B ≤ P := Nat.div_le_self _ _
    have hq : (n - 1) * (P / B) ≤ (n - 1) * P := Nat.mul_le_mul_left _ hPBle
    have hnle : n - 1 ≤ P * (n - 1) := Nat.le_mul_of_pos_left _ hPpos
    have hbcle : bc - 1 ≤ B * (bc - 1) := Nat.le_mul_of_pos_left _ hB0
    have hPlt : P < 2 ^ 31 := by rw [← hP]; exact hint
    simp only [checkOurWork, hP, hcnt, hTdef, Bool.and_eq_true, decide_eq_true_eq]
    refine ⟨⟨⟨?_, ?_⟩, ?_⟩, ?_⟩
    · rw [← Int.ofNat_tmod, Nat.mod_eq_zero_of_dvd hdvd]
      rfl
    · rw [toU64_pred n p1 (by omega), toU64_natCast _ (by omega), Nat.mod_eq_of_lt hn1,
        Nat.mod_eq_of_lt (by omega)]
      omega
    · rw [toU64_pred bc b1 (by omega), toU64_natCast B (by omega),
        toU64_natCast (T - B * (bc - 1)) (by omega)]
      have h3 : (bc - 1) * B < U64 := by omega
      rw [Nat.mod_eq_of_lt h3, Nat.mod_eq_of_lt (by omega)]
      omega
    · have hl : (T - P * (n - 1) + B - 1) / B ≤ T - P * (n - 1) + B - 1 := Nat.div_le_self _ _
      have h4a : (n - 1) * (P / B) % U64 = (n - 1) * (P / B) := Nat.mod_eq_of_lt (by omega)
      rw [toU64_pred n p1 (by omega), toU64_natCast (P / B) (by omega),
        toU64_natCast ((T - P * (n - 1) + B - 1) / B) (by omega), toU64_natCast bc (by omega),
        h4a, hsplit]
      exact Nat.mod_eq_of_lt (by omega)

/-- C9 (amended), at the torrent of scenario S2. -/
theorem C9_witness :
    ∃ tor, torrentRealInit s2Info = some tor ∧
      tor.blockSize = ((min s2Info.pieceSize 16384 : Nat) : Int) ∧
      tor.lastPieceSize
        = ((s2Info.totalSize - s2Info.pieceSize * (s2Info.pieceCount - 1) : Nat) : Int) ∧
      tor.blockCount
        = (((s2Info.totalSize + min s2Info.pieceSize 16384 - 1) / min s2Info.pieceSize 16384
            : Nat) : Int) ∧
      tor.lastBlockSize
        = ((s2Info.totalSize - min s2Info.pieceSize 16384 *
            ((s2Info.totalSize + min s2Info.pieceSize 16384 - 1) / min s2Info.pieceSize 16384
              - 1) : Nat) : Int) ∧
      ((s2Info.pieceCount : Int) - 1) * tor.blockCountInPiece + tor.blockCountInLastPiece
        = tor.blockCount ∧
      checkOurWork tor = true :=
  C9_geometry s2Info 4 (by decide) (by decide) (by decide) (by decide) (by decide)


/-- C10 as stated fails: with `P = 2^30` (so `B = 16384`) and piece `p = 2^15`
of a torrent of 2^46 bytes, the product `index * (pieceSize / blockSize)` is
2^31 and does not fit the `int` that `_tr_block` computes in; the function does
not return the block index `⌊(p * P + 0) / B⌋`. -/
theorem C10_counterexample :
    (32768 : Nat) < hugeInfo.pieceCount ∧ hugeInfo.pieceSize = 2 ^ 30 ∧
    ∃ tor, torrentRealInit hugeInfo = some tor ∧
      _tr_block tor 32768 0 ≠ some (((32768 * 2 ^ 30 + 0) / 16384 : Nat) : Int) := by
  refine ⟨by decide, by decide, _, torrentRealInit_pow2 hugeInfo 30 (by decide) (by decide),
    by decide⟩

/-- C10 (amended): for a power-of-two piece size `P`, the block size
`B = min (P, 16384)` computed by `torrentRealInit`, a piece `p` and an offset
`o < P` whose block index `⌊(p * P + o) / B⌋` fits an `int` (is below 2^31),
`_tr_block (p, o)` is that index, and every byte of that block lies in piece
`p`: the block starts at or after `p * P` and ends at or before `(p + 1) * P`. -/
theorem C10_tr_block (info : tr_info_t) (k : Nat) (hP : info.pieceSize = 2 ^ k)
    (hint : info.pieceSize < 2 ^ 31) (p o : Nat) (ho : o < info.pieceSize)
    (hfits : (p * info.pieceSize + o) / min info.pieceSize 16384 < 2 ^ 31) :
    ∃ tor, torrentRealInit info = some tor ∧
      tor.blockSize = ((min info.pieceSize 16384 : Nat) : Int) ∧
      _tr_block tor (p : Int) (o : Int)
        = some (((p * info.pieceSize + o) / min info.pieceSize 16384 : Nat) : Int) ∧
      p * info.pieceSize
        ≤ min info.pieceSize 16384 * ((p * info.pieceSize + o) / min info.pieceSize 16384) ∧
      min info.pieceSize 16384 * ((p * info.pieceSize + o) / min info.pieceSize 16384)
          + min info.pieceSize 16384
        ≤ (p + 1) * info.pieceSize := by
  have hk : k ≤ 30 := pow2_lt_int k (by rw [← hP]; exact hint)
  obtain ⟨hB0, hB1, hB2⟩ := min_pow2_bounds k
  have hdvd := min_pow2_dvd k
  have hinit := torrentRealInit_pow2 info k hP hk
  have hP' := hP
  rw [hP] at ho hfits ⊢
  generalize hBdef : min (2 ^ k) 16384 = B at *
  generalize hPdef : 2 ^ k = P at *
  obtain ⟨m, hm⟩ := hdvd
  have hPB : P / B = m := by rw [hm, Nat.mul_div_cancel_left _ hB0]
  have hidx : (p * P + o) / B = p * m + o / B := by
    have : p * P + o = B * (p * m) + o := by rw [hm]; ring
    rw [this, Nat.mul_add_div hB0]
  have hoB : o / B < m := (Nat.div_lt_iff_lt_mul hB0).2 (by rw [Nat.mul_comm, ← hm]; exact ho)
  have hmul : B * (o / B) ≤ o := Nat.mul_div_le o B
  have hBm : B * (o / B) + B ≤ B * m := by
    have : B * (o / B + 1) ≤ B * m := Nat.mul_le_mul_left _ hoB
    rw [Nat.mul_add, Nat.mul_one] at this
    exact this
  have h2 : Int.tdiv (o : Int) (B : Int) = ((o / B : Nat) : Int) := by
    rw [← Int.ofNat_tdiv]
  rw [hidx] at hfits ⊢
  generalize o / B = q at *
  have hpmB : B * (p * m + q) = p * P + B * q := by rw [hm]; ring
  have hP1 : (p + 1) * P = p * P + B * m := by rw [hm]; ring
  generalize hpm : p * m = pm at *
  refine ⟨_, hinit, rfl, ?_, ?_, ?_⟩
  · have hB0' : ((B : Int)) ≠ 0 := by omega
    have h1 : Int.tdiv (P : Int) (B : Int) = ((m : Nat) : Int) := by
      rw [← Int.ofNat_tdiv, hPB]
    have h3 : (p : Int) * (m : Int) = ((pm : Nat) : Int) := by rw [← hpm]; push_cast; rfl
    have h4 : ((pm : Nat) : Int) + ((q : Nat) : Int) = ((pm + q : Nat) : Int) := by
      push_cast; rfl
    have hf1 : fitsInt ((pm : Nat) : Int) = true := by
      simp only [fitsInt, Bool.and_eq_true, decide_eq_true_eq]
      constructor
      · have : (0 : Int) ≤ (pm : Int) := Int.ofNat_nonneg _
        omega
      · have : ((pm : Nat) : Int) < 2 ^ 31 := by exact_mod_cast (show pm < 2 ^ 31 by omega)
        exact this
    have hf2 : fitsInt ((pm + q : Nat) : Int) = true := by
      simp only [fitsInt, Bool.and_eq_true, decide_eq_true_eq]
      constructor
      · have : (0 : Int) ≤ ((pm + q : Nat) : Int) := Int.ofNat_nonneg _
        omega
      · exact_mod_cast hfits
    simp only [_tr_block, hB0', if_false, hP', h1, h2, h3, h4, hf1, hf2, not_true_eq_false]
  · omega
  · omega

/-- C10 (amended), at piece 1, offset 5 of the torrent of scenario S2. -/
theorem C10_witness :
    ∃ tor, torrentRealInit s2Info = some tor ∧
      tor.blockSize = ((min s2Info.pieceSize 16384 : Nat) : Int) ∧
      _tr_block tor ((1 : Nat) : Int) ((5 : Nat) : Int)
        = some (((1 * s2Info.pieceSize + 5) / min s2Info.pieceSize 16384 : Nat) : Int) ∧
      1 * s2Info.pieceSize
        ≤ min s2Info.pieceSize 16384 * ((1 * s2Info.pieceSize + 5) / min s2Info.pieceSize 16384) ∧
      min s2Info.pieceSize 16384 * ((1 * s2Info.pieceSize + 5) / min s2Info.pieceSize 16384)
          + min s2Info.pieceSize 16384
        ≤ (1 + 1) * s2Info.pieceSize :=
  C10_tr_block s2Info 4 (by decide) (by decide) 1 5 (by decide) (by decide)

/-- C12, counterexample: the length prefix `7F FF FF FF` is 2^31 - 1, below
2^31, and five bytes are buffered, fewer than 4 + L; `parseMessageHeader` does
not return `TR_NET_BLOCK`: the sum `4 + *msglen` leaves the range of `int`. -/
theorem C12_counterexample :
    TR_NTOHL [127, 255, 255, 255, 0] = some (2 ^ 31 - 1) ∧
    parseMessageHeader mainlineEnv [127, 255, 255, 255, 0] 5 0 0 = none := by
  constructor <;> decide

/-- C12, amended: when the length prefix L satisfies L + 4 < 2^31,
`parseMessageHeader` returns `TR_NET_BLOCK` if and only if fewer than 4 bytes,
or fewer than 4 + L bytes, are buffered; otherwise for L = 0 it reports a
keep-alive and a header size of 4, and for L >= 1 the id of byte 4, the body
length L - 1 and a header size of 5. With fewer than 4 bytes it returns
`TR_NET_BLOCK` whatever the buffer holds. -/
theorem C12_parseMessageHeader (env : PeerEnv) (buf : List Nat) (buflen id0 len0 : Int)
    (hlen : buflen ≤ buf.length) :
    (buflen < 4 → parseMessageHeader env buf buflen id0 len0 = some (TR_NET_BLOCK, id0, len0)) ∧
    (∀ L : Nat, TR_NTOHL buf = some L → (L : Int) + 4 < 2 ^ 31 →
      ∃ ret msgid msglen,
        parseMessageHeader env buf buflen id0 len0 = some (ret, msgid, msglen) ∧
        (ret = TR_NET_BLOCK ↔ (buflen < 4 ∨ buflen < 4 + (L : Int))) ∧
        (4 + (L : Int) ≤ buflen → L = 0 → ret = 4 ∧ msgid = env.AZ_MSG_BT_KEEP_ALIVE) ∧
        (4 + (L : Int) ≤ buflen → 1 ≤ L →
          ret = 5 ∧ buf[4]? = some msgid.toNat ∧ 0 ≤ msgid ∧ msglen = (L : Int) - 1)) := by
  constructor
  · intro h
    simp only [parseMessageHeader]
    rw [if_pos (by omega)]
  · intro L hL hb
    have hLlt : L < 2 ^ 31 := by omega
    have hcast : toInt32 L = (L : Int) := toInt32_of_lt L hLlt
    have hfit : fitsInt (4 + (L : Int)) = true := by
      simp only [fitsInt, Bool.and_eq_true, decide_eq_true_eq]
      constructor <;> omega
    have hfit2 : fitsInt ((L : Int) - 1) = true := by
      simp only [fitsInt, Bool.and_eq_true, decide_eq_true_eq]
      constructor <;> omega
    simp only [parseMessageHeader]
    by_cases h4 : 4 > buflen
    · rw [if_pos h4]
      refine ⟨TR_NET_BLOCK, id0, len0, rfl, ?_, ?_, ?_⟩
      · simp only [true_iff]; left; omega
      · intro h; omega
      · intro h; omega
    · rw [if_neg h4, hL]
      simp only [hcast, hfit, not_true_eq_false, if_false]
      by_cases hshort : 4 + (L : Int) > buflen
      · rw [if_pos hshort]
        refine ⟨TR_NET_BLOCK, id0, L, rfl, ?_, ?_, ?_⟩
        · simp only [true_iff]; right; omega
        · intro h; omega
        · intro h; omega
      · rw [if_neg hshort]
        by_cases h0 : (0 : Int) = (L : Int)
        · rw [if_pos h0]
          refine ⟨4, env.AZ_MSG_BT_KEEP_ALIVE, L, rfl, ?_, ?_, ?_⟩
          · constructor
            · intro h; exact absurd h (by decide)
            · intro h; omega
          · intro _ _; exact ⟨rfl, rfl⟩
          · intro _ h1; omega
        · rw [if_neg h0]
          have hb4 : 4 < buf.length := by
            have : (4 : Int) + L ≤ buf.length := by omega
            omega
          have hget : (buf[4]? : Option Nat) = some (buf.get ⟨4, hb4⟩) := by
            simp [List.getElem?_eq_getElem hb4]
          rw [hget]
          simp only [hfit2, not_true_eq_false, if_false]
          refine ⟨5, _, _, rfl, ?_, ?_, ?_⟩
          · constructor
            · intro h; exact absurd h (by decide)
            · intro h; omega
          · intro _ h1; omega
          · intro _ _
            refine ⟨rfl, ?_, ?_, rfl⟩
            · simp
            · exact Int.ofNat_nonneg _

/-- C12, witness: the frame `00 00 00 01 07` with five bytes buffered. -/
theorem C12_witness :
    ∃ ret msgid msglen,
      parseMessageHeader mainlineEnv [0, 0, 0, 1, 7] 5 0 0 = some (ret, msgid, msglen) ∧
      (ret = TR_NET_BLOCK ↔ ((5 : Int) < 4 ∨ (5 : Int) < 4 + ((1 : Nat) : Int))) ∧
      (4 + ((1 : Nat) : Int) ≤ 5 → 1 = 0 → ret = 4 ∧ msgid = mainlineEnv.AZ_MSG_BT_KEEP_ALIVE) ∧
      (4 + ((1 : Nat) : Int) ≤ 5 → 1 ≤ 1 →
        ret = 5 ∧ ([0, 0, 0, 1, 7] : List Nat)[4]? = some msgid.toNat ∧ 0 ≤ msgid ∧
          msglen = ((1 : Nat) : Int) - 1) :=
  (C12_parseMessageHeader mainlineEnv [0, 0, 0, 1, 7] 5 0 0 (by decide)).2 1 (by decide)
    (by decide)

/-- C15, the failing input: in the torrent of scenario S2, of two pieces, a
CANCEL whose piece index is `FF FF FF FF` (2^32 - 1) is not rejected by
`parseCancel`, which returns `TR_OK`: the index is read into an `int`, where it
is -1 and below `pieceCount`. A PIECE with that index passes the checks of
`parsePiece` in the same way and goes on to the storing of the block with index
-1. `parseHave`, which reads the index into a `uint32_t`, rejects it. -/
theorem C15_index_read_as_int :
    TR_NTOHL [255, 255, 255, 255, 0, 0, 0, 0, 0, 0, 0, 0] = some (2 ^ 32 - 1) ∧
    s2Swarm.info.pieceCount = 2 ∧
    parseCancel s2Swarm s2Peer [255, 255, 255, 255, 0, 0, 0, 0, 0, 0, 0, 0] 12
      = some (TR_OK, s2Peer) ∧
    (∀ env : PeerEnv, parsePiece env s2Swarm s2Peer [255, 255, 255, 255, 0, 0, 0, 0] 8
      = env.storeBlock s2Swarm s2Peer (-1) 0 [255, 255, 255, 255, 0, 0, 0, 0] 8) ∧
    parseHave mainlineEnv s2Swarm s2Peer [255, 255, 255, 255] 4
      = some (TR_ERROR_ASSERT, s2Peer) := by
  refine ⟨by decide, by decide, by decide, fun env => ?_, by decide⟩
  rfl

/-- C16: for a well-formed CANCEL (index `i` below `pieceCount`, `b + l` within
the piece), `parseCancel` returns `TR_OK` and takes the first queued request
equal to `(i, b, l)` out of the peer's queue, keeping the others in their
order, so that the count drops by one; when no queued request is equal to it,
the peer is unchanged. -/
theorem C16_parseCancel_removes_first (tor : tr_torrent_t) (peer : tr_peer_t) (p : List Nat)
    (i b l : Nat) (hi : TR_NTOHL p = some i) (hb : TR_NTOHL (p.drop 4) = some b)
    (hl : TR_NTOHL (p.drop 8) = some l) (hcount : tor.info.pieceCount < 2 ^ 31)
    (hidx : i < tor.info.pieceCount)
    (hsize : (b : Int) + l ≤ tr_pieceSize tor.totr_torrent i)
    (hint : tr_pieceSize tor.totr_torrent i < 2 ^ 31) :
    (∀ pre post : List tr_request_t,
      peer.outRequests = pre ++ (⟨i, b, l⟩ : tr_request_t) :: post →
      (∀ x ∈ pre, x ≠ (⟨i, b, l⟩ : tr_request_t)) →
      parseCancel tor peer p 12 = some (TR_OK, { peer with outRequests := pre ++ post }) ∧
      (pre ++ post).length + 1 = peer.outRequests.length) ∧
    ((∀ x ∈ peer.outRequests, x ≠ (⟨i, b, l⟩ : tr_request_t)) →
      parseCancel tor peer p 12 = some (TR_OK, peer)) := by
  have hrun := parseCancel_wellFormed tor peer p i b l hi hb hl hcount hidx hsize hint
  constructor
  · intro pre post hq hpre
    have h := cancelLoop_first (⟨i, b, l⟩ : tr_request_t) pre post hpre
    simp only at h
    rw [hrun, hq, h]
    refine ⟨rfl, ?_⟩
    simp
    omega
  · intro hq
    have h := cancelLoop_none (⟨i, b, l⟩ : tr_request_t) peer.outRequests hq
    simp only at h
    rw [hrun, h]

/-- C16, witness: the queue (1,0,8), (0,0,4), (0,4,4), (0,0,4) and the CANCEL
(0,0,4): the second entry goes, the fourth stays. -/
theorem C16_witness :
    parseCancel s2Swarm
        { s2Peer with outRequests := [⟨1, 0, 8⟩, ⟨0, 0, 4⟩, ⟨0, 4, 4⟩, ⟨0, 0, 4⟩] }
        [0, 0, 0, 0, 0, 0, 0, 0, 0, 0, 0, 4] 12
      = some (TR_OK, { s2Peer with outRequests := [⟨1, 0, 8⟩, ⟨0, 4, 4⟩, ⟨0, 0, 4⟩] }) :=
  ((C16_parseCancel_removes_first s2Swarm
      { s2Peer with outRequests := [⟨1, 0, 8⟩, ⟨0, 0, 4⟩, ⟨0, 4, 4⟩, ⟨0, 0, 4⟩] }
      [0, 0, 0, 0, 0, 0, 0, 0, 0, 0, 0, 4] 0 0 4 (by decide) (by decide) (by decide)
      (by decide) (by decide) (by decide) (by decide)).1
    [⟨1, 0, 8⟩] [⟨0, 4, 4⟩, ⟨0, 0, 4⟩] rfl (by decide)).1

/-- C14: for a BITFIELD body that is in the buffer, `parseBitfield` accepts it
if and only if its length is ceil(pieceCount/8) and every bit at an MSB-first
position from `pieceCount` on is clear; on acceptance it returns `TR_OK` with
the peer's bitfield equal to the body and the peer's `pieceCount` equal to the
number of set bits of the body (before the interest update); on rejection it
returns `TR_ERROR_ASSERT` and leaves the peer as it was. -/
theorem C14_parseBitfield (env : PeerEnv) (tor : tr_torrent_t) (peer : tr_peer_t)
    (p : List Nat) (len : Int) (hcount : tor.info.pieceCount + 7 < 2 ^ 31)
    (hlen : 0 ≤ len) (hbuf : len.toNat ≤ p.length)
    (halloc : ∀ bf, peer.bitfield = some bf →
      bf.bits.length = (tor.info.pieceCount + 7) / 8) :
    ((len = (((tor.info.pieceCount + 7) / 8 : Nat) : Int) ∧
        ∀ i, tor.info.pieceCount ≤ i → i < 8 * (p.take len.toNat).length →
          bitAt (p.take len.toNat) i = false) →
      parseBitfield env tor peer p len = some (TR_OK, env.updateInterest tor
        { peer with
          bitfield := some ⟨p.take len.toNat⟩
          pieceCount := setBits (p.take len.toNat) })) ∧
    (¬ (len = (((tor.info.pieceCount + 7) / 8 : Nat) : Int) ∧
        ∀ i, tor.info.pieceCount ≤ i → i < 8 * (p.take len.toNat).length →
          bitAt (p.take len.toNat) i = false) →
      parseBitfield env tor peer p len = some (TR_ERROR_ASSERT, peer)) := by
  generalize hn : tor.info.pieceCount = n at *
  have hfit : fitsInt ((n : Int) + 7) = true := by
    simp only [fitsInt, Bool.and_eq_true, decide_eq_true_eq]
    constructor <;> omega
  have htdiv : Int.tdiv ((n : Int) + 7) 8 = (((n + 7) / 8 : Nat) : Int) := by
    have h1 : ((n : Int) + 7) = ((n + 7 : Nat) : Int) := by push_cast; rfl
    rw [h1]
    exact (Int.ofNat_tdiv (n + 7) 8).symm
  have hnew : (tr_bitfieldNew n).bits.length = (n + 7) / 8 := by
    simp [tr_bitfieldNew]
  simp only [parseBitfield, hn, hfit, htdiv, not_true_eq_false, if_false]
  by_cases hl : len = (((n + 7) / 8 : Nat) : Int)
  · subst hl
    simp only [Int.toNat_ofNat] at hbuf ⊢
    rw [List.length_take, Nat.min_eq_left hbuf]
    simp only [ne_eq, not_true_eq_false, if_false, true_and]
    by_cases hk : n % 8 = 0
    · have hns : n = 8 * ((n + 7) / 8) := by omega
      have hspare : ∀ i, n ≤ i → i < 8 * ((n + 7) / 8) →
          bitAt (p.take ((n + 7) / 8)) i = false := fun i h1 h2 => by omega
      obtain ⟨h1, h2, h3⟩ :=
        parseBitfield_store peer p n ((n + 7) / 8) hbuf halloc hnew hspare (by omega)
      simp only [hk, not_true_eq_false, if_false, if_neg h1, h2, h3]
      exact ⟨fun _ => trivial, fun h => absurd hspare h⟩
    · have hpos : 1 ≤ (n + 7) / 8 := by omega
      have hidx : ((((n + 7) / 8 : Nat) : Int) - 1).toNat = (n + 7) / 8 - 1 := by omega
      have hlt : (n + 7) / 8 - 1 < p.length := by omega
      have hget : (p[(n + 7) / 8 - 1]? : Option Nat) = some (p.getD ((n + 7) / 8 - 1) 0) := by
        rw [List.getElem?_eq_getElem hlt, List.getD_eq_getElem _ _ hlt]
      have hbody : (p.take ((n + 7) / 8)).getD ((n + 7) / 8 - 1) 0
          = p.getD ((n + 7) / 8 - 1) 0 := by
        rw [List.getD_eq_getElem?_getD, List.getD_eq_getElem?_getD,
          List.getElem?_take_of_lt (by omega)]
      have hiff := spare_iff (p.take ((n + 7) / 8)) n hk
      rw [hbody] at hiff
      simp only [hk, not_false_eq_true, if_true, hidx, hget]
      by_cases ht : (p.getD ((n + 7) / 8 - 1) 0 <<< (n % 8)) % 256 = 0
      · have hspare := hiff.mp ht
        obtain ⟨h1, h2, h3⟩ :=
          parseBitfield_store peer p n ((n + 7) / 8) hbuf halloc hnew hspare (by omega)
        simp only [ht, not_true_eq_false, decide_False, if_neg h1, h2, h3]
        exact ⟨fun _ => trivial, fun h => absurd hspare h⟩
      · simp only [ht, not_false_eq_true, decide_True]
        exact ⟨fun h => absurd (hiff.mpr h) ht, fun _ => trivial⟩
  · simp only [ne_eq, hl, not_false_eq_true, if_true, false_and, not_false_eq_true]
    exact ⟨fun h => absurd h (by simp), fun _ => trivial⟩
/-- C14, witness: in the torrent of scenario S2, of two pieces, the body `C0`
(both pieces) is accepted; the peer then has the bitfield `C0` and two pieces. -/
theorem C14_witness :
    parseBitfield mainlineEnv s2Swarm s2Peer [192] 1
      = some (TR_OK, { s2Peer with bitfield := some ⟨[192]⟩, pieceCount := 2 }) :=
  (C14_parseBitfield mainlineEnv s2Swarm s2Peer [192] 1 (by decide) (by decide) (by decide)
    (by simp [s2Peer])).1 ⟨by decide, by decide⟩

/-- C13, the failing input: a connected, not banned, mainline peer does not
choke us, block 0 is requested from it, and its buffer holds the complete CHOKE
frame `00 00 00 01 00`. `parseBuf` takes the five bytes and returns `TR_OK`
with the peer and the torrent otherwise unchanged: `peerChoking` is still 0,
the request is still outstanding and block 0 is still in the requested set.
The body of a CHOKE has length 0 and `parseBuf` skips every message of body
length 0 before `parseMessage`. `parseChoke`, had it been called on the frame,
records the choke and drops the request. -/
theorem C13_choke_frame_not_parsed :
    parseBuf mainlineEnv chokeSwarm chokePeer
      = some (TR_OK, chokeSwarm, { chokePeer with pos := 0 }) ∧
    chokePeer.peerChoking = 0 ∧ chokePeer.inRequests = [⟨0, 0, 16⟩] ∧
    chokeSwarm.requested = [0] ∧
    parseMessageHeader mainlineEnv chokePeer.buf chokePeer.pos 0 0
      = some (5, PEER_MSG_CHOKE, 0) ∧
    parseMessage mainlineEnv chokeSwarm { chokePeer with pos := 0 } PEER_MSG_CHOKE [] 0
      = some (TR_OK, { chokeSwarm with requested := [] },
          { chokePeer with pos := 0, peerChoking := 1, inRequests := [] }) := by
  refine ⟨by decide, by decide, by decide, by decide, by decide, by decide⟩

/-- C17: `isInteresting` returns true if and only if there is a piece `p` below
`pieceCount` with `pieces[p].dnd` false, not reported complete by Completion,
set in the peer's bitfield `have` and not set in the peer's bitfield `banned`;
it always returns, and it returns false when the peer has no bitfield `have`. -/
theorem C17_isInteresting (tor : tr_torrent) (cp : Completion) (peer : tr_peermsgs)
    (hpieces : tor.info.pieces.length = tor.info.pieceCount) :
    (isInteresting tor cp peer = some true ↔
      ∃ p, p < tor.info.pieceCount ∧
        (∃ pc, tor.info.pieces[p]? = some pc ∧ pc.dnd = false) ∧ cp.complete p = false ∧
        bitfieldHas peer.info.have_ p = true ∧ bitfieldHas peer.info.banned p = false) ∧
    (isInteresting tor cp peer = some true ∨ isInteresting tor cp peer = some false) ∧
    (peer.info.have_ = none → isInteresting tor cp peer = some false) := by
  have hl : ∀ i ∈ List.range tor.info.pieceCount, i < tor.info.pieces.length := by
    intro i hi
    rw [hpieces]
    exact List.mem_range.mp hi
  obtain ⟨h1, h2⟩ := isInterestingLoop_spec tor cp peer (List.range tor.info.pieceCount) hl
  unfold isInteresting
  by_cases hh : peer.info.have_ = none
  · rw [if_pos hh]
    refine ⟨?_, Or.inr rfl, fun _ => rfl⟩
    constructor
    · intro h; exact absurd h (by simp)
    · rintro ⟨p, _, _, _, hhave, _⟩
      rw [hh] at hhave
      exact absurd hhave (by simp [bitfieldHas])
  · rw [if_neg hh]
    refine ⟨?_, h2, fun h => absurd h hh⟩
    rw [h1]
    constructor
    · rintro ⟨p, hp, hw⟩
      have hlt : p < tor.info.pieceCount := List.mem_range.mp hp
      exact ⟨p, hlt, (isPieceInteresting_spec tor cp peer p (hl p hp)).1.mp hw⟩
    · rintro ⟨p, hlt, hw⟩
      have hp : p ∈ List.range tor.info.pieceCount := List.mem_range.mpr hlt
      exact ⟨p, hp, (isPieceInteresting_spec tor cp peer p (hl p hp)).1.mpr hw⟩

/-- C17, witness: on the torrent of scenario S2 with nothing complete, a peer
that has piece 0 is interesting. -/
theorem C17_witness : isInteresting s2Tor noneComplete interestedSession = some true :=
  (C17_isInteresting s2Tor noneComplete interestedSession (by decide)).1.mpr
    ⟨0, by decide, ⟨_, rfl, rfl⟩, rfl, by decide, by decide⟩
/-- C18, the failing input: on the torrent of scenario S2 with nothing
complete, the peer has piece 0 and `clientIsInterested` is 0. Two calls of
`updateInterest` in a row, with nothing changed in between, queue the
INTERESTED frame `00 00 00 01 02` twice: `sendInterest` queues the frame and
leaves `clientIsInterested` at 0, so the second call sees the same difference
as the first. -/
theorem C18_interest_sent_twice :
    interestedSession.outMessages = [] ∧
    interestedSession.info.clientIsInterested = false ∧
    isInteresting s2Tor noneComplete interestedSession = some true ∧
    updateInterest s2Tor noneComplete interestedSession
      = some { interestedSession with outMessages := [0, 0, 0, 1, 2] } ∧
    updateInterest s2Tor noneComplete { interestedSession with outMessages := [0, 0, 0, 1, 2] }
      = some { interestedSession with outMessages := [0, 0, 0, 1, 2, 0, 0, 0, 1, 2] } := by
  refine ⟨by decide, by decide, by decide, by decide, by decide⟩

/-- C19: when the wanted choke state differs from `peerIsChoked`,
`tr_peerMsgsSetChoke` queues the one frame `00 00 00 01` followed by the id 0
(choke) or 1 (unchoke) and sets `peerIsChoked` to the wanted state; when it is
the same, the session is unchanged; a repeated call changes nothing more. -/
theorem C19_tr_peerMsgsSetChoke (peer : tr_peermsgs) (choke : Int) :
    (peer.info.peerIsChoked ≠ decide (choke ≠ 0) →
      (tr_peerMsgsSetChoke peer choke).outMessages
        = peer.outMessages ++ [0, 0, 0, 1, if choke ≠ 0 then 0 else 1] ∧
      (tr_peerMsgsSetChoke peer choke).info.peerIsChoked = decide (choke ≠ 0)) ∧
    (peer.info.peerIsChoked = decide (choke ≠ 0) → tr_peerMsgsSetChoke peer choke = peer) ∧
    tr_peerMsgsSetChoke (tr_peerMsgsSetChoke peer choke) choke
      = tr_peerMsgsSetChoke peer choke := by
  have hframe : tr_peerIoWriteUint32 1 = [0, 0, 0, 1] := by decide
  refine ⟨?_, ?_, ?_⟩
  · intro h
    unfold tr_peerMsgsSetChoke
    rw [if_pos h, hframe]
    refine ⟨?_, rfl⟩
    simp only [List.append_assoc, List.cons_append, List.nil_append, BT_CHOKE, BT_UNCHOKE]
  · intro h
    unfold tr_peerMsgsSetChoke
    rw [if_neg (by simp [h])]
  · by_cases h : peer.info.peerIsChoked = decide (choke ≠ 0)
    · have h1 : tr_peerMsgsSetChoke peer choke = peer := by
        unfold tr_peerMsgsSetChoke
        rw [if_neg (by simp [h])]
      rw [h1, h1]
    · have h2 : (tr_peerMsgsSetChoke peer choke).info.peerIsChoked = decide (choke ≠ 0) := by
        unfold tr_peerMsgsSetChoke
        rw [if_pos h]
      generalize tr_peerMsgsSetChoke peer choke = q at h2
      unfold tr_peerMsgsSetChoke
      rw [if_neg (by simp [h2])]

/-- C19, witness: unchoking a new session queues `00 00 00 01 01` after the
bitfield, and unchoking again changes nothing. -/
theorem C19_witness :
    unchokedSession.outMessages
        = (tr_peerMsgsNew s2Tor noneComplete freshPeer).outMessages ++ [0, 0, 0, 1, 1] ∧
      unchokedSession.info.peerIsChoked = false :=
  (C19_tr_peerMsgsSetChoke (tr_peerMsgsNew s2Tor noneComplete freshPeer) 0).1 (by decide)

/-- C20: in every session state reached from `tr_peerMsgsNew` through
`tr_peerMsgsSetChoke` and `readBtMessage`, if we choke the peer
(`peerIsChoked`) the queue `peerAskedFor` of its requests is empty. -/
theorem C20_choked_peer_has_no_requests (env : SessionEnv) (peer : tr_peermsgs)
    (hreach : SessionReachable env peer) (hchoked : peer.info.peerIsChoked = true) :
    peer.peerAskedFor = [] := by
  induction hreach with
  | new tor cp info => rfl
  | setChoke q choke _ ih =>
    unfold tr_peerMsgsSetChoke at hchoked ⊢
    by_cases h : q.info.peerIsChoked ≠ decide (choke ≠ 0)
    · rw [if_pos h]
    · rw [if_neg h] at hchoked ⊢
      exact ih hchoked
  | read tor cp q inbuf ret q' inbuf' _ hread ih =>
    exact readBtMessage_inv env tor cp q q' inbuf inbuf' ret ih hread hchoked

/-- C20, witness: after the peer's REQUEST was queued in the unchoked session,
choking the peer leaves no request queued. -/
theorem C20_witness :
    requestedSession.peerAskedFor = [⟨0, 0, 16⟩] ∧
    (tr_peerMsgsSetChoke requestedSession 1).peerAskedFor = [] :=
  ⟨rfl,
    C20_choked_peer_has_no_requests plainSession (tr_peerMsgsSetChoke requestedSession 1)
      (SessionReachable.setChoke _ 1
        (SessionReachable.read s2Tor noneComplete unchokedSession
          [6, 0, 0, 0, 0, 0, 0, 0, 0, 0, 0, 0, 16] ReadState.READ_AGAIN requestedSession []
          (SessionReachable.setChoke _ 0 (SessionReachable.new s2Tor noneComplete freshPeer))
          (by decide)))
      (by decide)⟩

/-- C22, counterexample: `recheckCpState` detects the change to Done and then,
before any query, the change to Complete; the query for Done returns false:
the change to Done is never observed. -/
theorem C22_counterexample :
    (recheckCpState TR_CP_DONE s2Tor).hasChangedState = TR_CP_DONE ∧
    (recheckCpState TR_CP_COMPLETE (recheckCpState TR_CP_DONE s2Tor)).hasChangedState
      = TR_CP_COMPLETE ∧
    (tr_getDone (recheckCpState TR_CP_COMPLETE (recheckCpState TR_CP_DONE s2Tor))).1 = 0 := by
  refine ⟨by decide, by decide, by decide⟩

/-- C22, amended: after `recheckCpState` detects a change to status `s`, the
query for `s` returns true once and false from then on, and a query for
another status returns false and leaves the notification in place; a call of
`recheckCpState` that detects no change leaves it in place too. A change
detected while an earlier one is still unobserved replaces it. -/
theorem C22_latest_change_observed_once (tor : tr_torrent) (s : Int)
    (hchange : s ≠ tor.cpStatus) (hs : s ≠ -1) :
    (tr_didStateChangeTo (recheckCpState s tor) s).1 = 1 ∧
    (tr_didStateChangeTo (tr_didStateChangeTo (recheckCpState s tor) s).2 s).1 = 0 ∧
    (tr_didStateChangeTo (tr_didStateChangeTo (recheckCpState s tor) s).2 s).2
      = (tr_didStateChangeTo (recheckCpState s tor) s).2 ∧
    (∀ s', s' ≠ s →
      tr_didStateChangeTo (recheckCpState s tor) s' = (0, recheckCpState s tor)) ∧
    recheckCpState s (recheckCpState s tor) = recheckCpState s tor ∧
    (∀ s', s' ≠ s →
      (recheckCpState s' (recheckCpState s tor)).hasChangedState = s') := by
  have h1 : recheckCpState s tor
      = { tor with cpStatus := s, hasChangedState := s, fastResumeDirty := false } := by
    unfold recheckCpState
    rw [if_pos hchange]
  refine ⟨?_, ?_, ?_, ?_, ?_, ?_⟩
  · rw [h1]; simp [tr_didStateChangeTo]
  · rw [h1]; simp only [tr_didStateChangeTo, if_true]
    rw [if_neg (fun h => hs h.symm)]
  · rw [h1]; simp only [tr_didStateChangeTo, if_true]
    rw [if_neg (fun h => hs h.symm)]
  · intro s' hs'
    rw [h1]
    simp only [tr_didStateChangeTo]
    rw [if_neg (fun h => hs' h.symm)]
  · rw [h1]
    simp [recheckCpState]
  · intro s' hs'
    rw [h1]
    simp only [recheckCpState]
    rw [if_pos hs']

/-- C22, witness: the change of the torrent of scenario S2 to Done. -/
theorem C22_witness :
    (tr_didStateChangeTo (recheckCpState TR_CP_DONE s2Tor) TR_CP_DONE).1 = 1 ∧
    (tr_didStateChangeTo (tr_didStateChangeTo (recheckCpState TR_CP_DONE s2Tor)
      TR_CP_DONE).2 TR_CP_DONE).1 = 0 :=
  ⟨(C22_latest_change_observed_once s2Tor TR_CP_DONE (by decide) (by decide)).1,
    (C22_latest_change_observed_once s2Tor TR_CP_DONE (by decide) (by decide)).2.1⟩

/-- C23, counterexample: `tr_torrentSetSpeedMode`, `tr_torrentSetSpeedLimit`,
`tr_torrentChangeMyPort` and `tr_torrentDisablePex` on the torrent of scenario
S2, whose `fastResumeDirty` is false, leave it false. -/
theorem C23_counterexample :
    s2Tor.fastResumeDirty = false ∧
    (tr_torrentSetSpeedMode s2Tor TR_UP 1).fastResumeDirty = false ∧
    (tr_torrentSetSpeedLimit s2Tor TR_UP 100).fastResumeDirty = false ∧
    (tr_torrentChangeMyPort s2Tor 6881).fastResumeDirty = false ∧
    (tr_torrentDisablePex s2Tor 1).fastResumeDirty = false := by
  refine ⟨by decide, by decide, by decide, by decide, by decide⟩
/-- C23, amended: `tr_torrentSetFilePriority` and `tr_torrentSetFileDL`, on a
file of the torrent whose first and last piece are pieces of the torrent,
return with `fastResumeDirty` set; `tr_torrentSetSpeedLimit`,
`tr_torrentSetSpeedMode`, `tr_torrentChangeMyPort` and `tr_torrentDisablePex`
leave `fastResumeDirty` as it was. -/
theorem C23_setters_and_fastResumeDirty (tor : tr_torrent) (fileIndex : Int) (file : tr_file_t)
    (hidx : 0 ≤ fileIndex) (hfile : tor.info.files[fileIndex.toNat]? = some file)
    (hfirst : 0 ≤ file.firstPiece ∧ file.firstPiece < tor.info.pieces.length)
    (hlast : 0 ≤ file.lastPiece ∧ file.lastPiece < tor.info.pieces.length) :
    (∀ priority, ∃ tor', tr_torrentSetFilePriority tor fileIndex priority = some tor' ∧
      tor'.fastResumeDirty = true) ∧
    (∀ doDownload, ∃ tor', tr_torrentSetFileDL tor fileIndex doDownload = some tor' ∧
      tor'.fastResumeDirty = true) ∧
    (∀ up_or_down limit,
      (tr_torrentSetSpeedLimit tor up_or_down limit).fastResumeDirty = tor.fastResumeDirty) ∧
    (∀ up_or_down mode,
      (tr_torrentSetSpeedMode tor up_or_down mode).fastResumeDirty = tor.fastResumeDirty) ∧
    (∀ port, (tr_torrentChangeMyPort tor port).fastResumeDirty = tor.fastResumeDirty) ∧
    (∀ disable, (tr_torrentDisablePex tor disable).fastResumeDirty = tor.fastResumeDirty) := by
  refine ⟨?_, ?_, ?_, ?_, ?_, ?_⟩
  · intro priority
    unfold tr_torrentSetFilePriority
    rw [if_neg (by omega), hfile]
    simp only
    split
    · rename_i hnone
      exact absurd hnone (setPiecesLoop_ne_none _ _ _ _ hfirst.1 (by omega))
    · exact ⟨_, rfl, rfl⟩
  · intro doDownload
    unfold tr_torrentSetFileDL
    rw [if_neg (by omega), hfile]
    simp only
    by_cases heq : file.firstPiece = file.lastPiece
    · rw [if_pos heq]
      split
      · rename_i hnone
        exact absurd hnone (setPieceDND_ne_none _ _ _ hfirst.1 hfirst.2)
      · exact ⟨_, rfl, rfl⟩
    · rw [if_neg heq]
      split
      · rename_i hnone
        split at hnone
        · rename_i h1
          exact absurd h1 (setPieceDND_ne_none _ _ _ hfirst.1 hfirst.2)
        · rename_i r1 h1
          have hl1 := setPieceDND_length _ _ _ _ h1
          split at hnone
          · rename_i h2
            exact absurd h2 (setPieceDND_ne_none _ _ _ hlast.1 (by rw [hl1]; exact hlast.2))
          · rename_i r2 h2
            have hl2 := setPieceDND_length _ _ _ _ h2
            exact absurd hnone (setPiecesLoop_ne_none _ _ _ _ (by omega)
              (by rw [hl2, hl1]; omega))
      · exact ⟨_, rfl, rfl⟩
  · intro up_or_down limit
    unfold tr_torrentSetSpeedLimit
    split_ifs <;> rfl
  · intro up_or_down mode
    unfold tr_torrentSetSpeedMode
    split_ifs <;> rfl
  · intro port; rfl
  · intro disable
    unfold tr_torrentDisablePex
    split_ifs <;> rfl

/-- C23, witness: file `a` of scenario S2, which lies in piece 0. -/
theorem C23_witness :
    (∃ tor', tr_torrentSetFilePriority s2Tor 0 TR_PRI_HIGH = some tor' ∧
      tor'.fastResumeDirty = true) ∧
    (∃ tor', tr_torrentSetFileDL s2Tor 0 0 = some tor' ∧ tor'.fastResumeDirty = true) :=
  ⟨(C23_setters_and_fastResumeDirty s2Tor 0 { name := "a", length := 10 } (by decide) rfl
      (by decide) (by decide)).1 TR_PRI_HIGH,
    (C23_setters_and_fastResumeDirty s2Tor 0 { name := "a", length := 10 } (by decide) rfl
      (by decide) (by decide)).2.1 0⟩
/-- On a handle whose torrents all have a destination, `infoCanAdd`
returns `TR_EDUPLICATE` if and only if some torrent of the list has the same
twenty bytes of info hash, or a destination is given and some torrent of the
list has that destination and the same name; otherwise it returns `TR_OK`. It
has no effect on the handle. When the metainfo parses and `infoCanAdd` reports
a duplicate, `tr_torrentInit` returns no torrent, sets `*error` to
`TR_EDUPLICATE` and leaves the handle, with its list and count, as it was. -/
theorem infoCanAdd_duplicate (env : InitEnv) (h : tr_handle) (destination : Option String)
    (info : tr_info_t) (hdest : ∀ t ∈ h.torrentList, t.destination ≠ none) :
    (infoCanAdd h destination info = some TR_EDUPLICATE ∨
      infoCanAdd h destination info = some TR_OK) ∧
    (infoCanAdd h destination info = some TR_EDUPLICATE ↔
      ((∃ t ∈ h.torrentList, t.info.hash.take 20 = info.hash.take 20) ∨
        ∃ d, destination = some d ∧
          ∃ t ∈ h.torrentList, t.destination = some d ∧ t.info.name = info.name)) ∧
    (∀ path flags error, env.tr_metainfoParseFile path = (TR_OK, info) →
      infoCanAdd h destination info = some TR_EDUPLICATE →
      tr_torrentInit env h path destination flags error = some (none, TR_EDUPLICATE, h)) := by
  have hne : (TR_EDUPLICATE : Int) ≠ TR_OK := by decide
  have hcases : (infoCanAdd h destination info = some TR_EDUPLICATE ∨
      infoCanAdd h destination info = some TR_OK) ∧
    (infoCanAdd h destination info = some TR_EDUPLICATE ↔
      ((∃ t ∈ h.torrentList, t.info.hash.take 20 = info.hash.take 20) ∨
        ∃ d, destination = some d ∧
          ∃ t ∈ h.torrentList, t.destination = some d ∧ t.info.name = info.name)) := by
    unfold infoCanAdd
    by_cases hh : hashExists info.hash h.torrentList = true
    · rw [if_pos hh]
      exact ⟨Or.inl rfl, fun _ => Or.inl ((hashExists_iff _ _).mp hh), fun _ => rfl⟩
    · have hnh : ¬ ∃ t ∈ h.torrentList, t.info.hash.take 20 = info.hash.take 20 :=
        fun e => hh ((hashExists_iff _ _).mpr e)
      rw [if_neg hh]
      cases destination with
      | none =>
        refine ⟨Or.inr rfl, ?_⟩
        constructor
        · intro e
          simp only [Option.some.injEq] at e
          exact absurd e.symm hne
        · rintro (e | ⟨d, hd, _⟩)
          · exact absurd e hnh
          · exact absurd hd (by simp)
      | some d =>
        obtain ⟨b, hb, hiff⟩ := pathIsInUse_spec d info.name h.torrentList hdest
        simp only [hb]
        cases b with
        | true =>
          refine ⟨Or.inl rfl, fun _ => Or.inr ⟨d, rfl, hiff.mp rfl⟩, fun _ => rfl⟩
        | false =>
          refine ⟨Or.inr rfl, ?_⟩
          constructor
          · intro e
            simp only [Option.some.injEq] at e
            exact absurd e.symm hne
          · rintro (e | ⟨d', hd, ht⟩)
            · exact absurd e hnh
            · simp only [Option.some.injEq] at hd
              subst hd
              exact absurd (hiff.mpr ht) (by simp)
  refine ⟨hcases.1, hcases.2, ?_⟩
  intro path flags error hparse hdup
  unfold tr_torrentInit tr_torrentParse
  rw [hparse]
  simp only [if_true, hdup]
  rw [if_pos (by decide)]
/-- The handle holds a torrent with the info hash of the metainfo being added;
`tr_torrentInit` returns no torrent, the error `TR_EDUPLICATE` and the handle
as it was. -/
theorem infoCanAdd_duplicate_listed :
    tr_torrentInit s2InitEnv oneHandle "s2.torrent" (some "/elsewhere") 0 0
      = some (none, TR_EDUPLICATE, oneHandle) :=
  (infoCanAdd_duplicate s2InitEnv oneHandle (some "/elsewhere") listedTor.info
    (by decide)).2.2 "s2.torrent" 0 0 rfl (by decide)

/-- A call of `tr_torrentInit` whose metainfo can be added, whose allocation
succeeds and whose two initialisation steps have results returns the new
torrent, leaves `*error` alone and puts the torrent at the head of the
handle's list. -/
theorem tr_torrentInit_added (env : InitEnv) (h : tr_handle) (path : String)
    (destination : Option String) (flags : Nat) (error : Int) (tor tor1 : tr_torrent)
    (hparse : tr_torrentParse env h path destination = some 0)
    (halloc : env.allocates = true)
    (hreal : torrentRealInit { (env.tr_metainfoParseFile path).2 with
      flags := (env.tr_metainfoParseFile path).2.flags ||| flags } = some tor)
    (hpieces : tr_torrentInitFilePieces { tor with destination := destination } = some tor1) :
    tr_torrentInit env h path destination flags error
      = some (some tor1, error,
          { h with torrentList := tor1 :: h.torrentList, torrentCount := h.torrentCount + 1 }) := by
  unfold tr_torrentInit
  rw [hparse]
  simp only [ne_eq, not_true_eq_false, if_false, halloc]
  rw [hreal]
  simp only [hpieces]

/-- The block geometry of the metainfo of `listedTor`: that of scenario S2. -/
theorem torrentRealInit_listedInfo :
    torrentRealInit { listedTor.info with flags := listedTor.info.flags ||| 0 }
      = some { listedTor with destination := none } := by
  rw [torrentRealInit_pow2 _ 4 (by decide) (by decide)]
  decide

/-- C24, the failing input: `tr_torrentInit` with a null destination adds the
torrent of `s2.torrent` to an empty handle, and the torrent in the list has no
destination (`tr_strdup` of a null pointer). A second metainfo, with another
info hash and another name, is then added with the destination `/downloads`.
Nothing is a duplicate, and without destination `infoCanAdd` answers `TR_OK`;
with the destination `pathIsInUse` hands the null `tor->destination` of the
listed torrent to `strcmp`, and neither `infoCanAdd` nor `tr_torrentInit` has
a result. -/
theorem C24_listed_torrent_without_destination :
    ∃ t1, tr_torrentInit twoFileEnv noHandle "s2.torrent" none 0 0
        = some (some t1, 0, { torrentList := [t1], torrentCount := 1 }) ∧
      t1.destination = none ∧
      hashExists otherInfo.hash [t1] = false ∧
      t1.info.name ≠ otherInfo.name ∧
      infoCanAdd { torrentList := [t1], torrentCount := 1 } none otherInfo = some TR_OK ∧
      pathIsInUse "/downloads" otherInfo.name [t1] = none ∧
      infoCanAdd { torrentList := [t1], torrentCount := 1 } (some "/downloads") otherInfo
        = none ∧
      tr_torrentInit twoFileEnv { torrentList := [t1], torrentCount := 1 } "other.torrent"
        (some "/downloads") 0 0 = none := by
  obtain ⟨t1, ht1⟩ : ∃ t, tr_torrentInitFilePieces
      { ({ listedTor with destination := none } : tr_torrent) with destination := none }
        = some t := by
    cases h : tr_torrentInitFilePieces
      { ({ listedTor with destination := none } : tr_torrent) with destination := none } with
    | none => exact absurd h (by decide)
    | some t => exact ⟨t, rfl⟩
  have hproj : (tr_torrentInitFilePieces
      { ({ listedTor with destination := none } : tr_torrent) with destination := none }).map
        (fun t => (t.destination, t.info.hash, t.info.name))
      = some (none, List.replicate 20 7, "s2") := by decide
  rw [ht1] at hproj
  simp only [Option.map_some', Option.some.injEq, Prod.mk.injEq] at hproj
  obtain ⟨hd, hh, hn⟩ := hproj
  have hhash : hashExists otherInfo.hash [t1] = false := by
    simp only [hashExists, hh]
    decide
  have hpath : pathIsInUse "/downloads" otherInfo.name [t1] = none := by
    simp only [pathIsInUse, hd]
  have hadd : infoCanAdd { torrentList := [t1], torrentCount := 1 } (some "/downloads")
      otherInfo = none := by
    simp only [infoCanAdd, hhash, hpath, Bool.false_eq_true, if_false]
  refine ⟨t1, ?_, hd, hhash, ?_, ?_, hpath, hadd, ?_⟩
  · exact tr_torrentInit_added twoFileEnv noHandle "s2.torrent" none 0 0 _ t1 (by decide)
      rfl torrentRealInit_listedInfo ht1
  · rw [hn]
    decide
  · simp only [infoCanAdd, hhash, Bool.false_eq_true, if_false]
  · unfold tr_torrentInit tr_torrentParse
    rw [if_pos (by decide)]
    have hp : (twoFileEnv.tr_metainfoParseFile "other.torrent").2 = otherInfo := by decide
    rw [hp, hadd]

/-- C25, counterexample: a torrent of one piece with one file of low priority,
not marked do-not-download; after `tr_torrentInitFilePieces` the piece that
holds the first and the last byte of the file has priority Normal, not High. -/
theorem C25_counterexample :
    lowTor.info.files.map (fun f => (f.priority, f.dnd)) = [(TR_PRI_LOW, false)] ∧
    (tr_torrentInitFilePieces lowTor).map (fun t => t.info.pieces.map (fun p => p.priority))
      = some [TR_PRI_NORMAL] ∧
    TR_PRI_NORMAL ≠ TR_PRI_HIGH := by
  refine ⟨by decide, by decide, by decide⟩

/-- C25, amended: `tr_torrentInitFilePieces` returns, and for every file that
is not empty and has priority Normal or High, marked do-not-download or not,
the piece that holds the first byte of the file and the piece that holds its
last byte have priority High. The torrent has a piece size that is not 0, less
than 2^64 bytes, less than 2^31 pieces, all of them in the array `pieces`, and
no file priority above High. -/
theorem C25_first_and_last_piece_high (tor : tr_torrent) (hP : tor.info.pieceSize ≠ 0)
    (htotal : filesLength tor.info.files < U64)
    (hcover : filesLength tor.info.files ≤ tor.info.pieceCount * tor.info.pieceSize)
    (hcount : tor.info.pieceCount < 2 ^ 31)
    (hpieces : tor.info.pieceCount ≤ tor.info.pieces.length)
    (hprio : ∀ f ∈ tor.info.files, f.priority ≤ TR_PRI_HIGH) :
    ∃ tor', tr_torrentInitFilePieces tor = some tor' ∧
      ∀ k f, tor.info.files[k]? = some f → TR_PRI_NORMAL ≤ f.priority → 0 < f.length →
        (∃ pc, tor'.info.pieces[bytesBefore tor.info.files k / tor.info.pieceSize]? = some pc ∧
          pc.priority = TR_PRI_HIGH) ∧
        (∃ pc, tor'.info.pieces[(bytesBefore tor.info.files k + f.length - 1)
            / tor.info.pieceSize]? = some pc ∧ pc.priority = TR_PRI_HIGH) := by
  obtain ⟨r, hr, hlen, hidx⟩ := initFilesLoop_spec tor.info hP tor.info.files 0 (by omega)
  have hrprio : ∀ g ∈ r, g.priority ≤ TR_PRI_HIGH := by
    intro g hg
    obtain ⟨k, hk, hgk⟩ := List.getElem_of_mem hg
    have hk' : k < tor.info.files.length := by omega
    have h1 := hidx k (tor.info.files.get ⟨k, hk'⟩) (by simp [List.getElem?_eq_getElem hk'])
    rw [List.getElem?_eq_getElem hk, hgk] at h1
    simp only [Option.some.injEq] at h1
    rw [h1]
    show (tor.info.files.get ⟨k, hk'⟩).priority ≤ TR_PRI_HIGH
    exact hprio _ (List.get_mem _ _ _)
  obtain ⟨ps, hps, _⟩ := setPiecesLoop_some
    (fun i p =>
      { p with
        priority := calculatePiecePriority ({ tor with info := { tor.info with files := r } }) i })
    tor.info.pieceCount 0 tor.info.pieces (le_refl 0) (by omega)
  refine ⟨{ tor with info := { tor.info with files := r, pieces := ps } }, ?_, ?_⟩
  · unfold tr_torrentInitFilePieces
    rw [hr]
    simp only
    rw [hps]
  · intro k f hk hfp hfl
    have hkl : k < tor.info.files.length := by
      by_contra hcon
      rw [List.getElem?_eq_none (by omega)] at hk
      exact absurd hk (by simp)
    have hfget : tor.info.files.get ⟨k, hkl⟩ = f := by
      rw [List.getElem?_eq_getElem hkl] at hk
      exact Option.some.inj hk
    have hend : bytesBefore tor.info.files k + f.length ≤ filesLength tor.info.files := by
      have := bytesBefore_succ_le_filesLength tor.info.files k hkl
      rw [hfget] at this
      exact this
    have hrk := hidx k f hk
    rw [Nat.zero_add] at hrk
    have hmem : fileWithPieces tor.info f (bytesBefore tor.info.files k) ∈ r :=
      List.getElem?_mem hrk
    have hget := setPiecesLoop_get _ tor.info.pieceCount 0 tor.info.pieces ps
      (by exact_mod_cast hps)
    have hpos : 0 < tor.info.pieceSize := Nat.pos_of_ne_zero hP
    have key : ∀ a : Nat, a < filesLength tor.info.files →
        (toInt32 (a / tor.info.pieceSize) = ((a / tor.info.pieceSize : Nat) : Int)) ∧
        a / tor.info.pieceSize < tor.info.pieceCount := by
      intro a ha
      have h2 : a / tor.info.pieceSize < tor.info.pieceCount :=
        (Nat.div_lt_iff_lt_mul hpos).mpr (by omega)
      exact ⟨toInt32_of_lt _ (by omega), h2⟩
    have high : ∀ i : Nat, i < tor.info.pieceCount →
        ((fileWithPieces tor.info f (bytesBefore tor.info.files k)).firstPiece = (i : Int) ∨
          (fileWithPieces tor.info f (bytesBefore tor.info.files k)).lastPiece = (i : Int)) →
        ∃ pc, ps[i]? = some pc ∧ pc.priority = TR_PRI_HIGH := by
      intro i hi hor
      have hil : i < tor.info.pieces.length := by omega
      have hpi := hget i
      rw [if_pos (by omega), List.getElem?_eq_getElem hil, Option.map_some'] at hpi
      exact ⟨_, hpi, calculatePiecePriorityLoop_promotes (i : Int) r hrprio _ hmem hfp hor _⟩
    constructor
    · obtain ⟨h1, h2⟩ := key (bytesBefore tor.info.files k) (by omega)
      exact high _ h2 (Or.inl h1)
    · obtain ⟨h1, h2⟩ := key (bytesBefore tor.info.files k + f.length - 1) (by omega)
      refine high _ h2 (Or.inr ?_)
      show toInt32 ((bytesBefore tor.info.files k + (if f.length ≠ 0 then f.length - 1 else 0))
        / tor.info.pieceSize) = _
      rw [if_pos (by omega)]
      have : bytesBefore tor.info.files k + (f.length - 1)
          = bytesBefore tor.info.files k + f.length - 1 := by omega
      rw [this]
      exact h1

/-- C25, witness: file `b` of scenario S2 (bytes 10 to 31) has its first byte
in piece 0 and its last byte in piece 1. -/
theorem C25_witness :
    ∃ tor', tr_torrentInitFilePieces s2Tor = some tor' ∧
      (∃ pc, tor'.info.pieces[0]? = some pc ∧ pc.priority = TR_PRI_HIGH) ∧
      (∃ pc, tor'.info.pieces[1]? = some pc ∧ pc.priority = TR_PRI_HIGH) := by
  obtain ⟨tor', h1, h2⟩ := C25_first_and_last_piece_high s2Tor (by decide) (by decide)
    (by decide) (by decide) (by decide) (by decide)
  exact ⟨tor', h1, h2 1 { name := "b", length := 22 } rfl (by decide) (by decide)⟩
/-- C28, the failing input: the session has read the length prefix 10 and the
input holds the PIECE frame body `07 00 00 00 01 00 00 00 00 2A` (piece 1,
offset 0, one byte of data). `readBtMessage` fills `blockToUs` with (1, 0, 1)
and takes the nine bytes of id and header, but the session is left in state
`AWAITING_BT_LENGTH`, not `READING_BT_PIECE`: the assignment after the
`switch` overwrites the state the PIECE case has set. -/
theorem C28_piece_state_overwritten :
    readBtMessage plainSession s2Tor noneComplete pieceSession
        [7, 0, 0, 0, 1, 0, 0, 0, 0, 42]
      = some (ReadState.READ_AGAIN,
          { pieceSession with
            blockToUs := ⟨1, 0, 1⟩
            incomingMessageLength := 2 ^ 32 - 1
            state := AWAITING_BT_LENGTH }, [42]) ∧
    AWAITING_BT_LENGTH ≠ READING_BT_PIECE := by
  refine ⟨by decide, by decide⟩

/-- C29, the failing input: peer exchange is not enabled for the peer, the
session has read the length prefix 5, and the input holds the five bytes of an
LTEP frame with the peer's `ut_pex` id, `14 01 64 65 66`, followed by the
keep-alive `00 00 00 00`. `readBtMessage` takes two bytes, not five, and goes
back to `AWAITING_BT_LENGTH`: the next length prefix is read from the payload
`64 65 66 00`. For the PIECE frame of length 10 it takes nine bytes before it
goes back to `AWAITING_BT_LENGTH`. -/
theorem C29_frame_not_consumed :
    pexSession.incomingMessageLength = 5 ∧
    (readBtMessage plainSession s2Tor noneComplete pexSession
        [20, 1, 100, 101, 102, 0, 0, 0, 0]).map (fun r => (r.1, r.2.1.state, r.2.2))
      = some (ReadState.READ_AGAIN, AWAITING_BT_LENGTH, [100, 101, 102, 0, 0, 0, 0]) ∧
    pieceSession.incomingMessageLength = 10 ∧
    (readBtMessage plainSession s2Tor noneComplete pieceSession
        [7, 0, 0, 0, 1, 0, 0, 0, 0, 42]).map (fun r => (r.1, r.2.1.state, r.2.2))
      = some (ReadState.READ_AGAIN, AWAITING_BT_LENGTH, [42]) := by
  refine ⟨by decide, by decide, by decide, by decide⟩

/-- C30: when downloading is allowed, `readBtPiece` moves the first
min(bytes available, `blockToUs.length`) bytes of the input buffer, in order,
to the end of `inBlock` and lowers `blockToUs.length` by that number; when
bytes of the block are still to come it changes nothing else and stays in its
state, and when none is it hands the accumulated block to `gotBlock` and goes
to `AWAITING_BT_LENGTH`. When downloading is not allowed it takes nothing from
the input buffer and leaves `blockToUs` and `inBlock` as they are. -/
theorem C30_readBtPiece (env : SessionEnv) (w : SessionWorld) (peer : tr_peermsgs)
    (inbuf : List Nat) :
    (canDownload env w = false →
      readBtPiece env w peer inbuf
        = some (ReadState.READ_DONE, w, { peer with notListening := true }, inbuf)) ∧
    (canDownload env w = true → inbuf.length < peer.blockToUs.length →
      readBtPiece env w peer inbuf
        = some (ReadState.READ_AGAIN, w,
            { peer with
              inBlock := peer.inBlock ++ inbuf
              blockToUs :=
                { peer.blockToUs with length := peer.blockToUs.length - inbuf.length } },
            [])) ∧
    (canDownload env w = true → peer.blockToUs.length ≤ inbuf.length →
      readBtPiece env w peer inbuf
        = (gotBlock w
            { peer with
              inBlock := peer.inBlock ++ inbuf.take peer.blockToUs.length
              blockToUs := { peer.blockToUs with length := 0 } }
            (toInt32 peer.blockToUs.pieceIndex) (toInt32 peer.blockToUs.offsetInPiece)
            (peer.inBlock ++ inbuf.take peer.blockToUs.length)).map
          (fun r => (ReadState.READ_AGAIN, r.1,
            { r.2 with outBlock := [], state := AWAITING_BT_LENGTH },
            inbuf.drop peer.blockToUs.length))) := by
  refine ⟨?_, ?_, ?_⟩
  · intro h
    unfold readBtPiece
    rw [if_pos (by simp [h])]
  · intro h hlt
    unfold readBtPiece
    rw [if_neg (by simp [h])]
    have hmin : min inbuf.length peer.blockToUs.length = inbuf.length := by omega
    simp only [hmin, List.take_length, List.drop_length]
    rw [if_neg (by omega)]
  · intro h hle
    unfold readBtPiece
    rw [if_neg (by simp [h])]
    have hmin : min inbuf.length peer.blockToUs.length = peer.blockToUs.length := by omega
    simp only [hmin, Nat.sub_self, if_true]
    cases gotBlock w
        { peer with
          inBlock := peer.inBlock ++ inbuf.take peer.blockToUs.length
          blockToUs := { peer.blockToUs with length := 0 } }
        (toInt32 peer.blockToUs.pieceIndex) (toInt32 peer.blockToUs.offsetInPiece)
        (peer.inBlock ++ inbuf.take peer.blockToUs.length) with
    | none => rfl
    | some r => rfl

/-- C30, witness: eight of the sixteen bytes of the block arrive; they go to
`inBlock` and eight are still to come. -/
theorem C30_witness :
    readBtPiece plainSession s2World readingSession [1, 2, 3, 4, 5, 6, 7, 8]
      = some (ReadState.READ_AGAIN, s2World,
          { readingSession with
            inBlock := readingSession.inBlock ++ [1, 2, 3, 4, 5, 6, 7, 8]
            blockToUs :=
              { readingSession.blockToUs with
                length := readingSession.blockToUs.length
                  - ([1, 2, 3, 4, 5, 6, 7, 8] : List Nat).length } },
          []) :=
  (C30_readBtPiece plainSession s2World readingSession [1, 2, 3, 4, 5, 6, 7, 8]).2.1
    (by decide) (by decide)

/-- C27: for a peer whose `private` flag is set, `parseUTPex` returns `TR_OK`
with the torrent, and so its peers, unchanged whatever the payload;
`parseExtendedHandshake` leaves `pexStatus` as it was or sets it to 0; and the
dictionary that `makeExtendedHandshake` builds has a dictionary under `m`
without `ut_pex` entry. -/
theorem C27_private_peer_no_pex (peer : tr_peer_t) (hprivate : peer.private_ ≠ 0) :
    (∀ (env : PeerEnv) (tor : tr_torrent_t) (buf : List Nat) (len : Int),
      parseUTPex env tor peer buf len = (TR_OK, tor, peer)) ∧
    (∀ (env : PeerEnv) (buf : List Nat) (len : Int),
      (parseExtendedHandshake env peer buf len).2.pexStatus = peer.pexStatus ∨
      (parseExtendedHandshake env peer buf len).2.pexStatus = 0) ∧
    (∀ (env : PexEnv) (tor : tr_torrent_t) (val : benc_val_t),
      extendedHandshakeDict env tor peer = some val →
      tr_bencDictFind val "m" = some (benc_val_t.dict []) ∧
      tr_bencDictFind (benc_val_t.dict []) "ut_pex" = none) := by
  refine ⟨?_, ?_, ?_⟩
  · intro env tor buf len
    unfold parseUTPex
    rw [if_pos hprivate]
  · intro env buf len
    unfold parseExtendedHandshake
    cases env.tr_bencLoad (buf.take len.toNat) with
    | none => exact Or.inl rfl
    | some val =>
      cases val with
      | int i => exact Or.inl rfl
      | str s => exact Or.inl rfl
      | list l => exact Or.inl rfl
      | dict d =>
        dsimp only
        repeat' split
        all_goals first
          | exact Or.inl rfl
          | exact Or.inr rfl
          | (exfalso; simp_all)
  · intro env tor val h
    unfold extendedHandshakeDict at h
    cases hv : env.versionString with
    | none => rw [hv] at h; exact absurd h (by simp)
    | some vers =>
      rw [hv] at h
      split_ifs at h with h1 h2 h3 h4
      all_goals
        simp only [Option.some.injEq] at h
        subst h
        exact ⟨rfl, rfl⟩

/-- C27, witness: a private peer receives an extended handshake that offers
`ut_pex` with id 3; its `pexStatus` stays 0. -/
theorem C27_witness :
    (parseExtendedHandshake
      { mainlineEnv with
        tr_bencLoad := fun _ =>
          some (benc_val_t.dict [("m", benc_val_t.dict [("ut_pex", benc_val_t.int 3)])]) }
      { s2Peer with private_ := 1 } [] 0).2.pexStatus = ({ s2Peer with private_ := 1 }).pexStatus ∨
    (parseExtendedHandshake
      { mainlineEnv with
        tr_bencLoad := fun _ =>
          some (benc_val_t.dict [("m", benc_val_t.dict [("ut_pex", benc_val_t.int 3)])]) }
      { s2Peer with private_ := 1 } [] 0).2.pexStatus = 0 :=
  (C27_private_peer_no_pex { s2Peer with private_ := 1 } (by decide)).2.1 _ [] 0

/-- C26: `makeCommonPex` with `peertreeToBencUT`, for the entries `C` of the
eligible peers of the torrent (port not 0, address other than the
recipient's), distinct from one another, and the tree `S` sent to the
recipient before. A message that is produced has under `added` the entries
of `C` that are not in `S`, under `dropped` the entries of `S` that are not in
`C`, each once, six bytes per entry, and `sentPeers` then holds the entries of
`C`. When `C` and `S` hold the same entries there is no message; when there
is no message `sentPeers` holds the entries of `S` as before; and when
nothing fails to be allocated and `C` and `S` differ a message is produced. -/
theorem C26_makeCommonPex (env : PexEnv) (tor : tr_torrent_t) (peer : tr_peer_t)
    (extrakey : String) (extraval : benc_val_t)
    (hS : peer.sentPeers.Nodup) (hC : (eligiblePeers peer tor.peers).Nodup) :
    (∀ val buf,
      (makeCommonPex env tor peer (peertreeToBencUT env) extrakey extraval).1 = some (val, buf) →
      ∃ A D : List tr_peertree_entry_t, A.Nodup ∧ D.Nodup ∧
        val = benc_val_t.dict [(extrakey, extraval),
          ("added", benc_val_t.str ((A.reverse.map entryBytes).flatten)),
          ("dropped", benc_val_t.str ((D.reverse.map entryBytes).flatten))] ∧
        (∀ e, e ∈ A ↔ (e ∈ eligiblePeers peer tor.peers ∧ e ∉ peer.sentPeers)) ∧
        (∀ e, e ∈ D ↔ (e ∈ peer.sentPeers ∧ e ∉ eligiblePeers peer tor.peers)) ∧
        (∀ e, e ∈ (makeCommonPex env tor peer (peertreeToBencUT env) extrakey
            extraval).2.sentPeers ↔ e ∈ eligiblePeers peer tor.peers)) ∧
    ((∀ e, e ∈ eligiblePeers peer tor.peers ↔ e ∈ peer.sentPeers) →
      (makeCommonPex env tor peer (peertreeToBencUT env) extrakey extraval).1 = none) ∧
    ((makeCommonPex env tor peer (peertreeToBencUT env) extrakey extraval).1 = none →
      ∀ e, e ∈ (makeCommonPex env tor peer (peertreeToBencUT env) extrakey
          extraval).2.sentPeers ↔ e ∈ peer.sentPeers) ∧
    ((∀ e, env.peertreeAddFails e = false) → (∀ k, env.dictAppendFails k = false) →
      (∀ n, env.mallocFails n = false) → (∀ v, env.tr_bencSaveMalloc v ≠ none) →
      ¬ (∀ e, e ∈ eligiblePeers peer tor.peers ↔ e ∈ peer.sentPeers) →
      (makeCommonPex env tor peer (peertreeToBencUT env) extrakey extraval).1 ≠ none) := by
  have hkeep := commonPexLoop_keeps env peer tor.peers peer.sentPeers [] []
  have hrun := commonPexLoop_run env peer tor.peers peer.sentPeers [] [] hS List.nodup_nil hC
  have htot := fun h => commonPexLoop_total env peer h tor.peers peer.sentPeers [] []
  unfold makeCommonPex
  generalize commonPexLoop env peer tor.peers peer.sentPeers [] [] = r at hkeep hrun htot
  obtain ⟨b, sent, added, common⟩ := r
  have hK : ∀ e, e ∈ peertreeMerge sent common ↔ e ∈ peer.sentPeers := by
    intro e
    have := hkeep e
    simp only [List.not_mem_nil, or_false] at this
    simp only [peertreeMerge, List.mem_append]
    exact this
  cases b with
  | false =>
    refine ⟨fun val buf h => by simp at h, fun _ => rfl, fun _ => hK, ?_⟩
    intro h1 _ _ _ _
    exact absurd (htot h1) (by simp)
  | true =>
    obtain ⟨hsn, han, hsent, hadded, hcommon⟩ := hrun rfl
    simp only [List.not_mem_nil, false_or] at hsent hadded hcommon
    simp only
    by_cases hemp : ((added.isEmpty && sent.isEmpty)
        || env.dictAppendFails [extrakey, "added", "dropped"]) = true
    · rw [if_pos hemp]
      refine ⟨fun val buf h => by simp at h, fun _ => rfl, fun _ => hK, ?_⟩
      intro _ h2 _ _ hne
      exfalso
      apply hne
      rw [h2, Bool.or_false, Bool.and_eq_true, List.isEmpty_iff, List.isEmpty_iff] at hemp
      intro e
      have h3 := hsent e
      have h4 := hadded e
      rw [hemp.1] at h4
      rw [hemp.2] at h3
      simp only [List.not_mem_nil, false_iff, not_and, not_not] at h3 h4
      exact ⟨h4, h3⟩
    · rw [if_neg hemp]
      have hne : (∀ e, e ∈ eligiblePeers peer tor.peers ↔ e ∈ peer.sentPeers) → False := by
        intro hall
        apply hemp
        have ha : added = [] := by
          apply List.eq_nil_iff_forall_not_mem.mpr
          intro e he
          have := (hadded e).mp he
          exact this.2 ((hall e).mp this.1)
        have hs : sent = [] := by
          apply List.eq_nil_iff_forall_not_mem.mpr
          intro e he
          have := (hsent e).mp he
          exact this.2 ((hall e).mpr this.1)
        rw [ha, hs]
        rfl
      cases hav : peertreeToBencUT env added with
      | none =>
        refine ⟨fun val buf h => by simp at h, fun _ => rfl, fun _ => hK, ?_⟩
        intro _ _ h3 _ _
        unfold peertreeToBencUT at hav
        rw [h3] at hav
        split_ifs at hav
        contradiction
      | some addval =>
        cases hdv : peertreeToBencUT env sent with
        | none =>
          refine ⟨fun val buf h => by simp at h, fun _ => rfl, fun _ => hK, ?_⟩
          intro _ _ h3 _ _
          unfold peertreeToBencUT at hdv
          rw [h3] at hdv
          split_ifs at hdv
          contradiction
        | some delval =>
          simp only
          cases hsave : env.tr_bencSaveMalloc
              (benc_val_t.dict [(extrakey, extraval), ("added", addval), ("dropped", delval)]) with
          | none =>
            refine ⟨fun val buf h => by simp at h, fun _ => rfl, fun _ => hK, ?_⟩
            intro _ _ _ h4 _
            exact absurd hsave (h4 _)
          | some out =>
            simp only
            refine ⟨?_, fun hall => (hne hall).elim, fun h => by simp at h, fun _ _ _ _ _ => by simp⟩
            intro val buf h
            simp only [Option.some.injEq, Prod.mk.injEq] at h
            refine ⟨added, sent, han, hsn, ?_, hadded, hsent, ?_⟩
            · rw [← h.1, peertreeToBencUT_some env added addval hav,
                peertreeToBencUT_some env sent delval hdv]
            · intro e
              simp only [peertreeMerge, List.mem_append]
              rw [hcommon e, hadded e]
              tauto

/-- C26, witness: a recipient that was told of the endpoints 1.1.1.1:1 and
2.2.2.2:2, in a torrent whose peers are now at 2.2.2.2:2 and 3.3.3.3:3; the
message has 3.3.3.3:3 under `added` and 1.1.1.1:1 under `dropped`. -/
theorem C26_witness :
    ∃ A D : List tr_peertree_entry_t, A.Nodup ∧ D.Nodup ∧
      benc_val_t.dict [("added.f", benc_val_t.str []),
          ("added", benc_val_t.str [3, 3, 3, 3, 3, 0]),
          ("dropped", benc_val_t.str [1, 1, 1, 1, 1, 0])] =
        benc_val_t.dict [("added.f", benc_val_t.str []),
          ("added", benc_val_t.str ((A.reverse.map entryBytes).flatten)),
          ("dropped", benc_val_t.str ((D.reverse.map entryBytes).flatten))] ∧
      (∀ e, e ∈ A ↔ (e ∈ [(⟨[2, 2, 2, 2], 2⟩ : tr_peertree_entry_t), ⟨[3, 3, 3, 3], 3⟩] ∧
        e ∉ [(⟨[1, 1, 1, 1], 1⟩ : tr_peertree_entry_t), ⟨[2, 2, 2, 2], 2⟩])) ∧
      (∀ e, e ∈ D ↔ (e ∈ [(⟨[1, 1, 1, 1], 1⟩ : tr_peertree_entry_t), ⟨[2, 2, 2, 2], 2⟩] ∧
        e ∉ [(⟨[2, 2, 2, 2], 2⟩ : tr_peertree_entry_t), ⟨[3, 3, 3, 3], 3⟩])) ∧
      (∀ e, e ∈ (makeCommonPex plainPex
        { s2Swarm with
          peers := [{ s2Peer with addr := [2, 2, 2, 2], port := 2 },
            { s2Peer with addr := [3, 3, 3, 3], port := 3 }] }
        { s2Peer with addr := [9, 9, 9, 9], sentPeers := [⟨[1, 1, 1, 1], 1⟩, ⟨[2, 2, 2, 2], 2⟩] }
        (peertreeToBencUT plainPex) "added.f" (benc_val_t.str [])).2.sentPeers ↔
        e ∈ [(⟨[2, 2, 2, 2], 2⟩ : tr_peertree_entry_t), ⟨[3, 3, 3, 3], 3⟩]) :=
  (C26_makeCommonPex plainPex
    { s2Swarm with
      peers := [{ s2Peer with addr := [2, 2, 2, 2], port := 2 },
        { s2Peer with addr := [3, 3, 3, 3], port := 3 }] }
    { s2Peer with addr := [9, 9, 9, 9], sentPeers := [⟨[1, 1, 1, 1], 1⟩, ⟨[2, 2, 2, 2], 2⟩] }
    "added.f" (benc_val_t.str []) (by decide) (by decide)).1
    (benc_val_t.dict [("added.f", benc_val_t.str []),
      ("added", benc_val_t.str [3, 3, 3, 3, 3, 0]),
      ("dropped", benc_val_t.str [1, 1, 1, 1, 1, 0])]) [] rfl

/-- C21: `parsePiece` has written a block (`writeBlock` goes on), the peer is
in the array `tor->peers` and, with the block, the piece has all its blocks.
If `checkPiece` returns 0, the function returns `TR_OK`, the piece is added to
Completion, and of the peers of the torrent, as they are after `sendCancel`
and `tr_peerBlame`, each one at or above `PEER_STATUS_CONNECTED` has become
the peer after one `sendHave` for the piece and `updateInterest`, and each
other one is as it was. If `checkPiece` returns another code, the function
returns `TR_OK`, the peers are as `sendCancel` and `tr_peerBlame` leave them,
without `sendHave`, and the piece is not complete in Completion. -/
theorem C21_last_block_have (env : StoreEnv) (w : StoreWorld) (self : Nat) (tor : tr_torrent_t)
    (peer : tr_peer_t) (index begin : Int) (p : List Nat) (len : Int) (w1 : StoreWorld)
    (tor1 : tr_torrent_t) (peer1 : tr_peer_t) (block : Int)
    (hw : writeBlock env w tor peer index begin p len = some (none, w1, tor1, peer1, block))
    (hself : self ≤ tor1.peers.length)
    (hall : env.tr_cpPieceHasAllBlocks w1.blocks index = true) :
    (∀ d', checkPiece env.SHA1 tor1.totr_torrent index.toNat w1.disk = some (0, d') →
      ∃ out,
        storeBlock env w self tor peer index begin p len =
          some (TR_OK,
            { w1 with disk := d', completion := tr_cpPieceAdd w1.completion index.toNat },
            { tor1 with peers := out.eraseIdx self }, out.getD self peer1) ∧
        List.Forall₂
          (fun o o' => (o.status < PEER_STATUS_CONNECTED → o' = o) ∧
            (PEER_STATUS_CONNECTED ≤ o.status →
              ∃ t, o' = env.updateInterest t (env.sendHave o index)))
          ((env.sendCancel (tor1.peers.take self ++ peer1 :: tor1.peers.drop self) block).map
            (fun o => env.tr_peerBlame o index.toNat 1)) out) ∧
    (∀ c d', checkPiece env.SHA1 tor1.totr_torrent index.toNat w1.disk = some (c, d') → c ≠ 0 →
      storeBlock env w self tor peer index begin p len =
        some (TR_OK,
          { w1 with disk := d', completion := tr_cpPieceRem w1.completion index.toNat },
          { tor1 with
            peers := ((env.sendCancel (tor1.peers.take self ++ peer1 :: tor1.peers.drop self)
              block).map (fun o => env.tr_peerBlame o index.toNat 0)).eraseIdx self },
          ((env.sendCancel (tor1.peers.take self ++ peer1 :: tor1.peers.drop self) block).map
            (fun o => env.tr_peerBlame o index.toNat 0)).getD self peer1) ∧
      (tr_cpPieceRem w1.completion index.toNat).complete index.toNat = false) := by
  have hidx : ¬ index < 0 := not_lt.mpr (writeBlock_index env w tor peer index begin p len w1 tor1
    peer1 block hw)
  have hself' : ¬ self > tor1.peers.length := not_lt.mpr hself
  refine ⟨fun d' hc => ?_, fun c d' hc hne => ⟨?_, ?_⟩⟩
  · obtain ⟨out, h1, h2⟩ := haveLoop_spec env tor1 index
      ((env.sendCancel (tor1.peers.take self ++ peer1 :: tor1.peers.drop self) block).map
        (fun o => env.tr_peerBlame o index.toNat 1)) []
    rw [List.nil_append] at h1
    subst h1
    refine ⟨_, ?_, h2⟩
    unfold storeBlock
    rw [hw]
    simp only [if_neg hself', hall, not_true_eq_false, if_false]
    unfold checkCompletedPiece tr_ioHashBlame
    rw [if_neg hidx, hc]
    simp [tr_cpPieceAdd, TR_OK]
  · unfold storeBlock
    rw [hw]
    simp only [if_neg hself', hall, not_true_eq_false, if_false]
    unfold checkCompletedPiece tr_ioHashBlame
    rw [if_neg hidx, hc]
    simp [tr_cpPieceRem, hne, TR_OK]
  · simp [tr_cpPieceRem]

/-- C21, witness: in scenario S2 the connected peer, second of two, sends the
sixteen bytes of piece 0, whose hash is good; the peer at its handshake is as
it was and the connected one has a HAVE queued. -/
theorem C21_witness :
    ∃ out,
      storeBlock s2Store s2Empty 1 s2Crowd s2Peer 0 0 s2Zeros 24 =
        some (TR_OK,
          { s2Written with
            disk := s2Checked
            completion := tr_cpPieceAdd s2Written.completion (0 : Int).toNat },
          { ({ s2Crowd with downloadedCur := 24 } : tr_torrent_t) with
            peers := out.eraseIdx 1 },
          out.getD 1 { s2Peer with blamefield := some (tr_bitfieldAdd (tr_bitfieldNew 2) 0) }) ∧
      List.Forall₂
        (fun o o' => (o.status < PEER_STATUS_CONNECTED → o' = o) ∧
          (PEER_STATUS_CONNECTED ≤ o.status →
            ∃ t, o' = s2Store.updateInterest t (s2Store.sendHave o 0)))
        ((s2Store.sendCancel
          ((({ s2Crowd with downloadedCur := 24 } : tr_torrent_t).peers.take 1) ++
            { s2Peer with blamefield := some (tr_bitfieldAdd (tr_bitfieldNew 2) 0) } ::
            (({ s2Crowd with downloadedCur := 24 } : tr_torrent_t).peers.drop 1)) 0).map
          (fun o => s2Store.tr_peerBlame o (0 : Int).toNat 1)) out :=
  (C21_last_block_have s2Store s2Empty 1 s2Crowd s2Peer 0 0 s2Zeros 24 s2Written
    { s2Crowd with downloadedCur := 24 }
    { s2Peer with blamefield := some (tr_bitfieldAdd (tr_bitfieldNew 2) 0) } 0
    rfl (by decide) rfl).1 s2Checked rfl

/-- C31: `gotBlock`, for a block number that `_tr_block` computes. When the
block is already complete, or the length received is not the byte count of the
block, the world and the session are as before. When the write to storage
fails, only the disk differs: Completion, the session with its blame
bitfield, the torrent with `downloadedCur` and its rate controller, and the
handle with its rate controller are as before. Whenever the function returns
with Completion, the blame bitfield, `downloadedCur` or a download rate
controller changed, the block was not complete, had the expected length and
was written with code 0, and then the block is added to Completion and the
bytes are counted in `downloadedCur` and both rate controllers. -/
theorem C31_gotBlock (w : SessionWorld) (peer : tr_peermsgs) (pieceIndex offset : Int)
    (inbuf : List Nat) (block : Int) (hb : _tr_block w.tor pieceIndex offset = some block) :
    (tr_cpBlockIsComplete w.blocks block = true →
      gotBlock w peer pieceIndex offset inbuf = some (w, peer)) ∧
    (toInt32 inbuf.length ≠ tr_torBlockCountBytes w.tor block →
      gotBlock w peer pieceIndex offset inbuf = some (w, peer)) ∧
    (∀ ret disk, tr_cpBlockIsComplete w.blocks block = false →
      toInt32 inbuf.length = tr_torBlockCountBytes w.tor block →
      0 ≤ pieceIndex → 0 ≤ offset →
      tr_ioWrite w.tor.info pieceIndex.toNat offset.toNat inbuf.length inbuf w.disk
        = some (ret, disk) → ret ≠ 0 →
      gotBlock w peer pieceIndex offset inbuf = some ({ w with disk := disk }, peer)) ∧
    (∀ w' peer', gotBlock w peer pieceIndex offset inbuf = some (w', peer') →
      (w'.blocks = w.blocks ∧ peer' = peer ∧ w'.tor = w.tor ∧ w'.handle = w.handle) ∨
      (tr_cpBlockIsComplete w.blocks block = false ∧
        toInt32 inbuf.length = tr_torBlockCountBytes w.tor block ∧
        tr_ioWrite w.tor.info pieceIndex.toNat offset.toNat inbuf.length inbuf w.disk
          = some (0, w'.disk) ∧
        w'.blocks = tr_cpBlockAdd w.blocks block ∧
        peer'.info.blame = some (tr_bitfieldAdd
          (peer.info.blame.getD (tr_bitfieldNew w.tor.info.pieceCount)) pieceIndex.toNat) ∧
        w'.tor.downloadedCur = (w.tor.downloadedCur + inbuf.length) % U64 ∧
        w'.tor.download = tr_rcTransferred w.tor.download inbuf.length ∧
        w'.handle.download = tr_rcTransferred w.handle.download inbuf.length)) := by
  refine ⟨?_, ?_, ?_, ?_⟩
  · intro hc
    unfold gotBlock
    rw [hb]
    simp only [hc, if_true]
  · intro hl
    unfold gotBlock
    rw [hb]
    simp only
    split_ifs <;> rfl
  · intro ret disk hc hl hp ho hwr hret
    unfold gotBlock
    rw [hb]
    simp only [hc, Bool.false_eq_true, if_false]
    rw [if_neg (not_not.mpr hl), if_neg (by omega), hwr]
    simp only [if_pos hret]
  · intro w' peer' h
    unfold gotBlock at h
    rw [hb] at h
    simp only at h
    by_cases hc : tr_cpBlockIsComplete w.blocks block = true
    · rw [if_pos hc] at h
      simp only [Option.some.injEq, Prod.mk.injEq] at h
      obtain ⟨h1, h2⟩ := h
      subst h1 h2
      exact Or.inl ⟨rfl, rfl, rfl, rfl⟩
    · rw [if_neg hc] at h
      by_cases hl : toInt32 inbuf.length ≠ tr_torBlockCountBytes w.tor block
      · rw [if_pos hl] at h
        simp only [Option.some.injEq, Prod.mk.injEq] at h
        obtain ⟨h1, h2⟩ := h
        subst h1 h2
        exact Or.inl ⟨rfl, rfl, rfl, rfl⟩
      · rw [if_neg hl] at h
        by_cases hneg : pieceIndex < 0 ∨ offset < 0
        · rw [if_pos hneg] at h
          cases h
        · rw [if_neg hneg] at h
          cases hwr : tr_ioWrite w.tor.info pieceIndex.toNat offset.toNat inbuf.length inbuf
              w.disk with
          | none => rw [hwr] at h; cases h
          | some r =>
            obtain ⟨ret, disk⟩ := r
            rw [hwr] at h
            simp only at h
            by_cases hret : ret ≠ 0
            · rw [if_pos hret] at h
              simp only [Option.some.injEq, Prod.mk.injEq] at h
              obtain ⟨h1, h2⟩ := h
              subst h1 h2
              exact Or.inl ⟨rfl, rfl, rfl, rfl⟩
            · rw [if_neg hret] at h
              have hret0 : ret = 0 := not_not.mp hret
              subst hret0
              split_ifs at h with hbl
              simp only [Option.some.injEq, Prod.mk.injEq] at h
              obtain ⟨h1, h2⟩ := h
              subst h1 h2
              refine Or.inr ⟨?_, not_not.mp hl, rfl, rfl, rfl, rfl, rfl, rfl⟩
              simpa using hc

/-- C31, witness: three bytes arrive for block 0 of scenario S2, which has
sixteen; nothing changes. -/
theorem C31_witness :
    gotBlock s2World readingSession 0 0 [1, 2, 3] = some (s2World, readingSession) :=
  (C31_gotBlock s2World readingSession 0 0 [1, 2, 3] 0 (by decide)).2.1 (by decide)

/-- C32, the failing input: the torrent of scenario S2 has two pieces. The
BITFIELD frame body `05 FF`, whose byte has its six spare bits set, is stored
as it is: bit 7 of `have` is set afterwards. The HAVE frame body
`04 00 00 00 05`, whose piece index 5 is not a piece of the torrent, sets bit 5
of `have`. Neither message is refused. -/
theorem C32_spare_bits_stored :
    s2Tor.info.pieceCount = 2 ∧
    (readBtMessage plainSession s2Tor noneComplete bitfieldSession [5, 255]).map
        (fun r => (r.1, r.2.1.info.have_, r.2.2))
      = some (ReadState.READ_AGAIN, some ⟨[255]⟩, []) ∧
    tr_bitfieldHas ⟨[255]⟩ 7 = true ∧
    (readBtMessage plainSession s2Tor noneComplete haveSession [4, 0, 0, 0, 5]).map
        (fun r => (r.1, r.2.1.info.have_, r.2.2))
      = some (ReadState.READ_AGAIN, some ⟨[4]⟩, []) ∧
    tr_bitfieldHas ⟨[4]⟩ 5 = true := by
  refine ⟨by decide, by decide, by decide, by decide, by decide⟩

/-- C33, the failing input: we have unchoked the peer, and its REQUEST for
(0, 0, 16) is queued in `peerAskedFor`. The peer then sends CHOKE:
`readBtMessage` sets `clientIsChoked`, leaves `peerIsChoked` as it was (the
peer is not choked by us) and empties `peerAskedFor`, the queue of the other
direction. -/
theorem C33_choke_empties_peer_requests :
    readBtMessage plainSession s2Tor noneComplete unchokedSession
        [6, 0, 0, 0, 0, 0, 0, 0, 0, 0, 0, 0, 16]
      = some (ReadState.READ_AGAIN, requestedSession, []) ∧
    chokeFrameSession.peerAskedFor = [⟨0, 0, 16⟩] ∧
    chokeFrameSession.info.peerIsChoked = false ∧
    (readBtMessage plainSession s2Tor noneComplete chokeFrameSession [0]).map
        (fun r => (r.1, r.2.1.info.clientIsChoked, r.2.1.info.peerIsChoked, r.2.1.peerAskedFor))
      = some (ReadState.READ_AGAIN, true, false, []) := by
  refine ⟨by decide, by decide, by decide, by decide⟩

/-- When the whole frame is buffered, `readBtMessage` on a CHOKE
sets `clientIsChoked` and empties `peerAskedFor`, and on an UNCHOKE clears
`clientIsChoked` and leaves `peerAskedFor` as it was; in both cases
`peerIsChoked` and every other field of the peer record are as they were, and
beside the message length and the state nothing else changes in the session. -/
theorem readBtMessage_choke_unchoke (env : SessionEnv) (tor : tr_torrent) (cp : Completion)
    (peer : tr_peermsgs) (rest : List Nat)
    (hlen : peer.incomingMessageLength ≤ rest.length + 1) :
    readBtMessage env tor cp peer (BT_CHOKE :: rest)
      = some (ReadState.READ_AGAIN,
          { peer with
            info := { peer.info with clientIsChoked := true }
            peerAskedFor := []
            incomingMessageLength := 2 ^ 32 - 1
            state := AWAITING_BT_LENGTH }, rest) ∧
    readBtMessage env tor cp peer (BT_UNCHOKE :: rest)
      = some (ReadState.READ_AGAIN,
          { peer with
            info := { peer.info with clientIsChoked := false }
            incomingMessageLength := 2 ^ 32 - 1
            state := AWAITING_BT_LENGTH }, rest) := by
  have h : ¬ (rest.length + 1 < peer.incomingMessageLength) := by omega
  have hc : ∀ msglen, readBtMessageSwitch env tor cp peer BT_CHOKE msglen rest
      = some ({ peer with info := { peer.info with clientIsChoked := true }, peerAskedFor := [] },
          rest) := by
    intro msglen
    unfold readBtMessageSwitch
    rw [if_pos rfl]
  have hu : ∀ msglen, readBtMessageSwitch env tor cp peer BT_UNCHOKE msglen rest
      = some ({ peer with info := { peer.info with clientIsChoked := false } }, rest) := by
    intro msglen
    unfold readBtMessageSwitch
    rw [if_neg (by decide), if_pos rfl]
  constructor
  · unfold readBtMessage
    rw [List.length_cons, if_neg h]
    simp only
    rw [hc]
  · unfold readBtMessage
    rw [List.length_cons, if_neg h]
    simp only
    rw [hu]

/-- C34, the failing input: four bytes `FF FF FF FF` are buffered
(`buflen` = 4) and the byte `09` lies behind them in the buffer's memory. The
length prefix is -1 as an `int`, so `4 + msglen > buflen` is false and
`parseMessageHeader` does not return `TR_NET_BLOCK`: it reads the id from the
byte behind the buffered ones and returns the header size 5, which is more
than `buflen`, with the body length -2. In `parseBuf`, `peer->pos -= ret` then
gives 4 - 5 = -1. -/
theorem C34_negative_length :
    parseMessageHeader mainlineEnv [255, 255, 255, 255, 9] 4 0 0 = some (5, 9, -2) ∧
    andInt TR_NET_BLOCK 5 = 0 ∧
    ¬ ((5 : Int) ≤ 4) ∧ (-2 : Int) < 0 ∧ ((4 : Int) - 5 < 0) := by
  refine ⟨by decide, by decide, by decide, by decide, by decide⟩

/-- C36, the failing input: a torrent of one piece of 16 bytes with the file
`a` of 16 bytes and the empty file `z` after it. `tr_torrentInitFilePieces`
gives `z` the first and last piece 1, which is `pieceCount`, not a piece of the
torrent; `tr_torrentSetFilePriority` and `tr_torrentSetFileDL` on `z` then
index `pieces[1]`, outside the array of one piece. -/
theorem C36_empty_file_past_last_piece :
    emptyTailTor.info.pieceCount = 1 ∧ emptyTailTor.info.pieces.length = 1 ∧
    (tr_torrentInitFilePieces emptyTailTor).map
        (fun t => t.info.files.map (fun f => (f.length, f.offset, f.firstPiece, f.lastPiece)))
      = some [(16, 0, 0, 0), (0, 16, 1, 1)] ∧
    (tr_torrentInitFilePieces emptyTailTor).bind
        (fun t => tr_torrentSetFilePriority t 1 TR_PRI_HIGH) = none ∧
    (tr_torrentInitFilePieces emptyTailTor).bind (fun t => tr_torrentSetFileDL t 1 0) = none := by
  refine ⟨by decide, by decide, by decide, by decide, by decide⟩

/-- C38, the failing input: the peer has the request (0, 0, 16) queued with us
and nothing else is left to send. The first `pulse` builds the PIECE frame of
29 bytes in `outBlock` and leaves the request at the head of `peerAskedFor`;
the second hands the 29 bytes to the peer; the third finds the request still
queued and builds the same frame again. -/
theorem C38_request_served_again :
    servingSession.peerAskedFor = [⟨0, 0, 16⟩] ∧
    (pulse plainSession zeroWorld servingSession).map
        (fun r => (r.2.1.outBlock, r.2.1.peerAskedFor, r.2.2))
      = some ([0, 0, 0, 25, 7, 0, 0, 0, 0, 0, 0, 0, 0] ++ List.replicate 16 0,
          [⟨0, 0, 16⟩], []) ∧
    ((pulse plainSession zeroWorld servingSession).bind
        (fun r => pulse plainSession r.1 r.2.1)).map
        (fun r => (r.2.1.outBlock, r.2.1.peerAskedFor, r.2.2))
      = some ([], [⟨0, 0, 16⟩],
          [0, 0, 0, 25, 7, 0, 0, 0, 0, 0, 0, 0, 0] ++ List.replicate 16 0) ∧
    (((pulse plainSession zeroWorld servingSession).bind
        (fun r => pulse plainSession r.1 r.2.1)).bind
        (fun r => pulse plainSession r.1 r.2.1)).map
        (fun r => (r.2.1.outBlock, r.2.1.peerAskedFor, r.2.2))
      = some ([0, 0, 0, 25, 7, 0, 0, 0, 0, 0, 0, 0, 0] ++ List.replicate 16 0,
          [⟨0, 0, 16⟩], []) := by
  refine ⟨by decide, by decide, by decide, by decide⟩

/-- C39, the failing input: a torrent that waits for the tracker's answer to
its stop (`TR_RUN_STOPPING_NET_WAIT`). `tr_torrentStop` sets `runStatus` back
to `TR_RUN_STOPPING`; on a torrent that is Stopping or Stopped it changes
nothing, and from Running and Checking it goes to Stopping. -/
theorem C39_stop_restarts_from_net_wait :
    (tr_torrentStop { s2Tor with runStatus := run_status_t.TR_RUN_STOPPING_NET_WAIT }).runStatus
      = run_status_t.TR_RUN_STOPPING ∧
    tr_torrentStop { s2Tor with runStatus := run_status_t.TR_RUN_STOPPING }
      = { s2Tor with runStatus := run_status_t.TR_RUN_STOPPING } ∧
    tr_torrentStop { s2Tor with runStatus := run_status_t.TR_RUN_STOPPED }
      = { s2Tor with runStatus := run_status_t.TR_RUN_STOPPED } ∧
    (tr_torrentStop { s2Tor with runStatus := run_status_t.TR_RUN_RUNNING }).runStatus
      = run_status_t.TR_RUN_STOPPING ∧
    (tr_torrentStop { s2Tor with runStatus := run_status_t.TR_RUN_CHECKING }).runStatus
      = run_status_t.TR_RUN_STOPPING := by
  refine ⟨by decide, by decide, by decide, by decide, by decide⟩

/-- C37, counterexample: the empty file `z` at offset 10 lies in block 0, which
is complete; `fileBytesCompleted` returns 1, more than the length 0 of the
file. -/
theorem C37_counterexample :
    emptyFileTor.info.files.map (fun f => (f.name, f.offset, f.length))
      = [("a", 0, 10), ("z", 10, 0), ("b", 10, 22)] ∧
    fileBytesCompleted emptyFileTor firstBlockComplete 1 = some 1 := by
  refine ⟨by decide, by decide⟩

/-- C37, amended: for a file of at least one byte, in a torrent whose block
size is a positive `int` and whose offsets and block numbers fit their types,
`fileBytesCompleted` returns the number of the bytes of the file that lie in
blocks Completion reports complete; this number is at most the length of the
file, and it is the length exactly when the block of every byte of the file is
complete. -/
theorem C37_fileBytesCompleted (tor : tr_torrent) (cp : BlockCompletion) (fileIndex : Int)
    (file : tr_file_t) (hidx : 0 ≤ fileIndex)
    (hfile : tor.info.files[fileIndex.toNat]? = some file)
    (hbs : 0 < tor.blockSize) (hbs' : tor.blockSize < 2 ^ 31)
    (hlen : 0 < file.length) (hend : file.offset + file.length < U64)
    (hlast : (file.offset + file.length - 1) / tor.blockSize.toNat < 2 ^ 31) :
    fileBytesCompleted tor cp fileIndex
      = some (bytesInCompleteBlocks cp tor.blockSize.toNat file.offset file.length) ∧
    bytesInCompleteBlocks cp tor.blockSize.toNat file.offset file.length ≤ file.length ∧
    (bytesInCompleteBlocks cp tor.blockSize.toNat file.offset file.length = file.length ↔
      ∀ j, j < file.length →
        tr_cpBlockIsComplete cp (((file.offset + j) / tor.blockSize.toNat : Nat) : Int) = true) := by
  refine ⟨fileBytesCompleted_spec tor cp fileIndex file hidx hfile hbs hbs' hlen hend hlast,
    bytesInCompleteBlocks_le _ _ _ _, ?_⟩
  unfold bytesInCompleteBlocks
  conv_lhs => rhs; rw [← List.length_range file.length]
  rw [List.countP_eq_length]
  constructor
  · intro h j hj
    exact h j (List.mem_range.mpr hj)
  · intro h j hj
    exact h j (List.mem_range.mp hj)

/-- C37, witness: the file `b` of 22 bytes at offset 10, of which the six
bytes in block 0 are complete. -/
theorem C37_witness :
    fileBytesCompleted emptyFileTor firstBlockComplete 2 = some 6 ∧
    bytesInCompleteBlocks firstBlockComplete 16 10 22 = 6 :=
  ⟨((C37_fileBytesCompleted emptyFileTor firstBlockComplete 2
      { name := "b", length := 22, offset := 10 } (by decide) rfl (by decide) (by decide)
      (by decide) (by decide) (by decide)).1).trans (by decide), by decide⟩

/-- C35, counterexample: the torrent of scenario S2 with the empty file `z`
between `a` and `b`, after `tr_torrentInitFilePieces`. `b` and then `a` are set
to do-not-download. The files with a byte in piece 0 are `a` and `b`, both
marked, but piece 0 is not marked: the scan past `a` meets `z`, an empty file
in the same piece that is not marked. -/
theorem C35_counterexample :
    ((tr_torrentSetFileDL emptyFileReady 2 0).bind (fun t => tr_torrentSetFileDL t 0 0)).map
        (fun t => (t.info.files.map (fun f => (f.name, f.length, f.dnd, hasByteInPiece 16 f 0)),
          t.info.pieces.map (fun p => p.dnd)))
      = some ([("a", 10, true, true), ("z", 0, false, false), ("b", 22, true, true)],
          [false, true]) := by
  decide

/-- C35, amended: a torrent without empty file, with the file fields that
`tr_torrentInitFilePieces` sets, whose sizes fit their types. A call of
`tr_torrentSetFileDL` on a file of the torrent returns, and afterwards every
piece from the first to the last piece of the file is marked if and only if
every file with a byte in the piece is marked. When the torrent covers its
pieces and starts with no file and no piece marked, then after any sequence of
calls every piece of the torrent is so, and every further call on a file of
the torrent returns. -/
theorem C35_setFileDL_consistent (tor : tr_torrent) (hP : tor.info.pieceSize ≠ 0)
    (htotal : filesLength tor.info.files < U64)
    (hcover : filesLength tor.info.files ≤ tor.info.pieceCount * tor.info.pieceSize)
    (hcount : tor.info.pieceCount < 2 ^ 31)
    (hpieces : tor.info.pieceCount = tor.info.pieces.length)
    (hinit : initFilesLoop tor.info tor.info.files 0 = some tor.info.files)
    (hne : ∀ f ∈ tor.info.files, 0 < f.length) :
    (∀ (k : Nat) (file : tr_file_t) (doDownload : Int), tor.info.files[k]? = some file →
      ∃ tor', tr_torrentSetFileDL tor (k : Int) doDownload = some tor' ∧
        ∀ p : Nat, file.firstPiece ≤ (p : Int) → (p : Int) ≤ file.lastPiece →
          dndConsistent tor'.info p) ∧
    ((∀ f ∈ tor.info.files, f.dnd = false) → (∀ pc ∈ tor.info.pieces, pc.dnd = false) →
      (∀ p, p < tor.info.pieceCount → p * tor.info.pieceSize < filesLength tor.info.files) →
      ∀ t, DLReachable tor t →
        (∀ p, p < t.info.pieceCount → dndConsistent t.info p) ∧
        ∀ (k : Nat) (file : tr_file_t) (doDownload : Int), t.info.files[k]? = some file →
          ∃ t', tr_torrentSetFileDL t (k : Int) doDownload = some t') := by
  have hpos : 0 < tor.info.pieceSize := Nat.pos_of_ne_zero hP
  have hlaid : FilesLaidOut tor.info :=
    filesLaidOut_of_init tor.info hP htotal hcover hcount (le_of_eq hpieces) hinit hne
  constructor
  · intro k file doDownload hfile
    obtain ⟨tor', hcall, _, _, _, _, hin, _⟩ :=
      setFileDL_consistent tor hpos hlaid k file doDownload hfile
    exact ⟨tor', hcall, hin⟩
  · intro hfiles hpcs hfull t ht
    have hall := clean_consistent tor.info hpos hlaid hfiles hpcs
      (fun p hp => hfull p (by rw [hpieces]; exact hp))
    obtain ⟨hl, hps, hpc, hpl, hcons⟩ := dlReachable_consistent tor hpos hlaid hall t ht
    constructor
    · intro p hp
      exact hcons p (by rw [hpl, ← hpieces, ← hpc]; exact hp)
    · intro k file doDownload hfile
      obtain ⟨t', hcall, _⟩ :=
        setFileDL_consistent t (by rw [hps]; exact hpos) hl k file doDownload hfile
      exact ⟨t', hcall⟩

/-- C35, witness: the file `a` of scenario S2, which lies in piece 0, is set to
do-not-download. -/
theorem C35_witness :
    ∃ tor', tr_torrentSetFileDL s2Ready (0 : Nat) 0 = some tor' ∧
      ∀ p : Nat, (0 : Int) ≤ (p : Int) → (p : Int) ≤ 0 → dndConsistent tor'.info p :=
  (C35_setFileDL_consistent s2Ready (by decide) (by decide) (by decide) (by decide) (by decide)
    (by decide) (by decide)).1 0 { name := "a", length := 10 } 0 (by decide)

end Transmission
